import Mathlib

/-!
# AkoC: a shallow embedding of the lexer, parser, serializer and path resolver

Byte strings (`const char *`) are lists of characters; a `Char` stands for one byte.
A C string never holds the byte 0, which only appears here as the value `consume`
returns at the end of the input.

A call of the C code can end in four ways, see `Outcome`: it returns, it stops in a
fault (failed `assert`, access through a null or invalid pointer, read of a variable or
of a heap block that was never written), it loops forever, or the bound of the embedding
is used up (which the entry points never allow).
-/

namespace Ako

/-! ## Outcomes -/

/-- The ways a call stops without returning. -/
inductive Fault where
  /-- A failed `assert`. -/
  | assertion
  /-- A read or a write through a null pointer. -/
  | nullDeref
  /-- An access past the end of a heap buffer, or a read of a slot of it that was never
  written. -/
  | heapOverflow
  /-- A member of the union of a token or of an element is read as a number while the
  union holds a heap address, or as an address while it holds a number. -/
  | unionMisuse
  /-- A read of a local variable that was never written. -/
  | uninitialised
  deriving DecidableEq, Repr

/-- The result of running a piece of the C code. -/
inductive Outcome (α : Type) where
  /-- The call returns `a`. -/
  | ok (a : α)
  /-- The call stops in a fault. -/
  | abort (f : Fault)
  /-- The call never returns: a loop repeats with an unchanged state. -/
  | hang
  /-- The recursion bound of the embedding is used up. -/
  | nofuel
  deriving DecidableEq, Repr

namespace Outcome

/-- Sequencing: the second step runs only when the first returns. -/
def bind {α β : Type} (x : Outcome α) (f : α → Outcome β) : Outcome β :=
  match x with
  | .ok a => f a
  | .abort e => .abort e
  | .hang => .hang
  | .nofuel => .nofuel

instance : Monad Outcome where
  pure := Outcome.ok
  bind := Outcome.bind

/-- The call returned. -/
def returns {α : Type} : Outcome α → Bool
  | .ok _ => true
  | _ => false

end Outcome

/-! ## Numbers (`types.h`, and the libc conversions the code calls) -/

/-- The type `ako_int`, `int64_t`. -/
abbrev ako_int := Int

/-- The type `ako_float`, `double`: an IEEE-754 binary64 value, kept as its 64 bits. -/
structure ako_float where
  bits : Nat
  deriving DecidableEq, Repr

/-- The function `isdigit` in the C locale. -/
def isdigit (c : Char) : Bool := '0'.toNat ≤ c.toNat && c.toNat ≤ '9'.toNat

/-- The function `isalpha` in the C locale. -/
def isalpha (c : Char) : Bool :=
  ('a'.toNat ≤ c.toNat && c.toNat ≤ 'z'.toNat) || ('A'.toNat ≤ c.toNat && c.toNat ≤ 'Z'.toNat)

/-- The function `isalnum` in the C locale. -/
def isalnum (c : Char) : Bool := isalpha c || isdigit c

/-- The value of a decimal digit. -/
def digitVal (c : Char) : Nat := c.toNat - '0'.toNat

/-- The character of a decimal digit. -/
def digitChar (d : Nat) : Char := Char.ofNat ('0'.toNat + d)

/-- Horner evaluation of a run of digits in base `b`, from the accumulator `acc`. -/
def digitsVal (b : Nat) : List Char → Nat → Nat
  | [], acc => acc
  | c :: cs, acc => digitsVal b cs (acc * b + digitVal c)

/-- The call `strtoll(num, &numerr, 0)` on a text of decimal digits, together with the test
`errno != 0 || strlen(numerr) > 0` that follows it in `parse_digit`: `none` when that test
fails the number. A leading `0` selects base 8, where the digits 8 and 9 end the number
early; a value above `INT64_MAX` sets `errno`. -/
def strtoll (num : List Char) : Option ako_int :=
  match num with
  | [] => none
  | c :: cs =>
    if c = '0' ∧ cs ≠ [] then
      if cs.all (fun d => decide (digitVal d < 8)) ∧ digitsVal 8 cs 0 < 2 ^ 63 then
        some (Int.ofNat (digitsVal 8 cs 0))
      else none
    else if digitsVal 10 num 0 < 2 ^ 63 then some (Int.ofNat (digitsVal 10 num 0))
    else none

/-- Division of `a` by `b` rounded to the nearest natural, ties to even. -/
def divRoundEven (a b : Nat) : Nat :=
  let q := a / b
  let r := a % b
  if 2 * r < b then q
  else if b < 2 * r then q + 1
  else if q % 2 = 0 then q else q + 1

/-- The number of binary digits of `n`. -/
def bitLen : Nat → Nat → Nat
  | 0, _ => 0
  | fuel + 1, n => if n = 0 then 0 else bitLen fuel (n / 2) + 1

/-- The integer `k` with `2 ^ k ≤ m / d < 2 ^ (k + 1)`, for `m, d > 0`. -/
def ratLog2 (m d : Nat) : Int :=
  let a : Int := Int.ofNat (bitLen m m - 1)
  let b : Int := Int.ofNat (bitLen d d - 1)
  let k := a - b
  -- `2 ^ (k - 1) < m / d < 2 ^ (k + 1)`
  if k ≥ 0 then (if d * 2 ^ k.toNat ≤ m then k else k - 1)
  else (if d ≤ m * 2 ^ (-k).toNat then k else k - 1)

/-- The binary64 value nearest to `m / d` (ties to even), for `m, d > 0`: `none` when the
conversion sets `errno` to `ERANGE` (the value overflows, or it is below the normal range
and not exact). -/
def roundToDouble (m d : Nat) : Option ako_float :=
  let k := ratLog2 m d
  -- the exponent of the last place: 52 bits below the leading one, not below 2 ^ -1074
  let e : Int := if k - 52 < -1074 then -1074 else k - 52
  let sig := if e ≥ 0 then divRoundEven m (d * 2 ^ e.toNat) else divRoundEven (m * 2 ^ (-e).toNat) d
  let exact : Bool := if e ≥ 0 then m % (d * 2 ^ e.toNat) = 0 else (m * 2 ^ (-e).toNat) % d = 0
  -- rounding may carry into the next binade
  let (sig, e) := if sig = 2 ^ 53 then (2 ^ 52, e + 1) else (sig, e)
  if sig < 2 ^ 52 then
    -- subnormal (or zero after rounding)
    if exact then some ⟨sig⟩ else none
  else if e + 52 > 1023 then none
  else some ⟨(e + 1075).toNat * 2 ^ 52 + (sig - 2 ^ 52)⟩

/-- The call `strtod(num, &numerr)` on a text of digits and dots, together with the test
`errno != 0 || strlen(numerr) > 0` of `parse_digit`: the text must be digits with one dot
and at least one digit. -/
def strtod (num : List Char) : Option ako_float :=
  let ip := num.takeWhile isdigit
  let r := num.dropWhile isdigit
  match r with
  | '.' :: fp =>
    if fp.all isdigit ∧ (ip ≠ [] ∨ fp ≠ []) then
      let m := digitsVal 10 (ip ++ fp) 0
      if m = 0 then some ⟨0⟩ else roundToDouble m (10 ^ fp.length)
    else none
  | [] => if ip = [] then none else
      let m := digitsVal 10 ip 0
      if m = 0 then some ⟨0⟩ else roundToDouble m 1
  | _ => none

/-- The decimal digits of `n`, most significant first, in front of `acc`. -/
def decDigits : Nat → Nat → List Char → List Char
  | 0, _, acc => acc
  | fuel + 1, n, acc =>
    if n < 10 then digitChar n :: acc
    else decDigits fuel (n / 10) (digitChar (n % 10) :: acc)

/-- The decimal form of a natural number (`%u`-like). -/
def fmt_nat (n : Nat) : List Char := decDigits (n + 1) n []

/-- The decimal form of an integer. -/
def fmt_int (n : Int) : List Char :=
  if n < 0 then '-' :: fmt_nat n.natAbs else fmt_nat n.natAbs

/-- The conversion `%d` applied to an `ako_int` argument: `%d` reads an `int`, and the
64-bit argument is seen through its low 32 bits (two's complement). -/
def fmt_d (n : ako_int) : List Char :=
  fmt_int ((n + 2 ^ 31) % 2 ^ 32 - 2 ^ 31)

/-- The conversion `%zu`. -/
def fmt_zu (n : Nat) : List Char := fmt_nat n

/-- The conversion `%f` of a binary64 value: six decimals, exact value rounded to nearest,
ties to even. -/
def fmt_f (x : ako_float) : List Char :=
  let w := x.bits % 2 ^ 64
  let sign := w / 2 ^ 63
  let ex := (w / 2 ^ 52) % 2 ^ 11
  let frac := w % 2 ^ 52
  let pre : List Char := if sign = 1 then ['-'] else []
  if ex = 2047 then
    pre ++ (if frac = 0 then "inf".toList else "nan".toList)
  else
    -- the value is `sig * 2 ^ (e - 1074)`
    let sig := if ex = 0 then frac else 2 ^ 52 + frac
    let e := if ex = 0 then 0 else ex - 1
    -- scaled by 10 ^ 6 and rounded
    let n := divRoundEven (sig * 10 ^ 6 * 2 ^ e) (2 ^ 1074)
    let fr := fmt_nat (n % 10 ^ 6)
    pre ++ fmt_nat (n / 10 ^ 6) ++ ['.'] ++ List.replicate (6 - fr.length) '0' ++ fr

/-! ## Tokens (`lex/token.h`) -/

/-- The enumeration `token_type_t`. -/
inductive token_type_t where
  | AKO_TT_NONE
  | AKO_TT_BOOL
  | AKO_TT_INT
  | AKO_TT_FLOAT
  | AKO_TT_STRING
  | AKO_TT_IDENT
  | AKO_TT_DOT
  | AKO_TT_SEMICOLON
  | AKO_TT_AND
  | AKO_TT_PLUS
  | AKO_TT_MINUS
  | AKO_TT_OPEN_BRACE
  | AKO_TT_CLOSE_BRACE
  | AKO_TT_OPEN_D_BRACE
  | AKO_TT_CLOSE_D_BRACE
  | AKO_TT_VECTORCROSS
  deriving DecidableEq, Repr

open token_type_t

/-- The table `TokenType_Strings`. -/
def TokenType_Strings : token_type_t → List Char
  | AKO_TT_NONE => "None".toList
  | AKO_TT_BOOL => "Bool".toList
  | AKO_TT_INT => "Int".toList
  | AKO_TT_FLOAT => "Float".toList
  | AKO_TT_STRING => "String".toList
  | AKO_TT_IDENT => "Identity".toList
  | AKO_TT_DOT => "Dot".toList
  | AKO_TT_SEMICOLON => "Semicolon".toList
  | AKO_TT_AND => "And".toList
  | AKO_TT_PLUS => "Plus".toList
  | AKO_TT_MINUS => "Minus".toList
  | AKO_TT_OPEN_BRACE => "OpenBrace".toList
  | AKO_TT_CLOSE_BRACE => "CloseBrace".toList
  | AKO_TT_OPEN_D_BRACE => "OpenDoubleBrace".toList
  | AKO_TT_CLOSE_D_BRACE => "CloseDoubleBrace".toList
  | AKO_TT_VECTORCROSS => "VectorCross".toList

/-- The struct `location_t`. -/
structure location_t where
  line : Nat
  column : Nat
  index : Nat
  deriving DecidableEq, Repr

/-- The anonymous union of `token_t`, by the member written last: `value_int`,
`value_float`, or `value_string` (the address of a heap copy of the text `s`). -/
inductive token_value where
  | int (n : ako_int)
  | float (f : ako_float)
  | string (s : List Char)
  deriving DecidableEq, Repr

/-- The struct `token_t`. -/
structure token_t where
  type : token_type_t
  start : location_t
  «end» : location_t
  value : token_value
  deriving DecidableEq, Repr

/-- Reading `value_int`: the 64 bits of the union as a signed integer; `none` when they
hold a heap address, whose value the program does not fix. -/
def token_t.value_int (t : token_t) : Option ako_int :=
  match t.value with
  | .int n => some n
  | .float f => some ((Int.ofNat (f.bits % 2 ^ 64) + 2 ^ 63) % 2 ^ 64 - 2 ^ 63)
  | .string _ => none

/-- Reading `value_float`: the 64 bits of the union as a binary64 value; `none` when they
hold a heap address. -/
def token_t.value_float (t : token_t) : Option ako_float :=
  match t.value with
  | .int n => some ⟨(n % 2 ^ 64).toNat⟩
  | .float f => some f
  | .string _ => none

/-- Reading `value_string`: the text pointed to; `none` when the union holds a number,
which is not the address of a string. -/
def token_t.value_string (t : token_t) : Option (List Char) :=
  match t.value with
  | .string s => some s
  | _ => none

/-- Reading `value_int` where a `bool` is expected (the argument of
`ako_elem_create_bool`): true when the 64 bits are not all zero. An address returned by
`ako_malloc` and written through is not null. -/
def token_t.value_int_as_bool (t : token_t) : Bool :=
  match t.value with
  | .int n => decide (n % 2 ^ 64 ≠ 0)
  | .float f => decide (f.bits % 2 ^ 64 ≠ 0)
  | .string _ => true

/-! ## Elements (`private.h`, `elem.c`) -/

/-- The struct `ako_elem_t`: the tag `type` with the member of the union it selects. A
`Table` holds `table_elem_t` entries (key, value) and an `Array` holds `array_elem_t`
items, both in the order of the backing `dyn_array_t`. -/
inductive ako_elem_t where
  | AT_NULL
  | AT_STRING (str : List Char)
  | AT_INT (i : ako_int)
  | AT_FLOAT (f : ako_float)
  | AT_SHORTTYPE (str : List Char)
  | AT_BOOL (i : Bool)
  | AT_TABLE (a : List (List Char × ako_elem_t))
  | AT_ARRAY (a : List ako_elem_t)
  | AT_ERROR (str : List Char)

open ako_elem_t

mutual
/-- Equality of elements is decidable. -/
def ako_elem_t.decEq : (x y : ako_elem_t) → Decidable (x = y)
  | AT_NULL, AT_NULL => isTrue rfl
  | AT_STRING s, AT_STRING t => decidable_of_iff (s = t) (by simp)
  | AT_INT s, AT_INT t => decidable_of_iff (s = t) (by simp)
  | AT_FLOAT s, AT_FLOAT t => decidable_of_iff (s = t) (by simp)
  | AT_SHORTTYPE s, AT_SHORTTYPE t => decidable_of_iff (s = t) (by simp)
  | AT_BOOL s, AT_BOOL t => decidable_of_iff (s = t) (by simp)
  | AT_ERROR s, AT_ERROR t => decidable_of_iff (s = t) (by simp)
  | AT_TABLE s, AT_TABLE t =>
    match decEqEntries s t with
    | isTrue h => isTrue (by rw [h])
    | isFalse h => isFalse (by intro e; injection e; contradiction)
  | AT_ARRAY s, AT_ARRAY t =>
    match decEqItems s t with
    | isTrue h => isTrue (by rw [h])
    | isFalse h => isFalse (by intro e; injection e; contradiction)
  | AT_NULL, AT_STRING _ | AT_NULL, AT_INT _ | AT_NULL, AT_FLOAT _ | AT_NULL, AT_SHORTTYPE _
  | AT_NULL, AT_BOOL _ | AT_NULL, AT_TABLE _ | AT_NULL, AT_ARRAY _ | AT_NULL, AT_ERROR _
  | AT_STRING _, AT_NULL | AT_STRING _, AT_INT _ | AT_STRING _, AT_FLOAT _
  | AT_STRING _, AT_SHORTTYPE _ | AT_STRING _, AT_BOOL _ | AT_STRING _, AT_TABLE _
  | AT_STRING _, AT_ARRAY _ | AT_STRING _, AT_ERROR _
  | AT_INT _, AT_NULL | AT_INT _, AT_STRING _ | AT_INT _, AT_FLOAT _ | AT_INT _, AT_SHORTTYPE _
  | AT_INT _, AT_BOOL _ | AT_INT _, AT_TABLE _ | AT_INT _, AT_ARRAY _ | AT_INT _, AT_ERROR _
  | AT_FLOAT _, AT_NULL | AT_FLOAT _, AT_STRING _ | AT_FLOAT _, AT_INT _
  | AT_FLOAT _, AT_SHORTTYPE _ | AT_FLOAT _, AT_BOOL _ | AT_FLOAT _, AT_TABLE _
  | AT_FLOAT _, AT_ARRAY _ | AT_FLOAT _, AT_ERROR _
  | AT_SHORTTYPE _, AT_NULL | AT_SHORTTYPE _, AT_STRING _ | AT_SHORTTYPE _, AT_INT _
  | AT_SHORTTYPE _, AT_FLOAT _ | AT_SHORTTYPE _, AT_BOOL _ | AT_SHORTTYPE _, AT_TABLE _
  | AT_SHORTTYPE _, AT_ARRAY _ | AT_SHORTTYPE _, AT_ERROR _
  | AT_BOOL _, AT_NULL | AT_BOOL _, AT_STRING _ | AT_BOOL _, AT_INT _ | AT_BOOL _, AT_FLOAT _
  | AT_BOOL _, AT_SHORTTYPE _ | AT_BOOL _, AT_TABLE _ | AT_BOOL _, AT_ARRAY _
  | AT_BOOL _, AT_ERROR _
  | AT_TABLE _, AT_NULL | AT_TABLE _, AT_STRING _ | AT_TABLE _, AT_INT _ | AT_TABLE _, AT_FLOAT _
  | AT_TABLE _, AT_SHORTTYPE _ | AT_TABLE _, AT_BOOL _ | AT_TABLE _, AT_ARRAY _
  | AT_TABLE _, AT_ERROR _
  | AT_ARRAY _, AT_NULL | AT_ARRAY _, AT_STRING _ | AT_ARRAY _, AT_INT _ | AT_ARRAY _, AT_FLOAT _
  | AT_ARRAY _, AT_SHORTTYPE _ | AT_ARRAY _, AT_BOOL _ | AT_ARRAY _, AT_TABLE _
  | AT_ARRAY _, AT_ERROR _
  | AT_ERROR _, AT_NULL | AT_ERROR _, AT_STRING _ | AT_ERROR _, AT_INT _ | AT_ERROR _, AT_FLOAT _
  | AT_ERROR _, AT_SHORTTYPE _ | AT_ERROR _, AT_BOOL _ | AT_ERROR _, AT_TABLE _
  | AT_ERROR _, AT_ARRAY _ => isFalse (by intro e; cases e)
/-- Equality of entry lists is decidable. -/
def decEqEntries : (x y : List (List Char × ako_elem_t)) → Decidable (x = y)
  | [], [] => isTrue rfl
  | [], _ :: _ => isFalse (by intro e; cases e)
  | _ :: _, [] => isFalse (by intro e; cases e)
  | (k, v) :: xs, (l, w) :: ys =>
    if hk : k = l then
      match ako_elem_t.decEq v w, decEqEntries xs ys with
      | isTrue h1, isTrue h2 => isTrue (by rw [hk, h1, h2])
      | isFalse h1, _ => isFalse (by intro e; injection e with e1 e2; injection e1 with e3 e4; exact h1 e4)
      | _, isFalse h2 => isFalse (by intro e; injection e with e1 e2; exact h2 e2)
    else isFalse (by intro e; injection e with e1 e2; injection e1 with e3 e4; exact hk e3)
/-- Equality of item lists is decidable. -/
def decEqItems : (x y : List ako_elem_t) → Decidable (x = y)
  | [], [] => isTrue rfl
  | [], _ :: _ => isFalse (by intro e; cases e)
  | _ :: _, [] => isFalse (by intro e; cases e)
  | v :: xs, w :: ys =>
    match ako_elem_t.decEq v w, decEqItems xs ys with
    | isTrue h1, isTrue h2 => isTrue (by rw [h1, h2])
    | isFalse h1, _ => isFalse (by intro e; injection e with e1 e2; exact h1 e1)
    | _, isFalse h2 => isFalse (by intro e; injection e with e1 e2; exact h2 e2)
end

instance : DecidableEq ako_elem_t := ako_elem_t.decEq

/-- The function `ako_elem_is_error`. -/
def ako_elem_is_error : ako_elem_t → Bool
  | AT_ERROR _ => true
  | _ => false

/-- The function `ako_table_find` on the entries of a table: the index of the first entry
whose key compares equal, or `none`. -/
def ako_table_find : List (List Char × ako_elem_t) → List Char → Option Nat
  | [], _ => none
  | (k, _) :: rest, key =>
    if k = key then some 0 else (ako_table_find rest key).map (· + 1)

/-- The function `ako_elem_table_get`: the value of the first entry with the key; the
`assert` on the type fails for an element that is not a table. -/
def ako_elem_table_get (table : ako_elem_t) (key : List Char) : Outcome (Option ako_elem_t) :=
  match table with
  | AT_TABLE a =>
    match ako_table_find a key with
    | none => .ok none
    | some i => .ok (a[i]? |>.map (·.2))
  | _ => .abort .assertion

/-- The function `ako_elem_table_add`: the entry is appended; the `assert` on the type
fails for an element that is not a table. -/
def ako_elem_table_add (table : ako_elem_t) (key : List Char) (value : ako_elem_t) :
    Outcome ako_elem_t :=
  match table with
  | AT_TABLE a => .ok (AT_TABLE (a ++ [(key, value)]))
  | _ => .abort .assertion

/-- The function `ako_elem_table_get_length`. -/
def ako_elem_table_get_length (table : ako_elem_t) : Outcome Nat :=
  match table with
  | AT_TABLE a => .ok a.length
  | _ => .abort .assertion

/-- The function `ako_elem_table_get_key_at`; `dyn_array_get` asserts that the index is
inside the array. -/
def ako_elem_table_get_key_at (table : ako_elem_t) (index : Nat) : Outcome (List Char) :=
  match table with
  | AT_TABLE a =>
    match a[index]? with
    | some kv => .ok kv.1
    | none => .abort .assertion
  | _ => .abort .assertion

/-- The function `ako_elem_table_get_value_at`. -/
def ako_elem_table_get_value_at (table : ako_elem_t) (index : Nat) : Outcome ako_elem_t :=
  match table with
  | AT_TABLE a =>
    match a[index]? with
    | some kv => .ok kv.2
    | none => .abort .assertion
  | _ => .abort .assertion

/-- The function `ako_elem_array_add`. -/
def ako_elem_array_add (array : ako_elem_t) (value : ako_elem_t) : Outcome ako_elem_t :=
  match array with
  | AT_ARRAY a => .ok (AT_ARRAY (a ++ [value]))
  | _ => .abort .assertion

/-- The function `ako_elem_array_get_length`. -/
def ako_elem_array_get_length (array : ako_elem_t) : Outcome Nat :=
  match array with
  | AT_ARRAY a => .ok a.length
  | _ => .abort .assertion

/-- The function `ako_elem_array_get`, with its `assert(index < array->a.size)`. -/
def ako_elem_array_get (array : ako_elem_t) (index : Nat) : Outcome ako_elem_t :=
  match array with
  | AT_ARRAY a =>
    match a[index]? with
    | some e => .ok e
    | none => .abort .assertion
  | _ => .abort .assertion

/-! ## The lexer (`lex/tokenizer.c`) -/

namespace tokenizer

/-- The struct `state_t` of `tokenizer.c`. The field `source` is the unread part
`source[index .. source_len)`; `current_loc.index` counts the bytes consumed. -/
structure state_t where
  tokens : List token_t
  source : List Char
  «meta» : location_t
  current_loc : location_t
  deriving DecidableEq, Repr

/-- The effect of `consume` on `current_loc` for the byte `next`: a newline and a tab both
start a new line. -/
def advance (loc : location_t) (next : Char) : location_t :=
  if next = '\n' ∨ next = '\t' then ⟨loc.line + 1, 1, loc.index + 1⟩
  else ⟨loc.line, loc.column + 1, loc.index + 1⟩

/-- The function `consume`: the next byte, or the byte 0 at the end of the input. -/
def consume (state : state_t) : Char × state_t :=
  match state.source with
  | [] => (Char.ofNat 0, state)
  | next :: rest =>
    (next, { state with source := rest, current_loc := advance state.current_loc next })

/-- The function `has_value`. -/
def has_value (state : state_t) (offset : Nat) : Bool :=
  decide (offset < state.source.length)

/-- The function `peek`, with its `assert`. -/
def peek (state : state_t) (offset : Nat) : Outcome Char :=
  match state.source[offset]? with
  | some c => .ok c
  | none => .abort .assertion

/-- The function `start_meta`. -/
def start_meta (state : state_t) : state_t :=
  { state with «meta» := state.current_loc }

/-- The function `add_token`, for a token of the given type and union content. -/
def add_token (state : state_t) (type : token_type_t) (value : token_value) : state_t :=
  { state with tokens := state.tokens ++ [⟨type, state.meta, state.current_loc, value⟩] }

/-- The function `is_valid_id`. -/
def is_valid_id (c : Char) : Bool := isalpha c || c = '_'

/-- The function `count_id`, on the unread part of the source. -/
def count_id : List Char → Nat
  | [] => 0
  | c :: rest => if isalnum c || c = '_' then count_id rest + 1 else 0

/-- The function `count_number`, on the unread part of the source. -/
def count_number : List Char → Nat
  | [] => 0
  | c :: rest => if isdigit c || c = '.' then count_number rest + 1 else 0

/-- The function `count_string`, on the part of the source after the opening quote. At a
raw newline or tab the loop executes `continue` with `offset` unchanged, so it never ends.
After a backslash `offset` is advanced twice and then once more at the end of the body. -/
def count_string : List Char → Outcome Nat
  | [] => .ok 0
  | c :: rest =>
    if c = '\n' ∨ c = '\t' then .hang
    else if c = '\\' then
      match rest with
      | _ :: _ :: rest2 => (count_string rest2).bind (fun n => .ok (n + 3))
      | _ => .ok 3
    else if c = '"' then .ok 0
    else (count_string rest).bind (fun n => .ok (n + 1))

/-- Several calls of `consume` in a row (the loops `id[i] = consume(state)` and
`num[i] = consume(state)`). -/
def consume_n : Nat → state_t → List Char × state_t
  | 0, state => ([], state)
  | n + 1, state =>
    let r := consume state
    let rs := consume_n n r.2
    (r.1 :: rs.1, rs.2)

/-- The function `parse_digit`. It returns `false` without a token when no digit or dot
follows. When the conversion fails, the message is written by `sprintf(*err, ...)` right
after `*err = NULL`, a write through a null pointer. -/
def parse_digit (state : state_t) : Outcome (Bool × state_t) :=
  let num_size := count_number state.source
  if num_size = 0 then .ok (false, state)
  else
    let r := consume_n num_size state
    let num := r.1
    let state := r.2
    if num.contains '.' then
      match strtod num with
      | some f => .ok (true, add_token state AKO_TT_FLOAT (.float f))
      | none => .abort .nullDeref
    else
      match strtoll num with
      | some n => .ok (true, add_token state AKO_TT_INT (.int n))
      | none => .abort .nullDeref

/-- The comment loop of `ako_tokenize`, entered after the `#` is consumed: bytes are
consumed while `current_loc.line` is unchanged, that is up to and including the first
newline or tab, or until `consume` returns 0. -/
def skip_comment : List Char → location_t → List Char × location_t
  | [], loc => ([], loc)
  | c :: rest, loc =>
    if c = '\n' ∨ c = '\t' then (rest, advance loc c)
    else if c = Char.ofNat 0 then (rest, advance loc c)
    else skip_comment rest (advance loc c)

/-- The decoding loop of the string branch, entered after the opening quote: the decoded
text, the number of bytes written through `iter`, and the unread source with its location.
A backslash at the very end of the input makes `consume` return 0, and that byte is written
too: it ends the C string. -/
def read_string : List Char → location_t → (List Char × Nat) × (List Char × location_t)
  | [], loc => (([], 0), ([], loc))
  | cc :: rest, loc =>
    if cc = '\\' then
      match rest with
      | [] => (([], 1), ([], advance loc cc))
      | e :: rest2 =>
        let r := read_string rest2 (advance (advance loc cc) e)
        let out := if e = 'n' then '\n' else if e = 't' then '\t' else e
        ((out :: r.1.1, r.1.2 + 1), r.2)
    else if cc = '"' then (([], 0), (rest, advance loc cc))
    else
      let r := read_string rest (advance loc cc)
      ((cc :: r.1.1, r.1.2 + 1), r.2)

/-- The vector loop of `ako_tokenize`, entered after a number: while the next byte is `x`,
a `VectorCross` token is added and a number must follow. When `parse_digit` returns
`false` the message is written by `sprintf(*err, ...)` with `*err` null. The second
component is the union of the local `token` when the loop has run. -/
def vector_loop : Nat → state_t → token_value → Outcome (state_t × token_value)
  | 0, _, _ => .nofuel
  | fuel + 1, state, token =>
    match state.source with
    | [] => .ok (state, token)
    | c :: _ =>
      if c = 'x' then
        let state := add_token (consume state).2 AKO_TT_VECTORCROSS (.int 0)
        match parse_digit state with
        | .ok (true, state) => vector_loop fuel state (.int 0)
        | .ok (false, _) => .abort .nullDeref
        | .abort f => .abort f
        | .hang => .hang
        | .nofuel => .nofuel
      else .ok (state, token)

/-- The main loop of `ako_tokenize`. The argument `token` is the union of the local
variable `token`, which keeps its content from one iteration to the next: the branches of
`+` and `-` set only `token.type`. The numbers are added by `parse_digit` from a local of
its own and leave `token` alone.

A byte that starts no token (not blank, not `#`, not a sign, not a letter or `_`, no digit,
no quote) falls through every branch: the loop repeats with the same state. -/
def tokenize_loop : Nat → state_t → token_value → Outcome (List token_t)
  | 0, _, _ => .nofuel
  | fuel + 1, state, token =>
    match state.source with
    | [] => .ok state.tokens
    | c :: rest =>
      if c = ' ' ∨ c = '\n' then tokenize_loop fuel (consume state).2 token
      else if c = '#' then
        let state := (consume state).2
        let r := skip_comment state.source state.current_loc
        tokenize_loop fuel { state with source := r.1, current_loc := r.2 } token
      else
        let state := start_meta state
        if c = '+' then
          tokenize_loop fuel (add_token (consume state).2 AKO_TT_PLUS token) token
        else if c = '-' then
          tokenize_loop fuel (add_token (consume state).2 AKO_TT_MINUS token) token
        else if c = ';' then
          tokenize_loop fuel (add_token (consume state).2 AKO_TT_SEMICOLON (.int 0)) (.int 0)
        else if c = '.' then
          tokenize_loop fuel (add_token (consume state).2 AKO_TT_DOT (.int 0)) (.int 0)
        else if c = '&' then
          tokenize_loop fuel (add_token (consume state).2 AKO_TT_AND (.int 0)) (.int 0)
        else if c = '[' then
          let state := (consume state).2
          if rest.head? = some '[' then
            tokenize_loop fuel (add_token (consume state).2 AKO_TT_OPEN_D_BRACE (.int 0)) (.int 0)
          else tokenize_loop fuel (add_token state AKO_TT_OPEN_BRACE (.int 0)) (.int 0)
        else if c = ']' then
          let state := (consume state).2
          if rest.head? = some ']' then
            tokenize_loop fuel (add_token (consume state).2 AKO_TT_CLOSE_D_BRACE (.int 0)) (.int 0)
          else tokenize_loop fuel (add_token state AKO_TT_CLOSE_BRACE (.int 0)) (.int 0)
        else if is_valid_id c then
          let r := consume_n (count_id state.source) state
          tokenize_loop fuel (add_token r.2 AKO_TT_IDENT (.string r.1)) (.string r.1)
        else
          match parse_digit state with
          | .ok (true, state) =>
            match vector_loop (state.source.length + 1) state token with
            | .ok (state, token) => tokenize_loop fuel state token
            | .abort f => .abort f
            | .hang => .hang
            | .nofuel => .nofuel
          | .ok (false, state) =>
            if c = '"' then
              let state := (consume state).2
              match count_string state.source with
              | .ok char_count =>
                let r := read_string state.source state.current_loc
                if r.1.2 ≤ char_count then
                  let state := { state with source := r.2.1, current_loc := r.2.2 }
                  tokenize_loop fuel (add_token state AKO_TT_STRING (.string r.1.1))
                    (.string r.1.1)
                else .abort .heapOverflow
              | .abort f => .abort f
              | .hang => .hang
              | .nofuel => .nofuel
            else .hang
          | .abort f => .abort f
          | .hang => .hang
          | .nofuel => .nofuel

/-- The main loop of `ako_tokenize` once more, with the place `*err` that the caller passes:
`written` tells whether the lexer has stored to it. The lexer stores to `*err` in one
statement only, `*err = NULL` at the top of `parse_digit` (each message is written by
`sprintf(*err, ...)` through that null pointer, a fault), and the main loop calls
`parse_digit` where the first byte is no blank, no `#`, no one-byte token, no bracket and
not the start of an identifier. The result is the tokens and whether `*err` was written. -/
def tokenize_loop_err : Nat → state_t → token_value → Bool → Outcome (List token_t × Bool)
  | 0, _, _, _ => .nofuel
  | fuel + 1, state, token, written =>
    match state.source with
    | [] => .ok (state.tokens, written)
    | c :: rest =>
      if c = ' ' ∨ c = '\n' then tokenize_loop_err fuel (consume state).2 token written
      else if c = '#' then
        let state := (consume state).2
        let r := skip_comment state.source state.current_loc
        tokenize_loop_err fuel { state with source := r.1, current_loc := r.2 } token written
      else
        let state := start_meta state
        if c = '+' then
          tokenize_loop_err fuel (add_token (consume state).2 AKO_TT_PLUS token) token written
        else if c = '-' then
          tokenize_loop_err fuel (add_token (consume state).2 AKO_TT_MINUS token) token written
        else if c = ';' then
          tokenize_loop_err fuel (add_token (consume state).2 AKO_TT_SEMICOLON (.int 0)) (.int 0)
            written
        else if c = '.' then
          tokenize_loop_err fuel (add_token (consume state).2 AKO_TT_DOT (.int 0)) (.int 0)
            written
        else if c = '&' then
          tokenize_loop_err fuel (add_token (consume state).2 AKO_TT_AND (.int 0)) (.int 0)
            written
        else if c = '[' then
          let state := (consume state).2
          if rest.head? = some '[' then
            tokenize_loop_err fuel (add_token (consume state).2 AKO_TT_OPEN_D_BRACE (.int 0))
              (.int 0) written
          else tokenize_loop_err fuel (add_token state AKO_TT_OPEN_BRACE (.int 0)) (.int 0)
            written
        else if c = ']' then
          let state := (consume state).2
          if rest.head? = some ']' then
            tokenize_loop_err fuel (add_token (consume state).2 AKO_TT_CLOSE_D_BRACE (.int 0))
              (.int 0) written
          else tokenize_loop_err fuel (add_token state AKO_TT_CLOSE_BRACE (.int 0)) (.int 0)
            written
        else if is_valid_id c then
          let r := consume_n (count_id state.source) state
          tokenize_loop_err fuel (add_token r.2 AKO_TT_IDENT (.string r.1)) (.string r.1)
            written
        else
          match parse_digit state with
          | .ok (true, state) =>
            match vector_loop (state.source.length + 1) state token with
            | .ok (state, token) => tokenize_loop_err fuel state token true
            | .abort f => .abort f
            | .hang => .hang
            | .nofuel => .nofuel
          | .ok (false, state) =>
            if c = '"' then
              let state := (consume state).2
              match count_string state.source with
              | .ok char_count =>
                let r := read_string state.source state.current_loc
                if r.1.2 ≤ char_count then
                  let state := { state with source := r.2.1, current_loc := r.2.2 }
                  tokenize_loop_err fuel (add_token state AKO_TT_STRING (.string r.1.1))
                    (.string r.1.1) true
                else .abort .heapOverflow
              | .abort f => .abort f
              | .hang => .hang
              | .nofuel => .nofuel
            else .hang
          | .abort f => .abort f
          | .hang => .hang
          | .nofuel => .nofuel
end tokenizer

/-- The function `ako_tokenize`. It returns the tokens; no message is ever stored to `*err`
when it returns, because every message is written through `*err` while it is null. -/
def ako_tokenize (source : List Char) : Outcome (List token_t) :=
  tokenizer.tokenize_loop (source.length + 1) ⟨[], source, ⟨0, 0, 0⟩, ⟨1, 1, 0⟩⟩ (.int 0)

/-- The function `ako_tokenize` called with a place `*err` that the caller has not written:
the tokens, and whether the lexer has stored to `*err` (then it holds null). -/
def ako_tokenize_err (source : List Char) : Outcome (List token_t × Bool) :=
  tokenizer.tokenize_loop_err (source.length + 1) ⟨[], source, ⟨0, 0, 0⟩, ⟨1, 1, 0⟩⟩ (.int 0)
    false

/-! ## The parser (`lex/parser.c`) -/

namespace parser

/-- The struct `state_t` of `parser.c`, as the unread tokens `tokens[index ..]`. -/
abbrev state_t := List token_t

/-- The function `peek` of `parser.c`: `none` stands for `NULL`. -/
def peek (state : state_t) (offset : Nat) : Option token_t := state[offset]?

/-- The macro `CHECK_TYPE`. -/
def CHECK_TYPE (token : Option token_t) (checktype : token_type_t) : Bool :=
  match token with
  | some t => decide (t.type = checktype)
  | none => false

/-- The function `__check_peek_type`. -/
def __check_peek_type (state : state_t) (offset : Nat) (type : token_type_t) : Bool :=
  CHECK_TYPE (peek state offset) type

/-- A message with a location, `"<text>L:C"`. -/
def msg_at (text : String) (loc : location_t) : List Char :=
  text.toList ++ fmt_zu loc.line ++ [':'] ++ fmt_zu loc.column

/-- A message with two locations, `"<text>L:C -> L:C"`. -/
def msg_span (text : String) (t : token_t) : List Char :=
  msg_at text t.start ++ " -> ".toList ++ fmt_zu t.end.line ++ [':'] ++ fmt_zu t.end.column

/-- A union member of a token, read where the code uses it. -/
def read {α : Type} (member : Option α) : Outcome α :=
  match member with
  | some a => .ok a
  | none => .abort .unionMisuse

/-- The element `_parse_value` makes from a number token: `ako_elem_create_int` for an
`Int` token, `ako_elem_create_float` otherwise. -/
def number_elem (peeked : token_t) : Outcome ako_elem_t :=
  if peeked.type = AKO_TT_INT then (read peeked.value_int).bind (fun n => .ok (AT_INT n))
  else (read peeked.value_float).bind (fun f => .ok (AT_FLOAT f))

/-- The vector loop of `_parse_value` (`while (peek(state, 0) != NULL)`), with the items of
`array` so far and the current `peeked`. When the tokens end right after a `VectorCross`
the loop is left, and the code after it returns a number made from `peeked`, which is that
`VectorCross` token. -/
def parse_vector (start_loc : location_t) :
    state_t → List ako_elem_t → token_t → Outcome (ako_elem_t × state_t)
  | [], _, peeked => (number_elem peeked).bind (fun e => .ok (e, []))
  | t :: rest, array, _ =>
    if t.type = AKO_TT_INT ∨ t.type = AKO_TT_FLOAT then
      (number_elem t).bind (fun elem =>
        match rest with
        | x :: rest2 =>
          if x.type = AKO_TT_VECTORCROSS then parse_vector start_loc rest2 (array ++ [elem]) x
          else if (array ++ [elem]).length > 4 then
            .ok (AT_ERROR (msg_at "Vector size is greater than 4 at " start_loc), rest)
          else .ok (AT_ARRAY (array ++ [elem]), rest)
        | [] =>
          if (array ++ [elem]).length > 4 then
            .ok (AT_ERROR (msg_at "Vector size is greater than 4 at " start_loc), rest)
          else .ok (AT_ARRAY (array ++ [elem]), rest))
    else
      .ok (AT_ERROR (msg_at "Trying to use non vector type in vector at " start_loc), t :: rest)

/-- The short-type loop of `_parse_value` (`while (CHECK_TYPE(peek(state, 0),
AKO_TT_IDENT))`), with the content of `str` so far. -/
def parse_shorttype : state_t → List Char → Outcome (List Char × state_t)
  | [], str => .ok (str, [])
  | t :: rest, str =>
    if t.type = AKO_TT_IDENT then
      (read t.value_string).bind (fun s =>
        match rest with
        | d :: rest2 =>
          if d.type = AKO_TT_DOT then parse_shorttype rest2 (str ++ s ++ ['.'])
          else .ok (str ++ s, rest)
        | [] => .ok (str ++ s, []))
    else .ok (str, t :: rest)

/-- The element a table entry points to: `current_table` is kept as the list of entry
indices that lead to it from the table the entry is parsed into. -/
def elem_at : ako_elem_t → List Nat → Option ako_elem_t
  | e, [] => some e
  | AT_TABLE a, i :: path =>
    match a[i]? with
    | some kv => elem_at kv.2 path
    | none => none
  | _, _ :: _ => none

/-- The table after the element at a path is replaced (a write through `current_table`). -/
def elem_set : ako_elem_t → List Nat → ako_elem_t → ako_elem_t
  | _, [], new => new
  | AT_TABLE a, i :: path, new =>
    match a[i]? with
    | some kv => AT_TABLE (a.set i (kv.1, elem_set kv.2 path new))
    | none => AT_TABLE a
  | e, _ :: _, _ => e

/-- The call `ako_elem_table_add(current_table, key, value)` for `current_table` at `path`
inside `table`. -/
def add_at (table : ako_elem_t) (path : List Nat) (key : List Char) (value : ako_elem_t) :
    Outcome ako_elem_t :=
  match elem_at table path with
  | some current_table =>
    (ako_elem_table_add current_table key value).bind (fun t => .ok (elem_set table path t))
  | none => .abort .nullDeref

/-- The state of the key loop of `_parse_table_element`. -/
structure key_state where
  state : state_t
  table : ako_elem_t
  current_table : List Nat
  ct_id : Option (List Char)

/-- The key loop of `_parse_table_element` (`while (peek(state, 0) != NULL && (... IDENT
|| ... STRING))`). A key followed by a `Dot` is looked up in `current_table`, created there
as an empty table when it is missing, and becomes `current_table`; a key not followed by a
`Dot` is the insertion key `ct_id`. -/
def key_loop : state_t → ako_elem_t → List Nat → Outcome key_state
  | [], table, cur => .ok ⟨[], table, cur, none⟩
  | t :: rest, table, cur =>
    if t.type = AKO_TT_IDENT ∨ t.type = AKO_TT_STRING then
      (read t.value_string).bind (fun id =>
        match rest with
        | d :: rest2 =>
          if d.type = AKO_TT_DOT then
            match elem_at table cur with
            | none => .abort .nullDeref
            | some current_table =>
              (ako_elem_table_get current_table id).bind (fun test =>
                match test, current_table with
                | none, AT_TABLE a =>
                  (add_at table cur id (AT_TABLE [])).bind (fun table =>
                    key_loop rest2 table (cur ++ [a.length]))
                | some _, AT_TABLE a =>
                  key_loop rest2 table (cur ++ [(ako_table_find a id).getD 0])
                | _, _ => .abort .assertion)
          else .ok ⟨rest, table, cur, some id⟩
        | [] => .ok ⟨rest, table, cur, some id⟩)
    else .ok ⟨t :: rest, table, cur, none⟩

/-- The function `_parse_table_element`, over the value parser `pv` it calls. The result
is the returned element (`none` for `NULL`, else an `Error`), the table after the call,
and the unread tokens. -/
def _parse_table_element (pv : state_t → Outcome (ako_elem_t × state_t))
    (state : state_t) (table : ako_elem_t) :
    Outcome (Option ako_elem_t × ako_elem_t × state_t) :=
  match table with
  | AT_TABLE _ =>
    match state with
    | [] => .ok (some (AT_ERROR "Unexpected end of table element.".toList), table, state)
    | peeked :: rest =>
      let value_first : Option token_t :=
        if peeked.type = AKO_TT_MINUS ∨ peeked.type = AKO_TT_PLUS
            ∨ peeked.type = AKO_TT_SEMICOLON then some peeked else none
      let state := if value_first.isSome then rest else state
      match state with
      | [] => .abort .nullDeref
      | peeked :: _ =>
        if ¬ (peeked.type = AKO_TT_IDENT ∨ peeked.type = AKO_TT_STRING) then
          .ok (some (AT_ERROR "Expected an identifier or string.".toList), table, state)
        else
          (key_loop state table []).bind (fun ks =>
            match ks.ct_id with
            | none => .ok (some (AT_ERROR "Failed to get table id.".toList), ks.table, ks.state)
            | some ct_id =>
              match value_first with
              | some vf =>
                if vf.type = AKO_TT_PLUS ∨ vf.type = AKO_TT_MINUS then
                  (add_at ks.table ks.current_table ct_id (AT_BOOL vf.value_int_as_bool)).bind
                    (fun table => .ok (none, table, ks.state))
                else if vf.type = AKO_TT_SEMICOLON then
                  (add_at ks.table ks.current_table ct_id AT_NULL).bind
                    (fun table => .ok (none, table, ks.state))
                else .ok (some (AT_ERROR "Unknown value type.".toList), ks.table, ks.state)
              | none =>
                (pv ks.state).bind (fun r =>
                  if ako_elem_is_error r.1 then .ok (some r.1, ks.table, r.2)
                  else
                    (add_at ks.table ks.current_table ct_id r.1).bind
                      (fun table => .ok (none, table, r.2))))
  | _ => .abort .assertion

/-- The loop of `_parse_table` (`while (peek(state, 0) != NULL && peek(state, 0)->type !=
AKO_TT_CLOSE_BRACE)`): `Except.error e` is a `return e` from inside the loop, `Except.ok`
the table when the loop is left. The first argument bounds the iterations. -/
def table_loop (pv : state_t → Outcome (ako_elem_t × state_t)) :
    Nat → state_t → ako_elem_t → Outcome (Except ako_elem_t ako_elem_t × state_t)
  | 0, _, _ => .nofuel
  | fuel + 1, state, table =>
    match state with
    | [] => .ok (.ok table, state)
    | peeked :: rest =>
      if peeked.type = AKO_TT_CLOSE_BRACE then .ok (.ok table, state)
      else if rest = [] then
        .ok (.error (AT_ERROR "Expected two tokens, got zero/one.".toList), state)
      else if ¬ (peeked.type = AKO_TT_IDENT ∨ peeked.type = AKO_TT_STRING
          ∨ peeked.type = AKO_TT_PLUS ∨ peeked.type = AKO_TT_MINUS
          ∨ peeked.type = AKO_TT_SEMICOLON) then
        .ok (.error (AT_ERROR ("Expected an identifier, bool or null but got: ".toList
          ++ TokenType_Strings peeked.type)), state)
      else
        (_parse_table_element pv state table).bind (fun r =>
          match r.1 with
          | some err => .ok (.error err, r.2.2)
          | none => table_loop pv fuel r.2.2 r.2.1)

/-- The function `_parse_table`, over the value parser it calls. -/
def _parse_table (pv : state_t → Outcome (ako_elem_t × state_t))
    (state : state_t) (should_ignore_braces : Bool) : Outcome (ako_elem_t × state_t) :=
  if ¬ should_ignore_braces ∧ ¬ CHECK_TYPE (peek state 0) AKO_TT_OPEN_BRACE then
    .ok (AT_ERROR "Expected an opening brace.".toList, state)
  else
    let state := if should_ignore_braces then state else state.tail
    (table_loop pv (state.length + 1) state (AT_TABLE [])).bind (fun r =>
      match r.1 with
      | .error e => .ok (e, r.2)
      | .ok table =>
        if ¬ should_ignore_braces then
          if CHECK_TYPE (peek r.2 0) AKO_TT_CLOSE_BRACE then .ok (table, r.2.tail)
          else .ok (AT_ERROR "Expected a closing brace.".toList, r.2)
        else .ok (table, r.2))

/-- The loop of `_parse_array` (`while (peek(state, 0) != NULL && peek(state, 0)->type !=
AKO_TT_CLOSE_D_BRACE)`), with the items of `array` so far. -/
def array_loop (pv : state_t → Outcome (ako_elem_t × state_t)) :
    Nat → state_t → List ako_elem_t → Outcome (Except ako_elem_t (List ako_elem_t) × state_t)
  | 0, _, _ => .nofuel
  | fuel + 1, state, array =>
    match state with
    | [] => .ok (.ok array, state)
    | peeked :: _ =>
      if peeked.type = AKO_TT_CLOSE_D_BRACE then .ok (.ok array, state)
      else
        (pv state).bind (fun r =>
          if ako_elem_is_error r.1 then .ok (.error r.1, r.2)
          else array_loop pv fuel r.2 (array ++ [r.1]))

/-- The function `_parse_array`, over the value parser it calls. -/
def _parse_array (pv : state_t → Outcome (ako_elem_t × state_t))
    (state : state_t) : Outcome (ako_elem_t × state_t) :=
  match state with
  | [] => .ok (AT_ERROR "Unexpected end of array.".toList, state)
  | peeked :: rest =>
    if peeked.type = AKO_TT_OPEN_D_BRACE then
      (array_loop pv (rest.length + 1) rest []).bind (fun r =>
        match r.1 with
        | .error e => .ok (e, r.2)
        | .ok array =>
          if CHECK_TYPE (peek r.2 0) AKO_TT_CLOSE_D_BRACE then .ok (AT_ARRAY array, r.2.tail)
          else .ok (AT_ERROR "Expected a closing double brace.".toList, r.2))
    else .ok (AT_ERROR (msg_span "Open double brace expected at " peeked), state)

/-- The function `_parse_value`. The first argument bounds the depth of the calls through
`_parse_array` and `_parse_table`, each of which consumes an opening bracket first. With no
token left `peeked` is null and `peeked->type` reads through it. -/
def _parse_value : Nat → state_t → Outcome (ako_elem_t × state_t)
  | 0, _ => .nofuel
  | depth + 1, state =>
    match state with
    | [] => .abort .nullDeref
    | peeked :: rest =>
      match peeked.type with
      | AKO_TT_OPEN_D_BRACE => _parse_array (_parse_value depth) state
      | AKO_TT_OPEN_BRACE => _parse_table (_parse_value depth) state false
      | AKO_TT_SEMICOLON => .ok (AT_NULL, rest)
      | AKO_TT_BOOL => .ok (AT_BOOL peeked.value_int_as_bool, rest)
      | AKO_TT_INT | AKO_TT_FLOAT =>
        if CHECK_TYPE (peek state 1) AKO_TT_VECTORCROSS then
          parse_vector peeked.start state [] peeked
        else (number_elem peeked).bind (fun e => .ok (e, rest))
      | AKO_TT_STRING => (read peeked.value_string).bind (fun s => .ok (AT_STRING s, rest))
      | AKO_TT_AND =>
        if ¬ CHECK_TYPE (peek state 1) AKO_TT_IDENT then
          .ok (AT_ERROR (msg_at "ShortType needs to start with an Identifier, error at "
            peeked.start), state)
        else (parse_shorttype rest []).bind (fun r => .ok (AT_SHORTTYPE r.1, r.2))
      | _ => .ok (AT_ERROR (msg_span "Unsupported type at " peeked), state)

end parser

/-- The function `ako_parse_tokens`. -/
def ako_parse_tokens (tokens : List token_t) : Outcome ako_elem_t :=
  match tokens with
  | [] => .ok (AT_ERROR "No tokens to parse".toList)
  | peeked :: _ =>
    if peeked.type = AKO_TT_OPEN_D_BRACE then
      (parser._parse_array (parser._parse_value tokens.length) tokens).bind
        (fun r => .ok r.1)
    else
      (parser._parse_table (parser._parse_value tokens.length) tokens
        (decide (peeked.type ≠ AKO_TT_OPEN_BRACE))).bind (fun r => .ok r.1)

/-- The function `ako_parse`. With no token, `err` is still null and
`ako_elem_create_error(err)` runs `strlen` on it. -/
def ako_parse (source : List Char) : Outcome ako_elem_t :=
  (ako_tokenize source).bind (fun tokens =>
    if tokens.length = 0 then .abort .nullDeref
    else ako_parse_tokens tokens)

/-! ## The serializer (`ako.c`) -/

/-- The enumeration `ako_serialize_flags_t`, as the pair of its two bits. -/
structure ako_serialize_flags_t where
  ASF_FORMAT : Bool
  ASF_USE_SPACES : Bool
  deriving DecidableEq, Repr

/-- The flags value `ASF_NONE`. -/
def ASF_NONE : ako_serialize_flags_t := ⟨false, false⟩

/-- The flags value `ASF_FORMAT`. -/
def ASF_FORMAT : ako_serialize_flags_t := ⟨true, false⟩

/-- The flags value `ASF_USE_SPACES`. -/
def ASF_USE_SPACES : ako_serialize_flags_t := ⟨false, true⟩

/-- The function `_make_indent`: the text it appends. -/
def _make_indent (indent : List Char) (level : Nat) : List Char :=
  (List.replicate level indent).flatten

/-- The text of `dyn_string_append_fmt(str, "%f", ae->f)` for an item of a vector-form
array that is not an `Int`: the union of the element read as a `double`. A `Null` has the
zeroed union of `ako_elem_create` and a `Bool` holds 0 or 1; for the kinds that hold a heap
address (strings, containers) the bits are those of the address, which as a `double` is
below one millionth in absolute value for every address below `2 ^ 61`. -/
def fmt_union_f : ako_elem_t → List Char
  | AT_FLOAT f => fmt_f f
  | AT_INT i => fmt_f ⟨(i % 2 ^ 64).toNat⟩
  | AT_BOOL b => fmt_f ⟨if b then 1 else 0⟩
  | _ => fmt_f ⟨0⟩

/-- The vector branch of `_serialise`: the items joined by `x`, an `Int` item through `%d`
and every other item through `%f`. -/
def serialise_vector : List ako_elem_t → List Char
  | [] => []
  | ae :: rest =>
    (match ae with
      | AT_INT i => fmt_d i
      | _ => fmt_union_f ae)
    ++ (if rest = [] then [] else 'x' :: serialise_vector rest)

mutual
/-- The function `_serialise`: the text appended to `str`, and whether `*err` is set when
it returns. The separator `end` is a newline when `indent` is not empty and a space
otherwise.

In the array branch the test `!ae && (...)` never clears `is_vector`, because `ae` is not
null: an array is written as a vector when it has at most four items and is not the
top-level element. -/
def _serialise (elem : ako_elem_t) (indent : List Char) (cur_indent : Nat)
    (first_run : Bool) : List Char × Bool :=
  let «end» : List Char := if indent ≠ [] then ['\n'] else [' ']
  match elem with
  | AT_BOOL i => (if i then ['+'] else ['-'], false)
  | AT_NULL => ([';'], false)
  | AT_INT i => (fmt_d i, false)
  | AT_FLOAT f => (fmt_f f, false)
  | AT_STRING str => (['"'] ++ str ++ ['"'], false)
  | AT_SHORTTYPE str => (['"'] ++ str ++ ['"'], false)
  | AT_ARRAY a =>
    if a.length = 0 then ("[[]]".toList, false)
    else if decide (a.length ≤ 4) && !first_run then (serialise_vector a, false)
    else
      let r := serialise_items a indent cur_indent
      ("[[".toList ++ «end» ++ r.1 ++ _make_indent indent cur_indent ++ "]]".toList, r.2)
  | AT_TABLE a =>
    if !first_run && a.length = 0 then ("[]".toList, false)
    else
      let opened := !first_run
      let indenting := if first_run then 0 else cur_indent + 1
      let r := serialise_entries a indent indenting
      let head : List Char := if opened then ['['] ++ «end» else []
      if r.2 then (head ++ r.1, true)
      else
        (head ++ r.1 ++ _make_indent indent cur_indent ++ (if opened then [']'] else []), false)
  | AT_ERROR _ => ([], true)
/-- The loop over the items of a bracketed array. Every call of `_serialise` starts with
`*err = NULL`, and the loop does not test `*err`: the flag after the loop is the one of the
last item. -/
def serialise_items (a : List ako_elem_t) (indent : List Char) (cur_indent : Nat) :
    List Char × Bool :=
  match a with
  | [] => ([], false)
  | item :: rest =>
    let «end» : List Char := if indent ≠ [] then ['\n'] else [' ']
    let r := _serialise item indent (cur_indent + 1) false
    let rs := serialise_items rest indent cur_indent
    (_make_indent indent (cur_indent + 1) ++ r.1 ++ «end» ++ rs.1,
      if rest = [] then r.2 else rs.2)
/-- The loop over the entries of a table: the value is written to `valstr` first, and the
entry is `<valstr><key>` when `valstr` is `+`, `-` or `;`, else `<key> <valstr>`. The loop
returns at the first value that sets `*err`. -/
def serialise_entries (a : List (List Char × ako_elem_t)) (indent : List Char)
    (indenting : Nat) : List Char × Bool :=
  match a with
  | [] => ([], false)
  | (key, value) :: rest =>
    let «end» : List Char := if indent ≠ [] then ['\n'] else [' ']
    let r := _serialise value indent indenting false
    if r.2 then (_make_indent indent indenting, true)
    else
      let valstr := r.1
      let entry :=
        if valstr = ['+'] ∨ valstr = ['-'] ∨ valstr = [';'] then valstr ++ key
        else key ++ [' '] ++ valstr
      let rs := serialise_entries rest indent indenting
      (_make_indent indent indenting ++ entry ++ «end» ++ rs.1, rs.2)
end

/-- The function `ako_serialize`, with the C string at the pointer it returns: the text,
or `none` for `NULL` with `*err` set. The block of `dyn_string_create(128)` comes from
`ako_malloc` and is not written by the creation; each `dyn_string_append`,
`dyn_string_append_fmt` and `dyn_string_append_char` writes its bytes and the terminator.
Every branch of `_serialise` appends at least one byte, except the one of a top-level table
without entries, which makes no call at all (no bracket, no entry, `_make_indent` of level
0): then `str.data` is returned as the allocator left it, and the text at it is read from
bytes that were never written. -/
def ako_serialize (elem : ako_elem_t) (flags : ako_serialize_flags_t) :
    Outcome (Option (List Char)) :=
  let indent : List Char :=
    if ¬ flags.ASF_FORMAT then []
    else if flags.ASF_USE_SPACES then "    ".toList else ['\t']
  let r := _serialise elem indent 0 true
  if r.2 then .ok none
  else if r.1 = [] then .abort .heapOverflow
  else .ok (some r.1)

/-! ## The path resolver (`ako_elem_get` in `elem.c`) -/

/-- One descent of `ako_elem_get` from `elem` by the path token `token`: into an `Array` by
an `Int` token through `ako_elem_array_get`, into anything else by a `String` or `Ident`
token through `ako_elem_table_get`. `Except.error ()` is `goto giveup`. -/
def elem_get_step (elem : ako_elem_t) (token : token_t) :
    Outcome (Except Unit (Option ako_elem_t)) :=
  match elem with
  | AT_ARRAY _ =>
    if token.type ≠ AKO_TT_INT then .ok (.error ())
    else
      (parser.read token.value_int).bind (fun i =>
        if i < 0 then .abort .assertion
        else (ako_elem_array_get elem i.toNat).bind (fun e => .ok (.ok (some e))))
  | _ =>
    if ¬ (token.type = AKO_TT_STRING ∨ token.type = AKO_TT_IDENT) then .ok (.error ())
    else
      (parser.read token.value_string).bind (fun key =>
        (ako_elem_table_get elem key).bind (fun e => .ok (.ok e)))

/-- The loop of `ako_elem_get` over the tokens of the path, from the element `elem`:
`none` is the `NULL` returned at `giveup`, or a lookup that found nothing at the last
token. -/
def elem_get_loop : List token_t → ako_elem_t → Outcome (Option ako_elem_t)
  | [], _ => .ok none
  | token :: rest, elem =>
    if token.type ≠ AKO_TT_IDENT ∧ token.type ≠ AKO_TT_STRING ∧ token.type ≠ AKO_TT_DOT
        ∧ token.type ≠ AKO_TT_INT then .ok none
    else
      match rest with
      | [] =>
        (elem_get_step elem token).bind (fun r =>
          match r with
          | .error _ => .ok none
          | .ok e => .ok e)
      | dot :: rest2 =>
        (elem_get_step elem token).bind (fun r =>
          match r with
          | .error _ => .ok none
          | .ok none => .ok none
          | .ok (some e) =>
            if dot.type ≠ AKO_TT_DOT then .ok none
            else elem_get_loop rest2 e)

/-- The function `ako_elem_get`: the path is split by `ako_tokenize`, called with the
address of the local `elem` as the place of its message (the call in `elem.c` names a third
argument, which the `ako_tokenize` of `lex/token.h` does not take; the embedding calls the
lexer of `lex/tokenizer.c`). `elem` is declared without a value, so it holds one only when
the lexer has stored to it, and that value is null: then the test `elem != NULL` fails and
the tokens are walked. When the lexer has not stored to it, the test reads a variable that
was never written. -/
def ako_elem_get (root : ako_elem_t) (path : List Char) : Outcome (Option ako_elem_t) :=
  (ako_tokenize_err path).bind (fun r =>
    if r.2 then elem_get_loop r.1 root else .abort .uninitialised)

/-! ## The growable list (`mem/dyn_array.c`) and the containers in memory -/

/-- The struct `dyn_array_t` with elements of type `α`. The block `internal.data` is kept as
its element slots, `none` for a slot that was never written; a null block has no slot. The
allocator is taken to succeed, and the products `element_size * new_size` to stay below
`SIZE_MAX`. -/
structure dyn_array_t (α : Type) where
  data : List (Option α)
  element_size : Nat
  total_size : Nat
  size : Nat

/-- The function `dyn_array_resize`: `ako_malloc` for a null block, else `ako_realloc`,
which keeps the slots of the old block. -/
def dyn_array_resize {α : Type} (array : dyn_array_t α) (new_size : Nat) :
    Outcome (dyn_array_t α) :=
  if array.element_size = 0 then .abort .assertion
  else if new_size < array.total_size then .abort .assertion
  else
    .ok { array with
      data := (array.data ++ List.replicate new_size none).take new_size
      total_size := new_size }

/-- The function `dyn_array_create`. -/
def dyn_array_create (α : Type) (element_size : Nat) : Outcome (dyn_array_t α) :=
  dyn_array_resize ⟨[], element_size, 0, 0⟩ 10

/-- The function `dyn_array_append`: the block is doubled when it is full, then the element
is copied to the slot `size`. A slot outside the block would be a write past its end. -/
def dyn_array_append {α : Type} (array : dyn_array_t α) (data : α) (size : Nat) :
    Outcome (dyn_array_t α) :=
  if array.element_size ≠ size then .abort .assertion
  else if array.element_size = 0 then .abort .assertion
  else if ¬ size > 0 then .abort .assertion
  else
    (if array.size + 1 > array.total_size then dyn_array_resize array (array.total_size * 2)
      else .ok array).bind (fun array =>
        if array.size < array.data.length then
          .ok { array with data := array.data.set array.size (some data), size := array.size + 1 }
        else .abort .heapOverflow)

/-- The function `dyn_array_get`, followed by the read of the element it points to. -/
def dyn_array_get {α : Type} (array : dyn_array_t α) (index : Nat) : Outcome α :=
  if ¬ array.size > index then .abort .assertion
  else
    match array.data[index]? with
    | some (some x) => .ok x
    | _ => .abort .heapOverflow

/-- The array holds the elements `xs`: the block has `total_size` slots, at least one, and
its first `size` slots are the elements of `xs` in order. This is the state of an array made
by `dyn_array_create` and `dyn_array_append`. -/
def dyn_array_t.holds {α : Type} (array : dyn_array_t α) (xs : List α) : Prop :=
  array.element_size ≠ 0 ∧ 0 < array.total_size ∧ array.data.length = array.total_size
    ∧ array.size = xs.length ∧ xs.length ≤ array.total_size
    ∧ ∀ (i : Nat) (x : α), xs[i]? = some x → array.data[i]? = some (some x)

namespace mem

/-- The size `sizeof(elem_t)`: the union of `table_elem_t` (two pointers) and `array_elem_t`
(one pointer), with pointers of 8 bytes. -/
def sizeof_elem_t : Nat := 16

/-- A table in memory: the member `a` of an element of type `AT_TABLE`, its entries the key
text and the value the entry points to. -/
abbrev table_t (V : Type) := dyn_array_t (List Char × V)

/-- The call `ako_elem_create(AT_TABLE)`: `ako_elem_set_type` makes the list with
`dyn_array_create(sizeof(elem_t))`. -/
def ako_elem_create_table (V : Type) : Outcome (table_t V) :=
  dyn_array_create (List Char × V) sizeof_elem_t

/-- The function `ako_elem_table_add` on a table in memory. -/
def ako_elem_table_add {V : Type} (table : table_t V) (key : List Char) (value : V) :
    Outcome (table_t V) :=
  dyn_array_append table (key, value) sizeof_elem_t

/-- The function `ako_elem_table_get_length` on a table in memory. -/
def ako_elem_table_get_length {V : Type} (table : table_t V) : Nat := table.size

/-- The function `ako_elem_table_get_key_at` on a table in memory. -/
def ako_elem_table_get_key_at {V : Type} (table : table_t V) (index : Nat) :
    Outcome (List Char) :=
  (dyn_array_get table index).bind (fun e => .ok e.1)

/-- The function `ako_elem_table_get_value_at` on a table in memory. -/
def ako_elem_table_get_value_at {V : Type} (table : table_t V) (index : Nat) : Outcome V :=
  (dyn_array_get table index).bind (fun e => .ok e.2)

/-- The loop of `ako_table_find` from the index `i`, with `n` iterations left: the first
entry whose key compares equal, or `none` for `NULL`. -/
def table_find_loop {V : Type} (table : table_t V) (key : List Char) :
    Nat → Nat → Outcome (Option (List Char × V))
  | 0, _ => .ok none
  | n + 1, i =>
    (dyn_array_get table i).bind (fun e =>
      if e.1 = key then .ok (some e) else table_find_loop table key n (i + 1))

/-- The function `ako_table_find` on a table in memory. -/
def ako_table_find {V : Type} (table : table_t V) (key : List Char) :
    Outcome (Option (List Char × V)) :=
  table_find_loop table key table.size 0

/-- The function `ako_elem_table_get` on a table in memory. -/
def ako_elem_table_get {V : Type} (table : table_t V) (key : List Char) : Outcome (Option V) :=
  (ako_table_find table key).bind (fun r => .ok (r.map (·.2)))

/-- The table holds the entries `xs`: its list was made for elements of `sizeof(elem_t)`
bytes and holds `xs`. -/
def is_table {V : Type} (table : table_t V) (xs : List (List Char × V)) : Prop :=
  table.element_size = sizeof_elem_t ∧ table.holds xs

/-- One call of `ako_elem_table_add` for each pair, in order, from the table `t`. -/
def table_adds {V : Type} (t : Outcome (table_t V)) :
    List (List Char × V) → Outcome (table_t V)
  | [] => t
  | kv :: rest => table_adds (t.bind (fun t => ako_elem_table_add t kv.1 kv.2)) rest

/-- The table made by `ako_elem_create(AT_TABLE)` and one `ako_elem_table_add` for each
pair, in order. -/
def table_of {V : Type} (kvs : List (List Char × V)) : Outcome (table_t V) :=
  table_adds (ako_elem_create_table V) kvs

end mem

/-! ## Removal, and the element in memory (`mem/dyn_array.c`, `elem.c`) -/

/-- The function `dyn_array_remove`: `memmove` copies the `size - index - 1` slots after
`index` one place down, and `size` is decremented; the slot that was the last one keeps its
content. A slot outside the block would be an access past its end. -/
def dyn_array_remove {α : Type} (array : dyn_array_t α) (index : Nat) :
    Outcome (dyn_array_t α) :=
  if ¬ array.size > index then .abort .assertion
  else if array.data.length < array.size then .abort .heapOverflow
  else
    let bytes_to_move := array.size - index - 1
    .ok { array with
      data :=
        if index < array.size - 1 then
          array.data.take index ++ (array.data.drop (index + 1)).take bytes_to_move
            ++ array.data.drop (index + bytes_to_move)
        else array.data
      size := array.size - 1 }

/-- The enumeration `ako_type_t`. -/
inductive ako_type_t where
  | AT_NULL
  | AT_STRING
  | AT_INT
  | AT_FLOAT
  | AT_SHORTTYPE
  | AT_BOOL
  | AT_TABLE
  | AT_ARRAY
  | AT_ERROR
  deriving DecidableEq, Repr

/-- The macro `IS_TABLE_OR_ARRAY`. -/
def IS_TABLE_OR_ARRAY (type : ako_type_t) : Bool :=
  decide (type = .AT_TABLE) || decide (type = .AT_ARRAY)

namespace mem

/-- An array in memory: the member `a` of an element of type `AT_ARRAY`, its items the
elements the slots point to. -/
abbrev array_t (V : Type) := dyn_array_t V

/-- The function `ako_elem_array_get` on an array in memory. -/
def ako_elem_array_get {V : Type} (array : array_t V) (index : Nat) : Outcome V :=
  if ¬ index < array.size then .abort .assertion
  else dyn_array_get array index

/-- The function `ako_elem_array_get_length` on an array in memory. -/
def ako_elem_array_get_length {V : Type} (array : array_t V) : Nat := array.size

/-- The function `ako_elem_array_remove` on an array in memory. The call of
`ako_elem_destroy` frees the removed item and leaves the list alone. -/
def ako_elem_array_remove {V : Type} (array : array_t V) (index : Nat) :
    Outcome (array_t V) :=
  if ¬ index < array.size then .abort .assertion
  else (dyn_array_get array index).bind (fun _ => dyn_array_remove array index)

/-- The loop of `ako_elem_table_remove` from the index `i`, with `n` iterations left: the
loop has no `break`, so `elem_idx` ends as the index of the last entry whose key compares
equal; `none` stands for `elem == NULL`. -/
def table_remove_loop {V : Type} (table : table_t V) (key : List Char) :
    Nat → Nat → Option Nat → Outcome (Option Nat)
  | 0, _, elem_idx => .ok elem_idx
  | n + 1, i, elem_idx =>
    (dyn_array_get table i).bind (fun e =>
      table_remove_loop table key n (i + 1) (if e.1 = key then some i else elem_idx))

/-- The function `ako_elem_table_remove` on a table in memory. The key and the value of
the entry found are freed, and the entry is taken out of the list. -/
def ako_elem_table_remove {V : Type} (table : table_t V) (key : List Char) :
    Outcome (table_t V) :=
  (table_remove_loop table key table.size 0 none).bind (fun r =>
    match r with
    | some elem_idx => dyn_array_remove table elem_idx
    | none => .ok table)

/-- The function `ako_elem_table_contains` on a table in memory. -/
def ako_elem_table_contains {V : Type} (table : table_t V) (key : List Char) : Outcome Bool :=
  (ako_table_find table key).bind (fun r => .ok r.isSome)

/-- The array holds the items `xs`. -/
def is_array {V : Type} (array : array_t V) (xs : List V) : Prop :=
  array.element_size = sizeof_elem_t ∧ array.holds xs

/-- The anonymous union of `ako_elem_t` in memory, by what its bytes hold: all zero (after
`memset`), the address of a heap copy of a text (member `str`), an integer (member `i`), a
double (member `f`), or a list of children (member `a`). -/
inductive union_t (E : Type) where
  | zero
  | str (s : List Char)
  | i (n : ako_int)
  | f (x : ako_float)
  | a (d : dyn_array_t E)

/-- The struct `ako_elem` in memory: the tag and the union. -/
structure ako_elem (E : Type) where
  type : ako_type_t
  u : union_t E

/-- The tag and the union agree about the children: the union holds a list exactly when
the type is `AT_TABLE` or `AT_ARRAY`. Every element made by `ako_elem_create` and changed
through the setters is in this state. -/
def ako_elem.wf {E : Type} (elem : ako_elem E) : Prop :=
  match elem.u with
  | .a _ => IS_TABLE_OR_ARRAY elem.type = true
  | _ => IS_TABLE_OR_ARRAY elem.type = false

/-- The function `dyn_array_destroy` on the member `a`, followed by
`elem->a = (dyn_array_t){0}`: the block is freed when the pointer is not null, and the union
is all zero afterwards. When the union holds a number, its bits are freed as an address. -/
def destroy_a {E : Type} (u : union_t E) : Outcome (union_t E) :=
  match u with
  | .a _ => .ok .zero
  | .zero => .ok .zero
  | .str _ => .ok .zero
  | .i n => if n % 2 ^ 64 = 0 then .ok .zero else .abort .unionMisuse
  | .f x => if x.bits % 2 ^ 64 = 0 then .ok .zero else .abort .unionMisuse

/-- The function `ako_elem_set_type`. The children of a container that becomes a scalar
are not visited: only the block of the list is freed. -/
def ako_elem_set_type {E : Type} (elem : ako_elem E) (new_type : ako_type_t) :
    Outcome (ako_elem E) :=
  if elem.type = new_type then .ok elem
  else
    let elem_is_table_array := IS_TABLE_OR_ARRAY elem.type
    let new_type_is_table_array := IS_TABLE_OR_ARRAY new_type
    if elem_is_table_array ∧ ¬ new_type_is_table_array then
      (destroy_a elem.u).bind (fun u => .ok ⟨new_type, u⟩)
    else if ¬ elem_is_table_array ∧ new_type_is_table_array then
      (dyn_array_create E sizeof_elem_t).bind (fun a => .ok ⟨new_type, .a a⟩)
    else .ok ⟨new_type, elem.u⟩

/-- The function `ako_elem_create`: the struct is zeroed, so its type is `AT_NULL`, and
then the type is set. -/
def ako_elem_create (E : Type) (type : ako_type_t) : Outcome (ako_elem E) :=
  ako_elem_set_type ⟨.AT_NULL, .zero⟩ type

/-- The lines `if (elem->str != NULL) ako_free((void*)elem->str)` of
`ako_elem_set_string`: the union is read as an address. All-zero bits are the null pointer;
the address of a heap text, or of the block of a list, is freed; the bits of a number that
is not zero are no address that `ako_malloc` returned. -/
def free_str {E : Type} (u : union_t E) : Outcome Unit :=
  match u with
  | .zero => .ok ()
  | .str _ => .ok ()
  | .a _ => .ok ()
  | .i n => if n % 2 ^ 64 = 0 then .ok () else .abort .unionMisuse
  | .f x => if x.bits % 2 ^ 64 = 0 then .ok () else .abort .unionMisuse

/-- The function `ako_elem_set_null`. -/
def ako_elem_set_null {E : Type} (elem : ako_elem E) : Outcome (ako_elem E) :=
  ako_elem_set_type elem .AT_NULL

/-- The function `ako_elem_set_string`. -/
def ako_elem_set_string {E : Type} (elem : ako_elem E) (str : List Char) :
    Outcome (ako_elem E) :=
  (ako_elem_set_type elem .AT_STRING).bind (fun elem =>
    (free_str elem.u).bind (fun _ => .ok { elem with u := .str str }))

/-- The function `ako_elem_set_int`. -/
def ako_elem_set_int {E : Type} (elem : ako_elem E) (value : ako_int) :
    Outcome (ako_elem E) :=
  (ako_elem_set_type elem .AT_INT).bind (fun elem => .ok { elem with u := .i value })

/-- The function `ako_elem_set_float`. -/
def ako_elem_set_float {E : Type} (elem : ako_elem E) (value : ako_float) :
    Outcome (ako_elem E) :=
  (ako_elem_set_type elem .AT_FLOAT).bind (fun elem => .ok { elem with u := .f value })

/-- The function `ako_elem_set_shorttype`. -/
def ako_elem_set_shorttype {E : Type} (elem : ako_elem E) (str : List Char) :
    Outcome (ako_elem E) :=
  (ako_elem_set_type elem .AT_SHORTTYPE).bind (fun elem => .ok { elem with u := .str str })

/-- The function `ako_elem_set_bool`. -/
def ako_elem_set_bool {E : Type} (elem : ako_elem E) (value : Bool) :
    Outcome (ako_elem E) :=
  (ako_elem_set_type elem .AT_BOOL).bind (fun elem =>
    .ok { elem with u := .i (if value then 1 else 0) })

/-- The function `ako_elem_get_type`. -/
def ako_elem_get_type {E : Type} (elem : ako_elem E) : ako_type_t := elem.type

/-- The member `str` read as the text it points to. -/
def read_str {E : Type} (u : union_t E) : Outcome (List Char) :=
  match u with
  | .str s => .ok s
  | .zero => .abort .nullDeref
  | _ => .abort .unionMisuse

/-- The member `i` read as an integer; an address has no value the program fixes. -/
def read_i {E : Type} (u : union_t E) : Outcome ako_int :=
  match u with
  | .i n => .ok n
  | .zero => .ok 0
  | .f x => .ok ((Int.ofNat (x.bits % 2 ^ 64) + 2 ^ 63) % 2 ^ 64 - 2 ^ 63)
  | _ => .abort .unionMisuse

/-- The function `ako_elem_get_string`, as the text the returned pointer points to. -/
def ako_elem_get_string {E : Type} (elem : ako_elem E) : Outcome (List Char) :=
  if ¬ (elem.type = .AT_STRING ∨ elem.type = .AT_ERROR) then .abort .assertion
  else read_str elem.u

/-- The function `ako_elem_get_int`. -/
def ako_elem_get_int {E : Type} (elem : ako_elem E) : Outcome ako_int :=
  if elem.type ≠ .AT_INT then .abort .assertion
  else read_i elem.u

/-- The function `ako_elem_get_shorttype`, as the text the returned pointer points to. -/
def ako_elem_get_shorttype {E : Type} (elem : ako_elem E) : Outcome (List Char) :=
  if elem.type ≠ .AT_SHORTTYPE then .abort .assertion
  else read_str elem.u

/-- The function `ako_elem_get_bool`. -/
def ako_elem_get_bool {E : Type} (elem : ako_elem E) : Outcome Bool :=
  if elem.type ≠ .AT_BOOL then .abort .assertion
  else (read_i elem.u).bind (fun i => .ok (if i = 0 then false else true))

/-- The function `ako_elem_create_int`. -/
def ako_elem_create_int (E : Type) (value : ako_int) : Outcome (ako_elem E) :=
  (ako_elem_create E .AT_INT).bind (fun elem => ako_elem_set_int elem value)

/-- The function `ako_elem_create_bool`. -/
def ako_elem_create_bool (E : Type) (value : Bool) : Outcome (ako_elem E) :=
  (ako_elem_create E .AT_BOOL).bind (fun elem => ako_elem_set_bool elem value)

/-- The children of an element in memory, when its union holds a list. -/
def children {E : Type} (elem : ako_elem E) : Option (dyn_array_t E) :=
  match elem.u with
  | .a d => some d
  | _ => none

end mem

/-! ## Vocabulary of the claims -/

/-- The text a token points to through `value_string`, empty when the union holds a
number. -/
def token_text (t : token_t) : List Char :=
  match t.value with
  | .string s => s
  | _ => []

/-- A number token as the lexer makes it: an `Int` token holding an integer or a `Float`
token holding a float. -/
def is_number_token (t : token_t) : Bool :=
  match t.type, t.value with
  | AKO_TT_INT, .int _ => true
  | AKO_TT_FLOAT, .float _ => true
  | _, _ => false

/-- The element a number token denotes. -/
def number_of_token (t : token_t) : ako_elem_t :=
  match t.type, t.value with
  | AKO_TT_INT, .int n => AT_INT n
  | _, .float f => AT_FLOAT f
  | _, _ => AT_NULL

/-- An identifier token as the lexer makes it. -/
def is_ident_token (t : token_t) : Bool :=
  match t.type, t.value with
  | AKO_TT_IDENT, .string _ => true
  | _, _ => false

/-- A key token as the lexer makes it: an identifier or a string. -/
def is_key_token (t : token_t) : Bool :=
  match t.type, t.value with
  | AKO_TT_IDENT, .string _ => true
  | AKO_TT_STRING, .string _ => true
  | _, _ => false

/-- The tokens of a literal made of items joined by separators: the first item, then each
separator with the item after it. -/
def joined : token_t → List (token_t × token_t) → List token_t
  | first, [] => [first]
  | first, p :: more => first :: p.1 :: joined p.2 more

/-- The texts of identifiers joined by dots. -/
def dotted_text : token_t → List (token_t × token_t) → List Char
  | first, [] => token_text first
  | first, p :: more => token_text first ++ ['.'] ++ dotted_text p.2 more

/-- The claim's reading of a dotted key `k.k2.….kn` with value `v` in a table with the
entries `a`: walk the keys before the last from the table, create an empty table for each
missing one (appended) and reuse the table of the first entry with the key when there is
one, then append `(kn, v)` to the table reached. `none` when an entry on the way holds a
value that is not a table. -/
def insert_dotted : List (List Char × ako_elem_t) → List Char → List (List Char) →
    ako_elem_t → Option (List (List Char × ako_elem_t))
  | a, k, [], v => some (a ++ [(k, v)])
  | a, k, k2 :: ks, v =>
    match ako_table_find a k with
    | none => (insert_dotted [] k2 ks v).map (fun sub => a ++ [(k, AT_TABLE sub)])
    | some i =>
      match a[i]? with
      | some (_, AT_TABLE sub) =>
        (insert_dotted sub k2 ks v).map (fun sub2 => a.set i (k, AT_TABLE sub2))
      | _ => none

/-- A `key value` pair of a source with a simple key: the key token, the tokens of the
value, and the element they denote. -/
structure kv_item where
  key : token_t
  value_tokens : List token_t
  value : ako_elem_t

/-- The tokens of a source made of `key value` pairs. -/
def kv_tokens : List kv_item → List token_t
  | [] => []
  | it :: rest => it.key :: it.value_tokens ++ kv_tokens rest

/-- The table entries a source made of `key value` pairs denotes, in source order. -/
def kv_entries : List kv_item → List (List Char × ako_elem_t)
  | [] => []
  | it :: rest => (token_text it.key, it.value) :: kv_entries rest

/-- The tokens that may follow a value at the top level: none, or the key of the next
entry. -/
def at_entry_start (rest : List token_t) : Bool :=
  match rest with
  | [] => true
  | t :: _ => is_key_token t

/-- A pair is well formed for the value parser `pv`: the key is an identifier or a string,
the value has tokens, the first of them not a `Dot` (the key is not dotted), and `pv`
parses them to the value, not an `Error`, whatever entry follows. -/
def kv_item.ok (pv : parser.state_t → Outcome (ako_elem_t × parser.state_t))
    (it : kv_item) : Prop :=
  is_key_token it.key = true
  ∧ it.value_tokens ≠ []
  ∧ parser.CHECK_TYPE it.value_tokens.head? AKO_TT_DOT = false
  ∧ ako_elem_is_error it.value = false
  ∧ ∀ rest, at_entry_start rest = true → pv (it.value_tokens ++ rest) = .ok (it.value, rest)

/-- A pair is well formed: `kv_item.ok` for the value production at every depth bound
that is at least the number of tokens of the value. -/
def kv_item.parses (it : kv_item) : Prop :=
  ∀ depth, it.value_tokens.length ≤ depth → it.ok (parser._parse_value depth)

mutual
/-- No node of kind `Error` in the element, itself included. -/
def error_free : ako_elem_t → Bool
  | AT_ERROR _ => false
  | AT_TABLE a => error_free_entries a
  | AT_ARRAY a => error_free_items a
  | _ => true
/-- No node of kind `Error` in the values of the entries. -/
def error_free_entries : List (List Char × ako_elem_t) → Bool
  | [] => true
  | (_, v) :: rest => error_free v && error_free_entries rest
/-- No node of kind `Error` in the items. -/
def error_free_items : List ako_elem_t → Bool
  | [] => true
  | v :: rest => error_free v && error_free_items rest
end

/-- The element is a `Table` or an `Array`. -/
def is_container : ako_elem_t → Bool
  | AT_TABLE _ => true
  | AT_ARRAY _ => true
  | _ => false

/-- What the value production may return from a state of `n` tokens: an `Error`, or an
element that holds no `Error` with fewer than `n` tokens left. -/
def val_ok (n : Nat) (r : ako_elem_t × parser.state_t) : Prop :=
  ako_elem_is_error r.1 = true ∨ (error_free r.1 = true ∧ r.2.length < n)

/-- The call returns a value that satisfies `P`, or it stops in a fault; it does not run
forever and the bound of the embedding is not used up. -/
def Outcome.sat {α : Type} (P : α → Prop) : Outcome α → Prop
  | .ok a => P a
  | .abort _ => True
  | .hang => False
  | .nofuel => False

/-- The element is a `Table`. -/
def is_table : ako_elem_t → Bool
  | AT_TABLE _ => true
  | _ => false

/-- A table that holds no `Error`. -/
def good_table (t : ako_elem_t) : Prop := is_table t = true ∧ error_free t = true

/-! ### The plain fragment, its tokens and its text -/

/-- An identifier: a letter or `_`, then letters, digits and `_`. -/
def is_identifier (k : List Char) : Bool :=
  match k with
  | [] => false
  | c :: rest => tokenizer.is_valid_id c && rest.all (fun d => isalnum d || d = '_')

/-- A byte a string payload may hold in the plain fragment: not a quote, a backslash, a
newline or a tab. -/
def plain_char (c : Char) : Bool := c ≠ '"' && c ≠ '\\' && c ≠ '\n' && c ≠ '\t'

/-- A number of the plain fragment: an `Int` in `[0, 2 ^ 31)`, or a `Float` whose `%f` text
(six decimals) is converted back to it by `strtod`. -/
def plain_number : ako_elem_t → Bool
  | AT_INT i => decide (0 ≤ i) && decide (i < 2 ^ 31)
  | AT_FLOAT f => decide (strtod (fmt_f f) = some f)
  | _ => false

mutual
/-- A value of the plain fragment: `Null`, an `Int` in `[0, 2 ^ 31)`, a `Float` whose `%f`
text is converted back to it, a `String` of plain bytes, an `Array` without items or with
two to four numbers of the fragment, or a `Table` of the fragment, which must be empty
unless `nest` is set. -/
def plain_value (nest : Bool) : ako_elem_t → Bool
  | AT_NULL => true
  | AT_INT i => decide (0 ≤ i) && decide (i < 2 ^ 31)
  | AT_FLOAT f => decide (strtod (fmt_f f) = some f)
  | AT_STRING s => s.all plain_char
  | AT_ARRAY a =>
    a.isEmpty || (decide (2 ≤ a.length) && decide (a.length ≤ 4) && a.all plain_number)
  | AT_TABLE a => (nest || a.isEmpty) && plain_entries nest a
  | _ => false
/-- Entries of the plain fragment: identifier keys and plain values. -/
def plain_entries (nest : Bool) : List (List Char × ako_elem_t) → Bool
  | [] => true
  | (k, v) :: rest => is_identifier k && plain_value nest v && plain_entries nest rest
end

/-- A token without its locations. -/
abbrev atok := token_type_t × token_value

/-- The type and union of a token. -/
def strip (t : token_t) : atok := (t.type, t.value)

/-- The token of a number, without locations. -/
def atok_number : ako_elem_t → atok
  | AT_INT i => (AKO_TT_INT, .int i)
  | AT_FLOAT f => (AKO_TT_FLOAT, .float f)
  | _ => (AKO_TT_NONE, .int 0)

/-- The tokens of the items of a vector after the first: each behind a `VectorCross`. -/
def cross_atoks : List ako_elem_t → List atok
  | [] => []
  | v :: rest => (AKO_TT_VECTORCROSS, .int 0) :: atok_number v :: cross_atoks rest

mutual
/-- The tokens of a plain value in value position, without locations. -/
def atoks_value : ako_elem_t → List atok
  | AT_INT i => [(AKO_TT_INT, .int i)]
  | AT_FLOAT f => [(AKO_TT_FLOAT, .float f)]
  | AT_STRING s => [(AKO_TT_STRING, .string s)]
  | AT_ARRAY [] => [(AKO_TT_OPEN_D_BRACE, .int 0), (AKO_TT_CLOSE_D_BRACE, .int 0)]
  | AT_ARRAY (v :: rest) => atok_number v :: cross_atoks rest
  | AT_TABLE a => (AKO_TT_OPEN_BRACE, .int 0) :: (atoks_entries a ++ [(AKO_TT_CLOSE_BRACE, .int 0)])
  | _ => []
/-- The tokens of plain entries, without locations: `;key` for a `Null`, else the key and
the value. -/
def atoks_entries : List (List Char × ako_elem_t) → List atok
  | [] => []
  | (k, AT_NULL) :: rest =>
    (AKO_TT_SEMICOLON, .int 0) :: (AKO_TT_IDENT, .string k) :: atoks_entries rest
  | (k, v) :: rest => (AKO_TT_IDENT, .string k) :: (atoks_value v ++ atoks_entries rest)
end

mutual
/-- A size of a value that bounds the nesting of tables. -/
def nest_size : ako_elem_t → Nat
  | AT_TABLE a => nest_size_entries a + 1
  | _ => 0
/-- The size of entries: one for each, and the sizes of their values. -/
def nest_size_entries : List (List Char × ako_elem_t) → Nat
  | [] => 0
  | (_, v) :: rest => nest_size v + nest_size_entries rest + 1
end

/-- What may follow an entry of a table body: nothing, the key of the next entry, the
semicolon of a `Null` entry, or the closing bracket. -/
def entry_follow (l : List token_t) : Prop :=
  match l with
  | [] => True
  | t :: _ => t.type = AKO_TT_IDENT ∨ t.type = AKO_TT_SEMICOLON ∨ t.type = AKO_TT_CLOSE_BRACE

/-- The lexer, from any state whose unread source is `src`, reaches a state whose unread
source is `rest` after adding tokens that are `new` up to their locations; the bound of the
main loop stays above the length of the unread source. -/
def LexTo (src rest : List Char) (new : List atok) : Prop :=
  ∀ (toks : List token_t) (m loc : location_t) (reg : token_value) (fuel : Nat),
    src.length < fuel →
    ∃ (toks2 : List token_t) (m2 loc2 : location_t) (reg2 : token_value) (fuel2 : Nat),
      rest.length < fuel2 ∧ toks2.map strip = new ∧
      tokenizer.tokenize_loop fuel ⟨toks, src, m, loc⟩ reg
        = tokenizer.tokenize_loop fuel2 ⟨toks ++ toks2, rest, m2, loc2⟩ reg2

/-- The separator `end` of `_serialise` as one byte. -/
def end_char (indent : List Char) : Char := if indent ≠ [] then '\n' else ' '

/-- The indentation unit `ako_serialize` derives from the flags. -/
def indent_of (flags : ako_serialize_flags_t) : List Char :=
  if ¬ flags.ASF_FORMAT then []
  else if flags.ASF_USE_SPACES then "    ".toList else ['\t']

/-! ### Tables built by insertion, and bytes that start no token -/

/-- One call of `ako_elem_table_add` for each pair, in order, from the element `t`. -/
def table_adds (t : Outcome ako_elem_t) : List (List Char × ako_elem_t) → Outcome ako_elem_t
  | [] => t
  | kv :: rest => table_adds (t.bind (fun t => ako_elem_table_add t kv.1 kv.2)) rest

/-- A byte of a source that starts no token and is not skipped: not a blank or newline, not
`#`, not one of the single-byte tokens or brackets, not the start of an identifier, no digit
and no quote (and not the byte 0, which ends a C string). A tab, a carriage return and `!`
are such bytes. -/
def starts_no_token (c : Char) : Bool :=
  !(c = ' ' || c = '\n' || c = '#' || c = '+' || c = '-' || c = ';' || c = '.' || c = '&'
    || c = '[' || c = ']' || tokenizer.is_valid_id c || isdigit c || c = '"'
    || c = Char.ofNat 0)

/-! ### The text of the serializer, numeric runs and comments -/

/-- A text that is none of the three value-first marks: it begins with a digit, or it has
at least two bytes. -/
def not_mark (s : List Char) : Prop :=
  (∃ c tl, s = c :: tl ∧ isdigit c = true) ∨ 2 ≤ s.length

/-- The claim's reading of one table entry: the mark and the key for a `Bool` or a `Null`,
else the key, one space and the text of the value. -/
def entry_text (key : List Char) (value : ako_elem_t) (text : List Char) : List Char :=
  match value with
  | AT_BOOL true => '+' :: key
  | AT_BOOL false => '-' :: key
  | AT_NULL => ';' :: key
  | _ => key ++ ' ' :: text

/-- The indentation of depth `d`: `d` copies of the unit. -/
def indent_at (unit : List Char) (d : Nat) : List Char := (List.replicate d unit).flatten

/-- The element is a number: an `Int` or a `Float`. -/
def is_number : ako_elem_t → Bool
  | AT_INT _ => true
  | AT_FLOAT _ => true
  | _ => false

/-- The claims' reading of the text of a number: an `Int` through `%d`, a `Float` through
`%f`. -/
def number_text : ako_elem_t → List Char
  | AT_INT i => fmt_d i
  | AT_FLOAT f => fmt_f f
  | _ => []

/-- The claims' reading of a vector: the texts of its numbers joined by `x`. -/
def vector_text : List ako_elem_t → List Char
  | [] => []
  | v :: rest => number_text v ++ (if rest.isEmpty then [] else 'x' :: vector_text rest)

/-- The text of the items of a vector after the first: each behind an `x`. -/
def cross_text : List ako_elem_t → List Char
  | [] => []
  | v :: rest => 'x' :: (number_text v ++ cross_text rest)

/-- The claims' reading of the text of a scalar: the mark of a `Bool` or of a `Null`, the
text of a number, a string or a short type between quotes. -/
def scalar_text : ako_elem_t → List Char
  | AT_NULL => [';']
  | AT_BOOL true => ['+']
  | AT_BOOL false => ['-']
  | AT_STRING s => '"' :: (s ++ ['"'])
  | AT_SHORTTYPE s => '"' :: (s ++ ['"'])
  | v => number_text v

mutual
/-- Every array of one to four items in the element holds numbers only, the array that is
the element itself apart when `top` is set (the top-level array is written in brackets
whatever its length). -/
def vectors_numeric (top : Bool) : ako_elem_t → Bool
  | AT_TABLE a => vectors_numeric_entries a
  | AT_ARRAY a =>
    if decide (a.length ≤ 4) && !top then a.all is_number else vectors_numeric_items a
  | _ => true
/-- The arrays of one to four items in the values of the entries hold numbers only. -/
def vectors_numeric_entries : List (List Char × ako_elem_t) → Bool
  | [] => true
  | (_, v) :: rest => vectors_numeric false v && vectors_numeric_entries rest
/-- The arrays of one to four items in the items hold numbers only. -/
def vectors_numeric_items : List ako_elem_t → Bool
  | [] => true
  | v :: rest => vectors_numeric false v && vectors_numeric_items rest
end

mutual
/-- The claims' reading of the layout of a value written at depth `d`, with the indentation
unit `unit` and the separator `sep`: a nested table is `[`, the separator, its entries at
depth `d + 1`, `d` copies of the unit and `]`; a table or an array without entries is `[]`
or `[[]]`; an array of one to four items is a vector; an array of more items is laid out
like a table, between `[[` and `]]`, its items at depth `d + 1`. -/
def layout_value (unit : List Char) (sep : Char) (d : Nat) : ako_elem_t → List Char
  | AT_TABLE a =>
    if a.isEmpty then ['[', ']']
    else '[' :: sep :: (layout_entries unit sep (d + 1) a ++ indent_at unit d ++ [']'])
  | AT_ARRAY a =>
    if a.isEmpty then ['[', '[', ']', ']']
    else if a.length ≤ 4 then vector_text a
    else '[' :: '[' :: sep :: (layout_items unit sep (d + 1) a ++ indent_at unit d ++ [']', ']'])
  | v => scalar_text v
/-- The layout of the entries of a table at depth `d`: each entry on its own, after `d`
copies of the unit and before the separator. -/
def layout_entries (unit : List Char) (sep : Char) (d : Nat) :
    List (List Char × ako_elem_t) → List Char
  | [] => []
  | (k, v) :: rest =>
    indent_at unit d ++ entry_text k v (layout_value unit sep d v)
      ++ sep :: layout_entries unit sep d rest
/-- The layout of the items of an array in brackets at depth `d`. -/
def layout_items (unit : List Char) (sep : Char) (d : Nat) : List ako_elem_t → List Char
  | [] => []
  | v :: rest =>
    indent_at unit d ++ layout_value unit sep d v ++ sep :: layout_items unit sep d rest
end

mutual
/-- No key and no string payload of the element holds the byte `c`. -/
def payload_free (c : Char) : ako_elem_t → Bool
  | AT_STRING s => !s.contains c
  | AT_SHORTTYPE s => !s.contains c
  | AT_TABLE a => payload_free_entries c a
  | AT_ARRAY a => payload_free_items c a
  | _ => true
/-- No key and no string payload of the entries holds the byte `c`. -/
def payload_free_entries (c : Char) : List (List Char × ako_elem_t) → Bool
  | [] => true
  | (k, v) :: rest => !k.contains c && payload_free c v && payload_free_entries c rest
/-- No key and no string payload of the items holds the byte `c`. -/
def payload_free_items (c : Char) : List ako_elem_t → Bool
  | [] => true
  | v :: rest => payload_free c v && payload_free_items c rest
end

/-- The bytes the serializer writes of its own when the indentation is empty: those of the
numbers (digits, sign, point, the letters of `inf` and `nan`), the marks, the quote, the
brackets, the `x` of a vector and the space. -/
def flat_char (c : Char) : Bool :=
  isdigit c || c = '-' || c = '.' || c = 'i' || c = 'n' || c = 'f' || c = 'a'
    || c = '+' || c = ';' || c = '"' || c = '[' || c = ']' || c = 'x' || c = ' '

/-- A byte of a numeric run, as `count_number` takes it: a decimal digit or a dot. -/
def number_char (c : Char) : Bool := isdigit c || c = '.'

/-- The unread source after a numeric run that is one literal: it is empty, or it starts
with a byte that is no digit and no dot, and not the `x` that joins the items of a vector. -/
def number_end (tail : List Char) : Bool :=
  match tail with
  | [] => true
  | b :: _ => !(isdigit b || b = '.' || b = 'x')

/-- The unread source after a numeric run: it is empty, or it starts with a byte that is no
digit and no dot. -/
def number_stop (tail : List Char) : Bool :=
  match tail with
  | [] => true
  | b :: _ => !(isdigit b || b = '.')

/-- A byte inside a comment that the comment loop passes over: not a newline, not a tab,
and not the byte 0 (which ends a C string). -/
def comment_char (c : Char) : Bool := !(c = '\n' || c = '\t' || c = Char.ofNat 0)

/-- The tokens of a source without their locations: the types and payloads. -/
def token_kinds (source : List Char) : Outcome (List atok) :=
  (ako_tokenize source).bind (fun ts => .ok (ts.map strip))

/-! ### Keys, positions, sources without tokens, short-type texts -/

mutual
/-- Every key of every table in the element is non-empty. -/
def keys_nonempty : ako_elem_t → Bool
  | AT_TABLE a => keys_nonempty_entries a
  | AT_ARRAY a => keys_nonempty_items a
  | _ => true
/-- The keys of the entries, and of the tables in their values, are non-empty. -/
def keys_nonempty_entries : List (List Char × ako_elem_t) → Bool
  | [] => true
  | (k, v) :: rest => !k.isEmpty && keys_nonempty v && keys_nonempty_entries rest
/-- The keys of the tables in the items are non-empty. -/
def keys_nonempty_items : List ako_elem_t → Bool
  | [] => true
  | v :: rest => keys_nonempty v && keys_nonempty_items rest
end

/-- The token is not an `Identifier` token with an empty text. -/
def nonempty_ident (t : token_t) : Bool :=
  !(decide (t.type = AKO_TT_IDENT) && decide (t.value = .string []))

/-- A `String` token with an empty text: the literal `""`. -/
def is_empty_literal (t : token_t) : Bool :=
  decide (t.type = AKO_TT_STRING) && decide (t.value = .string [])

/-- The number of empty string literals among the tokens. -/
def empty_literals (ts : List token_t) : Nat := ts.countP is_empty_literal

mutual
/-- The number of `String` values with an empty payload in the element, at any depth. -/
def empty_strings : ako_elem_t → Nat
  | AT_STRING s => if s.isEmpty then 1 else 0
  | AT_TABLE a => empty_strings_entries a
  | AT_ARRAY a => empty_strings_items a
  | _ => 0
/-- The number of `String` values with an empty payload in the values of the entries. -/
def empty_strings_entries : List (List Char × ako_elem_t) → Nat
  | [] => 0
  | (_, v) :: rest => empty_strings v + empty_strings_entries rest
/-- The number of `String` values with an empty payload in the items. -/
def empty_strings_items : List ako_elem_t → Nat
  | [] => 0
  | v :: rest => empty_strings v + empty_strings_items rest
end

/-- The tokens that `ako_parse_tokens` leaves unread: the root production returns the
element and the state, and `ako_parse_tokens` returns the element alone. -/
def unread_tokens (tokens : List token_t) : Outcome (List token_t) :=
  match tokens with
  | [] => .ok []
  | peeked :: _ =>
    if peeked.type = AKO_TT_OPEN_D_BRACE then
      (parser._parse_array (parser._parse_value tokens.length) tokens).bind
        (fun r => .ok r.2)
    else
      (parser._parse_table (parser._parse_value tokens.length) tokens
        (decide (peeked.type ≠ AKO_TT_OPEN_BRACE))).bind (fun r => .ok r.2)

/-- What a production returns from the tokens `s`, for the count of the empty literals:
no `Identifier` token left is empty, and, when the element is no `Error`, its empty strings
and the empty literals left are no more than the empty literals of `s`, and as many exactly
when every key of the element is non-empty. -/
def val_inv (s : parser.state_t) (r : ako_elem_t × parser.state_t) : Prop :=
  r.2.all nonempty_ident = true
  ∧ (ako_elem_is_error r.1 = false →
      empty_strings r.1 + empty_literals r.2 ≤ empty_literals s
      ∧ (keys_nonempty r.1 = true ↔ empty_strings r.1 + empty_literals r.2 = empty_literals s))

/-- When the call returns, the value satisfies `P`; nothing is said when it does not
return. -/
def Outcome.wsat {α : Type} (P : α → Prop) : Outcome α → Prop
  | .ok a => P a
  | _ => True

/-- The claim's position of the byte that follows the bytes `pre` of a source: the line is
one more than the number of newlines in `pre`, the column one more than the number of bytes
after the last newline of `pre`, and the index the number of bytes of `pre`. -/
def position_of (pre : List Char) : location_t :=
  ⟨1 + pre.count '\n', 1 + (pre.reverse.takeWhile (fun c => c ≠ '\n')).length, pre.length⟩

/-- A source of blanks, newlines and comments only, read from the start (`in_comment`
false) or from inside a comment: a comment runs from `#` to the next newline, and holds no
tab and no zero byte. -/
def blank_or_comment : Bool → List Char → Bool
  | _, [] => true
  | false, c :: rest =>
    if c = ' ' ∨ c = '\n' then blank_or_comment false rest
    else if c = '#' then blank_or_comment true rest
    else false
  | true, c :: rest =>
    if c = '\n' then blank_or_comment false rest
    else if c = '\t' ∨ c = Char.ofNat 0 then false
    else blank_or_comment true rest

/-- The parts of a text between its dots: `a.b` has the parts `a` and `b`, and `a.` the
parts `a` and the empty text. -/
def dot_parts : List Char → List (List Char)
  | [] => [[]]
  | c :: rest =>
    if c = '.' then [] :: dot_parts rest
    else
      match dot_parts rest with
      | [] => [[c]]
      | p :: ps => (c :: p) :: ps

/-- The claim's well-formed short-type text: identifiers separated by single dots, with no
dot at either end. -/
def dotted_identifiers (s : List Char) : Bool := (dot_parts s).all is_identifier

/-- A token in front of which the lexer has called `parse_digit`: a number or a string. -/
def stores_err (t : token_t) : Bool :=
  decide (t.type = AKO_TT_INT) || decide (t.type = AKO_TT_FLOAT)
    || decide (t.type = AKO_TT_STRING)

/-- The start positions of the tokens of a source, in order. -/
def token_starts (source : List Char) : Outcome (List location_t) :=
  (ako_tokenize source).bind (fun ts => .ok (ts.map (·.start)))

/-! ## Theorems -/

/-- C3. At the start of a source the entry `+a` stores `Bool` false under `a`, not true:
the lexer leaves the union of a `Plus` token as the previous token set it (zero at the
start), and the parser takes the Boolean from it. After a key, `-b` stores true. -/
theorem C3_value_first_bool_is_stale :
    ako_parse "+a".toList = .ok (AT_TABLE [("a".toList, AT_BOOL false)])
    ∧ ako_parse "a 1 -b".toList
        = .ok (AT_TABLE [("a".toList, AT_INT 1), ("b".toList, AT_BOOL true)]) := by
  decide!

/-! ### The value production on numbers and short types -/

theorem number_elem_of_number {t : token_t} (h : is_number_token t = true) :
    parser.number_elem t = .ok (number_of_token t) := by
  obtain ⟨ty, st, en, v⟩ := t
  cases ty <;> cases v <;> simp [is_number_token] at h <;>
    simp [parser.number_elem, parser.read, token_t.value_int, token_t.value_float,
      number_of_token, Outcome.bind]

theorem number_type_of_number {t : token_t} (h : is_number_token t = true) :
    t.type = AKO_TT_INT ∨ t.type = AKO_TT_FLOAT := by
  obtain ⟨ty, st, en, v⟩ := t
  cases ty <;> cases v <;> simp [is_number_token] at h
  all_goals simp

theorem check_type_head_false {rest : List token_t} {ty : token_type_t}
    (h : parser.CHECK_TYPE rest.head? ty = false) :
    rest = [] ∨ ∃ t tl, rest = t :: tl ∧ t.type ≠ ty := by
  cases rest with
  | nil => exact Or.inl rfl
  | cons t tl =>
    right
    refine ⟨t, tl, rfl, ?_⟩
    simpa [parser.CHECK_TYPE] using h

/-- The vector loop on a well-formed literal: the items in order when there are at most
four in all, else an error. -/
theorem parse_vector_joined (loc : location_t) (rest : List token_t)
    (hrest : parser.CHECK_TYPE rest.head? AKO_TT_VECTORCROSS = false) :
    ∀ (more : List (token_t × token_t)) (first pk : token_t) (array : List ako_elem_t),
      is_number_token first = true →
      (∀ p ∈ more, p.1.type = AKO_TT_VECTORCROSS ∧ is_number_token p.2 = true) →
      parser.parse_vector loc (joined first more ++ rest) array pk
        = if array.length + more.length + 1 > 4 then
            .ok (AT_ERROR (parser.msg_at "Vector size is greater than 4 at " loc), rest)
          else
            .ok (AT_ARRAY (array ++ number_of_token first
              :: more.map (fun p => number_of_token p.2)), rest) := by
  intro more
  induction more with
  | nil =>
    intro first pk array hf _
    have hty := number_type_of_number hf
    rcases check_type_head_false hrest with h | ⟨t, tl, h, ht⟩
    · subst h
      simp [joined, parser.parse_vector, hty, number_elem_of_number hf, Outcome.bind]
    · subst h
      simp [joined, parser.parse_vector, hty, number_elem_of_number hf, Outcome.bind, ht]
  | cons p more ih =>
    intro first pk array hf hm
    have hty := number_type_of_number hf
    have hp := hm p (List.mem_cons_self _ _)
    have hm2 : ∀ q ∈ more, q.1.type = AKO_TT_VECTORCROSS ∧ is_number_token q.2 = true :=
      fun q hq => hm q (List.mem_cons_of_mem _ hq)
    simp only [joined, List.cons_append, parser.parse_vector, hty, if_true,
      number_elem_of_number hf, Outcome.bind, hp.1, List.append_eq]
    rw [ih p.2 p.1 (array ++ [number_of_token first]) hp.2 hm2]
    simp only [List.length_append, List.length_cons, List.length_nil, List.map_cons,
      List.append_assoc, List.singleton_append]
    have e : array.length + (0 + 1) + more.length + 1 = array.length + (more.length + 1) + 1 := by
      omega
    rw [e]

/-- The short-type loop on identifiers joined by dots: the texts joined by `.`, and the
tokens after the literal are left. -/
theorem parse_shorttype_joined (rest : List token_t)
    (hrest : parser.CHECK_TYPE rest.head? AKO_TT_DOT = false) :
    ∀ (more : List (token_t × token_t)) (first : token_t) (str : List Char),
      is_ident_token first = true →
      (∀ p ∈ more, p.1.type = AKO_TT_DOT ∧ is_ident_token p.2 = true) →
      parser.parse_shorttype (joined first more ++ rest) str
        = .ok (str ++ dotted_text first more, rest) := by
  intro more
  induction more with
  | nil =>
    intro first str hf _
    obtain ⟨ty, st, en, v⟩ := first
    cases ty <;> cases v <;> simp [is_ident_token] at hf
    rcases check_type_head_false hrest with h | ⟨t, tl, h, ht⟩
    · subst h
      simp [joined, parser.parse_shorttype, parser.read, token_t.value_string, Outcome.bind,
        dotted_text, token_text]
    · subst h
      simp [joined, parser.parse_shorttype, parser.read, token_t.value_string, Outcome.bind,
        dotted_text, token_text, ht]
  | cons p more ih =>
    intro first str hf hm
    have hp := hm p (List.mem_cons_self _ _)
    have hm2 : ∀ q ∈ more, q.1.type = AKO_TT_DOT ∧ is_ident_token q.2 = true :=
      fun q hq => hm q (List.mem_cons_of_mem _ hq)
    obtain ⟨ty, st, en, v⟩ := first
    cases ty <;> cases v <;> simp [is_ident_token] at hf
    simp only [joined, List.cons_append, parser.parse_shorttype, if_true, parser.read,
      token_t.value_string, Outcome.bind, hp.1, List.append_eq]
    rw [ih p.2 _ hp.2 hm2]
    simp [dotted_text, token_text]

theorem parse_value_vector (depth : Nat) (first : token_t)
    (more : List (token_t × token_t)) (rest : List token_t)
    (hfirst : is_number_token first = true)
    (hmore : ∀ p ∈ more, p.1.type = AKO_TT_VECTORCROSS ∧ is_number_token p.2 = true)
    (hn : more ≠ [])
    (hrest : parser.CHECK_TYPE rest.head? AKO_TT_VECTORCROSS = false) :
    parser._parse_value (depth + 1) (joined first more ++ rest)
      = if more.length + 1 > 4 then
          .ok (AT_ERROR (parser.msg_at "Vector size is greater than 4 at " first.start), rest)
        else
          .ok (AT_ARRAY (number_of_token first
            :: more.map (fun p => number_of_token p.2)), rest) := by
  have key := parse_vector_joined first.start rest hrest more first first [] hfirst hmore
  simp only [List.length_nil, Nat.zero_add, List.nil_append] at key
  cases more with
  | nil => exact absurd rfl hn
  | cons p more =>
    have hp := hmore p (List.mem_cons_self _ _)
    rcases number_type_of_number hfirst with h | h
    · simp only [joined, List.cons_append, parser._parse_value, h, parser.CHECK_TYPE,
        parser.peek, List.getElem?_cons_succ, List.getElem?_cons_zero, hp.1, decide_True, if_true]
      simpa [joined] using key
    · simp only [joined, List.cons_append, parser._parse_value, h, parser.CHECK_TYPE,
        parser.peek, List.getElem?_cons_succ, List.getElem?_cons_zero, hp.1, decide_True, if_true]
      simpa [joined] using key

theorem number_of_token_kind {t : token_t} (h : is_number_token t = true) :
    (∃ n, number_of_token t = AT_INT n) ∨ ∃ f, number_of_token t = AT_FLOAT f := by
  obtain ⟨ty, st, en, v⟩ := t
  cases ty <;> cases v <;> simp [is_number_token] at h <;> simp [number_of_token]

/-- C5. A vector literal in value position, `n` number tokens joined by `VectorCross`
tokens with `n ≥ 2` and no further `VectorCross` after it: the value production returns
the `Array` of the `n` numbers in source order when `n ≤ 4` and an `Error` when `n > 4`,
and leaves the tokens after the literal; so an `Array` it returns has between 2 and 4
items, each an `Int` or a `Float`. Two sources show the lexer's part. -/
theorem C5_vector_literal :
    (∀ (depth : Nat) (first : token_t) (more : List (token_t × token_t))
        (rest : List token_t),
        is_number_token first = true →
        (∀ p ∈ more, p.1.type = AKO_TT_VECTORCROSS ∧ is_number_token p.2 = true) →
        more ≠ [] →
        parser.CHECK_TYPE rest.head? AKO_TT_VECTORCROSS = false →
        (more.length + 1 ≤ 4 →
          parser._parse_value (depth + 1) (joined first more ++ rest)
            = .ok (AT_ARRAY (number_of_token first
                :: more.map (fun p => number_of_token p.2)), rest))
        ∧ (4 < more.length + 1 →
          ∃ msg, parser._parse_value (depth + 1) (joined first more ++ rest)
            = .ok (AT_ERROR msg, rest))
        ∧ (∀ a r, parser._parse_value (depth + 1) (joined first more ++ rest)
            = .ok (AT_ARRAY a, r) →
            2 ≤ a.length ∧ a.length ≤ 4
              ∧ ∀ e ∈ a, (∃ n, e = AT_INT n) ∨ ∃ f, e = AT_FLOAT f))
    ∧ ako_parse "v 1x2.5x3".toList
        = .ok (AT_TABLE [("v".toList,
            AT_ARRAY [AT_INT 1, AT_FLOAT ⟨4612811918334230528⟩, AT_INT 3])])
    ∧ ako_parse "v 1x2x3x4x5".toList
        = .ok (AT_ERROR "Vector size is greater than 4 at 1:3".toList) := by
  refine ⟨?_, by decide!, by decide!⟩
  intro depth first more rest hfirst hmore hn hrest
  have key := parse_value_vector depth first more rest hfirst hmore hn hrest
  refine ⟨?_, ?_, ?_⟩
  · intro hle
    rw [key, if_neg (by omega)]
  · intro hgt
    exact ⟨_, by rw [key, if_pos (by omega)]⟩
  · intro a r h
    rw [key] at h
    by_cases hgt : more.length + 1 > 4
    · rw [if_pos hgt] at h
      cases h
    · rw [if_neg hgt] at h
      injection h with h
      injection h with h1 h2
      injection h1 with h1
      subst h1
      have hlen : 1 ≤ more.length := by
        cases more with
        | nil => exact absurd rfl hn
        | cons _ _ => simp
      refine ⟨by simp; omega, by simp; omega, ?_⟩
      intro e he
      rcases List.mem_cons.1 he with he | he
      · subst he
        exact number_of_token_kind hfirst
      · obtain ⟨p, hp, rfl⟩ := List.mem_map.1 he
        exact number_of_token_kind (hmore p hp).2

/-- C5, at the tokens of `180x190` followed by an identifier. -/
theorem C5_vector_literal_witness :
    parser._parse_value 1
        (joined ⟨AKO_TT_INT, ⟨1, 1, 0⟩, ⟨1, 4, 3⟩, .int 180⟩
            [(⟨AKO_TT_VECTORCROSS, ⟨1, 1, 0⟩, ⟨1, 5, 4⟩, .int 0⟩,
              ⟨AKO_TT_INT, ⟨1, 1, 0⟩, ⟨1, 8, 7⟩, .int 190⟩)]
          ++ [⟨AKO_TT_IDENT, ⟨1, 9, 8⟩, ⟨1, 10, 9⟩, .string ['k']⟩])
      = .ok (AT_ARRAY [AT_INT 180, AT_INT 190],
          [⟨AKO_TT_IDENT, ⟨1, 9, 8⟩, ⟨1, 10, 9⟩, .string ['k']⟩]) :=
  (C5_vector_literal.1 0 ⟨AKO_TT_INT, ⟨1, 1, 0⟩, ⟨1, 4, 3⟩, .int 180⟩
    [(⟨AKO_TT_VECTORCROSS, ⟨1, 1, 0⟩, ⟨1, 5, 4⟩, .int 0⟩,
      ⟨AKO_TT_INT, ⟨1, 1, 0⟩, ⟨1, 8, 7⟩, .int 190⟩)]
    [⟨AKO_TT_IDENT, ⟨1, 9, 8⟩, ⟨1, 10, 9⟩, .string ['k']⟩]
    (by decide) (by decide) (by decide) (by decide)).1 (by decide)

theorem parse_value_shorttype (depth : Nat) (amp first : token_t)
    (more : List (token_t × token_t)) (rest : List token_t)
    (hamp : amp.type = AKO_TT_AND)
    (hfirst : is_ident_token first = true)
    (hmore : ∀ p ∈ more, p.1.type = AKO_TT_DOT ∧ is_ident_token p.2 = true)
    (hrest : parser.CHECK_TYPE rest.head? AKO_TT_DOT = false) :
    parser._parse_value (depth + 1) (amp :: joined first more ++ rest)
      = .ok (AT_SHORTTYPE (dotted_text first more), rest) := by
  have key := parse_shorttype_joined rest hrest more first [] hfirst hmore
  have hty : first.type = AKO_TT_IDENT := by
    obtain ⟨ty, st, en, v⟩ := first
    cases ty <;> cases v <;> simp [is_ident_token] at hfirst
    rfl
  have hj : ∃ tl, joined first more ++ rest = first :: tl := by
    cases more with
    | nil => exact ⟨_, rfl⟩
    | cons p more => exact ⟨_, rfl⟩
  obtain ⟨tl, hj⟩ := hj
  simp only [parser._parse_value, List.cons_append, hamp]
  rw [hj] at key ⊢
  simp [parser.CHECK_TYPE, parser.peek, hty, key, Outcome.bind]

/-- C8. In value position an `And` token followed by identifier tokens joined by `Dot`
tokens, with no `Dot` after the last identifier, gives a `ShortType` whose text is the
identifiers joined by `.`; the tokens after it are all left, also when the first of them is
an identifier, which then starts the next entry. The two tested sources parse as the tests
say. -/
theorem C8_short_type :
    (∀ (depth : Nat) (amp first : token_t) (more : List (token_t × token_t))
        (rest : List token_t),
        amp.type = AKO_TT_AND →
        is_ident_token first = true →
        (∀ p ∈ more, p.1.type = AKO_TT_DOT ∧ is_ident_token p.2 = true) →
        parser.CHECK_TYPE rest.head? AKO_TT_DOT = false →
        parser._parse_value (depth + 1) (amp :: joined first more ++ rest)
          = .ok (AT_SHORTTYPE (dotted_text first more), rest))
    ∧ ako_parse "mi &ku window.width 55".toList
        = .ok (AT_TABLE [("mi".toList, AT_SHORTTYPE "ku".toList),
            ("window".toList, AT_TABLE [("width".toList, AT_INT 55)])])
    ∧ ako_parse "viva &viva.happy window.width 55".toList
        = .ok (AT_TABLE [("viva".toList, AT_SHORTTYPE "viva.happy".toList),
            ("window".toList, AT_TABLE [("width".toList, AT_INT 55)])]) :=
  ⟨parse_value_shorttype, by decide!, by decide!⟩

/-- C8, at the tokens of `&viva.happy` followed by the identifier `window`. -/
theorem C8_short_type_witness :
    parser._parse_value 1
        (⟨AKO_TT_AND, ⟨1, 6, 5⟩, ⟨1, 7, 6⟩, .int 0⟩
          :: joined ⟨AKO_TT_IDENT, ⟨1, 7, 6⟩, ⟨1, 11, 10⟩, .string "viva".toList⟩
              [(⟨AKO_TT_DOT, ⟨1, 11, 10⟩, ⟨1, 12, 11⟩, .int 0⟩,
                ⟨AKO_TT_IDENT, ⟨1, 12, 11⟩, ⟨1, 17, 16⟩, .string "happy".toList⟩)]
          ++ [⟨AKO_TT_IDENT, ⟨1, 18, 17⟩, ⟨1, 24, 23⟩, .string "window".toList⟩])
      = .ok (AT_SHORTTYPE "viva.happy".toList,
          [⟨AKO_TT_IDENT, ⟨1, 18, 17⟩, ⟨1, 24, 23⟩, .string "window".toList⟩]) :=
  C8_short_type.1 0 ⟨AKO_TT_AND, ⟨1, 6, 5⟩, ⟨1, 7, 6⟩, .int 0⟩
    ⟨AKO_TT_IDENT, ⟨1, 7, 6⟩, ⟨1, 11, 10⟩, .string "viva".toList⟩
    [(⟨AKO_TT_DOT, ⟨1, 11, 10⟩, ⟨1, 12, 11⟩, .int 0⟩,
      ⟨AKO_TT_IDENT, ⟨1, 12, 11⟩, ⟨1, 17, 16⟩, .string "happy".toList⟩)]
    [⟨AKO_TT_IDENT, ⟨1, 18, 17⟩, ⟨1, 24, 23⟩, .string "window".toList⟩]
    (by decide) (by decide) (by decide) (by decide)

/-! ### Dotted keys -/

theorem table_find_spec : ∀ (a : List (List Char × ako_elem_t)) (key : List Char) (i : Nat),
    ako_table_find a key = some i → ∃ v, a[i]? = some (key, v) := by
  intro a
  induction a with
  | nil => intro key i h; simp [ako_table_find] at h
  | cons kv rest ih =>
    intro key i h
    obtain ⟨k, v⟩ := kv
    simp only [ako_table_find] at h
    by_cases hk : k = key
    · simp [hk] at h
      subst h
      exact ⟨v, by simp [hk]⟩
    · simp [hk] at h
      obtain ⟨j, hj, rfl⟩ := h
      obtain ⟨w, hw⟩ := ih key j hj
      exact ⟨w, by simpa using hw⟩

theorem elem_at_append : ∀ (p q : List Nat) (t : ako_elem_t),
    parser.elem_at t (p ++ q) = (parser.elem_at t p).bind (fun x => parser.elem_at x q) := by
  intro p
  induction p with
  | nil => intro q t; cases t <;> simp [parser.elem_at]
  | cons i p ih =>
    intro q t
    cases t <;> simp [parser.elem_at]
    rename_i a
    cases h : a[i]? with
    | none => simp
    | some kv => simp [ih]

theorem elem_at_set : ∀ (p : List Nat) (t x y : ako_elem_t),
    parser.elem_at t p = some x → parser.elem_at (parser.elem_set t p y) p = some y := by
  intro p
  induction p with
  | nil => intro t x y _; cases t <;> simp [parser.elem_at, parser.elem_set]
  | cons i p ih =>
    intro t x y h
    cases t <;> simp [parser.elem_at] at h
    rename_i a
    cases hg : a[i]? with
    | none => simp [hg] at h
    | some kv =>
      simp [hg] at h
      have hi : i < a.length := by
        rcases List.getElem?_eq_some_iff.1 hg with ⟨hi, _⟩
        exact hi
      simp [parser.elem_set, hg, parser.elem_at, List.getElem?_set, hi, ih _ _ _ h]

theorem elem_set_set : ∀ (p : List Nat) (t x y z : ako_elem_t),
    parser.elem_at t p = some x →
    parser.elem_set (parser.elem_set t p y) p z = parser.elem_set t p z := by
  intro p
  induction p with
  | nil => intro t x y z _; cases t <;> simp [parser.elem_set]
  | cons i p ih =>
    intro t x y z h
    cases t <;> simp [parser.elem_at] at h
    rename_i a
    cases hg : a[i]? with
    | none => simp [hg] at h
    | some kv =>
      simp [hg] at h
      have hi : i < a.length := by
        rcases List.getElem?_eq_some_iff.1 hg with ⟨hi, _⟩
        exact hi
      simp [parser.elem_set, hg, List.getElem?_set, hi, ih _ _ _ _ h]

theorem elem_set_append : ∀ (p q : List Nat) (t x z : ako_elem_t),
    parser.elem_at t p = some x →
    parser.elem_set t (p ++ q) z = parser.elem_set t p (parser.elem_set x q z) := by
  intro p
  induction p with
  | nil =>
    intro q t x z h
    cases t <;> simp [parser.elem_at] at h <;> subst h <;> simp [parser.elem_set]
  | cons i p ih =>
    intro q t x z h
    cases t <;> simp [parser.elem_at] at h
    rename_i a
    cases hg : a[i]? with
    | none => simp [hg] at h
    | some kv =>
      simp [hg] at h
      simp [parser.elem_set, hg, ih _ _ _ _ h]

theorem key_token_cases {t : token_t} (h : is_key_token t = true) :
    (t.type = AKO_TT_IDENT ∨ t.type = AKO_TT_STRING) ∧ t.value_string = some (token_text t) := by
  obtain ⟨ty, st, en, v⟩ := t
  cases ty <;> cases v <;> simp [is_key_token] at h
  all_goals simp [token_t.value_string, token_text]

theorem add_at_table (table : ako_elem_t) (cur : List Nat) (a : List (List Char × ako_elem_t))
    (k : List Char) (v : ako_elem_t) (h : parser.elem_at table cur = some (AT_TABLE a)) :
    parser.add_at table cur k v = .ok (parser.elem_set table cur (AT_TABLE (a ++ [(k, v)]))) := by
  simp [parser.add_at, h, ako_elem_table_add, Outcome.bind]

/-- The key loop on a dotted key, followed by the insertion of a value at the place it
reaches: together they are `insert_dotted` at `current_table`. -/
theorem key_loop_dotted (rest : List token_t)
    (hrest : parser.CHECK_TYPE rest.head? AKO_TT_DOT = false) (v : ako_elem_t) :
    ∀ (more : List (token_t × token_t)) (first : token_t) (table : ako_elem_t)
      (cur : List Nat) (a a2 : List (List Char × ako_elem_t)),
      is_key_token first = true →
      (∀ p ∈ more, p.1.type = AKO_TT_DOT ∧ is_key_token p.2 = true) →
      parser.elem_at table cur = some (AT_TABLE a) →
      insert_dotted a (token_text first) (more.map (fun p => token_text p.2)) v = some a2 →
      ∃ ks id, parser.key_loop (joined first more ++ rest) table cur = .ok ks
        ∧ ks.state = rest ∧ ks.ct_id = some id
        ∧ parser.add_at ks.table ks.current_table id v
            = .ok (parser.elem_set table cur (AT_TABLE a2)) := by
  intro more
  induction more with
  | nil =>
    intro first table cur a a2 hf _ hat hins
    obtain ⟨hty, hvs⟩ := key_token_cases hf
    simp only [List.map_nil, insert_dotted, Option.some.injEq] at hins
    subst hins
    rcases check_type_head_false hrest with h | ⟨t, tl, h, ht⟩
    · subst h
      refine ⟨⟨[], table, cur, some (token_text first)⟩, token_text first, ?_, rfl, rfl, ?_⟩
      · simp [joined, parser.key_loop, hty, hvs, parser.read, Outcome.bind]
      · exact add_at_table table cur a _ v hat
    · subst h
      refine ⟨⟨t :: tl, table, cur, some (token_text first)⟩, token_text first, ?_, rfl, rfl, ?_⟩
      · simp [joined, parser.key_loop, hty, hvs, parser.read, Outcome.bind, ht]
      · exact add_at_table table cur a _ v hat
  | cons p more ih =>
    intro first table cur a a2 hf hm hat hins
    obtain ⟨hty, hvs⟩ := key_token_cases hf
    have hp := hm p (List.mem_cons_self _ _)
    have hm2 : ∀ q ∈ more, q.1.type = AKO_TT_DOT ∧ is_key_token q.2 = true :=
      fun q hq => hm q (List.mem_cons_of_mem _ hq)
    simp only [List.map_cons, insert_dotted] at hins
    cases hfind : ako_table_find a (token_text first) with
    | none =>
      simp only [hfind, Option.map_eq_some'] at hins
      obtain ⟨sub, hsub, rfl⟩ := hins
      have hat2 : parser.elem_at
          (parser.elem_set table cur (AT_TABLE (a ++ [(token_text first, AT_TABLE [])])))
          (cur ++ [a.length]) = some (AT_TABLE []) := by
        rw [elem_at_append, elem_at_set cur table _ _ hat]
        simp only [Option.bind, parser.elem_at, List.getElem?_concat_length]
      obtain ⟨ks, id, h1, h2, h3, h4⟩ := ih p.2 _ (cur ++ [a.length]) [] sub hp.2 hm2 hat2 hsub
      refine ⟨ks, id, ?_, h2, h3, ?_⟩
      · simp only [joined, List.cons_append, parser.key_loop, hty, if_true, hvs, parser.read,
          Outcome.bind, hp.1, hat, ako_elem_table_get, hfind, add_at_table table cur a _ _ hat,
          List.append_eq]
        exact h1
      · rw [h4]
        have e1 := elem_set_append cur [a.length]
          (parser.elem_set table cur (AT_TABLE (a ++ [(token_text first, AT_TABLE [])])))
          (AT_TABLE (a ++ [(token_text first, AT_TABLE [])])) (AT_TABLE sub)
          (elem_at_set cur table (AT_TABLE a) _ hat)
        have e2 := elem_set_set cur table (AT_TABLE a)
          (AT_TABLE (a ++ [(token_text first, AT_TABLE [])]))
          (parser.elem_set (AT_TABLE (a ++ [(token_text first, AT_TABLE [])])) [a.length]
            (AT_TABLE sub)) hat
        rw [e1, e2]
        simp [parser.elem_set]
    | some i =>
      obtain ⟨w, hw⟩ := table_find_spec a _ i hfind
      simp only [hfind, hw] at hins
      cases w <;> simp only [Option.map_eq_some', reduceCtorEq] at hins
      rename_i sub
      obtain ⟨sub2, hsub, rfl⟩ := hins
      have hat2 : parser.elem_at table (cur ++ [i]) = some (AT_TABLE sub) := by
        rw [elem_at_append, hat]
        simp only [Option.bind, parser.elem_at, hw]
      obtain ⟨ks, id, h1, h2, h3, h4⟩ := ih p.2 table (cur ++ [i]) sub sub2 hp.2 hm2 hat2 hsub
      refine ⟨ks, id, ?_, h2, h3, ?_⟩
      · simp only [joined, List.cons_append, parser.key_loop, hty, if_true, hvs, parser.read,
          Outcome.bind, hp.1, hat, ako_elem_table_get, hfind, hw, Option.map_some',
          Option.getD_some, List.append_eq]
        exact h1
      · rw [h4]
        have e1 := elem_set_append cur [i] table (AT_TABLE a) (AT_TABLE sub2) hat
        rw [e1]
        simp [parser.elem_set, hw]

theorem parse_table_element_dotted (pv : parser.state_t → Outcome (ako_elem_t × parser.state_t))
    (first : token_t) (more : List (token_t × token_t)) (rest rest2 : List token_t)
    (a a2 : List (List Char × ako_elem_t)) (v : ako_elem_t)
    (hf : is_key_token first = true)
    (hm : ∀ p ∈ more, p.1.type = AKO_TT_DOT ∧ is_key_token p.2 = true)
    (hrest : parser.CHECK_TYPE rest.head? AKO_TT_DOT = false)
    (hv : pv rest = .ok (v, rest2)) (hne : ako_elem_is_error v = false)
    (hins : insert_dotted a (token_text first) (more.map (fun p => token_text p.2)) v
      = some a2) :
    parser._parse_table_element pv (joined first more ++ rest) (AT_TABLE a)
      = .ok (none, AT_TABLE a2, rest2) := by
  obtain ⟨hty, hvs⟩ := key_token_cases hf
  obtain ⟨ks, id, h1, h2, h3, h4⟩ :=
    key_loop_dotted rest hrest v more first (AT_TABLE a) [] a a2 hf hm rfl hins
  have hj : ∃ tl, joined first more ++ rest = first :: tl := by
    cases more with
    | nil => exact ⟨_, rfl⟩
    | cons p more => exact ⟨_, rfl⟩
  obtain ⟨tl, hj⟩ := hj
  rw [hj] at h1 ⊢
  rcases hty with h | h <;>
    simp [parser._parse_table_element, h, h1, Outcome.bind, h3, h2, hv, hne, h4,
      parser.elem_set]

/-- C4. A table entry that starts with the key path `k1.k2.….kn` (identifier or string
tokens joined by `Dot` tokens, no `Dot` after the last) and whose value production returns
`v`: `_parse_table_element` returns no error and leaves the table as `insert_dotted`
describes it, walking `k1 … k(n-1)` from the enclosing table, appending an empty table for
each missing key, reusing the table of the first entry with the key, and appending
`(kn, v)` to the table reached. So `a.b 1 a.c 2` gives one table `a` holding `b` and `c`,
and `window.size 180x190` gives `window` → `size` → `[180, 190]`. -/
theorem C4_dotted_keys :
    (∀ (pv : parser.state_t → Outcome (ako_elem_t × parser.state_t))
        (first : token_t) (more : List (token_t × token_t)) (rest rest2 : List token_t)
        (a a2 : List (List Char × ako_elem_t)) (v : ako_elem_t),
        is_key_token first = true →
        (∀ p ∈ more, p.1.type = AKO_TT_DOT ∧ is_key_token p.2 = true) →
        parser.CHECK_TYPE rest.head? AKO_TT_DOT = false →
        pv rest = .ok (v, rest2) →
        ako_elem_is_error v = false →
        insert_dotted a (token_text first) (more.map (fun p => token_text p.2)) v = some a2 →
        parser._parse_table_element pv (joined first more ++ rest) (AT_TABLE a)
          = .ok (none, AT_TABLE a2, rest2))
    ∧ ako_parse "a.b 1 a.c 2".toList
        = .ok (AT_TABLE [("a".toList,
            AT_TABLE [("b".toList, AT_INT 1), ("c".toList, AT_INT 2)])])
    ∧ ako_parse "window.size 180x190".toList
        = .ok (AT_TABLE [("window".toList,
            AT_TABLE [("size".toList, AT_ARRAY [AT_INT 180, AT_INT 190])])]) :=
  ⟨parse_table_element_dotted, by decide!, by decide!⟩

/-- C4, at the tokens of `a.c 2` parsed into the table that `a.b 1` left. -/
theorem C4_dotted_keys_witness :
    parser._parse_table_element (parser._parse_value 1)
        (joined ⟨AKO_TT_IDENT, ⟨1, 7, 6⟩, ⟨1, 8, 7⟩, .string ['a']⟩
            [(⟨AKO_TT_DOT, ⟨1, 8, 7⟩, ⟨1, 9, 8⟩, .int 0⟩,
              ⟨AKO_TT_IDENT, ⟨1, 9, 8⟩, ⟨1, 10, 9⟩, .string ['c']⟩)]
          ++ [⟨AKO_TT_INT, ⟨1, 11, 10⟩, ⟨1, 12, 11⟩, .int 2⟩])
        (AT_TABLE [(['a'], AT_TABLE [(['b'], AT_INT 1)])])
      = .ok (none, AT_TABLE [(['a'], AT_TABLE [(['b'], AT_INT 1), (['c'], AT_INT 2)])], []) :=
  C4_dotted_keys.1 (parser._parse_value 1)
    ⟨AKO_TT_IDENT, ⟨1, 7, 6⟩, ⟨1, 8, 7⟩, .string ['a']⟩
    [(⟨AKO_TT_DOT, ⟨1, 8, 7⟩, ⟨1, 9, 8⟩, .int 0⟩,
      ⟨AKO_TT_IDENT, ⟨1, 9, 8⟩, ⟨1, 10, 9⟩, .string ['c']⟩)]
    [⟨AKO_TT_INT, ⟨1, 11, 10⟩, ⟨1, 12, 11⟩, .int 2⟩] []
    [(['a'], AT_TABLE [(['b'], AT_INT 1)])]
    [(['a'], AT_TABLE [(['b'], AT_INT 1), (['c'], AT_INT 2)])] (AT_INT 2)
    (by decide) (by decide) (by decide) (by decide!) (by decide) (by decide!)

/-! ### Entries in source order -/

theorem at_entry_start_kv_tokens (pv : parser.state_t → Outcome (ako_elem_t × parser.state_t))
    (items : List kv_item) (h : ∀ it ∈ items, it.ok pv) :
    at_entry_start (kv_tokens items) = true := by
  cases items with
  | nil => rfl
  | cons it rest => exact (h it (List.mem_cons_self _ _)).1

theorem table_loop_kv (pv : parser.state_t → Outcome (ako_elem_t × parser.state_t)) :
    ∀ (items : List kv_item) (fuel : Nat) (acc : List (List Char × ako_elem_t)),
      items.length < fuel → (∀ it ∈ items, it.ok pv) →
      parser.table_loop pv fuel (kv_tokens items) (AT_TABLE acc)
        = .ok (.ok (AT_TABLE (acc ++ kv_entries items)), []) := by
  intro items
  induction items with
  | nil =>
    intro fuel acc hf _
    cases fuel with
    | zero => omega
    | succ f => simp [kv_tokens, kv_entries, parser.table_loop]
  | cons it rest ih =>
    intro fuel acc hf h
    cases fuel with
    | zero => omega
    | succ f =>
      obtain ⟨hk, hne, hdot, herr, hv⟩ := h it (List.mem_cons_self _ _)
      have hrest : ∀ it2 ∈ rest, it2.ok pv := fun it2 h2 => h it2 (List.mem_cons_of_mem _ h2)
      obtain ⟨hty, -⟩ := key_token_cases hk
      have hdot2 : parser.CHECK_TYPE (it.value_tokens ++ kv_tokens rest).head? AKO_TT_DOT
          = false := by
        cases hvt : it.value_tokens with
        | nil => exact absurd hvt hne
        | cons t tl => simpa [hvt] using hdot
      have hne2 : it.value_tokens ++ kv_tokens rest ≠ [] := by
        simp [hne]
      have hel := parse_table_element_dotted pv it.key [] (it.value_tokens ++ kv_tokens rest)
        (kv_tokens rest) acc (acc ++ [(token_text it.key, it.value)]) it.value hk
        (by simp) hdot2 (hv _ (at_entry_start_kv_tokens pv rest hrest)) herr
        (by simp [insert_dotted])
      simp only [joined, List.singleton_append] at hel
      have hlen : rest.length < f := by simp at hf; omega
      rcases hty with hty | hty <;>
        simp [kv_tokens, kv_entries, parser.table_loop, hty, hne2, hel, Outcome.bind,
          ih f _ hlen hrest]

theorem kv_tokens_length (items : List kv_item) : items.length ≤ (kv_tokens items).length := by
  induction items with
  | nil => simp [kv_tokens]
  | cons it rest ih => simp [kv_tokens]; omega

theorem value_tokens_length_le (items : List kv_item) :
    ∀ it ∈ items, it.value_tokens.length ≤ (kv_tokens items).length := by
  induction items with
  | nil => intro it h; cases h
  | cons it0 rest ih =>
    intro it h
    rcases List.mem_cons.1 h with h | h
    · subst h; simp [kv_tokens]; omega
    · have := ih it h
      simp [kv_tokens]; omega

theorem parse_tokens_kv (items : List kv_item) (hne : items ≠ [])
    (h : ∀ it ∈ items, it.ok (parser._parse_value (kv_tokens items).length)) :
    ako_parse_tokens (kv_tokens items) = .ok (AT_TABLE (kv_entries items)) := by
  have hl := table_loop_kv (parser._parse_value (kv_tokens items).length) items
    ((kv_tokens items).length + 1) [] (by have := kv_tokens_length items; omega) h
  cases items with
  | nil => exact absurd rfl hne
  | cons it rest =>
    obtain ⟨hty, -⟩ := key_token_cases (h it (List.mem_cons_self _ _)).1
    simp only [List.nil_append] at hl
    rcases hty with hty | hty <;>
      simp [ako_parse_tokens, kv_tokens, hty, parser._parse_table, Outcome.bind] <;>
      simp [kv_tokens] at hl <;> simp [hl]

theorem kv_entries_length (items : List kv_item) : (kv_entries items).length = items.length := by
  induction items with
  | nil => rfl
  | cons it rest ih => simp [kv_entries, ih]

theorem kv_entries_getElem? (items : List kv_item) (i : Nat) :
    (kv_entries items)[i]? = items[i]?.map (fun it => (token_text it.key, it.value)) := by
  induction items generalizing i with
  | nil => simp [kv_entries]
  | cons it rest ih =>
    cases i with
    | zero => simp [kv_entries]
    | succ j => simp [kv_entries, ih]

/-- A number token is a value of its own: the value production returns its number when
the next entry, or nothing, follows. -/
theorem number_item_parses (key t : token_t) (hk : is_key_token key = true)
    (ht : is_number_token t = true) :
    kv_item.parses ⟨key, [t], number_of_token t⟩ := by
  intro depth hd
  have hty := number_type_of_number ht
  refine ⟨hk, by simp, ?_, ?_, ?_⟩
  · rcases hty with h | h <;> simp [parser.CHECK_TYPE, h]
  · rcases number_of_token_kind ht with ⟨n, h⟩ | ⟨f, h⟩ <;> simp [h, ako_elem_is_error]
  · intro rest hr
    cases depth with
    | zero => simp at hd
    | succ d =>
      have hx : parser.CHECK_TYPE (parser.peek (t :: rest) 1) AKO_TT_VECTORCROSS = false := by
        cases rest with
        | nil => simp [parser.peek, parser.CHECK_TYPE]
        | cons r rs =>
          simp only [at_entry_start] at hr
          obtain ⟨h, -⟩ := key_token_cases hr
          rcases h with h | h <;> simp [parser.peek, parser.CHECK_TYPE, h]
      rcases hty with h | h <;>
        simp [parser._parse_value, h, hx, number_elem_of_number ht, Outcome.bind]

/-- C6. A token sequence made of `n ≥ 1` pairs `key value` with simple keys, each value
a run of tokens the value production parses: `ako_parse_tokens` returns a root table of
length `n` whose `i`-th key and value (`ako_elem_table_get_key_at`,
`ako_elem_table_get_value_at`) are the `i`-th key and value of the source. A `Float` token
is such a value and denotes a `Float` element. The source `a 1.0 b 42.0 miku 39.39` lexes
to three such pairs: the entries are `a`, `b`, `miku` in that order, holding the doubles
1.0, 42.0 and 39.39. -/
theorem C6_source_order :
    (∀ items : List kv_item, items ≠ [] → (∀ it ∈ items, it.parses) →
      ∃ root, ako_parse_tokens (kv_tokens items) = .ok root
        ∧ ako_elem_table_get_length root = .ok items.length
        ∧ ∀ (i : Nat) (h : i < items.length),
            ako_elem_table_get_key_at root i = .ok (token_text items[i].key)
            ∧ ako_elem_table_get_value_at root i = .ok items[i].value)
    ∧ (∀ key t : token_t, is_key_token key = true → is_number_token t = true →
        t.type = AKO_TT_FLOAT →
        kv_item.parses ⟨key, [t], number_of_token t⟩
          ∧ ∃ f, number_of_token t = AT_FLOAT f)
    ∧ ako_parse "a 1.0 b 42.0 miku 39.39".toList
        = .ok (AT_TABLE [("a".toList, AT_FLOAT ⟨0x3FF0000000000000⟩),
            ("b".toList, AT_FLOAT ⟨0x4045000000000000⟩),
            ("miku".toList, AT_FLOAT ⟨0x4043B1EB851EB852⟩)]) := by
  refine ⟨?_, ?_, by decide!⟩
  · intro items hne h
    refine ⟨AT_TABLE (kv_entries items), ?_, ?_, ?_⟩
    · exact parse_tokens_kv items hne
        (fun it hit => h it hit _ (value_tokens_length_le items it hit))
    · simp [ako_elem_table_get_length, kv_entries_length]
    · intro i hi
      simp [ako_elem_table_get_key_at, ako_elem_table_get_value_at, kv_entries_getElem?,
        List.getElem?_eq_getElem hi]
  · intro key t hk ht hty
    refine ⟨number_item_parses key t hk ht, ?_⟩
    obtain ⟨ty, st, en, v⟩ := t
    cases v <;> simp_all [is_number_token, number_of_token]

/-- C6, at the tokens of `a 1.0 b 42.0`. -/
theorem C6_source_order_witness :
    ∃ root,
      ako_parse_tokens (kv_tokens
        [⟨⟨AKO_TT_IDENT, ⟨1, 1, 0⟩, ⟨1, 2, 1⟩, .string ['a']⟩,
          [⟨AKO_TT_FLOAT, ⟨1, 3, 2⟩, ⟨1, 6, 5⟩, .float ⟨0x3FF0000000000000⟩⟩],
          AT_FLOAT ⟨0x3FF0000000000000⟩⟩,
         ⟨⟨AKO_TT_IDENT, ⟨1, 7, 6⟩, ⟨1, 8, 7⟩, .string ['b']⟩,
          [⟨AKO_TT_FLOAT, ⟨1, 9, 8⟩, ⟨1, 13, 12⟩, .float ⟨0x4045000000000000⟩⟩],
          AT_FLOAT ⟨0x4045000000000000⟩⟩]) = .ok root
      ∧ ako_elem_table_get_length root = .ok 2
      ∧ ∀ (i : Nat) (h : i < 2),
          ako_elem_table_get_key_at root i = .ok (token_text
            ([⟨⟨AKO_TT_IDENT, ⟨1, 1, 0⟩, ⟨1, 2, 1⟩, .string ['a']⟩,
              [⟨AKO_TT_FLOAT, ⟨1, 3, 2⟩, ⟨1, 6, 5⟩, .float ⟨0x3FF0000000000000⟩⟩],
              AT_FLOAT ⟨0x3FF0000000000000⟩⟩,
             ⟨⟨AKO_TT_IDENT, ⟨1, 7, 6⟩, ⟨1, 8, 7⟩, .string ['b']⟩,
              [⟨AKO_TT_FLOAT, ⟨1, 9, 8⟩, ⟨1, 13, 12⟩, .float ⟨0x4045000000000000⟩⟩],
              AT_FLOAT ⟨0x4045000000000000⟩⟩] : List kv_item)[i].key)
          ∧ ako_elem_table_get_value_at root i = .ok
            ([⟨⟨AKO_TT_IDENT, ⟨1, 1, 0⟩, ⟨1, 2, 1⟩, .string ['a']⟩,
              [⟨AKO_TT_FLOAT, ⟨1, 3, 2⟩, ⟨1, 6, 5⟩, .float ⟨0x3FF0000000000000⟩⟩],
              AT_FLOAT ⟨0x3FF0000000000000⟩⟩,
             ⟨⟨AKO_TT_IDENT, ⟨1, 7, 6⟩, ⟨1, 8, 7⟩, .string ['b']⟩,
              [⟨AKO_TT_FLOAT, ⟨1, 9, 8⟩, ⟨1, 13, 12⟩, .float ⟨0x4045000000000000⟩⟩],
              AT_FLOAT ⟨0x4045000000000000⟩⟩] : List kv_item)[i].value :=
  C6_source_order.1 _ (by simp) (by
    intro it hit
    simp only [List.mem_cons, List.mem_singleton, List.not_mem_nil, or_false] at hit
    rcases hit with rfl | rfl
    · exact number_item_parses _ _ (by decide) (by decide)
    · exact number_item_parses _ _ (by decide) (by decide))

/-! ### No `Error` inside a tree -/

theorem Outcome.sat_bind {α β : Type} {P : α → Prop} {Q : β → Prop} {x : Outcome α}
    {f : α → Outcome β} (hx : x.sat P) (hf : ∀ a, P a → (f a).sat Q) : (x.bind f).sat Q := by
  cases x with
  | ok a => exact hf a hx
  | abort e => trivial
  | hang => exact hx
  | nofuel => exact hx

theorem Outcome.sat_mono {α : Type} {P Q : α → Prop} {x : Outcome α}
    (hx : x.sat P) (h : ∀ a, P a → Q a) : x.sat Q := by
  cases x with
  | ok a => exact h a hx
  | abort e => trivial
  | hang => exact hx
  | nofuel => exact hx

theorem error_free_entries_append (a b : List (List Char × ako_elem_t)) :
    error_free_entries (a ++ b) = (error_free_entries a && error_free_entries b) := by
  induction a with
  | nil => simp [error_free_entries]
  | cons kv rest ih =>
    obtain ⟨k, v⟩ := kv
    simp [error_free_entries, ih, Bool.and_assoc]

theorem error_free_items_append (a b : List ako_elem_t) :
    error_free_items (a ++ b) = (error_free_items a && error_free_items b) := by
  induction a with
  | nil => simp [error_free_items]
  | cons v rest ih => simp [error_free_items, ih, Bool.and_assoc]

theorem error_free_entries_get : ∀ (a : List (List Char × ako_elem_t)) (i : Nat)
    (kv : List Char × ako_elem_t),
    error_free_entries a = true → a[i]? = some kv → error_free kv.2 = true := by
  intro a
  induction a with
  | nil => intro i kv _ h; simp at h
  | cons x rest ih =>
    intro i kv hef h
    obtain ⟨k, v⟩ := x
    simp only [error_free_entries, Bool.and_eq_true] at hef
    cases i with
    | zero => simp at h; subst h; exact hef.1
    | succ j => simp at h; exact ih j kv hef.2 h

theorem error_free_entries_set : ∀ (a : List (List Char × ako_elem_t)) (i : Nat)
    (kv : List Char × ako_elem_t),
    error_free_entries a = true → error_free kv.2 = true →
    error_free_entries (a.set i kv) = true := by
  intro a
  induction a with
  | nil => intro i kv h _; simpa using h
  | cons x rest ih =>
    intro i kv hef h
    obtain ⟨k, v⟩ := x
    obtain ⟨k2, v2⟩ := kv
    simp only [error_free_entries, Bool.and_eq_true] at hef
    cases i with
    | zero => simp [error_free_entries, hef.2]; exact h
    | succ j => simp [error_free_entries, hef.1, ih j (k2, v2) hef.2 h]

theorem elem_at_error_free : ∀ (p : List Nat) (t x : ako_elem_t),
    error_free t = true → parser.elem_at t p = some x → error_free x = true := by
  intro p
  induction p with
  | nil => intro t x h1 h2; cases t <;> simp [parser.elem_at] at h2 <;> subst h2 <;> exact h1
  | cons i p ih =>
    intro t x h1 h2
    cases t <;> simp [parser.elem_at] at h2
    rename_i a
    cases hg : a[i]? with
    | none => simp [hg] at h2
    | some kv =>
      simp [hg] at h2
      exact ih kv.2 x (error_free_entries_get a i kv (by simpa [error_free] using h1) hg) h2

theorem elem_set_error_free : ∀ (p : List Nat) (t new : ako_elem_t),
    error_free t = true → error_free new = true →
    error_free (parser.elem_set t p new) = true := by
  intro p
  induction p with
  | nil => intro t new _ h2; cases t <;> simpa [parser.elem_set] using h2
  | cons i p ih =>
    intro t new h1 h2
    cases t <;> try (simpa [parser.elem_set] using h1)
    rename_i a
    cases hg : a[i]? with
    | none => simpa [parser.elem_set, hg] using h1
    | some kv =>
      simp only [parser.elem_set, hg, error_free]
      have h1' : error_free_entries a = true := by simpa [error_free] using h1
      exact error_free_entries_set a i _ h1'
        (ih kv.2 new (error_free_entries_get a i kv h1' hg) h2)

theorem elem_set_is_table (p : List Nat) (t new : ako_elem_t)
    (h1 : is_table t = true) (h2 : is_table new = true) :
    is_table (parser.elem_set t p new) = true := by
  cases p with
  | nil => cases t <;> simpa [parser.elem_set] using h2
  | cons i p =>
    cases t <;> simp [is_table] at h1
    rename_i a
    cases hg : a[i]? <;> simp [parser.elem_set, hg, is_table]

theorem add_at_good (table : ako_elem_t) (cur : List Nat) (k : List Char) (v : ako_elem_t)
    (ht : good_table table) (hv : error_free v = true) :
    (parser.add_at table cur k v).sat good_table := by
  unfold parser.add_at
  cases hat : parser.elem_at table cur with
  | none => trivial
  | some ct =>
    have hct := elem_at_error_free cur table ct ht.2 hat
    cases ct <;> simp [ako_elem_table_add, Outcome.bind, Outcome.sat]
    rename_i a
    refine ⟨elem_set_is_table cur table _ ht.1 rfl, elem_set_error_free cur table _ ht.2 ?_⟩
    simp only [error_free] at hct ⊢
    simp [error_free_entries_append, hct, error_free_entries, hv]

theorem read_sat {α : Type} (m : Option α) : (parser.read m).sat (fun _ => True) := by
  cases m <;> simp [parser.read, Outcome.sat]

theorem key_loop_good : ∀ (n : Nat) (state : parser.state_t) (table : ako_elem_t)
    (cur : List Nat), state.length ≤ n → good_table table →
    (parser.key_loop state table cur).sat (fun ks => good_table ks.table
      ∧ ks.state.length ≤ state.length
      ∧ (ks.ct_id ≠ none → ks.state.length < state.length)) := by
  intro n
  induction n with
  | zero =>
    intro state table cur hl ht
    cases state with
    | nil => simpa [parser.key_loop, Outcome.sat] using ht
    | cons t rest => simp at hl
  | succ n ih =>
    intro state table cur hl ht
    cases state with
    | nil => simpa [parser.key_loop, Outcome.sat] using ht
    | cons t rest =>
      unfold parser.key_loop
      split
      · refine Outcome.sat_bind (read_sat _) ?_
        intro id _
        cases rest with
        | nil => simpa [Outcome.sat] using ht
        | cons d rest2 =>
          simp only
          split
          · cases hat : parser.elem_at table cur with
            | none => trivial
            | some ct =>
              simp only
              cases ct <;> simp only [ako_elem_table_get, Outcome.bind, Outcome.sat]
              rename_i a
              have hl2 : rest2.length ≤ n := by simp at hl; omega
              cases hfind : ako_table_find a id with
              | none =>
                simp only
                refine Outcome.sat_bind (add_at_good table cur id (AT_TABLE []) ht rfl) ?_
                intro table2 ht2
                refine Outcome.sat_mono (ih rest2 table2 _ hl2 ht2) ?_
                intro ks ⟨h1, h2, h3⟩
                exact ⟨h1, by simp; omega, fun _ => by simp; omega⟩
              | some i =>
                obtain ⟨w, hw⟩ := table_find_spec a id i hfind
                simp only [hw, Option.map_some']
                refine Outcome.sat_mono (ih rest2 table _ hl2 ht) ?_
                intro ks ⟨h1, h2, h3⟩
                exact ⟨h1, by simp; omega, fun _ => by simp; omega⟩
          · simpa [Outcome.sat] using ht
      · simpa [Outcome.sat] using ht

theorem parse_table_element_good (pv : parser.state_t → Outcome (ako_elem_t × parser.state_t))
    (state : parser.state_t) (table : ako_elem_t) (ht : good_table table)
    (hpv : ∀ s, s.length < state.length → (pv s).sat (val_ok s.length)) :
    (parser._parse_table_element pv state table).sat (fun r =>
      match r.1 with
      | some err => ako_elem_is_error err = true
      | none => good_table r.2.1 ∧ r.2.2.length < state.length) := by
  unfold parser._parse_table_element
  cases table <;> try trivial
  rename_i a
  simp only
  cases state with
  | nil => simp [Outcome.sat, ako_elem_is_error]
  | cons peeked rest =>
    simp only
    split
    · trivial
    · rename_i st2 pk2 tl2 hst
      split
      · simp [Outcome.sat, ako_elem_is_error]
      · have hlen : (pk2 :: tl2).length ≤ (peeked :: rest).length := by
          rw [← hst]; split <;> simp
        simp only [hst]
        refine Outcome.sat_bind (key_loop_good _ _ _ _ (le_refl _) ht) ?_
        intro ks ⟨hk1, hk2, hk3⟩
        cases hid : ks.ct_id with
        | none => simp [Outcome.sat, ako_elem_is_error]
        | some ct_id =>
          have hk4 : ks.state.length < (pk2 :: tl2).length := hk3 (by simp [hid])
          simp only
          split
          · split
            · refine Outcome.sat_bind (add_at_good _ _ _ _ hk1 rfl) ?_
              intro t2 ht2
              exact ⟨ht2, by simp at hk4 hlen ⊢; omega⟩
            · split
              · refine Outcome.sat_bind (add_at_good _ _ _ _ hk1 rfl) ?_
                intro t2 ht2
                exact ⟨ht2, by simp at hk4 hlen ⊢; omega⟩
              · simp [Outcome.sat, ako_elem_is_error]
          · refine Outcome.sat_bind (hpv ks.state (by simp at hk4 hlen ⊢; omega)) ?_
            intro r hr
            split
            · rename_i he; simpa [Outcome.sat] using he
            · rename_i he
              rcases hr with hr | ⟨hr1, hr2⟩
              · exact absurd hr he
              · refine Outcome.sat_bind (add_at_good _ _ _ _ hk1 hr1) ?_
                intro t2 ht2
                exact ⟨ht2, by simp at hk4 hlen ⊢; omega⟩

theorem table_loop_good (pv : parser.state_t → Outcome (ako_elem_t × parser.state_t)) :
    ∀ (fuel : Nat) (state : parser.state_t) (table : ako_elem_t),
      state.length < fuel → good_table table →
      (∀ s, s.length < state.length → (pv s).sat (val_ok s.length)) →
      (parser.table_loop pv fuel state table).sat (fun r =>
        match r.1 with
        | .error e => ako_elem_is_error e = true
        | .ok t => good_table t ∧ r.2.length ≤ state.length) := by
  intro fuel
  induction fuel with
  | zero => intro state table hf; omega
  | succ f ih =>
    intro state table hf ht hpv
    unfold parser.table_loop
    cases state with
    | nil => simpa [Outcome.sat] using ht
    | cons peeked rest =>
      simp only
      split
      · simpa [Outcome.sat] using ht
      · split
        · simp [Outcome.sat, ako_elem_is_error]
        · split
          · simp [Outcome.sat, ako_elem_is_error]
          · refine Outcome.sat_bind (parse_table_element_good pv _ table ht hpv) ?_
            intro r hr
            cases h1 : r.1 with
            | some err =>
              simp only [h1] at hr
              simpa [Outcome.sat] using hr
            | none =>
              simp only [h1] at hr
              simp only
              have hlt := hr.2
              have := ih r.2.2 r.2.1 (by simp at hf hlt; omega) hr.1
                (fun s hs => hpv s (by omega))
              refine Outcome.sat_mono this ?_
              intro r2 h2
              cases h3 : r2.1 with
              | error e => simpa [h3] using h2
              | ok t =>
                simp only [h3] at h2 ⊢
                exact ⟨h2.1, by omega⟩

theorem parse_table_good (pv : parser.state_t → Outcome (ako_elem_t × parser.state_t))
    (state : parser.state_t) (ignore : Bool)
    (hpv : ∀ s, s.length < state.length → (pv s).sat (val_ok s.length)) :
    (parser._parse_table pv state ignore).sat (fun r =>
      ako_elem_is_error r.1 = true
      ∨ (good_table r.1 ∧ r.2.length ≤ state.length
          ∧ (ignore = false → r.2.length < state.length))) := by
  unfold parser._parse_table
  split
  · simp [Outcome.sat, ako_elem_is_error]
  · rename_i hc
    have hlen : (if ignore = true then state else state.tail).length ≤ state.length := by
      split <;> simp
    have hlen2 : ignore = false →
        (if ignore = true then state else state.tail).length < state.length := by
      intro hi
      subst hi
      cases state with
      | nil => simp [parser.CHECK_TYPE, parser.peek] at hc
      | cons t tl => simp
    refine Outcome.sat_bind (table_loop_good pv _ _ (AT_TABLE []) (Nat.lt_succ_self _)
      ⟨rfl, rfl⟩ (fun s hs => hpv s (by omega))) ?_
    intro r hr
    cases h1 : r.1 with
    | error e =>
      simp only [h1] at hr
      exact Or.inl hr
    | ok t =>
      simp only [h1] at hr ⊢
      split
      · split
        · refine Or.inr ⟨hr.1, ?_, ?_⟩
          · simp; omega
          · intro hi; have := hlen2 hi; simp; omega
        · simp [Outcome.sat, ako_elem_is_error]
      · rename_i hi
        simp only [Bool.not_eq_true, Decidable.not_not] at hi
        refine Or.inr ⟨hr.1, by simp only; omega, ?_⟩
        intro hi2
        simp [hi2] at hi

theorem array_loop_good (pv : parser.state_t → Outcome (ako_elem_t × parser.state_t)) :
    ∀ (fuel : Nat) (state : parser.state_t) (array : List ako_elem_t),
      state.length < fuel → error_free_items array = true →
      (∀ s, s.length ≤ state.length → (pv s).sat (val_ok s.length)) →
      (parser.array_loop pv fuel state array).sat (fun r =>
        match r.1 with
        | .error e => ako_elem_is_error e = true
        | .ok arr => error_free_items arr = true ∧ r.2.length ≤ state.length) := by
  intro fuel
  induction fuel with
  | zero => intro state array hf; omega
  | succ f ih =>
    intro state array hf ha hpv
    unfold parser.array_loop
    cases state with
    | nil => simpa [Outcome.sat] using ha
    | cons peeked rest =>
      simp only
      split
      · simpa [Outcome.sat] using ha
      · refine Outcome.sat_bind (hpv _ (le_refl _)) ?_
        intro r hr
        split
        · rename_i he; simpa [Outcome.sat] using he
        · rename_i he
          rcases hr with hr | ⟨hr1, hr2⟩
          · exact absurd hr he
          · have := ih r.2 (array ++ [r.1]) (by simp at hf hr2; omega)
              (by simp [error_free_items_append, ha, error_free_items, hr1])
              (fun s hs => hpv s (by omega))
            refine Outcome.sat_mono this ?_
            intro r2 h2
            cases h3 : r2.1 with
            | error e => simpa [h3] using h2
            | ok t =>
              simp only [h3] at h2 ⊢
              exact ⟨h2.1, by omega⟩

theorem parse_array_good (pv : parser.state_t → Outcome (ako_elem_t × parser.state_t))
    (state : parser.state_t)
    (hpv : ∀ s, s.length < state.length → (pv s).sat (val_ok s.length)) :
    (parser._parse_array pv state).sat (fun r =>
      ako_elem_is_error r.1 = true
      ∨ (error_free r.1 = true ∧ is_container r.1 = true ∧ r.2.length < state.length)) := by
  unfold parser._parse_array
  cases state with
  | nil => simp [Outcome.sat, ako_elem_is_error]
  | cons peeked rest =>
    simp only
    split
    · refine Outcome.sat_bind (array_loop_good pv _ rest [] (Nat.lt_succ_self _) rfl
        (fun s hs => hpv s (by simp; omega))) ?_
      intro r hr
      cases h1 : r.1 with
      | error e =>
        simp only [h1] at hr
        exact Or.inl hr
      | ok arr =>
        simp only [h1] at hr ⊢
        split
        · exact Or.inr ⟨by simpa [error_free] using hr.1, rfl, by simp; omega⟩
        · simp [Outcome.sat, ako_elem_is_error]
    · simp [Outcome.sat, ako_elem_is_error]

theorem number_elem_sat (t : token_t) :
    (parser.number_elem t).sat (fun e => error_free e = true) := by
  unfold parser.number_elem
  split
  · exact Outcome.sat_bind (read_sat _) (fun n _ => rfl)
  · exact Outcome.sat_bind (read_sat _) (fun n _ => rfl)

theorem parse_vector_good (loc : location_t) : ∀ (n : Nat) (state : parser.state_t)
    (array : List ako_elem_t) (pk : token_t), state.length ≤ n →
    error_free_items array = true →
    (parser.parse_vector loc state array pk).sat (fun r =>
      ako_elem_is_error r.1 = true
      ∨ (error_free r.1 = true ∧ r.2.length ≤ state.length - 1)) := by
  intro n
  induction n with
  | zero =>
    intro state array pk hl ha
    cases state with
    | nil =>
      unfold parser.parse_vector
      exact Outcome.sat_bind (number_elem_sat pk) (fun e he => Or.inr ⟨he, by simp⟩)
    | cons t rest => simp at hl
  | succ n ih =>
    intro state array pk hl ha
    cases state with
    | nil =>
      unfold parser.parse_vector
      exact Outcome.sat_bind (number_elem_sat pk) (fun e he => Or.inr ⟨he, by simp⟩)
    | cons t rest =>
      unfold parser.parse_vector
      split
      · refine Outcome.sat_bind (number_elem_sat t) ?_
        intro elem he
        have hae : error_free_items (array ++ [elem]) = true := by
          simp [error_free_items_append, ha, error_free_items, he]
        cases rest with
        | nil =>
          simp only
          split
          · simp [Outcome.sat, ako_elem_is_error]
          · exact Or.inr ⟨by simpa [error_free] using hae, by simp⟩
        | cons x rest2 =>
          simp only
          split
          · refine Outcome.sat_mono (ih rest2 _ x (by simp at hl; omega) hae) ?_
            intro r hr
            rcases hr with hr | ⟨h1, h2⟩
            · exact Or.inl hr
            · exact Or.inr ⟨h1, by simp; omega⟩
          · split
            · simp [Outcome.sat, ako_elem_is_error]
            · exact Or.inr ⟨by simpa [error_free] using hae, by simp⟩
      · simp [Outcome.sat, ako_elem_is_error]

theorem parse_shorttype_good : ∀ (n : Nat) (state : parser.state_t) (str : List Char),
    state.length ≤ n →
    (parser.parse_shorttype state str).sat (fun r => r.2.length ≤ state.length) := by
  intro n
  induction n with
  | zero =>
    intro state str hl
    cases state with
    | nil => simp [parser.parse_shorttype, Outcome.sat]
    | cons t rest => simp at hl
  | succ n ih =>
    intro state str hl
    cases state with
    | nil => simp [parser.parse_shorttype, Outcome.sat]
    | cons t rest =>
      unfold parser.parse_shorttype
      split
      · refine Outcome.sat_bind (read_sat _) ?_
        intro s _
        cases rest with
        | nil => simp [Outcome.sat]
        | cons d rest2 =>
          simp only
          split
          · refine Outcome.sat_mono (ih rest2 _ (by simp at hl; omega)) ?_
            intro r hr
            simp; omega
          · simp [Outcome.sat]
      · simp [Outcome.sat]

/-- The value production returns an `Error` or an element without an `Error` inside, and
then it has consumed a token; it may stop in a fault, and the depth bound is not used up
when it exceeds the number of tokens. -/
theorem parse_value_good : ∀ (depth : Nat) (state : parser.state_t),
    state.length < depth → (parser._parse_value depth state).sat (val_ok state.length) := by
  intro depth
  induction depth with
  | zero => intro state h; omega
  | succ d ih =>
    intro state hl
    have hpv : ∀ s : parser.state_t, s.length < state.length →
        (parser._parse_value d s).sat (val_ok s.length) :=
      fun s hs => ih s (by omega)
    unfold parser._parse_value
    cases state with
    | nil => trivial
    | cons peeked rest =>
      simp only
      split
      · refine Outcome.sat_mono (parse_array_good _ _ hpv) ?_
        intro r hr
        rcases hr with hr | ⟨h1, -, h3⟩
        · exact Or.inl hr
        · exact Or.inr ⟨h1, h3⟩
      · refine Outcome.sat_mono (parse_table_good _ _ false hpv) ?_
        intro r hr
        rcases hr with hr | ⟨h1, h2, h3⟩
        · exact Or.inl hr
        · exact Or.inr ⟨h1.2, h3 rfl⟩
      · exact Or.inr ⟨rfl, by simp⟩
      · exact Or.inr ⟨rfl, by simp⟩
      · split
        · refine Outcome.sat_mono (parse_vector_good _ _ _ [] peeked (le_refl _) rfl) ?_
          intro r hr
          rcases hr with hr | ⟨h1, h2⟩
          · exact Or.inl hr
          · exact Or.inr ⟨h1, by simp at h2 ⊢; omega⟩
        · exact Outcome.sat_bind (number_elem_sat peeked)
            (fun e he => Or.inr ⟨he, by simp⟩)
      · split
        · refine Outcome.sat_mono (parse_vector_good _ _ _ [] peeked (le_refl _) rfl) ?_
          intro r hr
          rcases hr with hr | ⟨h1, h2⟩
          · exact Or.inl hr
          · exact Or.inr ⟨h1, by simp at h2 ⊢; omega⟩
        · exact Outcome.sat_bind (number_elem_sat peeked)
            (fun e he => Or.inr ⟨he, by simp⟩)
      · exact Outcome.sat_bind (read_sat _) (fun s _ => Or.inr ⟨rfl, by simp⟩)
      · split
        · simp [Outcome.sat, val_ok, ako_elem_is_error]
        · refine Outcome.sat_bind (parse_shorttype_good _ rest [] (le_refl _)) ?_
          intro r hr
          exact Or.inr ⟨rfl, by simp; omega⟩
      · simp [Outcome.sat, val_ok, ako_elem_is_error]

/-- C9. `ako_parse_tokens` does not return an element for every token sequence: on the
tokens of `a.b` it stops at a read through a null pointer (the value is read where the
tokens end), and on the tokens of `a 1 a.b 2` at a failed `assert` (the dotted key descends
through an `Int`). For every token sequence it either stops in such a fault or returns an
element that is a single `Error`, or a `Table` or an `Array` in which no node, at any depth,
has kind `Error`; it does not run forever, and the bounds of the embedding are never used
up. -/
theorem C9_error_exclusivity :
    (∀ tokens : List token_t,
      (∃ f, ako_parse_tokens tokens = .abort f)
      ∨ ∃ e, ako_parse_tokens tokens = .ok e
          ∧ (ako_elem_is_error e = true ∨ (is_container e = true ∧ error_free e = true)))
    ∧ (ako_tokenize "a.b".toList).bind ako_parse_tokens = .abort .nullDeref
    ∧ (ako_tokenize "a 1 a.b 2".toList).bind ako_parse_tokens = .abort .assertion
    ∧ (ako_tokenize "a 1 b [ c.d".toList).bind ako_parse_tokens = .abort .nullDeref := by
  refine ⟨?_, by decide!, by decide!, by decide!⟩
  intro tokens
  have key : (ako_parse_tokens tokens).sat (fun e =>
      ako_elem_is_error e = true ∨ (is_container e = true ∧ error_free e = true)) := by
    unfold ako_parse_tokens
    cases tokens with
    | nil => simp [Outcome.sat, ako_elem_is_error]
    | cons peeked rest =>
      have hpv : ∀ s : parser.state_t, s.length < (peeked :: rest).length →
          (parser._parse_value (peeked :: rest).length s).sat (val_ok s.length) :=
        fun s hs => parse_value_good _ s hs
      simp only
      split
      · refine Outcome.sat_bind (parse_array_good _ _ hpv) ?_
        intro r hr
        rcases hr with hr | ⟨h1, h2, -⟩
        · exact Or.inl hr
        · exact Or.inr ⟨h2, h1⟩
      · refine Outcome.sat_bind (parse_table_good _ _ _ hpv) ?_
        intro r hr
        rcases hr with hr | ⟨h1, h2⟩
        · exact Or.inl hr
        · refine Or.inr ⟨?_, h1.2⟩
          have := h1.1
          revert this
          cases r.1 <;> simp [is_table, is_container]
  cases h : ako_parse_tokens tokens with
  | ok e => exact Or.inr ⟨e, rfl, by simpa [h, Outcome.sat] using key⟩
  | abort f => exact Or.inl ⟨f, rfl⟩
  | hang => simp [h, Outcome.sat] at key
  | nofuel => simp [h, Outcome.sat] at key

/-! ### Evaluations -/

/-- C7. A terminated string literal with a raw tab in its body: the lexer never returns,
because `count_string` repeats its loop at the tab without advancing, where the claim has
the tab copied into the payload. A literal whose escapes make `count_string` stop at an
escaped quote is decoded past the end of the buffer sized by that count. The tested source
`viva "viva \"happy\""` gives the `String` `viva "happy"`. -/
theorem C7_string_literal_with_raw_tab_hangs :
    ako_parse "k \"a\tb\"".toList = .hang
    ∧ ako_parse "k \"\\a\\\"bcdefgh\"".toList = .abort .heapOverflow
    ∧ ako_parse "viva \"viva \\\"happy\\\"\"".toList
        = .ok (AT_TABLE [("viva".toList, AT_STRING "viva \"happy\"".toList)]) := by
  decide!

/-! ### The parser on the tokens of the plain fragment -/

theorem map_strip_cons {ts : List token_t} {x : atok} {xs : List atok}
    (h : ts.map strip = x :: xs) :
    ∃ t ts2, ts = t :: ts2 ∧ t.type = x.1 ∧ t.value = x.2 ∧ ts2.map strip = xs := by
  cases ts with
  | nil => simp at h
  | cons t ts2 =>
    simp only [List.map_cons, List.cons.injEq] at h
    refine ⟨t, ts2, rfl, ?_, ?_, h.2⟩
    · rw [← h.1]; rfl
    · rw [← h.1]; rfl

theorem map_strip_append {ts : List token_t} {xs ys : List atok}
    (h : ts.map strip = xs ++ ys) :
    ∃ t1 t2, ts = t1 ++ t2 ∧ t1.map strip = xs ∧ t2.map strip = ys := by
  refine ⟨ts.take xs.length, ts.drop xs.length, (List.take_append_drop _ _).symm, ?_, ?_⟩
  · rw [List.map_take, h, List.take_left']
    rfl
  · rw [List.map_drop, h, List.drop_left']
    rfl

theorem entry_follow_not_dot {l : List token_t} (h : entry_follow l) :
    parser.CHECK_TYPE l.head? AKO_TT_DOT = false := by
  cases l with
  | nil => rfl
  | cons t tl =>
    simp only [entry_follow] at h
    rcases h with h | h | h <;> simp [parser.CHECK_TYPE, h]

theorem entry_follow_not_cross {l : List token_t} (h : entry_follow l) :
    parser.CHECK_TYPE l.head? AKO_TT_VECTORCROSS = false := by
  cases l with
  | nil => rfl
  | cons t tl =>
    simp only [entry_follow] at h
    rcases h with h | h | h <;> simp [parser.CHECK_TYPE, h]

theorem entry_follow_atoks (a : List (List Char × ako_elem_t)) (ts tail : List token_t)
    (h : ts.map strip = atoks_entries a) (ht : entry_follow tail) :
    entry_follow (ts ++ tail) := by
  cases a with
  | nil =>
    simp only [atoks_entries, List.map_eq_nil_iff] at h
    subst h
    simpa using ht
  | cons kv rest =>
    obtain ⟨k, v⟩ := kv
    by_cases hv : v = AT_NULL
    · subst hv
      simp only [atoks_entries] at h
      obtain ⟨t, ts2, rfl, h1, -, -⟩ := map_strip_cons h
      exact Or.inr (Or.inl h1)
    · have e : atoks_entries ((k, v) :: rest)
          = (AKO_TT_IDENT, .string k) :: (atoks_value v ++ atoks_entries rest) := by
        cases v <;> simp [atoks_entries] at hv ⊢
      rw [e] at h
      obtain ⟨t, ts2, rfl, h1, -, -⟩ := map_strip_cons h
      exact Or.inl h1

/-- A value-first entry: the sign token, a key path, and nothing to parse after it. -/
theorem parse_table_element_value_first
    (pv : parser.state_t → Outcome (ako_elem_t × parser.state_t))
    (vf first : token_t) (more : List (token_t × token_t)) (rest : List token_t)
    (a a2 : List (List Char × ako_elem_t))
    (hvf : vf.type = AKO_TT_MINUS ∨ vf.type = AKO_TT_PLUS ∨ vf.type = AKO_TT_SEMICOLON)
    (hf : is_key_token first = true)
    (hm : ∀ p ∈ more, p.1.type = AKO_TT_DOT ∧ is_key_token p.2 = true)
    (hrest : parser.CHECK_TYPE rest.head? AKO_TT_DOT = false)
    (hins : insert_dotted a (token_text first) (more.map (fun p => token_text p.2))
      (if vf.type = AKO_TT_SEMICOLON then AT_NULL else AT_BOOL vf.value_int_as_bool)
      = some a2) :
    parser._parse_table_element pv (vf :: joined first more ++ rest) (AT_TABLE a)
      = .ok (none, AT_TABLE a2, rest) := by
  obtain ⟨hty, hvs⟩ := key_token_cases hf
  obtain ⟨ks, id, h1, h2, h3, h4⟩ :=
    key_loop_dotted rest hrest _ more first (AT_TABLE a) [] a a2 hf hm rfl hins
  have hj : ∃ tl, joined first more ++ rest = first :: tl := by
    cases more with
    | nil => exact ⟨_, rfl⟩
    | cons p more => exact ⟨_, rfl⟩
  obtain ⟨tl, hj⟩ := hj
  rw [hj] at h1
  simp only [List.cons_append, hj]
  rcases hvf with hv | hv | hv <;> rcases hty with h | h <;>
    simp [parser._parse_table_element, hv, h, h1, Outcome.bind, h3, h2] <;>
    simp [hv] at h4 <;> simp [h4, parser.elem_set]

theorem atoks_entries_cons_of_ne (k : List Char) (v : ako_elem_t)
    (rest : List (List Char × ako_elem_t)) (hv : v ≠ AT_NULL) :
    atoks_entries ((k, v) :: rest)
      = (AKO_TT_IDENT, .string k) :: (atoks_value v ++ atoks_entries rest) := by
  cases v <;> simp [atoks_entries] at hv ⊢

theorem key_token_of_ident {t : token_t} {k : List Char} (h1 : t.type = AKO_TT_IDENT)
    (h2 : t.value = .string k) : is_key_token t = true ∧ token_text t = k := by
  obtain ⟨ty, st, en, v⟩ := t
  simp only at h1 h2
  subst h1 h2
  exact ⟨rfl, rfl⟩

theorem number_token_of_atok {t : token_t} {v : ako_elem_t} (hv : plain_number v = true)
    (h1 : t.type = (atok_number v).1) (h2 : t.value = (atok_number v).2) :
    is_number_token t = true ∧ number_of_token t = v := by
  obtain ⟨ty, st, en, val⟩ := t
  simp only at h1 h2
  subst h1 h2
  cases v <;> simp [plain_number] at hv <;> exact ⟨rfl, rfl⟩

theorem joined_of_cross : ∀ (vs : List ako_elem_t) (tl : List token_t),
    tl.map strip = cross_atoks vs → vs.all plain_number = true →
    ∃ more : List (token_t × token_t), (∀ first, joined first more = first :: tl)
      ∧ (∀ p ∈ more, p.1.type = AKO_TT_VECTORCROSS ∧ is_number_token p.2 = true)
      ∧ more.map (fun p => number_of_token p.2) = vs := by
  intro vs
  induction vs with
  | nil =>
    intro tl h _
    simp only [cross_atoks, List.map_eq_nil_iff] at h
    subst h
    exact ⟨[], fun _ => rfl, by simp, rfl⟩
  | cons v vs ih =>
    intro tl h hall
    simp only [List.all_cons, Bool.and_eq_true] at hall
    simp only [cross_atoks] at h
    obtain ⟨x, tl1, rfl, hx1, -, h1⟩ := map_strip_cons h
    obtain ⟨t, tl2, rfl, ht1, ht2, h2⟩ := map_strip_cons h1
    obtain ⟨more, hj, hm, hmap⟩ := ih tl2 h2 hall.2
    obtain ⟨hn1, hn2⟩ := number_token_of_atok hall.1 ht1 ht2
    refine ⟨(x, t) :: more, ?_, ?_, ?_⟩
    · intro first
      simp only [joined, hj]
    · intro p hp
      rcases List.mem_cons.1 hp with rfl | hp
      · exact ⟨hx1, hn1⟩
      · exact hm p hp
    · simp only [List.map_cons, hn2, hmap]

/-- The value production on the tokens of a vector of two to four plain numbers. -/
theorem parse_value_plain_vector (depth : Nat) (v : ako_elem_t) (vs : List ako_elem_t)
    (tv rest : List token_t) (hv : plain_number v = true) (hvs : vs.all plain_number = true)
    (hne : vs ≠ []) (hlen : vs.length + 1 ≤ 4)
    (htv : tv.map strip = atok_number v :: cross_atoks vs)
    (hrest : parser.CHECK_TYPE rest.head? AKO_TT_VECTORCROSS = false) :
    parser._parse_value (depth + 1) (tv ++ rest) = .ok (AT_ARRAY (v :: vs), rest) := by
  obtain ⟨t, tl, rfl, ht1, ht2, h1⟩ := map_strip_cons htv
  obtain ⟨more, hj, hm, hmap⟩ := joined_of_cross vs tl h1 hvs
  obtain ⟨hn1, hn2⟩ := number_token_of_atok hv ht1 ht2
  have hmne : more ≠ [] := by
    intro e
    subst e
    simp at hmap
    exact hne hmap
  have hml : more.length = vs.length := by rw [← hmap]; simp
  have key := parse_value_vector depth t more rest hn1 hm hmne hrest
  rw [hj t, if_neg (by omega), hn2, hmap] at key
  exact key

theorem parse_value_empty_array (depth : Nat) (o c : token_t) (rest : List token_t)
    (ho : o.type = AKO_TT_OPEN_D_BRACE) (hc : c.type = AKO_TT_CLOSE_D_BRACE) :
    parser._parse_value (depth + 1) (o :: c :: rest) = .ok (AT_ARRAY [], rest) := by
  simp [parser._parse_value, ho, parser._parse_array, parser.array_loop, hc, Outcome.bind,
    parser.CHECK_TYPE, parser.peek]

/-- The table loop on the tokens of plain entries: the entries are appended in order,
and the tokens after them are left. -/
theorem table_loop_plain (nest : Bool) : ∀ (n : Nat) (a : List (List Char × ako_elem_t)),
    nest_size_entries a ≤ n → plain_entries nest a = true →
    ∀ (ts tail : List token_t) (d fuel : Nat) (acc : List (List Char × ako_elem_t)),
      ts.map strip = atoks_entries a → entry_follow tail →
      (tail = [] ∨ ∃ c tl, tail = c :: tl ∧ c.type = AKO_TT_CLOSE_BRACE) →
      n ≤ d → (ts ++ tail).length < fuel →
      parser.table_loop (parser._parse_value d) fuel (ts ++ tail) (AT_TABLE acc)
        = .ok (.ok (AT_TABLE (acc ++ a)), tail) := by
  intro n
  induction n with
  | zero =>
    intro a hn _ ts tail d fuel acc hts _ htail _ hfuel
    cases a with
    | cons kv rest => obtain ⟨k, v⟩ := kv; simp [nest_size_entries] at hn
    | nil =>
      simp only [atoks_entries, List.map_eq_nil_iff] at hts
      subst hts
      cases fuel with
      | zero => omega
      | succ f =>
        rcases htail with h | ⟨c, tl, h, hc⟩
        · subst h; simp [parser.table_loop]
        · subst h; simp [parser.table_loop, hc]
  | succ n ih =>
    intro a hn hp ts tail d fuel acc hts hfol htail hd hfuel
    cases fuel with
    | zero => omega
    | succ f =>
    cases a with
    | nil =>
      simp only [atoks_entries, List.map_eq_nil_iff] at hts
      subst hts
      rcases htail with h | ⟨c, tl, h, hc⟩
      · subst h; simp [parser.table_loop]
      · subst h; simp [parser.table_loop, hc]
    | cons kv rest =>
      obtain ⟨k, v⟩ := kv
      simp only [plain_entries, Bool.and_eq_true] at hp
      obtain ⟨⟨hk, hv⟩, hrest⟩ := hp
      simp only [nest_size_entries] at hn
      have hn2 : nest_size_entries rest ≤ n := by omega
      by_cases hnull : v = AT_NULL
      · -- a `Null` entry, written `;key`
        subst hnull
        simp only [atoks_entries] at hts
        obtain ⟨t1, ts1, rfl, h1t, h1v, hts1⟩ := map_strip_cons hts
        obtain ⟨t2, ts2, rfl, h2t, h2v, hts2⟩ := map_strip_cons hts1
        simp only at h1t h1v h2t h2v
        obtain ⟨hkey, htext⟩ := key_token_of_ident h2t h2v
        have hfol2 := entry_follow_atoks rest ts2 tail hts2 hfol
        have hel := parse_table_element_value_first (parser._parse_value d) t1 t2 []
          (ts2 ++ tail) acc (acc ++ [(k, AT_NULL)]) (Or.inr (Or.inr h1t)) hkey (by simp)
          (entry_follow_not_dot hfol2) (by simp [insert_dotted, h1t, htext])
        simp only [joined, List.cons_append, List.nil_append] at hel
        have hrec := ih rest hn2 hrest ts2 tail d f (acc ++ [(k, AT_NULL)]) hts2 hfol htail
          (by omega) (by simp at hfuel ⊢; omega)
        simp only [List.cons_append, parser.table_loop, h1t, hel, Outcome.bind, hrec]
        simp
      · rw [atoks_entries_cons_of_ne k v rest hnull] at hts
        obtain ⟨t1, ts1, rfl, h1t, h1v, hts1⟩ := map_strip_cons hts
        obtain ⟨tv, ts2, rfl, htv, hts2⟩ := map_strip_append hts1
        simp only at h1t h1v
        obtain ⟨hkey, htext⟩ := key_token_of_ident h1t h1v
        have hfol2 := entry_follow_atoks rest ts2 tail hts2 hfol
        have hrec := ih rest hn2 hrest ts2 tail d f (acc ++ [(k, v)]) hts2 hfol htail
          (by omega) (by simp at hfuel ⊢; omega)
        -- the value production on the tokens of the value
        have hval : tv ≠ [] ∧ parser.CHECK_TYPE (tv ++ (ts2 ++ tail)).head? AKO_TT_DOT = false
            ∧ ako_elem_is_error v = false
            ∧ parser._parse_value d (tv ++ (ts2 ++ tail)) = .ok (v, ts2 ++ tail) := by
          obtain ⟨d2, rfl⟩ : ∃ d2, d = d2 + 1 := ⟨d - 1, by omega⟩
          have hx := entry_follow_not_cross hfol2
          cases v with
          | AT_NULL => exact absurd rfl hnull
          | AT_INT i =>
            simp only [atoks_value] at htv
            obtain ⟨t, tn, rfl, ht1, ht2, htn⟩ := map_strip_cons htv
            simp only [List.map_eq_nil_iff] at htn
            subst htn
            simp only at ht1 ht2
            refine ⟨by simp, by simp [parser.CHECK_TYPE, ht1], rfl, ?_⟩
            have hnum : parser.number_elem t = .ok (AT_INT i) := by
              simp [parser.number_elem, ht1, parser.read, token_t.value_int, ht2, Outcome.bind]
            have hpk : parser.CHECK_TYPE (parser.peek (t :: (ts2 ++ tail)) 1)
                AKO_TT_VECTORCROSS = false := by
              simpa [parser.peek, List.head?_eq_getElem?] using hx
            simp only [List.cons_append, List.nil_append, parser._parse_value, ht1, hpk, hnum,
              Outcome.bind]
            simp
          | AT_STRING s =>
            simp only [atoks_value] at htv
            obtain ⟨t, tn, rfl, ht1, ht2, htn⟩ := map_strip_cons htv
            simp only [List.map_eq_nil_iff] at htn
            subst htn
            simp only at ht1 ht2
            refine ⟨by simp, by simp [parser.CHECK_TYPE, ht1], rfl, ?_⟩
            simp [parser._parse_value, ht1, parser.read, token_t.value_string, ht2, Outcome.bind]
          | AT_TABLE sub =>
            simp only [atoks_value] at htv
            obtain ⟨o, tn, rfl, ho1, -, htn⟩ := map_strip_cons htv
            obtain ⟨tsub, tc, rfl, htsub, htc⟩ := map_strip_append htn
            obtain ⟨c, tn2, rfl, hc1, -, htn2⟩ := map_strip_cons htc
            simp only [List.map_eq_nil_iff] at htn2
            subst htn2
            simp only at ho1 hc1
            refine ⟨by simp, by simp [parser.CHECK_TYPE, ho1], rfl, ?_⟩
            simp only [plain_value, Bool.and_eq_true] at hv
            simp only [nest_size] at hn
            have hsub := ih sub (by omega) hv.2 tsub (c :: (ts2 ++ tail)) d2
              ((tsub ++ c :: (ts2 ++ tail)).length + 1) [] htsub (Or.inr (Or.inr hc1))
              (Or.inr ⟨c, _, rfl, hc1⟩) (by omega) (Nat.lt_succ_self _)
            simp only [List.nil_append] at hsub
            simp only [List.cons_append, List.append_assoc, List.nil_append, parser._parse_value,
              ho1, parser._parse_table, parser.CHECK_TYPE, parser.peek, List.getElem?_cons_zero,
              List.tail_cons, Bool.false_eq_true, not_false_eq_true, decide_True, not_true_eq_false,
              and_false, if_false, hsub, Outcome.bind, hc1, if_true]
          | AT_FLOAT fl =>
            simp only [atoks_value] at htv
            obtain ⟨t, tn, rfl, ht1, ht2, htn⟩ := map_strip_cons htv
            simp only [List.map_eq_nil_iff] at htn
            subst htn
            simp only at ht1 ht2
            refine ⟨by simp, by simp [parser.CHECK_TYPE, ht1], rfl, ?_⟩
            have hnum : parser.number_elem t = .ok (AT_FLOAT fl) := by
              simp [parser.number_elem, ht1, parser.read, token_t.value_float, ht2, Outcome.bind]
            have hpk : parser.CHECK_TYPE (parser.peek (t :: (ts2 ++ tail)) 1)
                AKO_TT_VECTORCROSS = false := by
              simpa [parser.peek, List.head?_eq_getElem?] using hx
            simp only [List.cons_append, List.nil_append, parser._parse_value, ht1, hpk, hnum,
              Outcome.bind]
            simp
          | AT_ARRAY arr =>
            cases arr with
            | nil =>
              simp only [atoks_value] at htv
              obtain ⟨o, tn, rfl, ho1, -, htn⟩ := map_strip_cons htv
              obtain ⟨c, tn2, rfl, hc1, -, htn2⟩ := map_strip_cons htn
              simp only [List.map_eq_nil_iff] at htn2
              subst htn2
              simp only at ho1 hc1
              refine ⟨by simp, by simp [parser.CHECK_TYPE, ho1], rfl, ?_⟩
              exact parse_value_empty_array d2 o c _ ho1 hc1
            | cons w ws =>
              simp only [plain_value, List.isEmpty_cons, Bool.false_or, Bool.and_eq_true,
                decide_eq_true_eq, List.all_cons, List.length_cons] at hv
              obtain ⟨⟨h2, h4⟩, hw, hws⟩ := hv
              simp only [atoks_value] at htv
              have hne : ws ≠ [] := by
                intro e
                subst e
                simp at h2
              have hhead : tv ≠ [] ∧ parser.CHECK_TYPE (tv ++ (ts2 ++ tail)).head? AKO_TT_DOT
                  = false := by
                obtain ⟨t, tl, rfl, ht1, ht2, -⟩ := map_strip_cons htv
                obtain ⟨hn1, -⟩ := number_token_of_atok hw ht1 ht2
                rcases number_type_of_number hn1 with h | h <;>
                  simp [parser.CHECK_TYPE, h]
              exact ⟨hhead.1, hhead.2, rfl,
                parse_value_plain_vector d2 w ws tv _ hw hws hne h4 htv hx⟩
          | AT_SHORTTYPE _ => simp [plain_value] at hv
          | AT_BOOL _ => simp [plain_value] at hv
          | AT_ERROR _ => simp [plain_value] at hv
        obtain ⟨hv1, hv2, hv3, hv4⟩ := hval
        have hel := parse_table_element_dotted (parser._parse_value d) t1 []
          (tv ++ (ts2 ++ tail)) (ts2 ++ tail) acc (acc ++ [(k, v)]) v hkey (by simp)
          hv2 hv4 hv3 (by simp [insert_dotted, htext])
        simp only [joined, List.cons_append, List.nil_append] at hel
        have hne : tv ++ (ts2 ++ tail) ≠ [] := by simp [hv1]
        simp only [List.cons_append, List.append_assoc, parser.table_loop, h1t, hel,
          Outcome.bind, hrec, hne]
        simp

mutual
theorem nest_size_le : ∀ v : ako_elem_t, nest_size v ≤ (atoks_value v).length
  | AT_TABLE a => by
    have := nest_size_entries_le a
    simp [nest_size, atoks_value]
    omega
  | AT_NULL => by simp [nest_size]
  | AT_STRING _ => by simp [nest_size]
  | AT_INT _ => by simp [nest_size]
  | AT_FLOAT _ => by simp [nest_size]
  | AT_SHORTTYPE _ => by simp [nest_size]
  | AT_BOOL _ => by simp [nest_size]
  | AT_ARRAY _ => by simp [nest_size]
  | AT_ERROR _ => by simp [nest_size]
theorem nest_size_entries_le :
    ∀ a : List (List Char × ako_elem_t), nest_size_entries a ≤ (atoks_entries a).length
  | [] => by simp [nest_size_entries]
  | (k, v) :: rest => by
    have h1 := nest_size_le v
    have h2 := nest_size_entries_le rest
    by_cases hv : v = AT_NULL
    · subst hv
      simp [nest_size_entries, atoks_entries, nest_size]
      omega
    · rw [atoks_entries_cons_of_ne k v rest hv]
      simp [nest_size_entries]
      omega
end

/-- The parser on the tokens of a plain root table. -/
theorem parse_tokens_plain (nest : Bool) (a : List (List Char × ako_elem_t)) (ha : a ≠ [])
    (hp : plain_entries nest a = true) (ts : List token_t)
    (hts : ts.map strip = atoks_entries a) :
    ako_parse_tokens ts = .ok (AT_TABLE a) := by
  have hlen : nest_size_entries a ≤ ts.length := by
    have := nest_size_entries_le a
    rw [← hts] at this
    simpa using this
  have hloop := table_loop_plain nest (nest_size_entries a) a (le_refl _) hp ts [] ts.length
    (ts.length + 1) [] hts trivial (Or.inl rfl) hlen (by simp)
  simp only [List.append_nil, List.nil_append] at hloop
  have hfirst : ∃ t tl, ts = t :: tl ∧ (t.type = AKO_TT_IDENT ∨ t.type = AKO_TT_SEMICOLON) := by
    cases a with
    | nil => exact absurd rfl ha
    | cons kv rest =>
      obtain ⟨k, v⟩ := kv
      by_cases hv : v = AT_NULL
      · subst hv
        simp only [atoks_entries] at hts
        obtain ⟨t, ts2, rfl, h1, -, -⟩ := map_strip_cons hts
        exact ⟨t, ts2, rfl, Or.inr h1⟩
      · rw [atoks_entries_cons_of_ne k v rest hv] at hts
        obtain ⟨t, ts2, rfl, h1, -, -⟩ := map_strip_cons hts
        exact ⟨t, ts2, rfl, Or.inl h1⟩
  obtain ⟨t, tl, rfl, ht⟩ := hfirst
  rcases ht with ht | ht <;>
    simp [ako_parse_tokens, ht, parser._parse_table, Outcome.bind] <;>
    simp at hloop <;> simp [hloop]

/-! ### The lexer on the text of the plain fragment -/

section RoundTrip

open tokenizer

theorem LexTo.refl (src : List Char) : LexTo src src [] := by
  intro toks m loc reg fuel hf
  exact ⟨[], m, loc, reg, fuel, hf, rfl, by simp⟩

theorem LexTo.trans {a b c : List Char} {n1 n2 : List atok}
    (h1 : LexTo a b n1) (h2 : LexTo b c n2) : LexTo a c (n1 ++ n2) := by
  intro toks m loc reg fuel hf
  obtain ⟨t1, m1, l1, r1, f1, hf1, hn1, e1⟩ := h1 toks m loc reg fuel hf
  obtain ⟨t2, m2, l2, r2, f2, hf2, hn2, e2⟩ := h2 (toks ++ t1) m1 l1 r1 f1 hf1
  refine ⟨t1 ++ t2, m2, l2, r2, f2, hf2, by simp [hn1, hn2], ?_⟩
  rw [e1, e2, List.append_assoc]

theorem lex_blank (c : Char) (rest : List Char) (hc : c = ' ' ∨ c = '\n') :
    LexTo (c :: rest) rest [] := by
  intro toks m loc reg fuel hf
  cases fuel with
  | zero => omega
  | succ f =>
    refine ⟨[], m, advance loc c, reg, f, by simp at hf; omega, rfl, ?_⟩
    simp [tokenize_loop, hc, consume]

theorem lex_blanks : ∀ (ws rest : List Char), (∀ c ∈ ws, c = ' ' ∨ c = '\n') →
    LexTo (ws ++ rest) rest [] := by
  intro ws
  induction ws with
  | nil => intro rest _; exact LexTo.refl rest
  | cons c ws ih =>
    intro rest h
    have h1 := lex_blank c (ws ++ rest) (h c (List.mem_cons_self _ _))
    have h2 := ih rest (fun d hd => h d (List.mem_cons_of_mem _ hd))
    simpa using LexTo.trans h1 h2

theorem lex_semicolon (rest : List Char) :
    LexTo (';' :: rest) rest [(AKO_TT_SEMICOLON, .int 0)] := by
  intro toks m loc reg fuel hf
  cases fuel with
  | zero => omega
  | succ f =>
    refine ⟨[⟨AKO_TT_SEMICOLON, loc, advance loc ';', .int 0⟩], loc, advance loc ';', .int 0, f,
      by simp at hf; omega, rfl, ?_⟩
    simp [tokenize_loop, consume, start_meta, add_token]

theorem lex_open_brace (rest : List Char) (h : rest.head? ≠ some '[') :
    LexTo ('[' :: rest) rest [(AKO_TT_OPEN_BRACE, .int 0)] := by
  intro toks m loc reg fuel hf
  cases fuel with
  | zero => omega
  | succ f =>
    refine ⟨[⟨AKO_TT_OPEN_BRACE, loc, advance loc '[', .int 0⟩], loc, advance loc '[', .int 0, f,
      by simp at hf; omega, rfl, ?_⟩
    simp [tokenize_loop, consume, start_meta, add_token, h]

theorem lex_close_brace (rest : List Char) (h : rest.head? ≠ some ']') :
    LexTo (']' :: rest) rest [(AKO_TT_CLOSE_BRACE, .int 0)] := by
  intro toks m loc reg fuel hf
  cases fuel with
  | zero => omega
  | succ f =>
    refine ⟨[⟨AKO_TT_CLOSE_BRACE, loc, advance loc ']', .int 0⟩], loc, advance loc ']', .int 0, f,
      by simp at hf; omega, rfl, ?_⟩
    simp [tokenize_loop, consume, start_meta, add_token, h]

theorem digitChar_spec (d : Nat) (h : d < 10) :
    isdigit (digitChar d) = true ∧ digitVal (digitChar d) = d ∧ (digitChar d = '0' ↔ d = 0) := by
  interval_cases d <;> decide

theorem digitsVal_acc (b : Nat) : ∀ (cs : List Char) (v : Nat),
    digitsVal b cs v = v * b ^ cs.length + digitsVal b cs 0 := by
  intro cs
  induction cs with
  | nil => intro v; simp [digitsVal]
  | cons c cs ih =>
    intro v
    simp only [digitsVal, List.length_cons]
    rw [ih (v * b + digitVal c), ih (0 * b + digitVal c)]
    ring

theorem decDigits_spec : ∀ (fuel n : Nat) (acc : List Char), n < fuel →
    (∀ c ∈ acc, isdigit c = true) →
    (∀ c ∈ decDigits fuel n acc, isdigit c = true)
    ∧ digitsVal 10 (decDigits fuel n acc) 0 = n * 10 ^ acc.length + digitsVal 10 acc 0
    ∧ (∃ c tl, decDigits fuel n acc = c :: tl ∧ (c = '0' → n = 0 ∧ tl = acc)) := by
  intro fuel
  induction fuel with
  | zero => intro n acc h; omega
  | succ f ih =>
    intro n acc hf hacc
    unfold decDigits
    by_cases hn : n < 10
    · simp only [hn, if_true]
      obtain ⟨h1, h2, h3⟩ := digitChar_spec n hn
      refine ⟨?_, ?_, ⟨_, _, rfl, fun h => ⟨h3.1 h, rfl⟩⟩⟩
      · intro c hc
        rcases List.mem_cons.1 hc with rfl | hc
        · exact h1
        · exact hacc c hc
      · simp only [digitsVal, h2]
        rw [digitsVal_acc]
        ring
    · simp only [hn, if_false]
      obtain ⟨h1, h2, -⟩ := digitChar_spec (n % 10) (Nat.mod_lt _ (by norm_num))
      have hacc2 : ∀ c ∈ digitChar (n % 10) :: acc, isdigit c = true := by
        intro c hc
        rcases List.mem_cons.1 hc with rfl | hc
        · exact h1
        · exact hacc c hc
      obtain ⟨g1, g2, c, tl, g3, g4⟩ := ih (n / 10) (digitChar (n % 10) :: acc)
        (by omega) hacc2
      refine ⟨g1, ?_, ⟨c, tl, g3, fun h => ?_⟩⟩
      · rw [g2]
        simp only [digitsVal, List.length_cons, h2]
        rw [digitsVal_acc 10 acc (0 * 10 + n % 10)]
        have := Nat.div_add_mod n 10
        have e : n / 10 * 10 ^ (acc.length + 1) + ((0 * 10 + n % 10) * 10 ^ acc.length
            + digitsVal 10 acc 0)
            = (10 * (n / 10) + n % 10) * 10 ^ acc.length + digitsVal 10 acc 0 := by ring
        rw [e, this]
      · have := (g4 h).1
        omega

theorem fmt_nat_spec (n : Nat) :
    (∀ c ∈ fmt_nat n, isdigit c = true) ∧ digitsVal 10 (fmt_nat n) 0 = n
    ∧ ∃ c tl, fmt_nat n = c :: tl ∧ isdigit c = true ∧ (c = '0' → tl = []) := by
  obtain ⟨h1, h2, c, tl, h3, h4⟩ := decDigits_spec (n + 1) n [] (Nat.lt_succ_self _)
    (by simp)
  refine ⟨h1, by simpa [digitsVal] using h2, c, tl, h3, ?_, fun h => (h4 h).2⟩
  exact h1 c (by rw [show decDigits (n + 1) n [] = c :: tl from h3]; simp)

theorem strtoll_fmt_nat (n : Nat) (hn : n < 2 ^ 63) : strtoll (fmt_nat n) = some (Int.ofNat n) := by
  obtain ⟨h1, h2, c, tl, h3, h4, h5⟩ := fmt_nat_spec n
  rw [h3] at h2 ⊢
  unfold strtoll
  simp only
  have hoct : ¬ (c = '0' ∧ tl ≠ []) := fun h => h.2 (h5 h.1)
  rw [if_neg hoct, h2, if_pos hn]

theorem fmt_d_small (i : Int) (h0 : 0 ≤ i) (h1 : i < 2 ^ 31) : fmt_d i = fmt_nat i.toNat := by
  unfold fmt_d fmt_int
  have e : (i + 2 ^ 31) % 2 ^ 32 - 2 ^ 31 = i := by
    norm_num at h1 ⊢
    omega
  rw [e, if_neg (by omega)]
  congr 1
  omega

theorem consume_n_eq (toks : List token_t) (m : location_t) :
    ∀ (pre rest : List Char) (loc : location_t),
      consume_n pre.length ⟨toks, pre ++ rest, m, loc⟩
        = (pre, ⟨toks, rest, m, pre.foldl advance loc⟩) := by
  intro pre
  induction pre with
  | nil => intro rest loc; rfl
  | cons c pre ih =>
    intro rest loc
    simp only [List.length_cons, consume_n, consume, List.cons_append, ih, List.foldl_cons]

theorem count_id_eq : ∀ (k : List Char) (b : Char) (rest : List Char),
    k.all (fun d => isalnum d || d = '_') = true → (b = ' ' ∨ b = '\n') →
    count_id (k ++ b :: rest) = k.length := by
  intro k
  induction k with
  | nil =>
    intro b rest _ hb
    rcases hb with rfl | rfl <;> simp [count_id] <;> decide
  | cons c k ih =>
    intro b rest hk hb
    simp only [List.all_cons, Bool.and_eq_true] at hk
    simp only [List.cons_append, count_id, hk.1, if_true, List.length_cons, List.append_eq]
    rw [ih b rest hk.2 hb]

theorem count_number_eq : ∀ (ds : List Char) (b : Char) (rest : List Char),
    (∀ c ∈ ds, isdigit c = true) → (b = ' ' ∨ b = '\n') →
    count_number (ds ++ b :: rest) = ds.length := by
  intro ds
  induction ds with
  | nil =>
    intro b rest _ hb
    rcases hb with rfl | rfl <;> simp [count_number] <;> decide
  | cons c ds ih =>
    intro b rest hd hb
    have hc := hd c (List.mem_cons_self _ _)
    simp only [List.cons_append, count_number, hc, Bool.true_or, if_true, List.length_cons,
      List.append_eq]
    rw [ih b rest (fun d h => hd d (List.mem_cons_of_mem _ h)) hb]

theorem valid_id_ne {c : Char} (h : is_valid_id c = true) :
    c ≠ ' ' ∧ c ≠ '\n' ∧ c ≠ '#' ∧ c ≠ '+' ∧ c ≠ '-' ∧ c ≠ ';' ∧ c ≠ '.' ∧ c ≠ '&'
      ∧ c ≠ '[' ∧ c ≠ ']' := by
  refine ⟨?_, ?_, ?_, ?_, ?_, ?_, ?_, ?_, ?_, ?_⟩ <;>
    (rintro rfl; revert h; decide)

theorem digit_ne {c : Char} (h : isdigit c = true) :
    c ≠ ' ' ∧ c ≠ '\n' ∧ c ≠ '#' ∧ c ≠ '+' ∧ c ≠ '-' ∧ c ≠ ';' ∧ c ≠ '.' ∧ c ≠ '&'
      ∧ c ≠ '[' ∧ c ≠ ']' ∧ c ≠ '"' ∧ is_valid_id c = false := by
  refine ⟨?_, ?_, ?_, ?_, ?_, ?_, ?_, ?_, ?_, ?_, ?_, ?_⟩
  iterate 11 (rintro rfl; revert h; decide)
  simp only [isdigit, Bool.and_eq_true, decide_eq_true_eq] at h
  have h1 : ('0' : Char).toNat = 48 := rfl
  have h2 : ('9' : Char).toNat = 57 := rfl
  have h3 : ('a' : Char).toNat = 97 := rfl
  have h4 : ('A' : Char).toNat = 65 := rfl
  have h5 : ('_' : Char).toNat = 95 := rfl
  have hne : c ≠ '_' := by
    rintro rfl
    rw [h1, h2, h5] at h
    omega
  simp only [is_valid_id, isalpha, hne, decide_False, Bool.or_false, Bool.or_eq_false_iff,
    Bool.and_eq_false_iff, decide_eq_false_iff_not, not_le]
  rw [h1, h2] at h
  rw [h3, h4]
  constructor <;> left <;> omega

theorem lex_ident (k : List Char) (b : Char) (rest : List Char)
    (hk : is_identifier k = true) (hb : b = ' ' ∨ b = '\n') :
    LexTo (k ++ b :: rest) (b :: rest) [(AKO_TT_IDENT, .string k)] := by
  intro toks m loc reg fuel hf
  cases k with
  | nil => simp [is_identifier] at hk
  | cons c k2 =>
    simp only [is_identifier, Bool.and_eq_true] at hk
    obtain ⟨hv, hall⟩ := hk
    have hall2 : (c :: k2).all (fun d => isalnum d || d = '_') = true := by
      simp only [List.all_cons, hall, Bool.and_true]
      simp only [is_valid_id, Bool.or_eq_true, decide_eq_true_eq] at hv
      rcases hv with hv | hv
      · simp [isalnum, hv]
      · simp [hv]
    obtain ⟨n1, n2, n3, n4, n5, n6, n7, n8, n9, n10⟩ := valid_id_ne hv
    cases fuel with
    | zero => omega
    | succ f =>
      refine ⟨[⟨AKO_TT_IDENT, loc, (c :: k2).foldl advance loc, .string (c :: k2)⟩], loc,
        (c :: k2).foldl advance loc, .string (c :: k2), f, by simp at hf ⊢; omega, rfl, ?_⟩
      have hcnt := count_id_eq (c :: k2) b rest hall2 hb
      have hcons := consume_n_eq toks loc (c :: k2) (b :: rest) loc
      simp only [List.cons_append] at hcnt hcons
      simp only [List.cons_append, tokenize_loop, n1, n2, n3, n4, n5, n6, n7, n8, n9, n10,
        or_self, if_false, start_meta, hv, if_true, hcnt, hcons, add_token]

theorem digits_no_dot (ds : List Char) (h : ∀ c ∈ ds, isdigit c = true) :
    ds.contains '.' = false := by
  induction ds with
  | nil => rfl
  | cons c ds ih =>
    have hc := (digit_ne (h c (List.mem_cons_self _ _))).2.2.2.2.2.2.1
    simp only [List.contains_cons, Bool.or_eq_false_iff]
    refine ⟨?_, ih (fun d hd => h d (List.mem_cons_of_mem _ hd))⟩
    simpa [beq_eq_false_iff_ne] using hc.symm

theorem lex_int (i : Int) (b : Char) (rest : List Char)
    (h0 : 0 ≤ i) (h1 : i < 2 ^ 31) (hb : b = ' ' ∨ b = '\n') :
    LexTo (fmt_d i ++ b :: rest) (b :: rest) [(AKO_TT_INT, .int i)] := by
  intro toks m loc reg fuel hf
  rw [fmt_d_small i h0 h1] at hf ⊢
  obtain ⟨hd, -, c, tl, hds, hc, -⟩ := fmt_nat_spec i.toNat
  have hst := strtoll_fmt_nat i.toNat (by
    have : i.toNat < 2 ^ 31 := by
      norm_num at h1 ⊢
      omega
    calc i.toNat < 2 ^ 31 := this
      _ < 2 ^ 63 := by norm_num)
  have hi : Int.ofNat i.toNat = i := by simp [h0]
  rw [hi] at hst
  have hcnt := count_number_eq (fmt_nat i.toNat) b rest hd hb
  have hcons := consume_n_eq toks loc (fmt_nat i.toNat) (b :: rest) loc
  have hnd := digits_no_dot (fmt_nat i.toNat) hd
  have hlen : (fmt_nat i.toNat).length ≠ 0 := by rw [hds]; simp
  have hpd : parse_digit ⟨toks, fmt_nat i.toNat ++ b :: rest, loc, loc⟩
      = .ok (true, ⟨toks ++ [⟨AKO_TT_INT, loc, (fmt_nat i.toNat).foldl advance loc, .int i⟩],
          b :: rest, loc, (fmt_nat i.toNat).foldl advance loc⟩) := by
    simp only [parse_digit, hcnt, hlen, if_false, hcons, hnd, hst, add_token]
    simp
  have hbx : b ≠ 'x' := by rcases hb with rfl | rfl <;> decide
  obtain ⟨n1, n2, n3, n4, n5, n6, n7, n8, n9, n10, n11, n12⟩ := digit_ne hc
  cases fuel with
  | zero => omega
  | succ f =>
    refine ⟨[⟨AKO_TT_INT, loc, (fmt_nat i.toNat).foldl advance loc, .int i⟩], loc,
      (fmt_nat i.toNat).foldl advance loc, reg, f, ?_, rfl, ?_⟩
    · rw [hds] at hf
      simp at hf ⊢
      omega
    · rw [hds] at hpd ⊢
      simp only [List.cons_append] at hpd ⊢
      simp only [tokenize_loop, n1, n2, n3, n4, n5, n6, n7, n8, n9, n10, or_self, if_false,
        start_meta, n12, Bool.false_eq_true, hpd, vector_loop, hbx]

theorem count_string_plain : ∀ (s rest : List Char), s.all plain_char = true →
    count_string (s ++ '"' :: rest) = .ok s.length := by
  intro s
  induction s with
  | nil =>
    intro rest _
    rw [List.nil_append, count_string.eq_def]
    simp
  | cons c s ih =>
    intro rest h
    simp only [List.all_cons, Bool.and_eq_true] at h
    have hc := h.1
    simp only [plain_char, Bool.and_eq_true, decide_eq_true_eq] at hc
    obtain ⟨⟨⟨c1, c2⟩, c3⟩, c4⟩ := hc
    rw [List.cons_append, count_string.eq_def]
    simp only [c1, c2, c3, c4, or_self, if_false, ih rest h.2, Outcome.bind, List.length_cons]

theorem read_string_plain : ∀ (s rest : List Char) (loc : location_t),
    s.all plain_char = true →
    read_string (s ++ '"' :: rest) loc
      = ((s, s.length), (rest, (s ++ ['"']).foldl advance loc)) := by
  intro s
  induction s with
  | nil =>
    intro rest loc _
    rw [List.nil_append, read_string.eq_def]
    simp
  | cons c s ih =>
    intro rest loc h
    simp only [List.all_cons, Bool.and_eq_true] at h
    have hc := h.1
    simp only [plain_char, Bool.and_eq_true, decide_eq_true_eq] at hc
    obtain ⟨⟨⟨c1, c2⟩, c3⟩, c4⟩ := hc
    rw [List.cons_append, read_string.eq_def]
    simp only [c1, c2, if_false, ih rest _ h.2, List.length_cons, List.cons_append,
      List.foldl_cons]

theorem lex_string (s rest : List Char) (hs : s.all plain_char = true) :
    LexTo ('"' :: (s ++ '"' :: rest)) rest [(AKO_TT_STRING, .string s)] := by
  intro toks m loc reg fuel hf
  cases fuel with
  | zero => omega
  | succ f =>
    refine ⟨[⟨AKO_TT_STRING, loc, (s ++ ['"']).foldl advance (advance loc '"'), .string s⟩], loc,
      (s ++ ['"']).foldl advance (advance loc '"'), .string s, f, ?_, rfl, ?_⟩
    · simp at hf ⊢
      omega
    · have hpd : parse_digit ⟨toks, '"' :: (s ++ '"' :: rest), loc, loc⟩
          = .ok (false, ⟨toks, '"' :: (s ++ '"' :: rest), loc, loc⟩) := by
        simp [parse_digit, count_number, isdigit]
      have hq : is_valid_id '"' = false := by decide
      simp only [tokenize_loop, start_meta, hpd, consume, count_string_plain s rest hs,
        read_string_plain s rest _ hs, add_token, hq]
      simp

theorem end_char_eq (indent : List Char) :
    (if indent ≠ [] then ['\n'] else [' ']) = [end_char indent] := by
  unfold end_char
  split <;> rfl

theorem end_char_blank (indent : List Char) : end_char indent = ' ' ∨ end_char indent = '\n' := by
  unfold end_char
  split
  · exact Or.inr rfl
  · exact Or.inl rfl

theorem serialise_entries_cons (k : List Char) (v : ako_elem_t)
    (rest : List (List Char × ako_elem_t)) (indent : List Char) (L : Nat) :
    serialise_entries ((k, v) :: rest) indent L
      = if (_serialise v indent L false).2 then (_make_indent indent L, true)
        else
          (_make_indent indent L
            ++ (if (_serialise v indent L false).1 = ['+'] ∨ (_serialise v indent L false).1 = ['-']
                  ∨ (_serialise v indent L false).1 = [';']
                then (_serialise v indent L false).1 ++ k
                else k ++ [' '] ++ (_serialise v indent L false).1)
            ++ [end_char indent] ++ (serialise_entries rest indent L).1,
           (serialise_entries rest indent L).2) := by
  rw [serialise_entries, end_char_eq]

theorem serialise_table_nonempty (a : List (List Char × ako_elem_t)) (ha : a ≠ [])
    (indent : List Char) (L : Nat) :
    _serialise (AT_TABLE a) indent L false
      = if (serialise_entries a indent (L + 1)).2 then
          ('[' :: end_char indent :: (serialise_entries a indent (L + 1)).1, true)
        else
          ('[' :: end_char indent :: ((serialise_entries a indent (L + 1)).1
            ++ _make_indent indent L ++ [']']), false) := by
  have hl : a.length ≠ 0 := by
    cases a with
    | nil => exact absurd rfl ha
    | cons _ _ => simp
  rw [_serialise, end_char_eq]
  simp [hl]

theorem serialise_table_root (a : List (List Char × ako_elem_t)) (indent : List Char) :
    _serialise (AT_TABLE a) indent 0 true
      = if (serialise_entries a indent 0).2 then ((serialise_entries a indent 0).1, true)
        else ((serialise_entries a indent 0).1, false) := by
  rw [_serialise]
  simp [_make_indent]

theorem ako_serialize_eq (elem : ako_elem_t) (flags : ako_serialize_flags_t) :
    ako_serialize elem flags
      = if (_serialise elem (indent_of flags) 0 true).2 then .ok none
        else if (_serialise elem (indent_of flags) 0 true).1 = [] then .abort .heapOverflow
        else .ok (some (_serialise elem (indent_of flags) 0 true).1) := rfl

theorem serialise_entries_ne_nil (kv : List Char × ako_elem_t)
    (rest : List (List Char × ako_elem_t)) (indent : List Char) (L : Nat)
    (h : (serialise_entries (kv :: rest) indent L).2 = false) :
    (serialise_entries (kv :: rest) indent L).1 ≠ [] := by
  obtain ⟨k, v⟩ := kv
  rw [serialise_entries_cons] at h ⊢
  split at h
  · cases h
  · rename_i hv
    rw [if_neg hv]
    simp

/-- The text of a top-level table with entries, when every value renders. -/
theorem serialize_table_root (a : List (List Char × ako_elem_t)) (ha : a ≠ [])
    (flags : ako_serialize_flags_t) (h : (serialise_entries a (indent_of flags) 0).2 = false) :
    ako_serialize (AT_TABLE a) flags = .ok (some (serialise_entries a (indent_of flags) 0).1) := by
  cases a with
  | nil => exact absurd rfl ha
  | cons kv rest =>
    rw [ako_serialize_eq, serialise_table_root, h]
    simp only [Bool.false_eq_true, if_false]
    rw [if_neg (serialise_entries_ne_nil kv rest _ 0 h)]

/-- The top-level table without entries: nothing is appended to the block. -/
theorem serialize_table_root_empty (flags : ako_serialize_flags_t) :
    ako_serialize (AT_TABLE []) flags = .abort .heapOverflow := by
  rw [ako_serialize_eq, serialise_table_root]
  simp [serialise_entries]

theorem make_indent_blank (indent : List Char) (h : ∀ c ∈ indent, c = ' ') (L : Nat) :
    ∀ c ∈ _make_indent indent L, c = ' ' ∨ c = '\n' := by
  intro c hc
  simp only [_make_indent, List.mem_flatten, List.mem_replicate] at hc
  obtain ⟨l, ⟨-, rfl⟩, hc⟩ := hc
  exact Or.inl (h c hc)

theorem digit_head_not_sign {ds : List Char} {c : Char} {tl : List Char} (h : ds = c :: tl)
    (hc : isdigit c = true) : ¬ (ds = ['+'] ∨ ds = ['-'] ∨ ds = [';']) := by
  obtain ⟨-, -, -, n4, n5, n6, -⟩ := digit_ne hc
  subst h
  simp [n4, n5, n6]

theorem end_head_ne (indent : List Char) (x : List Char) (c : Char) (hc : c = '[' ∨ c = ']') :
    (end_char indent :: x).head? ≠ some c := by
  rcases end_char_blank indent with h | h <;> rcases hc with rfl | rfl <;> simp [h]

theorem lex_done {src : List Char} {new : List atok} (h : LexTo src [] new) :
    ∃ toks, ako_tokenize src = .ok toks ∧ toks.map strip = new := by
  obtain ⟨toks2, m2, loc2, reg2, fuel2, hf, hm, he⟩ :=
    h [] ⟨0, 0, 0⟩ ⟨1, 1, 0⟩ (.int 0) (src.length + 1) (Nat.lt_succ_self _)
  refine ⟨toks2, ?_, hm⟩
  rw [ako_tokenize, he]
  cases fuel2 with
  | zero => simp at hf
  | succ f => simp [tokenize_loop]

theorem atoks_entries_ne_nil (a : List (List Char × ako_elem_t)) (ha : a ≠ []) :
    atoks_entries a ≠ [] := by
  cases a with
  | nil => exact absurd rfl ha
  | cons kv as =>
    obtain ⟨k, v⟩ := kv
    cases v <;> simp [atoks_entries]

end RoundTrip

/-! ### Faults, loops and lex errors (C12 to C14) -/

theorem tokenize_loop_hangs (c : Char) (hc : starts_no_token c = true) (rest : List Char)
    (toks : List token_t) (m loc : location_t) (reg : token_value) (fuel : Nat) :
    tokenizer.tokenize_loop (fuel + 1) ⟨toks, c :: rest, m, loc⟩ reg = .hang := by
  simp only [starts_no_token, Bool.not_eq_true', Bool.or_eq_false_iff, decide_eq_false_iff_not]
    at hc
  obtain ⟨⟨⟨⟨⟨⟨⟨⟨⟨⟨⟨⟨⟨h1, h2⟩, h3⟩, h4⟩, h5⟩, h6⟩, h7⟩, h8⟩, h9⟩, h10⟩, h11⟩, h12⟩, h13⟩, -⟩ :=
    hc
  simp [tokenizer.tokenize_loop, h1, h2, h3, h4, h5, h6, h7, h8, h9, h10, h11, h12, h13,
    tokenizer.start_meta, tokenizer.parse_digit, tokenizer.count_number]

/-- C12. The source `a.b`, a key path at the end of the input with no value, does not
yield an `Error` root: `_parse_value` reads the type of the next token where there is none,
a read through a null pointer. The source `a 1 a.b 2` fails the `assert` of
`ako_elem_table_add`. A lone key `a` is caught by the check for two tokens. -/
theorem C12_key_path_without_value_reads_null :
    ako_parse "a.b".toList = .abort .nullDeref
    ∧ ako_parse "a 1 b.c".toList = .abort .nullDeref
    ∧ ako_parse "a 1 a.b 2".toList = .abort .assertion
    ∧ ako_parse "a".toList = .ok (AT_ERROR "Expected two tokens, got zero/one.".toList) := by
  decide!

/-- C13. The lexer does not return on every input. At a byte that starts no token the main
loop repeats with the same state, from any state of the lexer; so `ako_tokenize` never
returns on a source that begins with such a byte, as a tab, a carriage return or `!`. Inside
a string literal `count_string` repeats at a raw newline or tab without advancing. -/
theorem C13_lexer_loops_forever :
    (∀ (c : Char) (rest : List Char) (toks : List token_t) (m loc : location_t)
        (reg : token_value) (fuel : Nat), starts_no_token c = true →
      tokenizer.tokenize_loop (fuel + 1) ⟨toks, c :: rest, m, loc⟩ reg = .hang)
    ∧ (∀ (c : Char) (rest : List Char), starts_no_token c = true →
      ako_tokenize (c :: rest) = .hang)
    ∧ starts_no_token '\t' = true ∧ starts_no_token '\r' = true ∧ starts_no_token '!' = true
    ∧ ako_tokenize "a 1\tb 2".toList = .hang
    ∧ ako_tokenize "a \"x\ny\"".toList = .hang
    ∧ ako_tokenize "a \"x\ty\"".toList = .hang := by
  refine ⟨?_, ?_, by decide, by decide, by decide, by decide!, by decide!, by decide!⟩
  · intro c rest toks m loc reg fuel hc
    exact tokenize_loop_hangs c hc rest toks m loc reg fuel
  · intro c rest hc
    exact tokenize_loop_hangs c hc rest _ _ _ _ _

/-- C13, at the source `!a`. -/
theorem C13_lexer_loops_forever_witness :
    starts_no_token '!' = true ∧ ako_tokenize ('!' :: "a".toList) = .hang :=
  ⟨by decide, C13_lexer_loops_forever.2.1 '!' "a".toList (by decide)⟩

/-- C14. On a number that is no valid numeric text (`1.2.3`, `08`) and on an `x` with no
number after it (`1x`) `ako_tokenize` does not return an empty sequence and a message: the
message is written by `sprintf(*err, ...)` while `*err` is null. `ako_parse` stops there
too and returns no `Error` element. -/
theorem C14_lex_error_writes_through_null :
    ako_tokenize "1.2.3".toList = .abort .nullDeref
    ∧ ako_tokenize "08".toList = .abort .nullDeref
    ∧ ako_tokenize "1x".toList = .abort .nullDeref
    ∧ ako_parse "a 1.2.3".toList = .abort .nullDeref
    ∧ ako_parse "a 08".toList = .abort .nullDeref
    ∧ ako_parse "a 1x".toList = .abort .nullDeref := by
  decide!

/-! ### Unterminated strings (C15) -/

section OpenString

open tokenizer

theorem count_string_open : ∀ (s : List Char), s.all plain_char = true →
    count_string s = .ok s.length := by
  intro s
  induction s with
  | nil =>
    intro _
    rw [count_string.eq_def]
    simp
  | cons c s ih =>
    intro h
    simp only [List.all_cons, Bool.and_eq_true] at h
    have hc := h.1
    simp only [plain_char, Bool.and_eq_true, decide_eq_true_eq] at hc
    obtain ⟨⟨⟨c1, c2⟩, c3⟩, c4⟩ := hc
    rw [count_string.eq_def]
    simp only [c1, c2, c3, c4, or_self, if_false, ih h.2, Outcome.bind, List.length_cons]

theorem read_string_open : ∀ (s : List Char) (loc : location_t),
    s.all plain_char = true →
    read_string s loc = ((s, s.length), ([], s.foldl advance loc)) := by
  intro s
  induction s with
  | nil =>
    intro loc _
    rw [read_string.eq_def]
    simp
  | cons c s ih =>
    intro loc h
    simp only [List.all_cons, Bool.and_eq_true] at h
    have hc := h.1
    simp only [plain_char, Bool.and_eq_true, decide_eq_true_eq] at hc
    obtain ⟨⟨⟨c1, c2⟩, c3⟩, c4⟩ := hc
    rw [read_string.eq_def]
    simp only [c1, c2, if_false, ih _ h.2, List.length_cons, List.foldl_cons]

theorem tokenize_open_string (s : List Char) (hs : s.all plain_char = true)
    (toks : List token_t) (m loc : location_t) (reg : token_value) (f : Nat) :
    tokenize_loop (f + 2) ⟨toks, '"' :: s, m, loc⟩ reg
      = .ok (toks ++ [⟨AKO_TT_STRING, loc, s.foldl advance (advance loc '"'), .string s⟩]) := by
  have hpd : parse_digit ⟨toks, '"' :: s, loc, loc⟩ = .ok (false, ⟨toks, '"' :: s, loc, loc⟩) := by
    simp [parse_digit, count_number, isdigit]
  have hq : is_valid_id '"' = false := by decide
  simp only [tokenize_loop, start_meta, hpd, consume, count_string_open s hs,
    read_string_open s _ hs, add_token, hq]
  simp

theorem lex_string_open (s : List Char) (hs : s.all plain_char = true) :
    LexTo ('"' :: s) [] [(AKO_TT_STRING, .string s)] := by
  intro toks m loc reg fuel hf
  cases fuel with
  | zero => omega
  | succ f =>
    cases f with
    | zero => simp at hf
    | succ g =>
      refine ⟨[⟨AKO_TT_STRING, loc, s.foldl advance (advance loc '"'), .string s⟩], loc,
        s.foldl advance (advance loc '"'), .string s, 1, by simp, rfl, ?_⟩
      rw [tokenize_open_string s hs]
      simp [tokenize_loop]

end OpenString

theorem parse_open_string (k s : List Char) (hk : is_identifier k = true)
    (hs : s.all plain_char = true) :
    ako_parse (k ++ ' ' :: '"' :: s) = .ok (AT_TABLE [(k, AT_STRING s)]) := by
  have l1 := lex_ident k ' ' ('"' :: s) hk (Or.inl rfl)
  have l2 := lex_blank ' ' ('"' :: s) (Or.inl rfl)
  have l3 := lex_string_open s hs
  obtain ⟨toks, ht, hm⟩ := lex_done (l1.trans (l2.trans l3))
  have hm2 : toks.map strip = atoks_entries [(k, AT_STRING s)] := by
    simpa [atoks_entries, atoks_value] using hm
  have hne : toks.length ≠ 0 := by
    intro h0
    have : toks = [] := List.length_eq_zero.mp h0
    subst this
    simp at hm
  have hp : plain_entries false [(k, AT_STRING s)] = true := by
    simp [plain_entries, plain_value, hk, hs]
  simp only [ako_parse, ht, Outcome.bind, hne, if_false]
  exact parse_tokens_plain false _ (by simp) hp toks hm2

/-- C15, counterexample. In the source `a "abc` the quote opens a string literal that is
never closed. The lexer returns two tokens, the identifier `a` and a `String` token holding
`abc`, and `ako_parse` returns the table with `a` = `String` `abc`, which is no `Error`. -/
theorem C15_unterminated_string_is_accepted :
    (ako_tokenize "a \"abc".toList).bind (fun ts => .ok (ts.map strip))
        = .ok [(AKO_TT_IDENT, .string "a".toList), (AKO_TT_STRING, .string "abc".toList)]
    ∧ ako_parse "a \"abc".toList = .ok (AT_TABLE [("a".toList, AT_STRING "abc".toList)])
    ∧ ako_elem_is_error (AT_TABLE [("a".toList, AT_STRING "abc".toList)]) = false := by
  decide!

/-- C15, amended. When the main loop of the lexer is at a quote and the rest of the input
`s` holds no quote, no backslash, no newline and no tab, the loop returns: no error is
reported, and the tokens are those so far and one `String` token, from the quote to the end
of the input, whose payload is `s`. For an identifier `k` the source `k "s` parses to the
table with `k` = `String` `s`. -/
theorem C15_open_string_is_a_token :
    (∀ (s : List Char) (toks : List token_t) (m loc : location_t) (reg : token_value)
        (fuel : Nat),
      s.all plain_char = true → s.length + 1 < fuel →
      tokenizer.tokenize_loop fuel ⟨toks, '"' :: s, m, loc⟩ reg
        = .ok (toks ++ [⟨AKO_TT_STRING, loc,
            s.foldl tokenizer.advance (tokenizer.advance loc '"'), .string s⟩]))
    ∧ (∀ k s : List Char, is_identifier k = true → s.all plain_char = true →
      ako_parse (k ++ ' ' :: '"' :: s) = .ok (AT_TABLE [(k, AT_STRING s)])) := by
  refine ⟨?_, parse_open_string⟩
  intro s toks m loc reg fuel hs hf
  obtain ⟨f, rfl⟩ : ∃ f, fuel = f + 2 := ⟨fuel - 2, by omega⟩
  exact tokenize_open_string s hs toks m loc reg f

/-- C15 amended, at the source `key "open`. -/
theorem C15_open_string_is_a_token_witness :
    is_identifier "key".toList = true ∧ "open".toList.all plain_char = true
    ∧ ako_parse ("key".toList ++ ' ' :: '"' :: "open".toList)
        = .ok (AT_TABLE [("key".toList, AT_STRING "open".toList)]) :=
  ⟨by decide, by decide, C15_open_string_is_a_token.2 _ _ (by decide) (by decide)⟩

/-! ### Descent through a scalar, stray and missing brackets (C16 to C18) -/

/-- C16. The source `a 1 a.b 2`, where the dotted key `a.b` descends through `a`, an `Int`:
`ako_parse` returns no `Error` root. The parser takes the `Int` as the current table and
`ako_elem_table_add` fails its `assert` on the type; with one more segment (`a.b.c`), and in
a value-first entry (`+a.b`), it is the same. -/
theorem C16_dotted_descent_through_scalar_fails_assert :
    ako_parse "a 1 a.b 2".toList = .abort .assertion
    ∧ ako_parse "a 1 a.b.c 2".toList = .abort .assertion
    ∧ ako_parse "a 1 +a.b".toList = .abort .assertion := by
  decide!

theorem atoks_entries_head (a : List (List Char × ako_elem_t)) (ha : a ≠ [])
    (ts : List token_t) (hts : ts.map strip = atoks_entries a) :
    ∃ t tl, ts = t :: tl ∧ (t.type = AKO_TT_IDENT ∨ t.type = AKO_TT_SEMICOLON) := by
  cases a with
  | nil => exact absurd rfl ha
  | cons kv rest =>
    obtain ⟨k, v⟩ := kv
    by_cases hv : v = AT_NULL
    · subst hv
      simp only [atoks_entries] at hts
      obtain ⟨t, ts2, rfl, h1, -, -⟩ := map_strip_cons hts
      exact ⟨t, ts2, rfl, Or.inr h1⟩
    · rw [atoks_entries_cons_of_ne k v rest hv] at hts
      obtain ⟨t, ts2, rfl, h1, -, -⟩ := map_strip_cons hts
      exact ⟨t, ts2, rfl, Or.inl h1⟩

/-- The root table stops at a closing bracket: the entries before it are the root, and the
tokens from the bracket on are not read. -/
theorem parse_tokens_stray_close (nest : Bool) (a : List (List Char × ako_elem_t))
    (hp : plain_entries nest a = true) (ts : List token_t)
    (hts : ts.map strip = atoks_entries a) (c : token_t) (hc : c.type = AKO_TT_CLOSE_BRACE)
    (rest : List token_t) :
    ako_parse_tokens (ts ++ c :: rest) = .ok (AT_TABLE a) := by
  have hlen : nest_size_entries a ≤ (ts ++ c :: rest).length := by
    have := nest_size_entries_le a
    rw [← hts] at this
    simp at this ⊢
    omega
  have hloop := table_loop_plain nest (nest_size_entries a) a (le_refl _) hp ts (c :: rest)
    (ts ++ c :: rest).length ((ts ++ c :: rest).length + 1) [] hts (Or.inr (Or.inr hc))
    (Or.inr ⟨c, rest, rfl, hc⟩) hlen (Nat.lt_succ_self _)
  simp only [List.nil_append] at hloop
  by_cases ha : a = []
  · subst ha
    simp only [atoks_entries, List.map_eq_nil_iff] at hts
    subst hts
    simp only [List.nil_append] at hloop ⊢
    simp [ako_parse_tokens, hc, parser._parse_table, Outcome.bind]
    simp at hloop
    simp [hloop]
  · obtain ⟨t, tl, rfl, ht⟩ := atoks_entries_head a ha ts hts
    simp only [List.cons_append] at hloop ⊢
    rcases ht with ht | ht <;>
      simp [ako_parse_tokens, ht, parser._parse_table, Outcome.bind] <;>
      simp at hloop <;> simp [hloop]

/-- The table production on an opening bracket, plain entries and the end of the tokens:
the closing bracket is missed. -/
theorem parse_value_unclosed_table (nest : Bool) (a : List (List Char × ako_elem_t))
    (hp : plain_entries nest a = true) (o : token_t) (ho : o.type = AKO_TT_OPEN_BRACE)
    (ts : List token_t) (hts : ts.map strip = atoks_entries a) (d : Nat)
    (hd : ts.length < d) :
    parser._parse_value d (o :: ts) = .ok (AT_ERROR "Expected a closing brace.".toList, []) := by
  obtain ⟨d2, rfl⟩ : ∃ d2, d = d2 + 1 := ⟨d - 1, by omega⟩
  have hlen : nest_size_entries a ≤ d2 := by
    have := nest_size_entries_le a
    rw [← hts] at this
    simp at this
    omega
  have hloop := table_loop_plain nest (nest_size_entries a) a (le_refl _) hp ts []
    d2 (ts.length + 1) [] hts trivial (Or.inl rfl) hlen (by simp)
  simp only [List.nil_append, List.append_nil] at hloop
  simp only [parser._parse_value, ho, parser._parse_table, parser.CHECK_TYPE, parser.peek,
    List.getElem?_cons_zero, List.tail_cons, Bool.false_eq_true, not_false_eq_true, decide_True,
    not_true_eq_false, and_false, if_false, hloop, Outcome.bind]
  simp

/-- The root of a source that is an opening bracket and plain entries, or a key and such an
unclosed table: the error of the missing bracket. -/
theorem parse_tokens_unclosed_table (nest : Bool) (a : List (List Char × ako_elem_t))
    (hp : plain_entries nest a = true) (o : token_t) (ho : o.type = AKO_TT_OPEN_BRACE)
    (ts : List token_t) (hts : ts.map strip = atoks_entries a) :
    ako_parse_tokens (o :: ts) = .ok (AT_ERROR "Expected a closing brace.".toList) := by
  have hlen : nest_size_entries a ≤ (o :: ts).length := by
    have := nest_size_entries_le a
    rw [← hts] at this
    simp at this ⊢
    omega
  have hloop := table_loop_plain nest (nest_size_entries a) a (le_refl _) hp ts []
    (o :: ts).length (ts.length + 1) [] hts trivial (Or.inl rfl) hlen (by simp)
  simp only [List.nil_append, List.append_nil] at hloop
  simp only [List.length_cons] at hloop
  simp [ako_parse_tokens, ho, parser._parse_table, parser.CHECK_TYPE, parser.peek,
    Outcome.bind, hloop]

/-- C17. A closing bracket `]` that matches no opener does not make the root an `Error`:
the loop of the root table stops at it. For plain entries followed by a `]` and any tokens,
`ako_parse_tokens` returns the table of the entries and reads nothing after the bracket; so
`a 1 ]` and `a 1 ] b 2` both give the table with `a` = 1. A `]]` in a table body, and a `]`
in an array body, do give an `Error`. -/
theorem C17_stray_close_brace_ends_root :
    (∀ (nest : Bool) (a : List (List Char × ako_elem_t)) (ts : List token_t) (c : token_t)
        (rest : List token_t),
      plain_entries nest a = true → ts.map strip = atoks_entries a →
      c.type = AKO_TT_CLOSE_BRACE →
      ako_parse_tokens (ts ++ c :: rest) = .ok (AT_TABLE a))
    ∧ ako_parse "a 1 ]".toList = .ok (AT_TABLE [("a".toList, AT_INT 1)])
    ∧ ako_parse "a 1 ] b 2".toList = .ok (AT_TABLE [("a".toList, AT_INT 1)])
    ∧ ako_parse "[[ 1 ]] ]]".toList = .ok (AT_ARRAY [AT_INT 1])
    ∧ ako_parse "a 1 ]]".toList = .ok (AT_ERROR "Expected two tokens, got zero/one.".toList)
    ∧ ako_parse "a 1 ]] b 2".toList
        = .ok (AT_ERROR "Expected an identifier, bool or null but got: CloseDoubleBrace".toList)
    ∧ ako_parse "[[ 1 ] ]]".toList = .ok (AT_ERROR "Unsupported type at 1:6 -> 1:7".toList) := by
  refine ⟨?_, by decide!, by decide!, by decide!, by decide!, by decide!, by decide!⟩
  intro nest a ts c rest hp hts hc
  exact parse_tokens_stray_close nest a hp ts hts c hc rest

/-- C17, at the tokens of `a 1 ] b`. -/
theorem C17_stray_close_brace_ends_root_witness :
    ako_parse_tokens
      ([⟨AKO_TT_IDENT, ⟨1, 1, 0⟩, ⟨1, 2, 1⟩, .string ['a']⟩,
        ⟨AKO_TT_INT, ⟨1, 3, 2⟩, ⟨1, 4, 3⟩, .int 1⟩]
        ++ ⟨AKO_TT_CLOSE_BRACE, ⟨1, 5, 4⟩, ⟨1, 6, 5⟩, .int 0⟩
          :: [⟨AKO_TT_IDENT, ⟨1, 7, 6⟩, ⟨1, 8, 7⟩, .string ['b']⟩])
      = .ok (AT_TABLE [(['a'], AT_INT 1)]) :=
  C17_stray_close_brace_ends_root.1 true [(['a'], AT_INT 1)] _ _ _ (by decide!) (by decide!) rfl

/-- C18. A source with a literal that is never closed can have a root that is no `Error`:
in `a 1 ] b [ c 2` the root table stops at the stray `]` and the `[` after it is never
read, and in `[[ 1 ]] [[ 2` the root array is returned at its `]]`. Where the parser does
enter the literal the missing bracket is reported: an opening `[` followed by plain entries
and the end of the tokens gives the `Error` of the missing brace, as the root and in value
position, and `[[ 1 2` gives that of the missing double brace. -/
theorem C18_unread_literal_is_not_reported :
    ako_parse "a 1 ] b [ c 2".toList = .ok (AT_TABLE [("a".toList, AT_INT 1)])
    ∧ ako_parse "[[ 1 ]] [[ 2".toList = .ok (AT_ARRAY [AT_INT 1])
    ∧ ako_parse "[ a 1 ] b [ c".toList = .ok (AT_TABLE [("a".toList, AT_INT 1)])
    ∧ (∀ (nest : Bool) (a : List (List Char × ako_elem_t)) (o : token_t) (ts : List token_t),
      plain_entries nest a = true → o.type = AKO_TT_OPEN_BRACE →
      ts.map strip = atoks_entries a →
      ako_parse_tokens (o :: ts) = .ok (AT_ERROR "Expected a closing brace.".toList)
      ∧ ∀ d, ts.length < d →
          parser._parse_value d (o :: ts)
            = .ok (AT_ERROR "Expected a closing brace.".toList, []))
    ∧ ako_parse "a [ b 1".toList = .ok (AT_ERROR "Expected a closing brace.".toList)
    ∧ ako_parse "[ a 1".toList = .ok (AT_ERROR "Expected a closing brace.".toList)
    ∧ ako_parse "[[ 1 2".toList = .ok (AT_ERROR "Expected a closing double brace.".toList)
    ∧ ako_parse "a [[ 1 [ b 2 ]]".toList
        = .ok (AT_ERROR "Expected two tokens, got zero/one.".toList) := by
  refine ⟨by decide!, by decide!, by decide!, ?_, by decide!, by decide!, by decide!,
    by decide!⟩
  intro nest a o ts hp ho hts
  exact ⟨parse_tokens_unclosed_table nest a hp o ho ts hts,
    fun d hd => parse_value_unclosed_table nest a hp o ho ts hts d hd⟩

/-- C18, at the tokens of `[ a 1`. -/
theorem C18_unread_literal_is_not_reported_witness :
    ako_parse_tokens
      (⟨AKO_TT_OPEN_BRACE, ⟨1, 1, 0⟩, ⟨1, 2, 1⟩, .int 0⟩
        :: [⟨AKO_TT_IDENT, ⟨1, 3, 2⟩, ⟨1, 4, 3⟩, .string ['a']⟩,
          ⟨AKO_TT_INT, ⟨1, 5, 4⟩, ⟨1, 6, 5⟩, .int 1⟩])
      = .ok (AT_ERROR "Expected a closing brace.".toList) :=
  (C18_unread_literal_is_not_reported.2.2.2.1 true [(['a'], AT_INT 1)] _ _ (by decide!) rfl
    (by decide!)).1

/-! ### The growable list and the tables in memory (C19, C20) -/

theorem dyn_array_resize_holds {α : Type} (array : dyn_array_t α) (xs : List α) (n : Nat)
    (hes : array.element_size ≠ 0) (hlen : array.data.length = array.total_size)
    (hsz : array.size = xs.length) (hle : xs.length ≤ array.total_size)
    (hdata : ∀ (i : Nat) (x : α), xs[i]? = some x → array.data[i]? = some (some x))
    (hn : array.total_size ≤ n) (hpos : 0 < n) :
    ∃ a2, dyn_array_resize array n = .ok a2 ∧ a2.holds xs ∧ a2.total_size = n
      ∧ a2.element_size = array.element_size := by
  refine ⟨{ array with
      data := (array.data ++ List.replicate n none).take n
      total_size := n }, ?_, ?_, rfl, rfl⟩
  · simp [dyn_array_resize, hes, Nat.not_lt.mpr hn]
  · refine ⟨hes, hpos, ?_, hsz, le_trans hle hn, ?_⟩
    · simp
    · intro i x hx
      have hi : i < xs.length := by
        by_contra h
        rw [List.getElem?_eq_none (Nat.le_of_not_lt h)] at hx
        cases hx
      have h1 : i < n := by omega
      have h2 : i < array.data.length := by omega
      simp only [List.getElem?_take, h1, if_true, List.getElem?_append_left h2]
      exact hdata i x hx

theorem dyn_array_create_holds (α : Type) (es : Nat) (hes : es ≠ 0) :
    ∃ a, dyn_array_create α es = .ok a ∧ a.holds [] ∧ a.total_size = 10
      ∧ a.element_size = es := by
  have h := dyn_array_resize_holds (⟨[], es, 0, 0⟩ : dyn_array_t α) [] 10 hes rfl rfl
    (Nat.le_refl _) (by intro i x hx; simp at hx) (Nat.zero_le _) (by omega)
  exact h

theorem getElem?_set_append {α : Type} (l : List (Option α)) (xs : List α) (x : α)
    (hlt : xs.length < l.length)
    (hdata : ∀ (i : Nat) (y : α), xs[i]? = some y → l[i]? = some (some y)) :
    ∀ (i : Nat) (y : α), (xs ++ [x])[i]? = some y →
      (l.set xs.length (some x))[i]? = some (some y) := by
  intro i y hy
  rw [List.getElem?_set]
  by_cases hi : xs.length = i
  · subst hi
    simp only [if_true, hlt]
    rw [List.getElem?_append_right (Nat.le_refl _)] at hy
    simp at hy
    simp [hy]
  · simp only [hi, if_false]
    have hi2 : i < xs.length := by
      by_contra h
      have h3 : xs.length + 1 ≤ i := by omega
      rw [List.getElem?_eq_none (by simp; omega)] at hy
      cases hy
    rw [List.getElem?_append_left hi2] at hy
    exact hdata i y hy

theorem dyn_array_append_holds {α : Type} (array : dyn_array_t α) (xs : List α) (x : α)
    (size : Nat) (h : array.holds xs) (hs : array.element_size = size) :
    ∃ a2, dyn_array_append array x size = .ok a2 ∧ a2.holds (xs ++ [x])
      ∧ a2.element_size = array.element_size
      ∧ a2.total_size = (if xs.length + 1 > array.total_size then array.total_size * 2
          else array.total_size) := by
  obtain ⟨hes, hpos, hlen, hsz, hle, hdata⟩ := h
  have hs0 : size ≠ 0 := by rw [← hs]; exact hes
  by_cases hfull : array.size + 1 > array.total_size
  · obtain ⟨a2, e2, ⟨hes2, hpos2, hlen2, hsz2, hle2, hdata2⟩, ht2, he2⟩ :=
      dyn_array_resize_holds array xs (array.total_size * 2) hes hlen hsz hle hdata
        (by omega) (by omega)
    have hlt : a2.size < a2.data.length := by omega
    refine ⟨{ a2 with data := a2.data.set a2.size (some x), size := a2.size + 1 }, ?_, ?_, ?_, ?_⟩
    · simp [dyn_array_append, hs, hs0, Nat.pos_of_ne_zero hs0, hfull, e2, Outcome.bind, hlt]
    · refine ⟨hes2, hpos2, by simpa using hlen2, by simp [hsz2], by simp; omega, ?_⟩
      rw [hsz2]
      exact getElem?_set_append a2.data xs x (by omega) hdata2
    · exact he2
    · have : xs.length + 1 > array.total_size := by omega
      simp [this, ht2]
  · have hlt : array.size < array.data.length := by omega
    refine ⟨{ array with data := array.data.set array.size (some x), size := array.size + 1 },
      ?_, ?_, rfl, ?_⟩
    · simp [dyn_array_append, hs, hs0, Nat.pos_of_ne_zero hs0, hfull, Outcome.bind, hlt]
    · refine ⟨hes, hpos, by simpa using hlen, by simp [hsz], by simp; omega, ?_⟩
      rw [hsz]
      exact getElem?_set_append array.data xs x (by omega) hdata
    · have : ¬ xs.length + 1 > array.total_size := by omega
      simp [this]

theorem dyn_array_get_holds {α : Type} (array : dyn_array_t α) (xs : List α) (i : Nat)
    (h : array.holds xs) :
    dyn_array_get array i
      = match xs[i]? with
        | some x => .ok x
        | none => .abort .assertion := by
  obtain ⟨hes, hpos, hlen, hsz, hle, hdata⟩ := h
  by_cases hi : i < xs.length
  · have hx : xs[i]? = some xs[i] := List.getElem?_eq_getElem hi
    have := hdata i _ hx
    simp [dyn_array_get, hsz, hi, hx, this]
  · have hx : xs[i]? = none := List.getElem?_eq_none (Nat.le_of_not_lt hi)
    simp [dyn_array_get, hsz, hi, hx]

theorem mem_table_adds_holds {V : Type} :
    ∀ (kvs : List (List Char × V)) (t : mem.table_t V) (xs : List (List Char × V)),
      t.holds xs → t.element_size = mem.sizeof_elem_t →
      ∃ t2, mem.table_adds (.ok t) kvs = .ok t2 ∧ t2.holds (xs ++ kvs) := by
  intro kvs
  induction kvs with
  | nil =>
    intro t xs h _
    exact ⟨t, rfl, by simpa using h⟩
  | cons kv rest ih =>
    intro t xs h hes
    obtain ⟨t1, e1, h1, hes1, -⟩ := dyn_array_append_holds t xs (kv.1, kv.2) mem.sizeof_elem_t h hes
    obtain ⟨t2, e2, h2⟩ := ih t1 (xs ++ [kv]) h1 (hes1.trans hes)
    refine ⟨t2, ?_, by simpa using h2⟩
    simp only [mem.table_adds, Outcome.bind, mem.ako_elem_table_add]
    rw [e1]
    exact e2

theorem mem_table_of_holds {V : Type} (kvs : List (List Char × V)) :
    ∃ t, mem.table_of kvs = .ok t ∧ t.holds kvs := by
  obtain ⟨t0, e0, h0, -, hes0⟩ :=
    dyn_array_create_holds (List Char × V) mem.sizeof_elem_t (by decide)
  obtain ⟨t, e, h⟩ := mem_table_adds_holds kvs t0 [] h0 hes0
  refine ⟨t, ?_, by simpa using h⟩
  simp only [mem.table_of, mem.ako_elem_create_table]
  rw [e0]
  exact e

theorem mem_key_at_holds {V : Type} (t : mem.table_t V) (xs : List (List Char × V))
    (h : t.holds xs) (i : Nat) (hi : i < xs.length) :
    mem.ako_elem_table_get_key_at t i = .ok xs[i].1
      ∧ mem.ako_elem_table_get_value_at t i = .ok xs[i].2 := by
  simp [mem.ako_elem_table_get_key_at, mem.ako_elem_table_get_value_at,
    dyn_array_get_holds t xs i h, List.getElem?_eq_getElem hi, Outcome.bind]

theorem mem_find_loop_holds {V : Type} (t : mem.table_t V) (xs : List (List Char × V))
    (key : List Char) (h : t.holds xs) :
    ∀ (n i : Nat), i + n = xs.length →
      mem.table_find_loop t key n i = .ok ((xs.drop i).find? (fun e => decide (e.1 = key))) := by
  intro n
  induction n with
  | zero =>
    intro i hi
    have : xs.length ≤ i := by omega
    simp [mem.table_find_loop, List.drop_of_length_le this]
  | succ n ih =>
    intro i hi
    have hlt : i < xs.length := by omega
    rw [mem.table_find_loop, dyn_array_get_holds t xs i h, List.getElem?_eq_getElem hlt,
      List.drop_eq_getElem_cons hlt]
    simp only [Outcome.bind, List.find?_cons]
    by_cases hk : xs[i].1 = key
    · simp [hk]
    · simp only [hk, if_false, decide_False]
      exact ih (i + 1) (by omega)

theorem mem_table_get_holds {V : Type} (t : mem.table_t V) (xs : List (List Char × V))
    (key : List Char) (h : t.holds xs) :
    mem.ako_elem_table_get t key
      = .ok ((xs.find? (fun e => decide (e.1 = key))).map (·.2)) := by
  have := mem_find_loop_holds t xs key h xs.length 0 (by simp)
  obtain ⟨-, -, -, hsz, -, -⟩ := h
  simp [mem.ako_elem_table_get, mem.ako_table_find, hsz, this, Outcome.bind]

theorem table_find_eq_find? (a : List (List Char × ako_elem_t)) (key : List Char) :
    (match ako_table_find a key with
      | none => none
      | some i => a[i]?.map (·.2))
      = (a.find? (fun e => decide (e.1 = key))).map (·.2) := by
  induction a with
  | nil => simp [ako_table_find]
  | cons kv rest ih =>
    obtain ⟨k, v⟩ := kv
    by_cases hk : k = key
    · simp [ako_table_find, hk]
    · simp only [ako_table_find, hk, if_false, List.find?_cons, decide_False]
      rw [← ih]
      cases ako_table_find rest key <;> simp

theorem table_get_eq_find? (a : List (List Char × ako_elem_t)) (key : List Char) :
    ako_elem_table_get (AT_TABLE a) key
      = .ok ((a.find? (fun e => decide (e.1 = key))).map (·.2)) := by
  rw [← table_find_eq_find?]
  simp only [ako_elem_table_get]
  cases ako_table_find a key <;> rfl

theorem table_adds_eq :
    ∀ (kvs xs : List (List Char × ako_elem_t)),
      table_adds (.ok (AT_TABLE xs)) kvs = .ok (AT_TABLE (xs ++ kvs)) := by
  intro kvs
  induction kvs with
  | nil => intro xs; simp [table_adds]
  | cons kv rest ih =>
    intro xs
    simp only [table_adds, Outcome.bind, ako_elem_table_add]
    rw [ih]
    simp

/-- C19. For every sequence of pairs, `ako_elem_create(AT_TABLE)` followed by one
`ako_elem_table_add` per pair returns a table whose length is the number of pairs and whose
`i`-th key and value are those of the `i`-th pair. This holds on the table in memory, where
the backing list starts with 10 slots and is doubled when full, and on the list of entries
the parser theorems use. With eleven pairs the list has been regrown to 20 slots and all
eleven entries are in place. -/
theorem C19_table_insertion_order :
    (∀ (V : Type) (kvs : List (List Char × V)),
      ∃ t, mem.table_of kvs = .ok t
        ∧ mem.ako_elem_table_get_length t = kvs.length
        ∧ ∀ (i : Nat) (h : i < kvs.length),
            mem.ako_elem_table_get_key_at t i = .ok kvs[i].1
            ∧ mem.ako_elem_table_get_value_at t i = .ok kvs[i].2)
    ∧ (∀ kvs : List (List Char × ako_elem_t),
        table_adds (.ok (AT_TABLE [])) kvs = .ok (AT_TABLE kvs)
        ∧ ako_elem_table_get_length (AT_TABLE kvs) = .ok kvs.length
        ∧ ∀ (i : Nat) (h : i < kvs.length),
            ako_elem_table_get_key_at (AT_TABLE kvs) i = .ok kvs[i].1
            ∧ ako_elem_table_get_value_at (AT_TABLE kvs) i = .ok kvs[i].2)
    ∧ (mem.table_of 
        [("k0".toList, 0), ("k1".toList, 1), ("k2".toList, 2),
          ("k3".toList, 3), ("k4".toList, 4), ("k5".toList, 5), ("k6".toList, 6),
          ("k7".toList, 7), ("k8".toList, 8), ("k9".toList, 9), ("k10".toList, 10)]).bind
          (fun t => .ok (t.total_size, mem.ako_elem_table_get_length t)) = .ok (20, 11)
    ∧ (mem.table_of 
        [("k0".toList, 0), ("k1".toList, 1), ("k2".toList, 2),
          ("k3".toList, 3), ("k4".toList, 4), ("k5".toList, 5), ("k6".toList, 6),
          ("k7".toList, 7), ("k8".toList, 8), ("k9".toList, 9), ("k10".toList, 10)]).bind
          (fun t => mem.ako_elem_table_get_key_at t 10) = .ok "k10".toList
    ∧ (mem.table_of 
        [("k0".toList, 0), ("k1".toList, 1), ("k2".toList, 2),
          ("k3".toList, 3), ("k4".toList, 4), ("k5".toList, 5), ("k6".toList, 6),
          ("k7".toList, 7), ("k8".toList, 8), ("k9".toList, 9), ("k10".toList, 10)]).bind
          (fun t => mem.ako_elem_table_get_value_at t 0) = .ok 0 := by
  refine ⟨?_, ?_, by decide!, by decide!, by decide!⟩
  · intro V kvs
    obtain ⟨t, e, h⟩ := mem_table_of_holds kvs
    refine ⟨t, e, ?_, fun i hi => mem_key_at_holds t kvs h i hi⟩
    obtain ⟨-, -, -, hsz, -, -⟩ := h
    exact hsz
  · intro kvs
    refine ⟨by simpa using table_adds_eq kvs [], rfl, ?_⟩
    intro i hi
    simp [ako_elem_table_get_key_at, ako_elem_table_get_value_at, List.getElem?_eq_getElem hi]

/-- C19, at two pairs. -/
theorem C19_table_insertion_order_witness :
    ∃ t, mem.table_of [("a".toList, 1), ("b".toList, 2)] = .ok t
      ∧ mem.ako_elem_table_get_length t = 2
      ∧ ∀ (i : Nat) (h : i < 2),
          mem.ako_elem_table_get_key_at t i
            = .ok ([("a".toList, 1), ("b".toList, 2)] : List (List Char × Nat))[i].1
          ∧ mem.ako_elem_table_get_value_at t i
            = .ok ([("a".toList, 1), ("b".toList, 2)] : List (List Char × Nat))[i].2 :=
  C19_table_insertion_order.1 Nat [("a".toList, 1), ("b".toList, 2)]

/-- C20. A table that holds an entry with the key `k`, the lookup of `k` returning `v1`:
`ako_elem_table_add` with `k` and `v2` returns, the length grows by one, the entries that
were there keep their keys and values, the new entry is the last, and the lookup of `k`
still returns `v1`. This holds on the table in memory and on the list of entries. The source
`a 1 a 2` parses to a table of length 2 with both entries, whose lookup of `a` is `Int` 1. -/
theorem C20_duplicate_keys_first_wins :
    (∀ (V : Type) (t : mem.table_t V) (xs : List (List Char × V)) (k : List Char) (v1 v2 : V),
      mem.is_table t xs → mem.ako_elem_table_get t k = .ok (some v1) →
      ∃ t2, mem.ako_elem_table_add t k v2 = .ok t2
        ∧ mem.is_table t2 (xs ++ [(k, v2)])
        ∧ mem.ako_elem_table_get_length t2 = mem.ako_elem_table_get_length t + 1
        ∧ (∀ i, i < mem.ako_elem_table_get_length t →
            mem.ako_elem_table_get_key_at t2 i = mem.ako_elem_table_get_key_at t i
            ∧ mem.ako_elem_table_get_value_at t2 i = mem.ako_elem_table_get_value_at t i)
        ∧ mem.ako_elem_table_get_key_at t2 (mem.ako_elem_table_get_length t) = .ok k
        ∧ mem.ako_elem_table_get_value_at t2 (mem.ako_elem_table_get_length t) = .ok v2
        ∧ mem.ako_elem_table_get t2 k = .ok (some v1))
    ∧ (∀ (a : List (List Char × ako_elem_t)) (k : List Char) (v1 v2 : ako_elem_t),
      ako_elem_table_get (AT_TABLE a) k = .ok (some v1) →
      ∃ t2, ako_elem_table_add (AT_TABLE a) k v2 = .ok t2
        ∧ ako_elem_table_get_length t2 = .ok (a.length + 1)
        ∧ (∀ i, i < a.length →
            ako_elem_table_get_key_at t2 i = ako_elem_table_get_key_at (AT_TABLE a) i
            ∧ ako_elem_table_get_value_at t2 i = ako_elem_table_get_value_at (AT_TABLE a) i)
        ∧ ako_elem_table_get_key_at t2 a.length = .ok k
        ∧ ako_elem_table_get_value_at t2 a.length = .ok v2
        ∧ ako_elem_table_get t2 k = .ok (some v1))
    ∧ ako_parse "a 1 a 2".toList
        = .ok (AT_TABLE [("a".toList, AT_INT 1), ("a".toList, AT_INT 2)])
    ∧ ako_elem_table_get_length (AT_TABLE [("a".toList, AT_INT 1), ("a".toList, AT_INT 2)])
        = .ok 2
    ∧ ako_elem_table_get (AT_TABLE [("a".toList, AT_INT 1), ("a".toList, AT_INT 2)]) "a".toList
        = .ok (some (AT_INT 1)) := by
  refine ⟨?_, ?_, by decide!, by decide!, by decide!⟩
  · intro V t xs k v1 v2 ht hget
    obtain ⟨hes, h⟩ := ht
    obtain ⟨t2, e2, h2, hes2, -⟩ := dyn_array_append_holds t xs (k, v2) mem.sizeof_elem_t h hes
    have hsz : t.size = xs.length := h.2.2.2.1
    have hsz2 : t2.size = (xs ++ [(k, v2)]).length := h2.2.2.2.1
    rw [mem_table_get_holds t xs k h] at hget
    have hfind : (xs.find? (fun e => decide (e.1 = k))).map (·.2) = some v1 :=
      Outcome.ok.inj hget
    refine ⟨t2, e2, ⟨hes2.trans hes, h2⟩, ?_, ?_, ?_, ?_, ?_⟩
    · simp [mem.ako_elem_table_get_length, hsz, hsz2]
    · intro i hi
      simp only [mem.ako_elem_table_get_length, hsz] at hi
      have e1 : (xs ++ [(k, v2)])[i]? = xs[i]? := List.getElem?_append_left hi
      simp only [mem.ako_elem_table_get_key_at, mem.ako_elem_table_get_value_at,
        dyn_array_get_holds t2 _ i h2, dyn_array_get_holds t xs i h, e1, and_self]
    · simp [mem.ako_elem_table_get_key_at, mem.ako_elem_table_get_length, hsz,
        dyn_array_get_holds t2 _ _ h2, Outcome.bind]
    · simp [mem.ako_elem_table_get_value_at, mem.ako_elem_table_get_length, hsz,
        dyn_array_get_holds t2 _ _ h2, Outcome.bind]
    · rw [mem_table_get_holds t2 _ k h2, List.find?_append]
      cases hf : xs.find? (fun e => decide (e.1 = k)) with
      | none => simp [hf] at hfind
      | some e => simpa [hf] using hfind
  · intro a k v1 v2 hget
    rw [table_get_eq_find?] at hget
    have hfind : (a.find? (fun e => decide (e.1 = k))).map (·.2) = some v1 :=
      Outcome.ok.inj hget
    refine ⟨AT_TABLE (a ++ [(k, v2)]), rfl, by simp [ako_elem_table_get_length], ?_, ?_, ?_, ?_⟩
    · intro i hi
      have e1 : (a ++ [(k, v2)])[i]? = a[i]? := List.getElem?_append_left hi
      simp only [ako_elem_table_get_key_at, ako_elem_table_get_value_at, e1, and_self]
    · simp [ako_elem_table_get_key_at]
    · simp [ako_elem_table_get_value_at]
    · rw [table_get_eq_find?, List.find?_append]
      cases hf : a.find? (fun e => decide (e.1 = k)) with
      | none => simp [hf] at hfind
      | some e => simpa [hf] using hfind

/-- C20, at the table in memory that holds `a` 1, and the key `a` again. -/
theorem C20_duplicate_keys_first_wins_witness :
    ∃ t2, mem.ako_elem_table_add
        (⟨[some ("a".toList, 1), none, none, none, none, none, none, none, none, none],
          16, 10, 1⟩ : mem.table_t Nat) "a".toList 2 = .ok t2
      ∧ mem.ako_elem_table_get_length t2 = 2
      ∧ mem.ako_elem_table_get t2 "a".toList = .ok (some 1) := by
  obtain ⟨t2, e, -, hl, -, -, -, hg⟩ := C20_duplicate_keys_first_wins.1 Nat
    (⟨[some ("a".toList, 1), none, none, none, none, none, none, none, none, none],
      16, 10, 1⟩ : mem.table_t Nat) [("a".toList, 1)] "a".toList 1 2
    ⟨rfl, by decide, by decide, rfl, rfl, by decide, by
      intro i x hx
      cases i with
      | zero => simp at hx; simp [hx]
      | succ j => simp at hx⟩
    (by decide!)
  exact ⟨t2, e, hl, hg⟩

/-! ### The text of numbers and of vectors -/

theorem not_mark_ne {s : List Char} (h : not_mark s) :
    ¬ (s = ['+'] ∨ s = ['-'] ∨ s = [';']) := by
  rcases h with ⟨c, tl, rfl, hc⟩ | h
  · obtain ⟨-, -, -, n4, n5, n6, -⟩ := digit_ne hc
    simp [n4, n5, n6]
  · rintro (rfl | rfl | rfl) <;> simp at h

theorem not_mark_append {s : List Char} (t : List Char) (h : not_mark s) :
    not_mark (s ++ t) := by
  rcases h with ⟨c, tl, rfl, hc⟩ | h
  · exact Or.inl ⟨c, tl ++ t, rfl, hc⟩
  · right
    simp only [List.length_append]
    omega

theorem fmt_nat_not_mark (n : Nat) : not_mark (fmt_nat n) := by
  obtain ⟨-, -, c, tl, h, hc, -⟩ := fmt_nat_spec n
  exact Or.inl ⟨c, tl, h, hc⟩

theorem fmt_nat_length (n : Nat) : 1 ≤ (fmt_nat n).length := by
  obtain ⟨-, -, c, tl, h, -, -⟩ := fmt_nat_spec n
  rw [h]
  simp

theorem fmt_int_not_mark (n : Int) : not_mark (fmt_int n) := by
  unfold fmt_int
  split
  · right
    have := fmt_nat_length n.natAbs
    simp only [List.length_cons]
    omega
  · exact fmt_nat_not_mark _

theorem fmt_d_not_mark (n : ako_int) : not_mark (fmt_d n) := fmt_int_not_mark _

/-- The shape of a number written by `%f`. -/
theorem fmt_f_shape (x : ako_float) :
    ∃ pre body, fmt_f x = pre ++ body ∧ (pre = [] ∨ pre = ['-'])
      ∧ (body = "inf".toList ∨ body = "nan".toList
        ∨ ∃ n tail, body = fmt_nat n ++ '.' :: tail ∧ ∀ c ∈ tail, isdigit c = true) := by
  unfold fmt_f
  dsimp only
  generalize x.bits % 2 ^ 64 = w
  have hpre : (if w / 2 ^ 63 = 1 then ['-'] else ([] : List Char)) = []
      ∨ (if w / 2 ^ 63 = 1 then ['-'] else ([] : List Char)) = ['-'] := by
    split
    · exact Or.inr rfl
    · exact Or.inl rfl
  generalize (if w / 2 ^ 63 = 1 then ['-'] else ([] : List Char)) = pre at hpre ⊢
  by_cases h1 : w / 2 ^ 52 % 2 ^ 11 = 2047
  · rw [if_pos h1]
    by_cases h2 : w % 2 ^ 52 = 0
    · rw [if_pos h2]
      exact ⟨_, _, rfl, hpre, Or.inl rfl⟩
    · rw [if_neg h2]
      exact ⟨_, _, rfl, hpre, Or.inr (Or.inl rfl)⟩
  · rw [if_neg h1]
    generalize divRoundEven _ _ = n
    refine ⟨pre, fmt_nat (n / 10 ^ 6) ++ '.' ::
      (List.replicate (6 - (fmt_nat (n % 10 ^ 6)).length) '0' ++ fmt_nat (n % 10 ^ 6)), ?_, hpre,
      Or.inr (Or.inr ⟨_, _, rfl, ?_⟩)⟩
    · simp only [List.append_assoc, List.singleton_append, List.cons_append, List.nil_append]
    · intro c hc
      rcases List.mem_append.1 hc with h | h
      · rw [List.mem_replicate] at h
        rw [h.2]
        decide
      · exact (fmt_nat_spec _).1 c h

theorem fmt_f_length (x : ako_float) : 2 ≤ (fmt_f x).length := by
  obtain ⟨pre, body, e, -, hb⟩ := fmt_f_shape x
  rw [e]
  rcases hb with rfl | rfl | ⟨n, tail, rfl, -⟩
  · simp
  · simp
  · have := fmt_nat_length n
    simp only [List.length_append, List.length_cons]
    omega

theorem fmt_f_not_mark (x : ako_float) : not_mark (fmt_f x) := Or.inr (fmt_f_length x)

theorem fmt_union_f_shape (e : ako_elem_t) : ∃ x, fmt_union_f e = fmt_f x := by
  unfold fmt_union_f
  split <;> exact ⟨_, rfl⟩

theorem fmt_union_f_not_mark (e : ako_elem_t) : not_mark (fmt_union_f e) := by
  obtain ⟨x, h⟩ := fmt_union_f_shape e
  rw [h]
  exact fmt_f_not_mark x

set_option maxRecDepth 100000 in
theorem serialise_vector_cons (ae : ako_elem_t) (rest : List ako_elem_t) :
    serialise_vector (ae :: rest)
      = (match ae with
          | AT_INT i => fmt_d i
          | _ => fmt_union_f ae)
        ++ (if rest = [] then [] else 'x' :: serialise_vector rest) := by
  rw [serialise_vector.eq_def]

theorem serialise_vector_not_mark (a : List ako_elem_t) (ha : a ≠ []) :
    not_mark (serialise_vector a) := by
  cases a with
  | nil => exact absurd rfl ha
  | cons ae rest =>
    rw [serialise_vector_cons]
    apply not_mark_append
    split
    · exact fmt_d_not_mark _
    · exact fmt_union_f_not_mark _

/-! ### The branches of the serializer -/

theorem serialise_bool (b : Bool) (indent : List Char) (L : Nat) (fr : Bool) :
    _serialise (AT_BOOL b) indent L fr = (if b then ['+'] else ['-'], false) := by
  rw [_serialise]

theorem serialise_null (indent : List Char) (L : Nat) (fr : Bool) :
    _serialise AT_NULL indent L fr = ([';'], false) := by
  rw [_serialise]

theorem serialise_int (i : ako_int) (indent : List Char) (L : Nat) (fr : Bool) :
    _serialise (AT_INT i) indent L fr = (fmt_d i, false) := by
  rw [_serialise]

set_option maxRecDepth 100000 in
theorem serialise_float (f : ako_float) (indent : List Char) (L : Nat) (fr : Bool) :
    _serialise (AT_FLOAT f) indent L fr = (fmt_f f, false) := by
  rw [_serialise]

theorem serialise_string (s : List Char) (indent : List Char) (L : Nat) (fr : Bool) :
    _serialise (AT_STRING s) indent L fr = ('"' :: (s ++ ['"']), false) := by
  rw [_serialise]
  rfl

theorem serialise_shorttype (s : List Char) (indent : List Char) (L : Nat) (fr : Bool) :
    _serialise (AT_SHORTTYPE s) indent L fr = ('"' :: (s ++ ['"']), false) := by
  rw [_serialise]
  rfl

theorem serialise_error (s : List Char) (indent : List Char) (L : Nat) (fr : Bool) :
    _serialise (AT_ERROR s) indent L fr = ([], true) := by
  rw [_serialise]

theorem serialise_table_empty (indent : List Char) (L : Nat) :
    _serialise (AT_TABLE []) indent L false = (['[', ']'], false) := by
  rw [_serialise]
  simp

set_option maxRecDepth 100000 in
theorem serialise_array (a : List ako_elem_t) (indent : List Char) (L : Nat) (fr : Bool) :
    _serialise (AT_ARRAY a) indent L fr
      = if a.length = 0 then (['[', '[', ']', ']'], false)
        else if decide (a.length ≤ 4) && !fr then (serialise_vector a, false)
        else
          ('[' :: '[' :: end_char indent :: ((serialise_items a indent L).1
            ++ _make_indent indent L ++ [']', ']']), (serialise_items a indent L).2) := by
  rw [_serialise, end_char_eq]
  rfl

theorem serialise_items_cons (item : ako_elem_t) (rest : List ako_elem_t)
    (indent : List Char) (L : Nat) :
    serialise_items (item :: rest) indent L
      = (_make_indent indent (L + 1) ++ (_serialise item indent (L + 1) false).1
          ++ [end_char indent] ++ (serialise_items rest indent L).1,
        if rest = [] then (_serialise item indent (L + 1) false).2
        else (serialise_items rest indent L).2) := by
  rw [serialise_items, end_char_eq]

theorem serialise_items_nil (indent : List Char) (L : Nat) :
    serialise_items [] indent L = ([], false) := by
  rw [serialise_items]

theorem serialise_entries_nil (indent : List Char) (L : Nat) :
    serialise_entries [] indent L = ([], false) := by
  rw [serialise_entries]

theorem serialise_table_flag (a : List (List Char × ako_elem_t)) (indent : List Char)
    (L : Nat) (fr : Bool) :
    (_serialise (AT_TABLE a) indent L fr).2
      = (serialise_entries a indent (if fr then 0 else L + 1)).2 := by
  rw [_serialise]
  cases fr
  · cases a with
    | nil => simp [serialise_entries_nil]
    | cons kv rest =>
      simp only [Bool.not_false, List.length_cons, Nat.add_one_ne_zero, decide_False,
        Bool.and_false, Bool.false_eq_true, if_false]
      split <;> simp_all
  · simp only [Bool.not_true, Bool.false_and, Bool.false_eq_true, if_false, if_true]
    split <;> simp_all

mutual
theorem serialise_ok : ∀ (e : ako_elem_t) (indent : List Char) (L : Nat) (fr : Bool),
    error_free e = true → (_serialise e indent L fr).2 = false
  | AT_NULL, indent, L, fr, _ => by rw [serialise_null]
  | AT_BOOL b, indent, L, fr, _ => by rw [serialise_bool]
  | AT_INT i, indent, L, fr, _ => by rw [serialise_int]
  | AT_FLOAT f, indent, L, fr, _ => by rw [serialise_float]
  | AT_STRING s, indent, L, fr, _ => by rw [serialise_string]
  | AT_SHORTTYPE s, indent, L, fr, _ => by rw [serialise_shorttype]
  | AT_ERROR s, indent, L, fr, h => by simp [error_free] at h
  | AT_TABLE a, indent, L, fr, h => by
    rw [serialise_table_flag]
    exact serialise_entries_ok a indent _ (by simpa [error_free] using h)
  | AT_ARRAY a, indent, L, fr, h => by
    rw [serialise_array]
    split
    · rfl
    · split
      · rfl
      · exact serialise_items_ok a indent L (by simpa [error_free] using h)
theorem serialise_entries_ok : ∀ (a : List (List Char × ako_elem_t)) (indent : List Char)
    (L : Nat), error_free_entries a = true → (serialise_entries a indent L).2 = false
  | [], indent, L, _ => by rw [serialise_entries_nil]
  | (k, v) :: rest, indent, L, h => by
    simp only [error_free_entries, Bool.and_eq_true] at h
    rw [serialise_entries_cons, serialise_ok v indent L false h.1]
    simp only [Bool.false_eq_true, if_false]
    exact serialise_entries_ok rest indent L h.2
theorem serialise_items_ok : ∀ (a : List ako_elem_t) (indent : List Char)
    (L : Nat), error_free_items a = true → (serialise_items a indent L).2 = false
  | [], indent, L, _ => by rw [serialise_items_nil]
  | v :: rest, indent, L, h => by
    simp only [error_free_items, Bool.and_eq_true] at h
    rw [serialise_items_cons]
    simp only
    split
    · exact serialise_ok v indent (L + 1) false h.1
    · exact serialise_items_ok rest indent L h.2
end

/-- The text of a value that renders and is neither a `Bool` nor a `Null` is none of the
marks `+`, `-`, `;`. -/
theorem serialise_not_mark (v : ako_elem_t) (indent : List Char) (L : Nat)
    (h : (_serialise v indent L false).2 = false) (hb : ∀ b, v ≠ AT_BOOL b)
    (hn : v ≠ AT_NULL) : not_mark (_serialise v indent L false).1 := by
  cases v with
  | AT_NULL => exact absurd rfl hn
  | AT_BOOL b => exact absurd rfl (hb b)
  | AT_INT i => rw [serialise_int]; exact fmt_d_not_mark i
  | AT_FLOAT f => rw [serialise_float]; exact fmt_f_not_mark f
  | AT_STRING s => rw [serialise_string]; right; simp
  | AT_SHORTTYPE s => rw [serialise_shorttype]; right; simp
  | AT_ERROR s => rw [serialise_error] at h; simp at h
  | AT_ARRAY a =>
    rw [serialise_array]
    split
    · right; simp
    · split
      · rename_i h0 _
        exact serialise_vector_not_mark a (by intro e; rw [e] at h0; simp at h0)
      · right; simp
  | AT_TABLE a =>
    cases a with
    | nil => rw [serialise_table_empty]; right; simp
    | cons kv rest =>
      rw [serialise_table_nonempty _ (by simp)]
      split <;> (right; simp)

/-- One entry of a table, as the serializer writes it when the value renders. -/
theorem serialise_entries_entry (key : List Char) (value : ako_elem_t)
    (rest : List (List Char × ako_elem_t)) (indent : List Char) (L : Nat)
    (h : (_serialise value indent L false).2 = false) :
    serialise_entries ((key, value) :: rest) indent L
      = (_make_indent indent L ++ entry_text key value (_serialise value indent L false).1
          ++ end_char indent :: (serialise_entries rest indent L).1,
        (serialise_entries rest indent L).2) := by
  rw [serialise_entries_cons, h]
  simp only [Bool.false_eq_true, if_false]
  by_cases hn : value = AT_NULL
  · subst hn
    simp [serialise_null, entry_text]
  · by_cases hb : ∃ b, value = AT_BOOL b
    · obtain ⟨b, rfl⟩ := hb
      cases b <;> simp [serialise_bool, entry_text]
    · have hb2 : ∀ b, value ≠ AT_BOOL b := fun b e => hb ⟨b, e⟩
      have hm := not_mark_ne (serialise_not_mark value indent L h hb2 hn)
      rw [if_neg hm]
      have he : entry_text key value (_serialise value indent L false).1
          = key ++ ' ' :: (_serialise value indent L false).1 := by
        cases value with
        | AT_NULL => exact absurd rfl hn
        | AT_BOOL b => exact absurd rfl (hb2 b)
        | _ => rfl
      rw [he]
      simp

/-! ### The serializer and the layout -/

theorem indent_at_eq (unit : List Char) (d : Nat) : indent_at unit d = _make_indent unit d := rfl

theorem serialise_short_array (a : List ako_elem_t) (indent : List Char) (cur : Nat)
    (ha : a ≠ []) (hl : a.length ≤ 4) :
    _serialise (AT_ARRAY a) indent cur false = (serialise_vector a, false) := by
  have h0 : a.length ≠ 0 := by
    cases a with
    | nil => exact absurd rfl ha
    | cons _ _ => simp
  rw [serialise_array, if_neg h0]
  simp [hl]

set_option maxRecDepth 100000 in
theorem serialise_vector_numeric : ∀ (a : List ako_elem_t), a.all is_number = true →
    serialise_vector a = vector_text a
  | [], _ => by rw [serialise_vector, vector_text]
  | v :: rest, h => by
    simp only [List.all_cons, Bool.and_eq_true] at h
    rw [serialise_vector_cons, vector_text, serialise_vector_numeric rest h.2]
    cases v with
    | AT_INT i => cases rest <;> simp [number_text]
    | AT_FLOAT f => cases rest <;> simp [number_text, fmt_union_f]
    | _ => simp [is_number] at h

theorem serialise_scalar_text (v : ako_elem_t) (indent : List Char) (L : Nat)
    (ht : ∀ a, v ≠ AT_TABLE a) (ha : ∀ a, v ≠ AT_ARRAY a) (he : error_free v = true) :
    (_serialise v indent L false).1 = scalar_text v := by
  cases v with
  | AT_NULL => rw [serialise_null]; rfl
  | AT_BOOL b => rw [serialise_bool]; cases b <;> rfl
  | AT_INT i => rw [serialise_int]; rfl
  | AT_FLOAT f => rw [serialise_float]; rfl
  | AT_STRING s => rw [serialise_string]; rfl
  | AT_SHORTTYPE s => rw [serialise_shorttype]; rfl
  | AT_ERROR s => simp [error_free] at he
  | AT_TABLE a => exact absurd rfl (ht a)
  | AT_ARRAY a => exact absurd rfl (ha a)

mutual
theorem serialise_layout : ∀ (e : ako_elem_t) (indent : List Char) (L : Nat),
    error_free e = true → vectors_numeric false e = true →
    (_serialise e indent L false).1 = layout_value indent (end_char indent) L e
  | AT_NULL, indent, L, _, _ => by
    rw [layout_value, serialise_null, scalar_text] <;> (intro a h; cases h)
  | AT_BOOL b, indent, L, _, _ => by
    rw [layout_value, serialise_scalar_text (AT_BOOL b) indent L (fun a h => by cases h)
      (fun a h => by cases h) rfl] <;> (intro a h; cases h)
  | AT_INT i, indent, L, _, _ => by
    rw [layout_value, serialise_scalar_text (AT_INT i) indent L (fun a h => by cases h)
      (fun a h => by cases h) rfl] <;> (intro a h; cases h)
  | AT_FLOAT f, indent, L, _, _ => by
    rw [layout_value, serialise_scalar_text (AT_FLOAT f) indent L (fun a h => by cases h)
      (fun a h => by cases h) rfl] <;> (intro a h; cases h)
  | AT_STRING s, indent, L, _, _ => by
    rw [layout_value, serialise_scalar_text (AT_STRING s) indent L (fun a h => by cases h)
      (fun a h => by cases h) rfl] <;> (intro a h; cases h)
  | AT_SHORTTYPE s, indent, L, _, _ => by
    rw [layout_value, serialise_scalar_text (AT_SHORTTYPE s) indent L (fun a h => by cases h)
      (fun a h => by cases h) rfl] <;> (intro a h; cases h)
  | AT_ERROR s, indent, L, h, _ => by simp [error_free] at h
  | AT_TABLE a, indent, L, h, hv => by
    have ha : error_free_entries a = true := by simpa [error_free] using h
    have hva : vectors_numeric_entries a = true := by simpa [vectors_numeric] using hv
    rw [layout_value]
    cases a with
    | nil => rw [serialise_table_empty]; rfl
    | cons kv rest =>
      rw [serialise_table_nonempty _ (by simp),
        serialise_entries_ok _ indent (L + 1) ha]
      simp only [Bool.false_eq_true, if_false, List.isEmpty_cons,
        serialise_entries_layout _ indent (L + 1) ha hva, indent_at_eq, List.append_assoc]
  | AT_ARRAY a, indent, L, h, hv => by
    have ha : error_free_items a = true := by simpa [error_free] using h
    rw [layout_value]
    cases a with
    | nil => rw [serialise_array]; rfl
    | cons v rest =>
      by_cases h4 : (v :: rest).length ≤ 4
      · have h3 : rest.length ≤ 3 := by simpa using h4
        have hn : (v :: rest).all is_number = true := by
          rw [vectors_numeric] at hv
          simpa [h3] using hv
        rw [serialise_short_array _ _ _ (by simp) h4, if_neg (by simp), if_pos h4,
          serialise_vector_numeric _ hn]
      · have h3 : ¬ rest.length ≤ 3 := by simpa using h4
        have hva : vectors_numeric_items (v :: rest) = true := by
          rw [vectors_numeric] at hv
          simpa [h3] using hv
        rw [if_neg (by simp), if_neg h4, serialise_array]
        have h0 : ¬ (v :: rest).length = 0 := by simp
        simp only [h0, if_false, h4, decide_False, Bool.false_and, Bool.false_eq_true,
          serialise_items_layout (v :: rest) indent L ha hva, indent_at_eq, List.append_assoc]
theorem serialise_entries_layout : ∀ (a : List (List Char × ako_elem_t)) (indent : List Char)
    (L : Nat), error_free_entries a = true → vectors_numeric_entries a = true →
    (serialise_entries a indent L).1 = layout_entries indent (end_char indent) L a
  | [], indent, L, _, _ => by rw [serialise_entries_nil, layout_entries]
  | (k, v) :: rest, indent, L, h, hv => by
    simp only [error_free_entries, Bool.and_eq_true] at h
    simp only [vectors_numeric_entries, Bool.and_eq_true] at hv
    rw [serialise_entries_entry k v rest indent L (serialise_ok v indent L false h.1),
      layout_entries, serialise_layout v indent L h.1 hv.1,
      serialise_entries_layout rest indent L h.2 hv.2, indent_at_eq]
theorem serialise_items_layout : ∀ (a : List ako_elem_t) (indent : List Char)
    (L : Nat), error_free_items a = true → vectors_numeric_items a = true →
    (serialise_items a indent L).1 = layout_items indent (end_char indent) (L + 1) a
  | [], indent, L, _, _ => by rw [serialise_items_nil, layout_items]
  | v :: rest, indent, L, h, hv => by
    simp only [error_free_items, Bool.and_eq_true] at h
    simp only [vectors_numeric_items, Bool.and_eq_true] at hv
    rw [serialise_items_cons, layout_items, serialise_layout v indent (L + 1) h.1 hv.1,
      serialise_items_layout rest indent L h.2 hv.2, indent_at_eq]
    simp
end

/-- The text of a root table with entries and without an `Error`: its entries laid out at
depth 0. -/
theorem serialize_root_layout (a : List (List Char × ako_elem_t)) (ha : a ≠ [])
    (flags : ako_serialize_flags_t) (h : error_free_entries a = true)
    (hv : vectors_numeric_entries a = true) :
    ako_serialize (AT_TABLE a) flags
      = .ok (some (layout_entries (indent_of flags) (end_char (indent_of flags)) 0 a)) := by
  rw [serialize_table_root a ha flags (serialise_entries_ok a _ 0 h),
    serialise_entries_layout a _ 0 h hv]

/-- The text of a root array without an `Error`: always in brackets. -/
theorem serialize_root_array_layout (a : List ako_elem_t) (ha : a ≠ [])
    (flags : ako_serialize_flags_t) (h : error_free_items a = true)
    (hv : vectors_numeric_items a = true) :
    ako_serialize (AT_ARRAY a) flags
      = .ok (some ('[' :: '[' :: end_char (indent_of flags)
          :: (layout_items (indent_of flags) (end_char (indent_of flags)) 1 a ++ [']', ']']))) := by
  have h0 : ¬ a.length = 0 := by
    intro h0
    exact ha (List.length_eq_zero.mp h0)
  rw [ako_serialize_eq, serialise_array]
  simp only [h0, if_false, Bool.not_true, Bool.and_false, Bool.false_eq_true,
    serialise_items_ok a _ 0 h, serialise_items_layout a _ 0 h hv, _make_indent,
    List.replicate_zero, List.flatten_nil, List.append_nil]
  simp

/-! ### The bytes of the flat form -/

theorem flat_char_digit {c : Char} (h : isdigit c = true) : flat_char c = true := by
  simp [flat_char, h]

theorem fmt_nat_flat (n : Nat) : ∀ c ∈ fmt_nat n, flat_char c = true :=
  fun c hc => flat_char_digit ((fmt_nat_spec n).1 c hc)

theorem fmt_d_flat (i : ako_int) : ∀ c ∈ fmt_d i, flat_char c = true := by
  intro c hc
  unfold fmt_d fmt_int at hc
  split at hc
  · rcases List.mem_cons.1 hc with rfl | h
    · decide
    · exact fmt_nat_flat _ c h
  · exact fmt_nat_flat _ c hc

theorem fmt_f_flat (x : ako_float) : ∀ c ∈ fmt_f x, flat_char c = true := by
  intro c hc
  obtain ⟨pre, body, e, hp, hb⟩ := fmt_f_shape x
  rw [e] at hc
  rcases List.mem_append.1 hc with h | h
  · rcases hp with rfl | rfl
    · simp at h
    · simp only [List.mem_singleton] at h
      subst h
      decide
  · rcases hb with rfl | rfl | ⟨n, tail, rfl, ht⟩
    · simp only [String.toList, List.mem_cons, List.mem_singleton, List.not_mem_nil,
        or_false] at h
      rcases h with rfl | rfl | rfl <;> decide
    · simp only [String.toList, List.mem_cons, List.mem_singleton, List.not_mem_nil,
        or_false] at h
      rcases h with rfl | rfl | rfl <;> decide
    · rcases List.mem_append.1 h with h | h
      · exact fmt_nat_flat n c h
      · rcases List.mem_cons.1 h with rfl | h
        · decide
        · exact flat_char_digit (ht c h)

theorem fmt_union_f_flat (e : ako_elem_t) : ∀ c ∈ fmt_union_f e, flat_char c = true := by
  obtain ⟨x, h⟩ := fmt_union_f_shape e
  rw [h]
  exact fmt_f_flat x

theorem serialise_vector_flat : ∀ (a : List ako_elem_t), ∀ c ∈ serialise_vector a,
    flat_char c = true
  | [], c, hc => by
    rw [serialise_vector.eq_def] at hc
    simp at hc
  | ae :: rest, c, hc => by
    rw [serialise_vector_cons] at hc
    rcases List.mem_append.1 hc with h | h
    · split at h
      · exact fmt_d_flat _ c h
      · exact fmt_union_f_flat _ c h
    · split at h
      · simp at h
      · rcases List.mem_cons.1 h with rfl | h
        · decide
        · exact serialise_vector_flat rest c h

theorem make_indent_nil (L : Nat) : _make_indent [] L = [] := by
  simp [_make_indent]

theorem end_char_nil : end_char [] = ' ' := rfl

theorem mem_serialise_table (a : List (List Char × ako_elem_t)) (indent : List Char) (L : Nat)
    (fr : Bool) (c : Char) (hc : c ∈ (_serialise (AT_TABLE a) indent L fr).1) :
    c = '[' ∨ c = ']' ∨ c = end_char indent ∨ c ∈ _make_indent indent L
      ∨ c ∈ (serialise_entries a indent (if fr then 0 else L + 1)).1 := by
  rw [_serialise, end_char_eq] at hc
  cases fr
  · simp only [Bool.not_false, Bool.true_and, decide_eq_true_eq, Bool.false_eq_true,
      if_false, if_true] at hc
    split at hc
    · simp only [String.toList, List.mem_cons, List.mem_singleton, List.not_mem_nil,
        or_false] at hc
      rcases hc with rfl | rfl
      · exact Or.inl rfl
      · exact Or.inr (Or.inl rfl)
    · split at hc
      · simp only [List.singleton_append, List.cons_append, List.nil_append, List.mem_cons]
          at hc
        rcases hc with rfl | rfl | h
        · exact Or.inl rfl
        · exact Or.inr (Or.inr (Or.inl rfl))
        · exact Or.inr (Or.inr (Or.inr (Or.inr h)))
      · simp only [List.singleton_append, List.cons_append, List.nil_append, List.mem_cons,
          List.mem_append, List.mem_singleton, List.not_mem_nil, or_false] at hc
        tauto
  · simp only [Bool.not_true, Bool.false_and, Bool.false_eq_true, if_false, if_true] at hc
    split at hc
    · simp only [List.nil_append] at hc
      exact Or.inr (Or.inr (Or.inr (Or.inr hc)))
    · simp only [List.nil_append, List.append_nil, List.mem_append] at hc
      rcases hc with h | h
      · exact Or.inr (Or.inr (Or.inr (Or.inr h)))
      · exact Or.inr (Or.inr (Or.inr (Or.inl h)))

theorem not_contains {s : List Char} {c : Char} (h : (!s.contains c) = true) : c ∉ s := by
  intro hc
  simp [hc] at h

mutual
theorem serialise_flat : ∀ (e : ako_elem_t) (L : Nat) (fr : Bool) (c : Char),
    flat_char c = false → payload_free c e = true → c ∉ (_serialise e [] L fr).1
  | AT_NULL, L, fr, c, hf, _ => by
    rw [serialise_null]
    intro h
    simp only [List.mem_singleton] at h
    subst h
    revert hf
    decide
  | AT_BOOL b, L, fr, c, hf, _ => by
    rw [serialise_bool]
    intro h
    cases b <;> simp only [Bool.false_eq_true, if_false, if_true, List.mem_singleton] at h <;>
      (subst h; revert hf; decide)
  | AT_INT i, L, fr, c, hf, _ => by
    rw [serialise_int]
    intro h
    rw [fmt_d_flat i c h] at hf
    cases hf
  | AT_FLOAT f, L, fr, c, hf, _ => by
    rw [serialise_float]
    intro h
    rw [fmt_f_flat f c h] at hf
    cases hf
  | AT_STRING s, L, fr, c, hf, hp => by
    rw [serialise_string]
    intro h
    simp only [payload_free] at hp
    have hs := not_contains hp
    simp only [List.mem_cons, List.mem_append, List.mem_singleton, List.not_mem_nil,
      or_false] at h
    rcases h with rfl | h | rfl
    · revert hf; decide
    · exact hs h
    · revert hf; decide
  | AT_SHORTTYPE s, L, fr, c, hf, hp => by
    rw [serialise_shorttype]
    intro h
    simp only [payload_free] at hp
    have hs := not_contains hp
    simp only [List.mem_cons, List.mem_append, List.mem_singleton, List.not_mem_nil,
      or_false] at h
    rcases h with rfl | h | rfl
    · revert hf; decide
    · exact hs h
    · revert hf; decide
  | AT_ERROR s, L, fr, c, hf, _ => by
    rw [serialise_error]
    simp
  | AT_TABLE a, L, fr, c, hf, hp => by
    intro h
    simp only [payload_free] at hp
    rcases mem_serialise_table a [] L fr c h with rfl | rfl | rfl | h | h
    · revert hf; decide
    · revert hf; decide
    · revert hf; decide
    · rw [make_indent_nil] at h
      simp at h
    · exact serialise_entries_flat a _ c hf hp h
  | AT_ARRAY a, L, fr, c, hf, hp => by
    intro h
    simp only [payload_free] at hp
    rw [serialise_array] at h
    split at h
    · simp only [List.mem_cons, List.mem_singleton, List.not_mem_nil, or_false] at h
      rcases h with rfl | rfl | rfl | rfl <;> (revert hf; decide)
    · split at h
      · rw [serialise_vector_flat a c h] at hf
        cases hf
      · simp only [List.mem_cons, List.mem_append, make_indent_nil, List.not_mem_nil,
          or_false, false_or] at h
        rcases h with rfl | rfl | rfl | h | rfl | rfl
        · revert hf; decide
        · revert hf; decide
        · revert hf; decide
        · exact serialise_items_flat a L c hf hp h
        · revert hf; decide
        · revert hf; decide
theorem serialise_entries_flat : ∀ (a : List (List Char × ako_elem_t)) (L : Nat) (c : Char),
    flat_char c = false → payload_free_entries c a = true → c ∉ (serialise_entries a [] L).1
  | [], L, c, _, _ => by
    rw [serialise_entries_nil]
    simp
  | (k, v) :: rest, L, c, hf, hp => by
    simp only [payload_free_entries, Bool.and_eq_true] at hp
    obtain ⟨⟨hk, hv⟩, hr⟩ := hp
    have hk2 := not_contains hk
    have hv2 := serialise_flat v L false c hf hv
    have hr2 := serialise_entries_flat rest L c hf hr
    rw [serialise_entries_cons]
    split
    · rw [make_indent_nil]
      simp
    · intro h
      simp only [make_indent_nil, List.nil_append, List.mem_append, List.mem_singleton] at h
      rcases h with (h | rfl) | h
      · split at h
        · rcases List.mem_append.1 h with h | h
          · exact hv2 h
          · exact hk2 h
        · simp only [List.mem_append, List.mem_singleton] at h
          rcases h with (h | rfl) | h
          · exact hk2 h
          · revert hf; decide
          · exact hv2 h
      · revert hf; decide
      · exact hr2 h
theorem serialise_items_flat : ∀ (a : List ako_elem_t) (L : Nat) (c : Char),
    flat_char c = false → payload_free_items c a = true → c ∉ (serialise_items a [] L).1
  | [], L, c, _, _ => by
    rw [serialise_items_nil]
    simp
  | v :: rest, L, c, hf, hp => by
    simp only [payload_free_items, Bool.and_eq_true] at hp
    have hv2 := serialise_flat v (L + 1) false c hf hp.1
    have hr2 := serialise_items_flat rest L c hf hp.2
    rw [serialise_items_cons]
    intro h
    simp only [make_indent_nil, List.nil_append, List.mem_append, List.mem_singleton] at h
    rcases h with (h | rfl) | h
    · exact hv2 h
    · revert hf; decide
    · exact hr2 h
end

/-! ### The lexer on brackets, numeric runs and comments -/

section LexerRuns

open tokenizer

theorem lex_open_d_brace (rest : List Char) :
    LexTo ('[' :: '[' :: rest) rest [(AKO_TT_OPEN_D_BRACE, .int 0)] := by
  intro toks m loc reg fuel hf
  cases fuel with
  | zero => omega
  | succ f =>
    refine ⟨[⟨AKO_TT_OPEN_D_BRACE, loc, advance (advance loc '[') '[', .int 0⟩], loc,
      advance (advance loc '[') '[', .int 0, f, by simp at hf; omega, rfl, ?_⟩
    simp [tokenize_loop, consume, start_meta, add_token]

theorem lex_close_d_brace (rest : List Char) :
    LexTo (']' :: ']' :: rest) rest [(AKO_TT_CLOSE_D_BRACE, .int 0)] := by
  intro toks m loc reg fuel hf
  cases fuel with
  | zero => omega
  | succ f =>
    refine ⟨[⟨AKO_TT_CLOSE_D_BRACE, loc, advance (advance loc ']') ']', .int 0⟩], loc,
      advance (advance loc ']') ']', .int 0, f, by simp at hf; omega, rfl, ?_⟩
    simp [tokenize_loop, consume, start_meta, add_token]

theorem count_number_run : ∀ (num tail : List Char),
    (∀ c ∈ num, isdigit c = true ∨ c = '.') →
    (∀ b, tail.head? = some b → isdigit b = false ∧ b ≠ '.') →
    count_number (num ++ tail) = num.length := by
  intro num
  induction num with
  | nil =>
    intro tail _ ht
    cases tail with
    | nil => rfl
    | cons b tl =>
      obtain ⟨h1, h2⟩ := ht b rfl
      simp [count_number, h1, h2]
  | cons c num ih =>
    intro tail hn ht
    have hc : (isdigit c || decide (c = '.')) = true := by
      rcases hn c (List.mem_cons_self _ _) with h | h
      · simp [h]
      · simp [h]
    simp only [List.cons_append, count_number, hc, if_true, List.length_cons, List.append_eq]
    rw [ih tail (fun d h => hn d (List.mem_cons_of_mem _ h)) ht]

theorem parse_digit_float (c : Char) (num tail : List Char) (toks : List token_t)
    (m loc : location_t) (f : ako_float)
    (hn : ∀ d ∈ c :: num, isdigit d = true ∨ d = '.')
    (ht : ∀ b, tail.head? = some b → isdigit b = false ∧ b ≠ '.')
    (hdot : (c :: num).contains '.' = true) (hst : strtod (c :: num) = some f) :
    parse_digit ⟨toks, c :: num ++ tail, m, loc⟩
      = .ok (true, ⟨toks ++ [⟨AKO_TT_FLOAT, m, (c :: num).foldl advance loc, .float f⟩],
          tail, m, (c :: num).foldl advance loc⟩) := by
  have hcnt := count_number_run (c :: num) tail hn ht
  have hcons := consume_n_eq toks m (c :: num) tail loc
  have hlen : (c :: num).length ≠ 0 := by simp
  simp only [parse_digit, hcnt, hlen, if_false, hcons, add_token, hdot, if_true, hst]

theorem parse_digit_int (c : Char) (num tail : List Char) (toks : List token_t)
    (m loc : location_t) (n : ako_int)
    (hn : ∀ d ∈ c :: num, isdigit d = true ∨ d = '.')
    (ht : ∀ b, tail.head? = some b → isdigit b = false ∧ b ≠ '.')
    (hdot : (c :: num).contains '.' = false) (hst : strtoll (c :: num) = some n) :
    parse_digit ⟨toks, c :: num ++ tail, m, loc⟩
      = .ok (true, ⟨toks ++ [⟨AKO_TT_INT, m, (c :: num).foldl advance loc, .int n⟩],
          tail, m, (c :: num).foldl advance loc⟩) := by
  have hcnt := count_number_run (c :: num) tail hn ht
  have hcons := consume_n_eq toks m (c :: num) tail loc
  have hlen : (c :: num).length ≠ 0 := by simp
  simp only [parse_digit, hcnt, hlen, if_false, hcons, add_token, hdot, Bool.false_eq_true,
    hst]

theorem vector_loop_stop (state : state_t) (reg : token_value) (fuel : Nat)
    (ht : ∀ b, state.source.head? = some b → b ≠ 'x') :
    vector_loop (fuel + 1) state reg = .ok (state, reg) := by
  rw [vector_loop]
  cases hs : state.source with
  | nil => rfl
  | cons b tl =>
    have := ht b (by rw [hs]; rfl)
    simp [this]

theorem lex_number (c : Char) (num tail : List Char) (hc : isdigit c = true)
    (hn : ∀ d ∈ num, isdigit d = true ∨ d = '.')
    (ht : ∀ b, tail.head? = some b → isdigit b = false ∧ b ≠ '.' ∧ b ≠ 'x') :
    (∀ f, (c :: num).contains '.' = true → strtod (c :: num) = some f →
      LexTo (c :: num ++ tail) tail [(AKO_TT_FLOAT, .float f)])
    ∧ (∀ n, (c :: num).contains '.' = false → strtoll (c :: num) = some n →
      LexTo (c :: num ++ tail) tail [(AKO_TT_INT, .int n)]) := by
  have hn2 : ∀ d ∈ c :: num, isdigit d = true ∨ d = '.' := by
    intro d hd
    rcases List.mem_cons.1 hd with rfl | h
    · exact Or.inl hc
    · exact hn d h
  have ht2 : ∀ b, tail.head? = some b → isdigit b = false ∧ b ≠ '.' :=
    fun b hb => ⟨(ht b hb).1, (ht b hb).2.1⟩
  obtain ⟨n1, n2, n3, n4, n5, n6, n7, n8, n9, n10, n11, n12⟩ := digit_ne hc
  constructor
  · intro f hdot hst toks m loc reg fuel hf
    have hpd := parse_digit_float c num tail toks loc loc f hn2 ht2 hdot hst
    cases fuel with
    | zero => omega
    | succ fl =>
      refine ⟨[⟨AKO_TT_FLOAT, loc, (c :: num).foldl advance loc, .float f⟩], loc,
        (c :: num).foldl advance loc, reg, fl, ?_, rfl, ?_⟩
      · simp at hf ⊢
        omega
      · have hv := vector_loop_stop
          ⟨toks ++ [⟨AKO_TT_FLOAT, loc, (c :: num).foldl advance loc, .float f⟩], tail, loc,
            (c :: num).foldl advance loc⟩ reg tail.length (fun b hb => (ht b hb).2.2)
        simp only [List.cons_append] at hpd ⊢
        simp only [tokenize_loop, n1, n2, n3, n4, n5, n6, n7, n8, n9, n10, or_self, if_false,
          start_meta, n12, Bool.false_eq_true, hpd, hv]
  · intro n hdot hst toks m loc reg fuel hf
    have hpd := parse_digit_int c num tail toks loc loc n hn2 ht2 hdot hst
    cases fuel with
    | zero => omega
    | succ fl =>
      refine ⟨[⟨AKO_TT_INT, loc, (c :: num).foldl advance loc, .int n⟩], loc,
        (c :: num).foldl advance loc, reg, fl, ?_, rfl, ?_⟩
      · simp at hf ⊢
        omega
      · have hv := vector_loop_stop
          ⟨toks ++ [⟨AKO_TT_INT, loc, (c :: num).foldl advance loc, .int n⟩], tail, loc,
            (c :: num).foldl advance loc⟩ reg tail.length (fun b hb => (ht b hb).2.2)
        simp only [List.cons_append] at hpd ⊢
        simp only [tokenize_loop, n1, n2, n3, n4, n5, n6, n7, n8, n9, n10, or_self, if_false,
          start_meta, n12, Bool.false_eq_true, hpd, hv]

theorem skip_comment_line : ∀ (body : List Char) (e : Char) (rest : List Char)
    (loc : location_t),
    (∀ c ∈ body, c ≠ '\n' ∧ c ≠ '\t' ∧ c ≠ Char.ofNat 0) → (e = '\n' ∨ e = '\t') →
    skip_comment (body ++ e :: rest) loc = (rest, advance (body.foldl advance loc) e) := by
  intro body
  induction body with
  | nil =>
    intro e rest loc _ he
    simp [skip_comment, he]
  | cons c body ih =>
    intro e rest loc hb he
    obtain ⟨h1, h2, h3⟩ := hb c (List.mem_cons_self _ _)
    simp only [List.cons_append, skip_comment, h1, h2, h3, or_self, if_false, List.foldl_cons]
    exact ih e rest _ (fun d hd => hb d (List.mem_cons_of_mem _ hd)) he

theorem skip_comment_end : ∀ (body : List Char) (loc : location_t),
    (∀ c ∈ body, c ≠ '\n' ∧ c ≠ '\t' ∧ c ≠ Char.ofNat 0) →
    skip_comment body loc = ([], body.foldl advance loc) := by
  intro body
  induction body with
  | nil => intro loc _; rfl
  | cons c body ih =>
    intro loc hb
    obtain ⟨h1, h2, h3⟩ := hb c (List.mem_cons_self _ _)
    simp only [skip_comment, h1, h2, h3, or_self, if_false, List.foldl_cons]
    exact ih _ (fun d hd => hb d (List.mem_cons_of_mem _ hd))

theorem lex_comment (body : List Char) (e : Char) (rest : List Char)
    (hb : ∀ c ∈ body, c ≠ '\n' ∧ c ≠ '\t' ∧ c ≠ Char.ofNat 0) (he : e = '\n' ∨ e = '\t') :
    LexTo ('#' :: body ++ e :: rest) rest [] := by
  intro toks m loc reg fuel hf
  cases fuel with
  | zero => omega
  | succ f =>
    refine ⟨[], m, advance (body.foldl advance (advance loc '#')) e, reg, f,
      by simp at hf; omega, rfl, ?_⟩
    have hs := skip_comment_line body e rest (advance loc '#') hb he
    simp [tokenize_loop, consume, hs]

theorem lex_comment_end (body : List Char)
    (hb : ∀ c ∈ body, c ≠ '\n' ∧ c ≠ '\t' ∧ c ≠ Char.ofNat 0) :
    LexTo ('#' :: body) [] [] := by
  intro toks m loc reg fuel hf
  cases fuel with
  | zero => omega
  | succ f =>
    refine ⟨[], m, body.foldl advance (advance loc '#'), reg, f,
      by simp at hf ⊢; omega, rfl, ?_⟩
    have hs := skip_comment_end body (advance loc '#') hb
    simp [tokenize_loop, consume, hs]

end LexerRuns

theorem fmt_d_range (n : Int) (h0 : -2 ^ 31 ≤ n) (h1 : n < 2 ^ 31) : fmt_d n = fmt_int n := by
  unfold fmt_d
  have e : (n + 2 ^ 31) % 2 ^ 32 = n + 2 ^ 31 := by
    apply Int.emod_eq_of_lt
    · omega
    · omega
  rw [e]
  congr 1
  omega

theorem serialize_unformatted (R : ako_elem_t) (flags : ako_serialize_flags_t)
    (h : flags.ASF_FORMAT = false) :
    ako_serialize R flags
      = if (_serialise R [] 0 true).2 then .ok none
        else if (_serialise R [] 0 true).1 = [] then .abort .heapOverflow
        else .ok (some (_serialise R [] 0 true).1) := by
  simp [ako_serialize, h]

theorem serialize_flat (R : ako_elem_t) (flags : ako_serialize_flags_t)
    (h : flags.ASF_FORMAT = false) (text : List Char) (ht : ako_serialize R flags = .ok (some text))
    (c : Char) (hc : flat_char c = false) (hp : payload_free c R = true) : c ∉ text := by
  rw [serialize_unformatted R flags h] at ht
  split at ht
  · cases ht
  · split at ht
    · cases ht
    · cases ht
      exact serialise_flat R 0 true c hc hp

theorem serialize_error_entry (k s : List Char) (rest : List (List Char × ako_elem_t))
    (flags : ako_serialize_flags_t) :
    ako_serialize (AT_TABLE ((k, AT_ERROR s) :: rest)) flags = .ok none := by
  rw [ako_serialize_eq, serialise_table_root, serialise_entries_cons, serialise_error]
  simp

theorem serialize_error_root (s : List Char) (flags : ako_serialize_flags_t) :
    ako_serialize (AT_ERROR s) flags = .ok none := by
  simp [ako_serialize, serialise_error]

theorem number_end_spec {tail : List Char} (h : number_end tail = true) :
    ∀ b, tail.head? = some b → isdigit b = false ∧ b ≠ '.' ∧ b ≠ 'x' := by
  intro b hb
  cases tail with
  | nil => cases hb
  | cons t tl =>
    simp only [List.head?_cons, Option.some.injEq] at hb
    subst hb
    simpa [number_end, and_assoc] using h

theorem number_char_spec {num : List Char} (h : num.all number_char = true) :
    ∀ d ∈ num, isdigit d = true ∨ d = '.' := by
  intro d hd
  have := List.all_eq_true.1 h d hd
  simpa [number_char] using this

theorem comment_char_spec {body : List Char} (h : body.all comment_char = true) :
    ∀ c ∈ body, c ≠ '\n' ∧ c ≠ '\t' ∧ c ≠ Char.ofNat 0 := by
  intro c hc
  have := List.all_eq_true.1 h c hc
  simpa [comment_char, and_assoc] using this

theorem indent_of_format (flags : ako_serialize_flags_t) (h : flags.ASF_FORMAT = true) :
    indent_of flags = (if flags.ASF_USE_SPACES then "    ".toList else ['\t'])
      ∧ end_char (indent_of flags) = '\n' := by
  unfold indent_of end_char
  rw [h]
  cases flags.ASF_USE_SPACES <;> simp

theorem not_mark_ne_nil {s : List Char} (h : not_mark s) : s ≠ [] := by
  rcases h with ⟨c, tl, rfl, -⟩ | h
  · simp
  · intro e
    subst e
    simp at h

/-- Whatever the top-level call of `_serialise` writes without setting `*err`, it writes at
least one byte, the table without entries apart. -/
theorem serialise_top_ne_nil (R : ako_elem_t) (indent : List Char) (hR : R ≠ AT_TABLE [])
    (h : (_serialise R indent 0 true).2 = false) : (_serialise R indent 0 true).1 ≠ [] := by
  cases R with
  | AT_NULL => rw [serialise_null]; simp
  | AT_BOOL b => rw [serialise_bool]; cases b <;> simp
  | AT_INT i => rw [serialise_int]; exact not_mark_ne_nil (fmt_d_not_mark i)
  | AT_FLOAT f => rw [serialise_float]; exact not_mark_ne_nil (fmt_f_not_mark f)
  | AT_STRING s => rw [serialise_string]; simp
  | AT_SHORTTYPE s => rw [serialise_shorttype]; simp
  | AT_ERROR s => rw [serialise_error] at h; simp at h
  | AT_ARRAY a =>
    rw [serialise_array]
    split
    · simp
    · simp
  | AT_TABLE a =>
    cases a with
    | nil => exact absurd rfl hR
    | cons kv rest =>
      rw [serialise_table_root] at h ⊢
      split at h
      · cases h
      · rename_i h2
        rw [if_neg h2]
        exact serialise_entries_ne_nil kv rest indent 0 (by simpa using h2)

set_option maxRecDepth 100000 in
theorem fmt_f_zero : fmt_f ⟨0⟩ = "0.000000".toList := by decide!

/-- A table that is the only item of an array below the top level: the array is written as
a vector, the table through `%f`. -/
theorem serialise_table_in_short_array (a : List (List Char × ako_elem_t))
    (indent : List Char) (L : Nat) :
    _serialise (AT_ARRAY [AT_TABLE a]) indent L false = ("0.000000".toList, false) := by
  rw [serialise_short_array _ _ _ (by simp) (by simp), serialise_vector_cons]
  simp only [fmt_union_f, fmt_f_zero]
  rfl

/-! ### The lexer on the text of the plain fragment, numbers and vectors included -/

section RoundTripText

open tokenizer

theorem number_stop_spec {tail : List Char} (h : number_stop tail = true) :
    ∀ b, tail.head? = some b → isdigit b = false ∧ b ≠ '.' := by
  intro b hb
  cases tail with
  | nil => cases hb
  | cons t tl =>
    simp only [List.head?_cons, Option.some.injEq] at hb
    subst hb
    simpa [number_stop] using h

theorem strtod_some_run {t : List Char} {f : ako_float} (h : strtod t = some f) :
    ∀ d ∈ t, isdigit d = true ∨ d = '.' := by
  unfold strtod at h
  simp only at h
  have htd := List.takeWhile_append_dropWhile isdigit t
  intro d hd
  rw [← htd] at hd
  rcases List.mem_append.1 hd with h1 | h1
  · exact Or.inl (List.mem_takeWhile_imp h1)
  · split at h
    · rename_i fp heq
      rw [heq] at h1
      split at h
      · rename_i hfp
        rcases List.mem_cons.1 h1 with h2 | h2
        · exact Or.inr h2
        · exact Or.inl (List.all_eq_true.1 hfp.1 d h2)
      · cases h
    · rename_i heq
      rw [heq] at h1
      cases h1
    · cases h

theorem float_run (f : ako_float) (h : strtod (fmt_f f) = some f) :
    ∃ c num, fmt_f f = c :: num ∧ isdigit c = true
      ∧ (∀ d ∈ num, isdigit d = true ∨ d = '.') ∧ (c :: num).contains '.' = true := by
  obtain ⟨pre, body, e, hpre, hb⟩ := fmt_f_shape f
  have hrun := strtod_some_run h
  have hd : ∀ c : Char, isdigit c = true ∨ c = '.' → c ≠ '-' ∧ c ≠ 'i' ∧ c ≠ 'n' := by
    intro c hc
    rcases hc with hc | rfl
    · refine ⟨?_, ?_, ?_⟩ <;> (rintro rfl; revert hc; decide)
    · decide
  rw [e] at hrun
  have hpre2 : pre = [] := by
    rcases hpre with hp | hp
    · exact hp
    · subst hp
      exact absurd rfl (hd '-' (hrun '-' (by simp))).1
  subst hpre2
  rcases hb with rfl | rfl | ⟨n, tail, rfl, htail⟩
  · exact absurd rfl (hd 'i' (hrun 'i' (by simp))).2.1
  · exact absurd rfl (hd 'n' (hrun 'n' (by simp))).2.2
  · obtain ⟨hall, -, c, tl, hds, hc, -⟩ := fmt_nat_spec n
    refine ⟨c, tl ++ '.' :: tail, ?_, hc, ?_, ?_⟩
    · rw [e, hds]; simp
    · intro d hd2
      rcases List.mem_append.1 hd2 with h1 | h1
      · exact Or.inl (hall d (by rw [hds]; exact List.mem_cons_of_mem _ h1))
      · rcases List.mem_cons.1 h1 with h2 | h2
        · exact Or.inr h2
        · exact Or.inl (htail d h2)
    · simp

theorem int_run (i : Int) (h0 : 0 ≤ i) (h1 : i < 2 ^ 31) :
    ∃ c num, fmt_d i = c :: num ∧ isdigit c = true
      ∧ (∀ d ∈ num, isdigit d = true ∨ d = '.') ∧ (c :: num).contains '.' = false
      ∧ strtoll (c :: num) = some i := by
  obtain ⟨hd, -, c, tl, hds, hc, -⟩ := fmt_nat_spec i.toNat
  have hst := strtoll_fmt_nat i.toNat (by
    have : i.toNat < 2 ^ 31 := by
      norm_num at h1 ⊢
      omega
    calc i.toNat < 2 ^ 31 := this
      _ < 2 ^ 63 := by norm_num)
  have hi : Int.ofNat i.toNat = i := by simp [h0]
  rw [hi, hds] at hst
  have hnd := digits_no_dot (fmt_nat i.toNat) hd
  rw [hds] at hnd
  refine ⟨c, tl, by rw [fmt_d_small i h0 h1, hds], hc, ?_, hnd, hst⟩
  intro d hd2
  exact Or.inl (hd d (by rw [hds]; exact List.mem_cons_of_mem _ hd2))

/-- The run of a plain number, and what `parse_digit` makes of it. -/
theorem plain_number_digit (v : ako_elem_t) (hv : plain_number v = true) :
    ∃ c num, number_text v = c :: num ∧ isdigit c = true
      ∧ ∀ (tail : List Char), number_stop tail = true →
        ∀ (toks : List token_t) (m loc : location_t),
          parse_digit ⟨toks, c :: num ++ tail, m, loc⟩
            = .ok (true, ⟨toks ++ [⟨(atok_number v).1, m, (c :: num).foldl advance loc,
                (atok_number v).2⟩], tail, m, (c :: num).foldl advance loc⟩) := by
  cases v with
  | AT_INT i =>
    simp only [plain_number, Bool.and_eq_true, decide_eq_true_eq] at hv
    obtain ⟨c, num, e, hc, hn, hdot, hst⟩ := int_run i hv.1 hv.2
    refine ⟨c, num, e, hc, ?_⟩
    intro tail ht toks m loc
    have hn2 : ∀ d ∈ c :: num, isdigit d = true ∨ d = '.' := by
      intro d hd
      rcases List.mem_cons.1 hd with rfl | h
      · exact Or.inl hc
      · exact hn d h
    exact parse_digit_int c num tail toks m loc i hn2 (number_stop_spec ht) hdot hst
  | AT_FLOAT f =>
    simp only [plain_number, decide_eq_true_eq] at hv
    obtain ⟨c, num, e, hc, hn, hdot⟩ := float_run f hv
    refine ⟨c, num, e, hc, ?_⟩
    intro tail ht toks m loc
    have hn2 : ∀ d ∈ c :: num, isdigit d = true ∨ d = '.' := by
      intro d hd
      rcases List.mem_cons.1 hd with rfl | h
      · exact Or.inl hc
      · exact hn d h
    rw [e] at hv
    exact parse_digit_float c num tail toks m loc f hn2 (number_stop_spec ht) hdot hv
  | _ => simp [plain_number] at hv

theorem number_stop_cross (rest : List ako_elem_t) (tail : List Char)
    (ht : number_end tail = true) : number_stop (cross_text rest ++ tail) = true := by
  cases rest with
  | nil =>
    cases tail with
    | nil => rfl
    | cons b tl =>
      simp only [number_end, Bool.not_eq_true', Bool.or_eq_false_iff] at ht
      simp [cross_text, number_stop, ht.1.1, ht.1.2]
  | cons v rest => simp [cross_text, number_stop]; decide

theorem vector_loop_numbers : ∀ (vs : List ako_elem_t), vs.all plain_number = true →
    ∀ (tail : List Char), number_end tail = true →
    ∀ (toks : List token_t) (m loc : location_t) (reg : token_value) (fuel : Nat),
      vs.length < fuel →
      ∃ (toks2 : List token_t) (loc2 : location_t) (reg2 : token_value),
        toks2.map strip = cross_atoks vs
        ∧ vector_loop fuel ⟨toks, cross_text vs ++ tail, m, loc⟩ reg
          = .ok (⟨toks ++ toks2, tail, m, loc2⟩, reg2) := by
  intro vs
  induction vs with
  | nil =>
    intro _ tail ht toks m loc reg fuel hf
    cases fuel with
    | zero => omega
    | succ fl =>
      refine ⟨[], loc, reg, rfl, ?_⟩
      have := vector_loop_stop ⟨toks, tail, m, loc⟩ reg fl
        (fun b hb => (number_end_spec ht b hb).2.2)
      simpa [cross_text] using this
  | cons v vs ih =>
    intro hall tail ht toks m loc reg fuel hf
    simp only [List.all_cons, Bool.and_eq_true] at hall
    cases fuel with
    | zero => omega
    | succ fl =>
      obtain ⟨c, num, e, hc, hpd⟩ := plain_number_digit v hall.1
      have hstop := number_stop_cross vs tail ht
      have h1 := hpd (cross_text vs ++ tail) hstop
        (toks ++ [⟨AKO_TT_VECTORCROSS, m, advance loc 'x', .int 0⟩]) m (advance loc 'x')
      obtain ⟨toks2, loc2, reg2, hm, hv⟩ := ih hall.2 tail ht
        (toks ++ [⟨AKO_TT_VECTORCROSS, m, advance loc 'x', .int 0⟩]
          ++ [⟨(atok_number v).1, m, (c :: num).foldl advance (advance loc 'x'),
            (atok_number v).2⟩]) m ((c :: num).foldl advance (advance loc 'x')) (.int 0) fl
        (by simp at hf; omega)
      refine ⟨⟨AKO_TT_VECTORCROSS, m, advance loc 'x', .int 0⟩
        :: ⟨(atok_number v).1, m, (c :: num).foldl advance (advance loc 'x'),
            (atok_number v).2⟩ :: toks2, loc2, reg2, ?_, ?_⟩
      · simp only [List.map_cons, hm, cross_atoks]
        rfl
      · simp only [cross_text, e, List.cons_append, List.append_assoc] at h1 ⊢
        rw [vector_loop]
        simp only [consume, add_token, if_true, h1]
        simp only [List.append_assoc, List.cons_append, List.nil_append] at hv ⊢
        rw [hv]

/-- The lexer on a vector of plain numbers. -/
theorem lex_vector (v : ako_elem_t) (vs : List ako_elem_t) (tail : List Char)
    (hv : plain_number v = true) (hvs : vs.all plain_number = true)
    (ht : number_end tail = true) :
    LexTo (number_text v ++ (cross_text vs ++ tail)) tail (atok_number v :: cross_atoks vs) := by
  intro toks m loc reg fuel hf
  obtain ⟨c, num, e, hc, hpd⟩ := plain_number_digit v hv
  have hstop := number_stop_cross vs tail ht
  obtain ⟨n1, n2, n3, n4, n5, n6, n7, n8, n9, n10, n11, n12⟩ := digit_ne hc
  cases fuel with
  | zero => omega
  | succ fl =>
    have h1 := hpd (cross_text vs ++ tail) hstop toks loc loc
    have hlen : vs.length < (cross_text vs ++ tail).length + 1 := by
      have : ∀ l : List ako_elem_t, l.length ≤ (cross_text l).length := by
        intro l
        induction l with
        | nil => simp
        | cons a l ih => simp [cross_text]; omega
      have := this vs
      simp only [List.length_append]
      omega
    obtain ⟨toks2, loc2, reg2, hm, hvl⟩ := vector_loop_numbers vs hvs tail ht
      (toks ++ [⟨(atok_number v).1, loc, (c :: num).foldl advance loc, (atok_number v).2⟩])
      loc ((c :: num).foldl advance loc) reg ((cross_text vs ++ tail).length + 1) hlen
    refine ⟨⟨(atok_number v).1, loc, (c :: num).foldl advance loc, (atok_number v).2⟩ :: toks2,
      loc, loc2, reg2, fl, ?_, ?_, ?_⟩
    · rw [e] at hf
      simp at hf ⊢
      omega
    · simp only [List.map_cons, hm]
      rfl
    · rw [e]
      simp only [List.cons_append] at h1 ⊢
      simp only [tokenize_loop, n1, n2, n3, n4, n5, n6, n7, n8, n9, n10, or_self, if_false,
        start_meta, n12, Bool.false_eq_true, h1, hvl]
      simp

theorem number_end_blank (b : Char) (rest : List Char) (hb : b = ' ' ∨ b = '\n') :
    number_end (b :: rest) = true := by
  rcases hb with rfl | rfl <;> rfl

theorem plain_number_is_number {v : ako_elem_t} (h : plain_number v = true) :
    is_number v = true := by
  cases v <;> simp [plain_number] at h <;> rfl

theorem vector_text_cross : ∀ (w : ako_elem_t) (ws : List ako_elem_t),
    vector_text (w :: ws) = number_text w ++ cross_text ws
  | w, [] => by simp [vector_text, cross_text]
  | w, v :: ws => by
    rw [vector_text, vector_text_cross v ws]
    simp [cross_text]

set_option maxRecDepth 100000 in
/-- The lexer on the text of plain entries: their tokens, whatever text follows. -/
theorem lex_entries (nest : Bool) (indent : List Char)
    (hind : nest = true → ∀ c ∈ indent, c = ' ') :
    ∀ (n : Nat) (a : List (List Char × ako_elem_t)),
      nest_size_entries a ≤ n → plain_entries nest a = true →
      ∀ (L : Nat) (rest : List Char),
        (∀ c ∈ _make_indent indent L, c = ' ' ∨ c = '\n') →
        (serialise_entries a indent L).2 = false
        ∧ LexTo ((serialise_entries a indent L).1 ++ rest) rest (atoks_entries a) := by
  intro n
  induction n with
  | zero =>
    intro a hn _ L rest _
    cases a with
    | cons kv as => obtain ⟨k, v⟩ := kv; simp [nest_size_entries] at hn
    | nil => exact ⟨rfl, by simpa [serialise_entries, atoks_entries] using LexTo.refl rest⟩
  | succ n ih =>
    intro a hn hp L rest hmk
    cases a with
    | nil => exact ⟨rfl, by simpa [serialise_entries, atoks_entries] using LexTo.refl rest⟩
    | cons kv as =>
      obtain ⟨k, v⟩ := kv
      simp only [plain_entries, Bool.and_eq_true] at hp
      obtain ⟨⟨hk, hv⟩, has⟩ := hp
      simp only [nest_size_entries] at hn
      obtain ⟨ih2, ih3⟩ := ih as (by omega) has L rest hmk
      have hb := end_char_blank indent
      rw [serialise_entries_cons]
      -- the text after the indentation, for each kind of value
      cases v with
      | AT_NULL =>
        have hs : _serialise AT_NULL indent L false = ([';'], false) := by rw [_serialise]
        simp only [hs, Bool.false_eq_true, if_false, or_true, if_true, ih2, true_and,
          atoks_entries, List.append_assoc, List.cons_append, List.nil_append]
        have l1 := lex_blanks (_make_indent indent L)
          (';' :: (k ++ end_char indent :: ((serialise_entries as indent L).1 ++ rest))) hmk
        have l2 := lex_semicolon
          (k ++ end_char indent :: ((serialise_entries as indent L).1 ++ rest))
        have l3 := lex_ident k (end_char indent) ((serialise_entries as indent L).1 ++ rest) hk hb
        have l4 := lex_blank (end_char indent) ((serialise_entries as indent L).1 ++ rest) hb
        simpa using (l1.trans (l2.trans (l3.trans (l4.trans ih3))))
      | AT_INT i =>
        simp only [plain_value, Bool.and_eq_true, decide_eq_true_eq] at hv
        have hs : _serialise (AT_INT i) indent L false = (fmt_d i, false) := by rw [_serialise]
        obtain ⟨-, -, c, tl, hds, hc, -⟩ := fmt_nat_spec i.toNat
        have hns : ¬ (fmt_d i = ['+'] ∨ fmt_d i = ['-'] ∨ fmt_d i = [';']) :=
          digit_head_not_sign ((fmt_d_small i hv.1 hv.2).trans hds) hc
        rw [atoks_entries_cons_of_ne k _ as (by simp)]
        simp only [hs, Bool.false_eq_true, if_false, hns, ih2, true_and, atoks_value,
          List.append_assoc, List.cons_append, List.nil_append]
        have l1 := lex_blanks (_make_indent indent L)
          (k ++ ' ' :: (fmt_d i ++ end_char indent
            :: ((serialise_entries as indent L).1 ++ rest))) hmk
        have l2 := lex_ident k ' ' (fmt_d i ++ end_char indent
            :: ((serialise_entries as indent L).1 ++ rest)) hk (Or.inl rfl)
        have l3 := lex_blank ' ' (fmt_d i ++ end_char indent
            :: ((serialise_entries as indent L).1 ++ rest)) (Or.inl rfl)
        have l4 := lex_int i (end_char indent) ((serialise_entries as indent L).1 ++ rest)
          hv.1 hv.2 hb
        have l5 := lex_blank (end_char indent) ((serialise_entries as indent L).1 ++ rest) hb
        simpa using (l1.trans (l2.trans (l3.trans (l4.trans (l5.trans ih3)))))
      | AT_STRING s =>
        simp only [plain_value] at hv
        have hs : _serialise (AT_STRING s) indent L false = ('"' :: (s ++ ['"']), false) := by
          rw [_serialise]; simp
        rw [atoks_entries_cons_of_ne k _ as (by simp)]
        simp only [hs, Bool.false_eq_true, if_false, ih2, true_and, atoks_value,
          List.append_assoc, List.cons_append, List.nil_append, List.cons.injEq,
          Char.reduceEq, false_and, or_self]
        have l1 := lex_blanks (_make_indent indent L)
          (k ++ ' ' :: '"' :: (s ++ '"' :: end_char indent
            :: ((serialise_entries as indent L).1 ++ rest))) hmk
        have l2 := lex_ident k ' ' ('"' :: (s ++ '"' :: end_char indent
            :: ((serialise_entries as indent L).1 ++ rest))) hk (Or.inl rfl)
        have l3 := lex_blank ' ' ('"' :: (s ++ '"' :: end_char indent
            :: ((serialise_entries as indent L).1 ++ rest))) (Or.inl rfl)
        have l4 := lex_string s (end_char indent
            :: ((serialise_entries as indent L).1 ++ rest)) hv
        have l5 := lex_blank (end_char indent) ((serialise_entries as indent L).1 ++ rest) hb
        simpa using (l1.trans (l2.trans (l3.trans (l4.trans (l5.trans ih3)))))
      | AT_TABLE sub =>
        simp only [plain_value, Bool.and_eq_true, Bool.or_eq_true] at hv
        simp only [nest_size] at hn
        rw [atoks_entries_cons_of_ne k _ as (by simp)]
        cases sub with
        | nil =>
          have hs : _serialise (AT_TABLE []) indent L false = (['[', ']'], false) := by
            rw [_serialise]; simp
          simp only [hs, Bool.false_eq_true, if_false, ih2, true_and, atoks_value,
            atoks_entries, List.append_assoc, List.cons_append, List.nil_append,
            List.cons.injEq, Char.reduceEq, false_and, or_self]
          have l1 := lex_blanks (_make_indent indent L)
            (k ++ ' ' :: '[' :: ']' :: end_char indent
              :: ((serialise_entries as indent L).1 ++ rest)) hmk
          have l2 := lex_ident k ' ' ('[' :: ']' :: end_char indent
              :: ((serialise_entries as indent L).1 ++ rest)) hk (Or.inl rfl)
          have l3 := lex_blank ' ' ('[' :: ']' :: end_char indent
              :: ((serialise_entries as indent L).1 ++ rest)) (Or.inl rfl)
          have l4 := lex_open_brace (']' :: end_char indent
              :: ((serialise_entries as indent L).1 ++ rest)) (by simp)
          have l5 := lex_close_brace (end_char indent
              :: ((serialise_entries as indent L).1 ++ rest)) (end_head_ne _ _ _ (Or.inr rfl))
          have l6 := lex_blank (end_char indent) ((serialise_entries as indent L).1 ++ rest) hb
          simpa using (l1.trans (l2.trans (l3.trans (l4.trans (l5.trans (l6.trans ih3))))))
        | cons e sub2 =>
          have hnest : nest = true := by
            rcases hv.1 with h | h
            · exact h
            · simp at h
          have hblank := make_indent_blank indent (hind hnest)
          obtain ⟨is2, is3⟩ := ih (e :: sub2) (by omega) hv.2 (L + 1)
            (_make_indent indent L ++ ']' :: end_char indent
              :: ((serialise_entries as indent L).1 ++ rest)) (hblank (L + 1))
          rw [serialise_table_nonempty (e :: sub2) (by simp)]
          simp only [is2, Bool.false_eq_true, if_false, ih2, true_and, atoks_value,
            List.append_assoc, List.cons_append, List.nil_append, List.cons.injEq,
            Char.reduceEq, false_and, or_self]
          have l1 := lex_blanks (_make_indent indent L)
            (k ++ ' ' :: '[' :: end_char indent :: ((serialise_entries (e :: sub2) indent (L + 1)).1
              ++ (_make_indent indent L ++ ']' :: end_char indent
              :: ((serialise_entries as indent L).1 ++ rest)))) hmk
          have l2 := lex_ident k ' ' ('[' :: end_char indent
              :: ((serialise_entries (e :: sub2) indent (L + 1)).1
              ++ (_make_indent indent L ++ ']' :: end_char indent
              :: ((serialise_entries as indent L).1 ++ rest)))) hk (Or.inl rfl)
          have l3 := lex_blank ' ' ('[' :: end_char indent
              :: ((serialise_entries (e :: sub2) indent (L + 1)).1
              ++ (_make_indent indent L ++ ']' :: end_char indent
              :: ((serialise_entries as indent L).1 ++ rest)))) (Or.inl rfl)
          have l4 := lex_open_brace (end_char indent
              :: ((serialise_entries (e :: sub2) indent (L + 1)).1
              ++ (_make_indent indent L ++ ']' :: end_char indent
              :: ((serialise_entries as indent L).1 ++ rest)))) (end_head_ne _ _ _ (Or.inl rfl))
          have l5 := lex_blank (end_char indent)
              ((serialise_entries (e :: sub2) indent (L + 1)).1
              ++ (_make_indent indent L ++ ']' :: end_char indent
              :: ((serialise_entries as indent L).1 ++ rest))) hb
          have l6 := lex_blanks (_make_indent indent L) (']' :: end_char indent
              :: ((serialise_entries as indent L).1 ++ rest)) hmk
          have l7 := lex_close_brace (end_char indent
              :: ((serialise_entries as indent L).1 ++ rest)) (end_head_ne _ _ _ (Or.inr rfl))
          have l8 := lex_blank (end_char indent) ((serialise_entries as indent L).1 ++ rest) hb
          simpa using (l1.trans (l2.trans (l3.trans (l4.trans (l5.trans (is3.trans
            (l6.trans (l7.trans (l8.trans ih3)))))))))
      | AT_FLOAT fl =>
        simp only [plain_value, decide_eq_true_eq] at hv
        have hs : _serialise (AT_FLOAT fl) indent L false = (fmt_f fl, false) :=
          serialise_float fl indent L false
        obtain ⟨c, num, e, hc, -, -⟩ := float_run fl hv
        have hns : ¬ (fmt_f fl = ['+'] ∨ fmt_f fl = ['-'] ∨ fmt_f fl = [';']) :=
          digit_head_not_sign e hc
        rw [atoks_entries_cons_of_ne k _ as (by simp)]
        simp only [hs, Bool.false_eq_true, if_false, hns, ih2, true_and, atoks_value,
          List.append_assoc, List.cons_append, List.nil_append]
        have l1 := lex_blanks (_make_indent indent L)
          (k ++ ' ' :: (fmt_f fl ++ end_char indent
            :: ((serialise_entries as indent L).1 ++ rest))) hmk
        have l2 := lex_ident k ' ' (fmt_f fl ++ end_char indent
            :: ((serialise_entries as indent L).1 ++ rest)) hk (Or.inl rfl)
        have l3 := lex_blank ' ' (fmt_f fl ++ end_char indent
            :: ((serialise_entries as indent L).1 ++ rest)) (Or.inl rfl)
        have l4 := lex_vector (AT_FLOAT fl) []
          (end_char indent :: ((serialise_entries as indent L).1 ++ rest))
          (by simpa [plain_number] using hv) rfl (number_end_blank _ _ hb)
        simp only [number_text, cross_text, cross_atoks, atok_number, List.nil_append] at l4
        have l5 := lex_blank (end_char indent) ((serialise_entries as indent L).1 ++ rest) hb
        simpa using (l1.trans (l2.trans (l3.trans (l4.trans (l5.trans ih3)))))
      | AT_ARRAY arr =>
        rw [atoks_entries_cons_of_ne k _ as (by simp)]
        cases arr with
        | nil =>
          have hs : _serialise (AT_ARRAY []) indent L false = (['[', '[', ']', ']'], false) := by
            rw [serialise_array]
            rfl
          simp only [hs, Bool.false_eq_true, if_false, ih2, true_and, atoks_value,
            List.append_assoc, List.cons_append, List.nil_append,
            List.cons.injEq, Char.reduceEq, false_and, or_self]
          have l1 := lex_blanks (_make_indent indent L)
            (k ++ ' ' :: '[' :: '[' :: ']' :: ']' :: end_char indent
              :: ((serialise_entries as indent L).1 ++ rest)) hmk
          have l2 := lex_ident k ' ' ('[' :: '[' :: ']' :: ']' :: end_char indent
              :: ((serialise_entries as indent L).1 ++ rest)) hk (Or.inl rfl)
          have l3 := lex_blank ' ' ('[' :: '[' :: ']' :: ']' :: end_char indent
              :: ((serialise_entries as indent L).1 ++ rest)) (Or.inl rfl)
          have l4 := lex_open_d_brace (']' :: ']' :: end_char indent
              :: ((serialise_entries as indent L).1 ++ rest))
          have l5 := lex_close_d_brace (end_char indent
              :: ((serialise_entries as indent L).1 ++ rest))
          have l6 := lex_blank (end_char indent) ((serialise_entries as indent L).1 ++ rest) hb
          simpa using (l1.trans (l2.trans (l3.trans (l4.trans (l5.trans (l6.trans ih3))))))
        | cons w ws =>
          simp only [plain_value, List.isEmpty_cons, Bool.false_or, Bool.and_eq_true,
            decide_eq_true_eq, List.all_cons] at hv
          obtain ⟨⟨-, h4⟩, hw, hws⟩ := hv
          have hnum : (w :: ws).all is_number = true := by
            simp only [List.all_cons, Bool.and_eq_true]
            exact ⟨plain_number_is_number hw, List.all_eq_true.2 (fun x hx =>
              plain_number_is_number (List.all_eq_true.1 hws x hx))⟩
          have hs : _serialise (AT_ARRAY (w :: ws)) indent L false
              = (number_text w ++ cross_text ws, false) := by
            rw [serialise_short_array _ _ _ (by simp) h4, serialise_vector_numeric _ hnum,
              vector_text_cross]
          obtain ⟨c, num, e, hc, -⟩ := plain_number_digit w hw
          have hns : ¬ (number_text w ++ cross_text ws = ['+']
              ∨ number_text w ++ cross_text ws = ['-']
              ∨ number_text w ++ cross_text ws = [';']) :=
            digit_head_not_sign (by rw [e]; rfl) hc
          simp only [hs, Bool.false_eq_true, if_false, hns, ih2, true_and, atoks_value,
            List.append_assoc, List.cons_append, List.nil_append]
          have l1 := lex_blanks (_make_indent indent L)
            (k ++ ' ' :: (number_text w ++ (cross_text ws ++ end_char indent
              :: ((serialise_entries as indent L).1 ++ rest)))) hmk
          have l2 := lex_ident k ' ' (number_text w ++ (cross_text ws ++ end_char indent
              :: ((serialise_entries as indent L).1 ++ rest))) hk (Or.inl rfl)
          have l3 := lex_blank ' ' (number_text w ++ (cross_text ws ++ end_char indent
              :: ((serialise_entries as indent L).1 ++ rest))) (Or.inl rfl)
          have l4 := lex_vector w ws
            (end_char indent :: ((serialise_entries as indent L).1 ++ rest))
            hw hws (number_end_blank _ _ hb)
          have l5 := lex_blank (end_char indent) ((serialise_entries as indent L).1 ++ rest) hb
          simpa using (l1.trans (l2.trans (l3.trans (l4.trans (l5.trans ih3)))))
      | AT_SHORTTYPE _ => simp [plain_value] at hv
      | AT_BOOL _ => simp [plain_value] at hv
      | AT_ERROR _ => simp [plain_value] at hv

/-- Round trip of the plain fragment: nested non-empty tables need an indentation of
spaces (or none). -/
theorem round_trip_plain (nest : Bool) (flags : ako_serialize_flags_t)
    (hfl : nest = true → flags.ASF_FORMAT = true → flags.ASF_USE_SPACES = true)
    (a : List (List Char × ako_elem_t)) (ha : a ≠ []) (hp : plain_entries nest a = true) :
    ∃ text, ako_serialize (AT_TABLE a) flags = .ok (some text) ∧ ako_parse text = .ok (AT_TABLE a) := by
  have hind : nest = true → ∀ c ∈ indent_of flags, c = ' ' := by
    intro hn c hc
    unfold indent_of at hc
    by_cases h1 : flags.ASF_FORMAT = true
    · have h2 := hfl hn h1
      simp [h1, h2] at hc
      exact hc
    · simp [h1] at hc
  obtain ⟨h2, hlex⟩ := lex_entries nest (indent_of flags) hind _ a (le_refl _) hp 0 []
    (by simp [_make_indent])
  refine ⟨(serialise_entries a (indent_of flags) 0).1, ?_, ?_⟩
  · exact serialize_table_root a ha flags h2
  · rw [List.append_nil] at hlex
    obtain ⟨toks, ht, hm⟩ := lex_done hlex
    have hne : toks.length ≠ 0 := by
      intro h0
      have : toks = [] := List.length_eq_zero.mp h0
      subst this
      exact atoks_entries_ne_nil a ha (by simpa using hm.symm)
    simp only [ako_parse, ht, Outcome.bind, hne, if_false]
    exact parse_tokens_plain nest a ha hp toks hm

/-- The main loop at a numeric run: one token, then the loop of the vector crosses. -/
theorem lex_number_step (c : Char) (num tail : List Char) (hc : isdigit c = true)
    (ty : token_type_t) (v : token_value)
    (hpd : ∀ (toks : List token_t) (loc : location_t),
      parse_digit ⟨toks, c :: num ++ tail, loc, loc⟩
        = .ok (true, ⟨toks ++ [⟨ty, loc, (c :: num).foldl advance loc, v⟩],
            tail, loc, (c :: num).foldl advance loc⟩))
    (toks : List token_t) (m loc : location_t) (reg : token_value) (fuel : Nat) :
    tokenize_loop (fuel + 1) ⟨toks, c :: num ++ tail, m, loc⟩ reg
      = (vector_loop (tail.length + 1)
          ⟨toks ++ [⟨ty, loc, (c :: num).foldl advance loc, v⟩], tail, loc,
            (c :: num).foldl advance loc⟩ reg).bind
          (fun r => tokenize_loop fuel r.1 r.2) := by
  obtain ⟨n1, n2, n3, n4, n5, n6, n7, n8, n9, n10, n11, n12⟩ := digit_ne hc
  have h := hpd toks loc
  simp only [List.cons_append] at h ⊢
  simp only [tokenize_loop, n1, n2, n3, n4, n5, n6, n7, n8, n9, n10, or_self, if_false,
    start_meta, n12, Bool.false_eq_true, h]
  generalize vector_loop (tail.length + 1) _ reg = r
  cases r with
  | ok p => rfl
  | abort e => rfl
  | hang => rfl
  | nofuel => rfl

theorem lex_number_any (c : Char) (num tail : List Char) (hc : isdigit c = true)
    (hn : ∀ d ∈ num, isdigit d = true ∨ d = '.')
    (ht : ∀ b, tail.head? = some b → isdigit b = false ∧ b ≠ '.') :
    (∀ f, (c :: num).contains '.' = true → strtod (c :: num) = some f →
      ∀ (toks : List token_t) (m loc : location_t) (reg : token_value) (fuel : Nat),
        tokenize_loop (fuel + 1) ⟨toks, c :: num ++ tail, m, loc⟩ reg
          = (vector_loop (tail.length + 1)
              ⟨toks ++ [⟨AKO_TT_FLOAT, loc, (c :: num).foldl advance loc, .float f⟩], tail, loc,
                (c :: num).foldl advance loc⟩ reg).bind
              (fun r => tokenize_loop fuel r.1 r.2))
    ∧ (∀ n, (c :: num).contains '.' = false → strtoll (c :: num) = some n →
      ∀ (toks : List token_t) (m loc : location_t) (reg : token_value) (fuel : Nat),
        tokenize_loop (fuel + 1) ⟨toks, c :: num ++ tail, m, loc⟩ reg
          = (vector_loop (tail.length + 1)
              ⟨toks ++ [⟨AKO_TT_INT, loc, (c :: num).foldl advance loc, .int n⟩], tail, loc,
                (c :: num).foldl advance loc⟩ reg).bind
              (fun r => tokenize_loop fuel r.1 r.2)) := by
  have hn2 : ∀ d ∈ c :: num, isdigit d = true ∨ d = '.' := by
    intro d hd
    rcases List.mem_cons.1 hd with rfl | h
    · exact Or.inl hc
    · exact hn d h
  constructor
  · intro f hdot hst toks m loc reg fuel
    exact lex_number_step c num tail hc _ _
      (fun toks loc => parse_digit_float c num tail toks loc loc f hn2 ht hdot hst)
      toks m loc reg fuel
  · intro n hdot hst toks m loc reg fuel
    exact lex_number_step c num tail hc _ _
      (fun toks loc => parse_digit_int c num tail toks loc loc n hn2 ht hdot hst)
      toks m loc reg fuel

end RoundTripText

/-! ### Round trips (C1, C2) -/

/-- C2. Every non-empty root table of the plain fragment (identifier keys; values `Null`,
`Int` in `[0, 2 ^ 31)`, `Float` whose `%f` text is converted back to it, `String` without
quote, backslash, newline or tab, arrays without items or with two to four such numbers, or
nested tables of the same shape, possibly empty) has a default-form text: `ako_serialize`
with `ASF_NONE` returns it, and `ako_parse` of that text returns a root equal to the table,
which is no `Error`. The root with `a` 1, a table `t` holding the string `s` and the null
`n`, and an empty table `e` has the text shown, which parses back to it. -/
theorem C2_default_form_round_trip :
    (∀ a : List (List Char × ako_elem_t), a ≠ [] → plain_entries true a = true →
      ∃ text, ako_serialize (AT_TABLE a) ASF_NONE = .ok (some text)
        ∧ ako_parse text = .ok (AT_TABLE a))
    ∧ ako_serialize (AT_TABLE [("a".toList, AT_INT 1),
          ("t".toList, AT_TABLE [("s".toList, AT_STRING "x y".toList), ("n".toList, AT_NULL)]),
          ("e".toList, AT_TABLE [])]) ASF_NONE
        = .ok (some "a 1 t [ s \"x y\" ;n ] e [] ".toList)
    ∧ ako_parse "a 1 t [ s \"x y\" ;n ] e [] ".toList
        = .ok (AT_TABLE [("a".toList, AT_INT 1),
          ("t".toList, AT_TABLE [("s".toList, AT_STRING "x y".toList), ("n".toList, AT_NULL)]),
          ("e".toList, AT_TABLE [])]) := by
  refine ⟨?_, by decide!, by decide!⟩
  intro a ha hp
  exact round_trip_plain true ASF_NONE (fun _ h => by simp [ASF_NONE] at h) a ha hp

/-- C2, at the root `k 7 t [ ;n ]`. -/
theorem C2_default_form_round_trip_witness :
    plain_entries true [("k".toList, AT_INT 7), ("t".toList, AT_TABLE [("n".toList, AT_NULL)])]
      = true
    ∧ ∃ text,
        ako_serialize (AT_TABLE [("k".toList, AT_INT 7),
          ("t".toList, AT_TABLE [("n".toList, AT_NULL)])]) ASF_NONE = .ok (some text)
        ∧ ako_parse text = .ok (AT_TABLE [("k".toList, AT_INT 7),
          ("t".toList, AT_TABLE [("n".toList, AT_NULL)])]) :=
  ⟨by decide!, C2_default_form_round_trip.1 _ (by simp) (by decide!)⟩

/-- C1, counterexample. The source `a &b` parses to a root whose entry `a` is the
`ShortType` `b`, a payload without quote or backslash. Its `ASF_FORMAT` text is `a "b"` and
a newline, and that text parses to a root whose entry `a` is the `String` `b`: not the same
kind, so not the same root. Three more roots do not come back, none of them with a quote or
a backslash in a string: a key is written as it is, so the root of `"a b" 1` has the text
`a b 1`, which parses to an `Error`; an array of one number is written as that number, so
the root of `a [[ 5 ]]` has the text `a 5`, where `a` is an `Int`; a `Float` is written with
six decimals, so the root of `a 0.1234567` has the text `a 0.123457`, another `Float`. -/
theorem C1_short_type_returns_as_string :
    ako_parse "a &b".toList = .ok (AT_TABLE [("a".toList, AT_SHORTTYPE "b".toList)])
    ∧ ako_serialize (AT_TABLE [("a".toList, AT_SHORTTYPE "b".toList)]) ASF_FORMAT
        = .ok (some "a \"b\"\n".toList)
    ∧ ako_parse "a \"b\"\n".toList = .ok (AT_TABLE [("a".toList, AT_STRING "b".toList)])
    ∧ AT_TABLE [("a".toList, AT_STRING "b".toList)]
        ≠ AT_TABLE [("a".toList, AT_SHORTTYPE "b".toList)]
    ∧ ako_parse "\"a b\" 1".toList = .ok (AT_TABLE [("a b".toList, AT_INT 1)])
    ∧ ako_serialize (AT_TABLE [("a b".toList, AT_INT 1)]) ASF_FORMAT
        = .ok (some "a b 1\n".toList)
    ∧ ako_parse "a b 1\n".toList = .ok (AT_ERROR "Unsupported type at 1:3 -> 1:4".toList)
    ∧ ako_parse "a [[ 5 ]]".toList = .ok (AT_TABLE [("a".toList, AT_ARRAY [AT_INT 5])])
    ∧ ako_serialize (AT_TABLE [("a".toList, AT_ARRAY [AT_INT 5])]) ASF_FORMAT
        = .ok (some "a 5\n".toList)
    ∧ ako_parse "a 5\n".toList = .ok (AT_TABLE [("a".toList, AT_INT 5)])
    ∧ ako_parse "a 0.1234567".toList
        = .ok (AT_TABLE [("a".toList, AT_FLOAT ⟨4593560413433027186⟩)])
    ∧ ako_serialize (AT_TABLE [("a".toList, AT_FLOAT ⟨4593560413433027186⟩)]) ASF_FORMAT
        = .ok (some "a 0.123457\n".toList)
    ∧ ako_parse "a 0.123457\n".toList
        = .ok (AT_TABLE [("a".toList, AT_FLOAT ⟨4593560435050305397⟩)]) := by
  decide!

/-- C1, amended. Every non-empty root table of the plain fragment (identifier keys; values
`Null`, `Int` in `[0, 2 ^ 31)`, `Float` whose `%f` text is converted back to it, `String`
without quote, backslash, newline or tab, arrays without items or with two to four such
numbers, tables) whose nested tables are all empty has an `ASF_FORMAT` text, and `ako_parse`
of that text returns a root equal to the table. With `ASF_FORMAT | ASF_USE_SPACES` the same
holds for every non-empty root table of the plain fragment, nested tables included. The
roots of `a 1.0 b 42.0` and of `v 1x2.5`, the root with `a` 1, the string `s`, the null `n`
and the empty table `e`, and the array without items come back from their `ASF_FORMAT`
texts. -/
theorem C1_round_trip_formatted :
    (∀ a : List (List Char × ako_elem_t), a ≠ [] → plain_entries false a = true →
      ∃ text, ako_serialize (AT_TABLE a) ASF_FORMAT = .ok (some text)
        ∧ ako_parse text = .ok (AT_TABLE a))
    ∧ (∀ a : List (List Char × ako_elem_t), a ≠ [] → plain_entries true a = true →
      ∃ text, ako_serialize (AT_TABLE a) ⟨true, true⟩ = .ok (some text)
        ∧ ako_parse text = .ok (AT_TABLE a))
    ∧ ako_serialize (AT_TABLE [("a".toList, AT_INT 1), ("s".toList, AT_STRING "x y".toList),
          ("n".toList, AT_NULL), ("e".toList, AT_TABLE [])]) ASF_FORMAT
        = .ok (some "a 1\ns \"x y\"\n;n\ne []\n".toList)
    ∧ ako_parse "a 1\ns \"x y\"\n;n\ne []\n".toList
        = .ok (AT_TABLE [("a".toList, AT_INT 1), ("s".toList, AT_STRING "x y".toList),
          ("n".toList, AT_NULL), ("e".toList, AT_TABLE [])])
    ∧ ako_parse "a 1.0 b 42.0".toList
        = .ok (AT_TABLE [("a".toList, AT_FLOAT ⟨4607182418800017408⟩),
          ("b".toList, AT_FLOAT ⟨4631107791820423168⟩)])
    ∧ ako_serialize (AT_TABLE [("a".toList, AT_FLOAT ⟨4607182418800017408⟩),
          ("b".toList, AT_FLOAT ⟨4631107791820423168⟩)]) ASF_FORMAT
        = .ok (some "a 1.000000\nb 42.000000\n".toList)
    ∧ ako_parse "a 1.000000\nb 42.000000\n".toList
        = .ok (AT_TABLE [("a".toList, AT_FLOAT ⟨4607182418800017408⟩),
          ("b".toList, AT_FLOAT ⟨4631107791820423168⟩)])
    ∧ ako_parse "v 1x2.5".toList
        = .ok (AT_TABLE [("v".toList, AT_ARRAY [AT_INT 1, AT_FLOAT ⟨4612811918334230528⟩])])
    ∧ ako_serialize
        (AT_TABLE [("v".toList, AT_ARRAY [AT_INT 1, AT_FLOAT ⟨4612811918334230528⟩])])
        ASF_FORMAT = .ok (some "v 1x2.500000\n".toList)
    ∧ ako_parse "v 1x2.500000\n".toList
        = .ok (AT_TABLE [("v".toList, AT_ARRAY [AT_INT 1, AT_FLOAT ⟨4612811918334230528⟩])])
    ∧ ako_serialize (AT_ARRAY []) ASF_FORMAT = .ok (some "[[]]".toList)
    ∧ ako_parse "[[]]".toList = .ok (AT_ARRAY []) := by
  refine ⟨?_, ?_, by decide!, by decide!, by decide!, by decide!, by decide!, by decide!,
    by decide!, by decide!, by decide!, by decide!⟩
  · intro a ha hp
    exact round_trip_plain false ASF_FORMAT (fun h _ => by simp at h) a ha hp
  · intro a ha hp
    exact round_trip_plain true ⟨true, true⟩ (fun _ _ => rfl) a ha hp

/-- C1 amended, at the root `k 7 f 1.0 v 1x2 e []` under `ASF_FORMAT`. -/
theorem C1_round_trip_formatted_witness :
    plain_entries false [("k".toList, AT_INT 7), ("f".toList, AT_FLOAT ⟨4607182418800017408⟩),
      ("v".toList, AT_ARRAY [AT_INT 1, AT_INT 2]), ("e".toList, AT_TABLE [])] = true
    ∧ ∃ text,
        ako_serialize (AT_TABLE [("k".toList, AT_INT 7),
          ("f".toList, AT_FLOAT ⟨4607182418800017408⟩),
          ("v".toList, AT_ARRAY [AT_INT 1, AT_INT 2]), ("e".toList, AT_TABLE [])]) ASF_FORMAT
          = .ok (some text)
        ∧ ako_parse text = .ok (AT_TABLE [("k".toList, AT_INT 7),
          ("f".toList, AT_FLOAT ⟨4607182418800017408⟩),
          ("v".toList, AT_ARRAY [AT_INT 1, AT_INT 2]), ("e".toList, AT_TABLE [])]) :=
  ⟨by decide!, C1_round_trip_formatted.1 _ (by simp) (by decide!)⟩

/-! ### Arrays, entries and numbers on output (C21 to C25) -/

/-- C21. An array that is not the top-level element and has one to four items is written
in vector form whatever its items are: the test of the item kinds never clears `is_vector`.
The array of two `Null` items that `a [[ ; ; ]]` parses to is written `0.000000x0.000000`
and not `[[ ; ; ]]`; an array of a `String` and an `Int` is written `0.000000x1`. Arrays of
numbers are written as the claim says, and so are the top-level array and an array of five
items. -/
theorem C21_short_array_is_written_as_vector :
    (∀ (a : List ako_elem_t) (indent : List Char) (cur_indent : Nat),
      a ≠ [] → a.length ≤ 4 →
      _serialise (AT_ARRAY a) indent cur_indent false = (serialise_vector a, false))
    ∧ ako_parse "a [[ ; ; ]]".toList
        = .ok (AT_TABLE [("a".toList, AT_ARRAY [AT_NULL, AT_NULL])])
    ∧ ako_serialize (AT_TABLE [("a".toList, AT_ARRAY [AT_NULL, AT_NULL])]) ASF_NONE
        = .ok (some "a 0.000000x0.000000 ".toList)
    ∧ ako_serialize (AT_TABLE [("a".toList, AT_ARRAY [AT_STRING "s".toList, AT_INT 1])])
        ASF_NONE = .ok (some "a 0.000000x1 ".toList)
    ∧ ako_serialize (AT_TABLE [("a".toList, AT_ARRAY [AT_INT 1, AT_FLOAT ⟨4612811918334230528⟩])])
        ASF_NONE = .ok (some "a 1x2.500000 ".toList)
    ∧ ako_serialize (AT_ARRAY [AT_INT 1, AT_INT 2]) ASF_NONE = .ok (some "[[ 1 2 ]]".toList)
    ∧ ako_serialize
        (AT_TABLE [("a".toList, AT_ARRAY [AT_NULL, AT_NULL, AT_NULL, AT_NULL, AT_NULL])])
        ASF_NONE = .ok (some "a [[ ; ; ; ; ; ]] ".toList) := by
  refine ⟨?_, by decide!, by decide!, by decide!, by decide!, by decide!, by decide!⟩
  intro a indent cur_indent ha hl
  exact serialise_short_array a indent cur_indent ha hl

/-- C21, at the array of two `Null` items. -/
theorem C21_short_array_is_written_as_vector_witness :
    _serialise (AT_ARRAY [AT_NULL, AT_NULL]) [] 1 false
      = (serialise_vector [AT_NULL, AT_NULL], false) :=
  C21_short_array_is_written_as_vector.1 [AT_NULL, AT_NULL] [] 1 (by simp) (by decide)

/-- C22. Rendering of the entries of a table. For an entry `(key, value)` whose value holds
no `Error` node, the entry loop writes the indentation, then `+key` for `Bool` true, `-key`
for `Bool` false, `;key` for `Null` and, for every other kind, `key`, one space and the
text of the value; then the separator, then the entries that follow. The top-level table
with entries is the text of its entries, with no brackets; a nested table with entries is
`[`, the separator, its entries one level deeper, the indentation and `]`; a nested table
without entries is `[]`.

Not every table is written this way. A table that is the only item of an array below the
top level is written `0.000000`, because that array is written as a vector: the root of
`k [[ [ a 1 ] ]]` has the text `k 0.000000`, in which the entry `a` does not appear. For
the top-level table without entries, which `[]` parses to, nothing is written into the
block that is returned. -/
theorem C22_table_entry_rendering :
    (∀ (key : List Char) (value : ako_elem_t) (rest : List (List Char × ako_elem_t))
        (indent : List Char) (L : Nat), error_free value = true →
      serialise_entries ((key, value) :: rest) indent L
        = (_make_indent indent L ++ entry_text key value (_serialise value indent L false).1
            ++ end_char indent :: (serialise_entries rest indent L).1,
          (serialise_entries rest indent L).2))
    ∧ (∀ (a : List (List Char × ako_elem_t)) (flags : ako_serialize_flags_t),
      a ≠ [] → error_free_entries a = true →
      ako_serialize (AT_TABLE a) flags
        = .ok (some (serialise_entries a (indent_of flags) 0).1))
    ∧ (∀ (a : List (List Char × ako_elem_t)) (indent : List Char) (L : Nat),
      a ≠ [] → error_free_entries a = true →
      _serialise (AT_TABLE a) indent L false
        = ('[' :: end_char indent
            :: ((serialise_entries a indent (L + 1)).1 ++ _make_indent indent L ++ [']']),
          false))
    ∧ (∀ (indent : List Char) (L : Nat),
      _serialise (AT_TABLE []) indent L false = (['[', ']'], false))
    ∧ ako_serialize
        (AT_TABLE [("t".toList, AT_BOOL true), ("f".toList, AT_BOOL false),
          ("n".toList, AT_NULL), ("i".toList, AT_INT 5), ("s".toList, AT_STRING "x".toList),
          ("sub".toList, AT_TABLE [("k".toList, AT_INT 1)]), ("e".toList, AT_TABLE [])])
        ASF_NONE = .ok (some "+t -f ;n i 5 s \"x\" sub [ k 1 ] e [] ".toList)
    ∧ ako_parse "k [[ [ a 1 ] ]]".toList
        = .ok (AT_TABLE [("k".toList, AT_ARRAY [AT_TABLE [("a".toList, AT_INT 1)]])])
    ∧ ako_serialize (AT_TABLE [("k".toList, AT_ARRAY [AT_TABLE [("a".toList, AT_INT 1)]])])
        ASF_NONE = .ok (some "k 0.000000 ".toList)
    ∧ (∀ (a : List (List Char × ako_elem_t)) (indent : List Char) (L : Nat),
      _serialise (AT_ARRAY [AT_TABLE a]) indent L false = ("0.000000".toList, false))
    ∧ ako_parse "[]".toList = .ok (AT_TABLE [])
    ∧ (∀ flags : ako_serialize_flags_t,
      ako_serialize (AT_TABLE []) flags = .abort .heapOverflow) := by
  refine ⟨?_, ?_, ?_, serialise_table_empty, by decide!, by decide!, by decide!,
    serialise_table_in_short_array, by decide!, serialize_table_root_empty⟩
  · intro key value rest indent L h
    exact serialise_entries_entry key value rest indent L (serialise_ok value indent L false h)
  · intro a flags ha h
    exact serialize_table_root a ha flags (serialise_entries_ok a _ 0 h)
  · intro a indent L ha h
    rw [serialise_table_nonempty a ha, serialise_entries_ok a _ _ h]
    rfl

/-- C22, at the entry `i` = 5 in front of a `Null` entry, in the flat form. -/
theorem C22_table_entry_rendering_witness :
    serialise_entries [("i".toList, AT_INT 5), ("n".toList, AT_NULL)] [] 0
      = (_make_indent [] 0
          ++ entry_text "i".toList (AT_INT 5) (_serialise (AT_INT 5) [] 0 false).1
          ++ end_char [] :: (serialise_entries [("n".toList, AT_NULL)] [] 0).1,
        (serialise_entries [("n".toList, AT_NULL)] [] 0).2) :=
  C22_table_entry_rendering.1 "i".toList (AT_INT 5) [("n".toList, AT_NULL)] [] 0 rfl

/-- C23. Scenario S6. The source `+enabled ;disabled name "x"` parses to the table with
`enabled` = `Bool` false, `disabled` = `Null` and `name` = `String` `x`, and its
`ASF_FORMAT` text has the three lines `-enabled`, `;disabled`, `name "x"`: the first line
differs from the scenario, which has `+enabled`. -/
theorem C23_scenario_s6_writes_minus_enabled :
    ako_parse "+enabled ;disabled name \"x\"".toList
        = .ok (AT_TABLE [("enabled".toList, AT_BOOL false), ("disabled".toList, AT_NULL),
            ("name".toList, AT_STRING "x".toList)])
    ∧ ako_serialize
        (AT_TABLE [("enabled".toList, AT_BOOL false), ("disabled".toList, AT_NULL),
          ("name".toList, AT_STRING "x".toList)]) ASF_FORMAT
        = .ok (some "-enabled\n;disabled\nname \"x\"\n".toList)
    ∧ ako_serialize
        (AT_TABLE [("enabled".toList, AT_BOOL true), ("disabled".toList, AT_NULL),
          ("name".toList, AT_STRING "x".toList)]) ASF_FORMAT
        = .ok (some "+enabled\n;disabled\nname \"x\"\n".toList) := by
  decide!

/-- C24. An `Int` is written through `%d`, which reads the low 32 bits of the 64-bit value.
For a value from `-2 ^ 31` up to `2 ^ 31 - 1` the text is the decimal form of the value.
Outside that range it is not: 4294967296 (which `a 4294967296` parses to) is written `0`,
2147483648 is written `-2147483648`, `2 ^ 63 - 1` is written `-1`, and the vector of
4294967296 and 1 is written `0x1`. -/
theorem C24_int_is_written_through_32_bits :
    (∀ (n : ako_int) (indent : List Char) (L : Nat) (first_run : Bool),
      -2 ^ 31 ≤ n → n < 2 ^ 31 →
      _serialise (AT_INT n) indent L first_run = (fmt_int n, false))
    ∧ ako_parse "a 4294967296".toList = .ok (AT_TABLE [("a".toList, AT_INT 4294967296)])
    ∧ ako_serialize (AT_TABLE [("a".toList, AT_INT 4294967296)]) ASF_NONE
        = .ok (some "a 0 ".toList)
    ∧ ako_serialize (AT_TABLE [("a".toList, AT_INT 2147483648)]) ASF_NONE
        = .ok (some "a -2147483648 ".toList)
    ∧ ako_serialize (AT_TABLE [("a".toList, AT_INT 9223372036854775807)]) ASF_NONE
        = .ok (some "a -1 ".toList)
    ∧ ako_serialize (AT_TABLE [("a".toList, AT_ARRAY [AT_INT 4294967296, AT_INT 1])]) ASF_NONE
        = .ok (some "a 0x1 ".toList)
    ∧ ako_serialize (AT_TABLE [("a".toList, AT_INT 2147483647)]) ASF_NONE
        = .ok (some "a 2147483647 ".toList) := by
  refine ⟨?_, by decide!, by decide!, by decide!, by decide!, by decide!, by decide!⟩
  intro n indent L first_run h0 h1
  rw [serialise_int, fmt_d_range n h0 h1]

/-- C24, at the value -5. -/
theorem C24_int_is_written_through_32_bits_witness :
    _serialise (AT_INT (-5)) [] 0 false = (fmt_int (-5), false) :=
  C24_int_is_written_through_32_bits.1 (-5) [] 0 false (by decide) (by decide)

/-- C25. An `Error` node inside an array does not always fail the serialization. The loop
over the items of a bracketed array does not test `*err`, so only the last item counts: the
top-level array of an `Error` and 1 is written `[[  1 ]]`. The vector branch never visits
the items: the array of one `Error` under the key `a` is written `a 0.000000`. An `Error`
that is the element itself, the value of a table entry, or the last item of a bracketed
array does fail it. -/
theorem C25_error_node_in_array_is_written :
    ako_serialize (AT_ARRAY [AT_ERROR "x".toList, AT_INT 1]) ASF_NONE
        = .ok (some "[[  1 ]]".toList)
    ∧ ako_serialize (AT_TABLE [("a".toList, AT_ARRAY [AT_ERROR "x".toList])]) ASF_NONE
        = .ok (some "a 0.000000 ".toList)
    ∧ ako_serialize
        (AT_TABLE [("a".toList,
          AT_ARRAY [AT_INT 1, AT_INT 2, AT_INT 3, AT_INT 4, AT_ERROR "x".toList, AT_INT 5])])
        ASF_NONE = .ok (some "a [[ 1 2 3 4  5 ]] ".toList)
    ∧ (∀ (s : List Char) (flags : ako_serialize_flags_t),
      ako_serialize (AT_ERROR s) flags = .ok none)
    ∧ (∀ (k s : List Char) (rest : List (List Char × ako_elem_t))
        (flags : ako_serialize_flags_t),
      ako_serialize (AT_TABLE ((k, AT_ERROR s) :: rest)) flags = .ok none)
    ∧ ako_serialize (AT_ARRAY [AT_INT 1, AT_ERROR "x".toList]) ASF_NONE = .ok none := by
  exact ⟨by decide!, by decide!, by decide!, serialize_error_root, serialize_error_entry,
    by decide!⟩

/-! ### The flat form and the pretty form (C26, C27) -/

/-- C26. Without `ASF_FORMAT` the flag `ASF_USE_SPACES` changes nothing: for every element
other than the table without entries, `ako_serialize` returns with `ASF_USE_SPACES` what it
returns with `ASF_NONE`. A byte of that text is a byte of a key or of a string payload, or
one of the bytes of the flat form (digits, signs, the dot, the letters of `inf` and `nan`,
`x`, the quote, brackets, `;` and the space): no newline and no tab is written by the
serializer. For a table with entries and without `Error` node, whose arrays of one to four
items hold numbers, the text is the layout with an empty indentation unit and the space as
separator, and so is the text of an array.

For the table without entries, which `[]` parses to, the claim fails: nothing is appended
to the block of `dyn_string_create`, which is returned as the allocator left it, with either
flags value; the two texts are whatever bytes the two blocks hold. -/
theorem C26_use_spaces_alone_is_the_flat_form :
    (∀ R : ako_elem_t, R ≠ AT_TABLE [] →
      ∃ r, ako_serialize R ASF_USE_SPACES = .ok r ∧ ako_serialize R ASF_NONE = .ok r)
    ∧ (∀ (R : ako_elem_t) (text : List Char) (c : Char),
      ako_serialize R ASF_NONE = .ok (some text) → flat_char c = false →
      payload_free c R = true → c ∉ text)
    ∧ flat_char '\n' = false ∧ flat_char '\t' = false
    ∧ (∀ a : List (List Char × ako_elem_t), a ≠ [] → error_free_entries a = true →
      vectors_numeric_entries a = true →
      ako_serialize (AT_TABLE a) ASF_NONE = .ok (some (layout_entries [] ' ' 0 a)))
    ∧ (∀ a : List ako_elem_t, a ≠ [] → error_free_items a = true →
      vectors_numeric_items a = true →
      ako_serialize (AT_ARRAY a) ASF_NONE
        = .ok (some ('[' :: '[' :: ' ' :: (layout_items [] ' ' 1 a ++ [']', ']']))))
    ∧ (∀ d : Nat, indent_at [] d = [])
    ∧ ako_serialize
        (AT_TABLE [("a".toList, AT_TABLE [("b".toList, AT_TABLE [("c".toList, AT_INT 1)]),
          ("d".toList, AT_NULL)]), ("e".toList, AT_INT 2)]) ASF_USE_SPACES
        = .ok (some "a [ b [ c 1 ] ;d ] e 2 ".toList)
    ∧ ako_parse "[]".toList = .ok (AT_TABLE [])
    ∧ (∀ flags : ako_serialize_flags_t,
      ako_serialize (AT_TABLE []) flags = .abort .heapOverflow) := by
  refine ⟨?_, ?_, by decide, by decide, ?_, ?_, make_indent_nil, by decide!, by decide!,
    serialize_table_root_empty⟩
  · intro R hR
    rw [serialize_unformatted R ASF_USE_SPACES rfl, serialize_unformatted R ASF_NONE rfl]
    by_cases h : (_serialise R [] 0 true).2 = true
    · exact ⟨none, by rw [if_pos h], by rw [if_pos h]⟩
    · have hne := serialise_top_ne_nil R [] hR (by simpa using h)
      exact ⟨some (_serialise R [] 0 true).1, by rw [if_neg h, if_neg hne],
        by rw [if_neg h, if_neg hne]⟩
  · intro R text c ht hc hp
    exact serialize_flat R ASF_NONE rfl text ht c hc hp
  · intro a ha h hv
    exact serialize_root_layout a ha ASF_NONE h hv
  · intro a ha h hv
    exact serialize_root_array_layout a ha ASF_NONE h hv

/-- C26, at a table with a nested table: its flat text holds no newline. -/
theorem C26_use_spaces_alone_is_the_flat_form_witness :
    '\n' ∉ "a [ b 1 ] ".toList :=
  C26_use_spaces_alone_is_the_flat_form.2.1
    (AT_TABLE [("a".toList, AT_TABLE [("b".toList, AT_INT 1)])]) "a [ b 1 ] ".toList '\n'
    (by decide!) (by decide) (by decide)

/-- C27. Indentation of the pretty form. With `ASF_FORMAT` set, the text of a top-level
table with entries and without `Error` node, whose arrays of one to four items hold
numbers, is the layout of its entries at depth 0 with the newline as separator and, as
indentation unit, one tab, or four spaces when `ASF_USE_SPACES` is set too. In that layout
an entry at depth `d` is a line that starts with `d` copies of the unit; when its value is a
table with entries, these are laid out at depth `d + 1`, and the closing `]` stands on a
line of its own after `d` copies of the unit. So the entries of the top-level table have no
indentation, and the entries of a table nested `d` tables below it have `d` copies, with
`d - 1` copies before its `]`. An array of five items or more counts as a level too: its
items are laid out at depth `d + 1` between `[[` and `]]`, and the entries of a table among
them at depth `d + 2`.

The entries of a table inside an array of one to four items are not laid out at all: that
array is written as a vector, the table as `0.000000`. The root of `k [[ [ a 1 ] ]]` has the
text `k 0.000000`, with no line for the entry `a` of the table nested below it. And for the
top-level table without entries nothing is written into the block that is returned. -/
theorem C27_pretty_form_indentation :
    (∀ (a : List (List Char × ako_elem_t)) (flags : ako_serialize_flags_t),
      a ≠ [] → flags.ASF_FORMAT = true → error_free_entries a = true →
      vectors_numeric_entries a = true →
      ako_serialize (AT_TABLE a) flags
        = .ok (some (layout_entries (if flags.ASF_USE_SPACES then "    ".toList else ['\t'])
            '\n' 0 a)))
    ∧ (∀ (unit : List Char) (d : Nat) (k : List Char) (e : List Char × ako_elem_t)
        (es rest : List (List Char × ako_elem_t)),
      layout_entries unit '\n' d ((k, AT_TABLE (e :: es)) :: rest)
        = indent_at unit d ++ k ++ ' ' :: '[' :: '\n'
            :: (layout_entries unit '\n' (d + 1) (e :: es)
              ++ indent_at unit d ++ ']' :: '\n' :: layout_entries unit '\n' d rest))
    ∧ (∀ (unit : List Char) (d : Nat) (k : List Char) (i : ako_int)
        (rest : List (List Char × ako_elem_t)),
      layout_entries unit '\n' d ((k, AT_INT i) :: rest)
        = indent_at unit d ++ k ++ ' ' :: (fmt_d i ++ '\n' :: layout_entries unit '\n' d rest))
    ∧ (∀ (unit : List Char) (d : Nat) (k : List Char) (a : List ako_elem_t)
        (rest : List (List Char × ako_elem_t)), 5 ≤ a.length →
      layout_entries unit '\n' d ((k, AT_ARRAY a) :: rest)
        = indent_at unit d ++ k ++ ' ' :: '[' :: '[' :: '\n'
            :: (layout_items unit '\n' (d + 1) a
              ++ indent_at unit d ++ ']' :: ']' :: '\n' :: layout_entries unit '\n' d rest))
    ∧ (∀ (unit : List Char) (d : Nat) (e : List Char × ako_elem_t)
        (es : List (List Char × ako_elem_t)) (rest : List ako_elem_t),
      layout_items unit '\n' d (AT_TABLE (e :: es) :: rest)
        = indent_at unit d ++ '[' :: '\n'
            :: (layout_entries unit '\n' (d + 1) (e :: es)
              ++ indent_at unit d ++ ']' :: '\n' :: layout_items unit '\n' d rest))
    ∧ ako_serialize
        (AT_TABLE [("a".toList, AT_TABLE [("b".toList, AT_TABLE [("c".toList, AT_INT 1)]),
          ("d".toList, AT_NULL)]), ("e".toList, AT_INT 2)]) ASF_FORMAT
        = .ok (some "a [\n\tb [\n\t\tc 1\n\t]\n\t;d\n]\ne 2\n".toList)
    ∧ ako_serialize
        (AT_TABLE [("a".toList, AT_TABLE [("b".toList, AT_TABLE [("c".toList, AT_INT 1)]),
          ("d".toList, AT_NULL)]), ("e".toList, AT_INT 2)]) ⟨true, true⟩
        = .ok (some "a [\n    b [\n        c 1\n    ]\n    ;d\n]\ne 2\n".toList)
    ∧ ako_serialize
        (AT_TABLE [("k".toList, AT_ARRAY [AT_INT 1, AT_INT 2, AT_INT 3, AT_INT 4,
          AT_TABLE [("a".toList, AT_INT 1)]])]) ASF_FORMAT
        = .ok (some "k [[\n\t1\n\t2\n\t3\n\t4\n\t[\n\t\ta 1\n\t]\n]]\n".toList)
    ∧ ako_parse "k [[ [ a 1 ] ]]".toList
        = .ok (AT_TABLE [("k".toList, AT_ARRAY [AT_TABLE [("a".toList, AT_INT 1)]])])
    ∧ ako_serialize (AT_TABLE [("k".toList, AT_ARRAY [AT_TABLE [("a".toList, AT_INT 1)]])])
        ASF_FORMAT = .ok (some "k 0.000000\n".toList)
    ∧ (∀ (a : List (List Char × ako_elem_t)) (indent : List Char) (L : Nat),
      _serialise (AT_ARRAY [AT_TABLE a]) indent L false = ("0.000000".toList, false))
    ∧ ako_parse "[]".toList = .ok (AT_TABLE [])
    ∧ (∀ flags : ako_serialize_flags_t,
      ako_serialize (AT_TABLE []) flags = .abort .heapOverflow) := by
  refine ⟨?_, ?_, ?_, ?_, ?_, by decide!, by decide!, by decide!, by decide!, by decide!,
    serialise_table_in_short_array, by decide!, serialize_table_root_empty⟩
  · intro a flags ha hf h hv
    obtain ⟨h1, h2⟩ := indent_of_format flags hf
    rw [serialize_root_layout a ha flags h hv, h2, h1]
  · intro unit d k e es rest
    rw [layout_entries, layout_value]
    simp [entry_text]
  · intro unit d k i rest
    rw [layout_entries, layout_value]
    · simp [entry_text, scalar_text, number_text]
    · intro a h; cases h
    · intro a h; cases h
  · intro unit d k a rest ha
    rw [layout_entries, layout_value]
    have h0 : a.isEmpty = false := by
      cases a with
      | nil => simp at ha
      | cons _ _ => rfl
    have h4 : ¬ a.length ≤ 4 := by omega
    simp [entry_text, h0, h4]
  · intro unit d e es rest
    rw [layout_items, layout_value]
    simp

/-- C27, at a table nested one table below the top-level one. -/
theorem C27_pretty_form_indentation_witness :
    ako_serialize (AT_TABLE [("a".toList, AT_TABLE [("b".toList, AT_INT 1)])]) ASF_FORMAT
      = .ok (some (layout_entries (if ASF_FORMAT.ASF_USE_SPACES then "    ".toList else ['\t'])
          '\n' 0 [("a".toList, AT_TABLE [("b".toList, AT_INT 1)])])) :=
  C27_pretty_form_indentation.1 [("a".toList, AT_TABLE [("b".toList, AT_INT 1)])] ASF_FORMAT
    (by simp) rfl rfl rfl

/-! ### Numbers, brackets and comments in the lexer (C28 to C30) -/

/-- C28, counterexample. The source `0x1F` is not one `Int` token of value 31: the numeric
run is `0`, the `x` after it is the cross of a vector and `1` its second number, and `F` is
an identifier. The lexer returns the four tokens `Int` 0, `VectorCross`, `Int` 1 and
`Identifier` `F`. -/
theorem C28_hex_literal_is_four_tokens :
    token_kinds "0x1F".toList
      = .ok [(AKO_TT_INT, .int 0), (AKO_TT_VECTORCROSS, .int 0), (AKO_TT_INT, .int 1),
          (AKO_TT_IDENT, .string "F".toList)] := by
  decide!

/-- C28, amended. When the main loop of the lexer is at a digit, followed by a run of
digits and dots, the run is lexed as one token: the loop adds that token alone, from the
start of the run to its end, and goes on behind the run, in the loop of the vector crosses
(which returns at once to the main loop when the next byte is no `x`). If the run holds a
dot and `strtod` accepts it, the token is a `Float` with the value of `strtod`; if it holds
no dot and `strtoll` accepts it, the token is an `Int` with the value of `strtoll` in base
0, where a leading 0 selects octal: `010` is the `Int` 8, `12` the `Int` 12 and `1.5` the
`Float` 1.5, also in front of an `x`, as in `12x5` and `1.5x2`. -/
theorem C28_number_run_is_one_token :
    (∀ (c : Char) (num tail : List Char),
      isdigit c = true → num.all number_char = true → number_stop tail = true →
      (∀ f : ako_float, (c :: num).contains '.' = true → strtod (c :: num) = some f →
        ∀ (toks : List token_t) (m loc : location_t) (reg : token_value) (fuel : Nat),
          tokenizer.tokenize_loop (fuel + 1) ⟨toks, c :: num ++ tail, m, loc⟩ reg
            = (tokenizer.vector_loop (tail.length + 1)
                ⟨toks ++ [⟨AKO_TT_FLOAT, loc, (c :: num).foldl tokenizer.advance loc, .float f⟩],
                  tail, loc, (c :: num).foldl tokenizer.advance loc⟩ reg).bind
                (fun r => tokenizer.tokenize_loop fuel r.1 r.2))
      ∧ (∀ n : ako_int, (c :: num).contains '.' = false → strtoll (c :: num) = some n →
        ∀ (toks : List token_t) (m loc : location_t) (reg : token_value) (fuel : Nat),
          tokenizer.tokenize_loop (fuel + 1) ⟨toks, c :: num ++ tail, m, loc⟩ reg
            = (tokenizer.vector_loop (tail.length + 1)
                ⟨toks ++ [⟨AKO_TT_INT, loc, (c :: num).foldl tokenizer.advance loc, .int n⟩],
                  tail, loc, (c :: num).foldl tokenizer.advance loc⟩ reg).bind
                (fun r => tokenizer.tokenize_loop fuel r.1 r.2)))
    ∧ (∀ (c : Char) (num tail : List Char),
      isdigit c = true → num.all number_char = true → number_end tail = true →
      (∀ f : ako_float, (c :: num).contains '.' = true → strtod (c :: num) = some f →
        LexTo (c :: num ++ tail) tail [(AKO_TT_FLOAT, .float f)])
      ∧ (∀ n : ako_int, (c :: num).contains '.' = false → strtoll (c :: num) = some n →
        LexTo (c :: num ++ tail) tail [(AKO_TT_INT, .int n)]))
    ∧ token_kinds "010".toList = .ok [(AKO_TT_INT, .int 8)]
    ∧ token_kinds "12 ".toList = .ok [(AKO_TT_INT, .int 12)]
    ∧ token_kinds "1.5".toList = .ok [(AKO_TT_FLOAT, .float ⟨4609434218613702656⟩)]
    ∧ token_kinds "12x5".toList
        = .ok [(AKO_TT_INT, .int 12), (AKO_TT_VECTORCROSS, .int 0), (AKO_TT_INT, .int 5)]
    ∧ token_kinds "1.5x010".toList
        = .ok [(AKO_TT_FLOAT, .float ⟨4609434218613702656⟩), (AKO_TT_VECTORCROSS, .int 0),
            (AKO_TT_INT, .int 8)]
    ∧ token_kinds "12abc".toList
        = .ok [(AKO_TT_INT, .int 12), (AKO_TT_IDENT, .string "abc".toList)] := by
  refine ⟨?_, ?_, by decide!, by decide!, by decide!, by decide!, by decide!, by decide!⟩
  · intro c num tail hc hn ht
    exact lex_number_any c num tail hc (number_char_spec hn) (number_stop_spec ht)
  · intro c num tail hc hn ht
    exact lex_number c num tail hc (number_char_spec hn) (number_end_spec ht)

/-- C28 amended, at the run `12` in front of `x5`. -/
theorem C28_number_run_is_one_token_witness :
    tokenizer.tokenize_loop (4 + 1) ⟨[], '1' :: ['2'] ++ ['x', '5'], ⟨0, 0, 0⟩, ⟨1, 1, 0⟩⟩ (.int 0)
      = (tokenizer.vector_loop (['x', '5'].length + 1)
          ⟨[] ++ [⟨AKO_TT_INT, ⟨1, 1, 0⟩, ('1' :: ['2']).foldl tokenizer.advance ⟨1, 1, 0⟩,
              .int 12⟩],
            ['x', '5'], ⟨1, 1, 0⟩, ('1' :: ['2']).foldl tokenizer.advance ⟨1, 1, 0⟩⟩
          (.int 0)).bind
          (fun r => tokenizer.tokenize_loop 4 r.1 r.2) :=
  (C28_number_run_is_one_token.1 '1' ['2'] ['x', '5'] (by decide) (by decide)
    (by decide)).2 12 (by decide) (by decide) [] ⟨0, 0, 0⟩ ⟨1, 1, 0⟩ (.int 0) 4

/-- C29. Brackets in the main loop of the lexer, from any state of it. Two bytes `[[` give
one `OpenDoubleBrace` token and both are consumed; a `[` that is not followed by `[` gives
`OpenBrace`; two bytes `]]` give one `CloseDoubleBrace`, and a `]` that is not followed by
`]` gives `CloseBrace`. So `[[[` is `OpenDoubleBrace`, `OpenBrace`; `[ [` is `OpenBrace`,
`OpenBrace`; `]]]` is `CloseDoubleBrace`, `CloseBrace`. -/
theorem C29_bracket_disambiguation :
    (∀ rest : List Char,
      LexTo ('[' :: '[' :: rest) rest [(AKO_TT_OPEN_D_BRACE, .int 0)])
    ∧ (∀ rest : List Char, rest.head? ≠ some '[' →
      LexTo ('[' :: rest) rest [(AKO_TT_OPEN_BRACE, .int 0)])
    ∧ (∀ rest : List Char,
      LexTo (']' :: ']' :: rest) rest [(AKO_TT_CLOSE_D_BRACE, .int 0)])
    ∧ (∀ rest : List Char, rest.head? ≠ some ']' →
      LexTo (']' :: rest) rest [(AKO_TT_CLOSE_BRACE, .int 0)])
    ∧ token_kinds "[[[".toList
        = .ok [(AKO_TT_OPEN_D_BRACE, .int 0), (AKO_TT_OPEN_BRACE, .int 0)]
    ∧ token_kinds "[ [".toList = .ok [(AKO_TT_OPEN_BRACE, .int 0), (AKO_TT_OPEN_BRACE, .int 0)]
    ∧ token_kinds "]]]".toList
        = .ok [(AKO_TT_CLOSE_D_BRACE, .int 0), (AKO_TT_CLOSE_BRACE, .int 0)]
    ∧ token_kinds "] ]".toList
        = .ok [(AKO_TT_CLOSE_BRACE, .int 0), (AKO_TT_CLOSE_BRACE, .int 0)] := by
  exact ⟨lex_open_d_brace, lex_open_brace, lex_close_d_brace, lex_close_brace, by decide!,
    by decide!, by decide!, by decide!⟩

/-- C29, at a `[` in front of a blank and another `[`. -/
theorem C29_bracket_disambiguation_witness :
    LexTo ('[' :: [' ', '[']) [' ', '['] [(AKO_TT_OPEN_BRACE, .int 0)] :=
  C29_bracket_disambiguation.2.1 [' ', '['] (by decide)

/-- C30. A tab ends a comment. The source `a 1 # c<TAB>b 2` has no newline, so the comment
runs to the end of the input and the source without it is `a 1 `, of tokens `a`, 1; the
lexer returns `a`, 1, `b`, 2. From any state of the main loop at a `#`, a comment body
without newline, tab and zero byte is skipped together with the newline or tab after it,
and lexing goes on right behind that byte; a body that runs to the end of the input is
skipped whole. -/
theorem C30_tab_ends_a_comment :
    token_kinds "a 1 # c\tb 2".toList
        = .ok [(AKO_TT_IDENT, .string "a".toList), (AKO_TT_INT, .int 1),
            (AKO_TT_IDENT, .string "b".toList), (AKO_TT_INT, .int 2)]
    ∧ token_kinds "a 1 ".toList = .ok [(AKO_TT_IDENT, .string "a".toList), (AKO_TT_INT, .int 1)]
    ∧ (∀ body rest : List Char, body.all comment_char = true →
      LexTo ('#' :: body ++ '\t' :: rest) rest [])
    ∧ (∀ body rest : List Char, body.all comment_char = true →
      LexTo ('#' :: body ++ '\n' :: rest) rest [])
    ∧ (∀ body : List Char, body.all comment_char = true → LexTo ('#' :: body) [] [])
    ∧ token_kinds "a 1 # c b 2\nd 3".toList
        = .ok [(AKO_TT_IDENT, .string "a".toList), (AKO_TT_INT, .int 1),
            (AKO_TT_IDENT, .string "d".toList), (AKO_TT_INT, .int 3)] := by
  refine ⟨by decide!, by decide!, ?_, ?_, ?_, by decide!⟩
  · intro body rest hb
    exact lex_comment body '\t' rest (comment_char_spec hb) (Or.inr rfl)
  · intro body rest hb
    exact lex_comment body '\n' rest (comment_char_spec hb) (Or.inl rfl)
  · intro body hb
    exact lex_comment_end body (comment_char_spec hb)

/-- C30, at the comment ` c` in front of a tab and `b 2`. -/
theorem C30_tab_ends_a_comment_witness :
    LexTo ('#' :: [' ', 'c'] ++ '\t' :: ['b', ' ', '2']) ['b', ' ', '2'] [] :=
  C30_tab_ends_a_comment.2.2.1 [' ', 'c'] ['b', ' ', '2'] (by decide)

/-! ### Removal from the growable list (C33, C35) -/

theorem getElem?_eraseIdx_some {α : Type} (xs : List α) (i j : Nat) (x : α)
    (h : (xs.eraseIdx i)[j]? = some x) :
    (j < i ∧ xs[j]? = some x) ∨ (i ≤ j ∧ xs[j + 1]? = some x) := by
  rw [List.getElem?_eraseIdx] at h
  split at h
  · exact Or.inl ⟨by assumption, h⟩
  · exact Or.inr ⟨by omega, h⟩

theorem dyn_array_remove_holds {α : Type} (array : dyn_array_t α) (xs : List α) (i : Nat)
    (h : array.holds xs) (hi : i < xs.length) :
    ∃ a2, dyn_array_remove array i = .ok a2 ∧ a2.holds (xs.eraseIdx i)
      ∧ a2.element_size = array.element_size ∧ a2.total_size = array.total_size
      ∧ a2.size = array.size - 1 := by
  obtain ⟨hes, hpos, hlen, hsz, hle, hdata⟩ := h
  have hgt : array.size > i := by omega
  have hnl : ¬ array.data.length < array.size := by omega
  refine ⟨{ array with
      data :=
        if i < array.size - 1 then
          array.data.take i ++ (array.data.drop (i + 1)).take (array.size - i - 1)
            ++ array.data.drop (i + (array.size - i - 1))
        else array.data
      size := array.size - 1 }, ?_, ?_, rfl, rfl, rfl⟩
  · simp only [dyn_array_remove, hgt, not_true_eq_false, if_false, hnl]
  refine ⟨hes, hpos, ?_, ?_, ?_, ?_⟩
  · show (if i < array.size - 1 then _ else _ : List (Option α)).length = array.total_size
    split
    · simp only [List.length_append, List.length_take, List.length_drop]
      omega
    · exact hlen
  · show array.size - 1 = (xs.eraseIdx i).length
    rw [List.length_eraseIdx]
    simp [hi, hsz]
  · rw [List.length_eraseIdx]
    simp only [hi, if_true]
    omega
  · intro j x hx
    have hj : j < (xs.eraseIdx i).length := by
      by_contra hc
      rw [List.getElem?_eq_none (Nat.le_of_not_lt hc)] at hx
      cases hx
    rw [List.length_eraseIdx] at hj
    simp only [hi, if_true] at hj
    show (if i < array.size - 1 then _ else _ : List (Option α))[j]? = some (some x)
    rcases getElem?_eraseIdx_some xs i j x hx with ⟨hji, hxj⟩ | ⟨hij, hxj⟩
    · have hd := hdata j x hxj
      split
      · rw [List.append_assoc, List.getElem?_append_left (by simp; omega),
          List.getElem?_take_of_lt hji]
        exact hd
      · exact hd
    · have hd := hdata (j + 1) x hxj
      have hlt : i < array.size - 1 := by omega
      rw [if_pos hlt, List.getElem?_append_left (by simp; omega),
        List.getElem?_append_right (by simp; omega)]
      have e1 : (List.take i array.data).length = i := by simp; omega
      rw [e1, List.getElem?_take_of_lt (by omega), List.getElem?_drop]
      have e2 : i + 1 + (j - i) = j + 1 := by omega
      rw [e2]
      exact hd

theorem mem_array_get_holds {V : Type} (array : mem.array_t V) (xs : List V)
    (h : array.holds xs) (j : Nat) (hj : j < xs.length) :
    mem.ako_elem_array_get array j = .ok xs[j] := by
  have hsz : array.size = xs.length := h.2.2.2.1
  simp [mem.ako_elem_array_get, hsz, hj, dyn_array_get_holds array xs j h,
    List.getElem?_eq_getElem hj]

theorem mem_array_remove_holds {V : Type} (array : mem.array_t V) (xs : List V) (i : Nat)
    (h : mem.is_array array xs) (hi : i < xs.length) :
    ∃ a2, mem.ako_elem_array_remove array i = .ok a2 ∧ mem.is_array a2 (xs.eraseIdx i)
      ∧ a2.size = array.size - 1 := by
  obtain ⟨hes, hh⟩ := h
  have hsz : array.size = xs.length := hh.2.2.2.1
  obtain ⟨a2, e, h2, he2, -, hs2⟩ := dyn_array_remove_holds array xs i hh hi
  refine ⟨a2, ?_, ⟨he2.trans hes, h2⟩, hs2⟩
  simp [mem.ako_elem_array_remove, hsz, hi, dyn_array_get_holds array xs i hh,
    List.getElem?_eq_getElem hi, Outcome.bind, e]

/-- The index the loop of `ako_elem_table_remove` ends with, on the entries from the index
`i` on. -/
theorem mem_remove_loop_holds {V : Type} (t : mem.table_t V) (xs : List (List Char × V))
    (key : List Char) (h : t.holds xs) :
    ∀ (n i : Nat) (acc : Option Nat), i + n = xs.length →
      mem.table_remove_loop t key n i acc
        = .ok ((xs.drop i).foldl
            (fun (st : Nat × Option Nat) e => (st.1 + 1, if e.1 = key then some st.1 else st.2))
            (i, acc)).2 := by
  intro n
  induction n with
  | zero =>
    intro i acc hi
    have : xs.length ≤ i := by omega
    simp [mem.table_remove_loop, List.drop_of_length_le this]
  | succ n ih =>
    intro i acc hi
    have hlt : i < xs.length := by omega
    have hd : xs.drop i = xs[i] :: xs.drop (i + 1) := by
      rw [List.drop_eq_getElem_cons hlt]
    rw [mem.table_remove_loop, dyn_array_get_holds t xs i h, List.getElem?_eq_getElem hlt]
    simp only [Outcome.bind]
    rw [ih (i + 1) _ (by omega), hd, List.foldl_cons]

theorem remove_fold_absent {V : Type} (key : List Char) :
    ∀ (l : List (List Char × V)) (i : Nat) (acc : Option Nat), (∀ e ∈ l, e.1 ≠ key) →
      (l.foldl
        (fun (st : Nat × Option Nat) e => (st.1 + 1, if e.1 = key then some st.1 else st.2))
        (i, acc)).2 = acc := by
  intro l
  induction l with
  | nil => intro i acc _; rfl
  | cons e l ih =>
    intro i acc h
    rw [List.foldl_cons, if_neg (h e (List.mem_cons_self _ _))]
    exact ih (i + 1) acc (fun x hx => h x (List.mem_cons_of_mem _ hx))

theorem remove_fold_last {V : Type} (key : List Char) (v : V) (post : List (List Char × V))
    (hpost : ∀ e ∈ post, e.1 ≠ key) :
    ∀ (pre : List (List Char × V)) (i : Nat) (acc : Option Nat),
      ((pre ++ (key, v) :: post).foldl
        (fun (st : Nat × Option Nat) e => (st.1 + 1, if e.1 = key then some st.1 else st.2))
        (i, acc)).2 = some (i + pre.length) := by
  intro pre
  induction pre with
  | nil =>
    intro i acc
    rw [List.nil_append, List.foldl_cons, if_pos rfl, remove_fold_absent key post _ _ hpost]
    rfl
  | cons e pre ih =>
    intro i acc
    rw [List.cons_append, List.foldl_cons, ih]
    simp only [List.length_cons]
    congr 1
    omega

theorem mem_contains_holds {V : Type} (t : mem.table_t V) (xs : List (List Char × V))
    (key : List Char) (h : t.holds xs) :
    mem.ako_elem_table_contains t key
      = .ok ((xs.find? (fun e => decide (e.1 = key))).isSome) := by
  have := mem_find_loop_holds t xs key h xs.length 0 (by simp)
  obtain ⟨-, -, -, hsz, -, -⟩ := h
  simp [mem.ako_elem_table_contains, mem.ako_table_find, hsz, this, Outcome.bind]

theorem mem_table_remove_absent {V : Type} (t : mem.table_t V) (xs : List (List Char × V))
    (key : List Char) (h : t.holds xs) (habs : ∀ e ∈ xs, e.1 ≠ key) :
    mem.ako_elem_table_remove t key = .ok t := by
  have hsz : t.size = xs.length := h.2.2.2.1
  have hl := mem_remove_loop_holds t xs key h xs.length 0 none (by simp)
  rw [List.drop_zero, remove_fold_absent key xs 0 none habs] at hl
  simp [mem.ako_elem_table_remove, hsz, hl, Outcome.bind]

theorem mem_table_remove_last {V : Type} (t : mem.table_t V) (pre post : List (List Char × V))
    (key : List Char) (v : V) (h : mem.is_table t (pre ++ (key, v) :: post))
    (hpost : ∀ e ∈ post, e.1 ≠ key) :
    ∃ t2, mem.ako_elem_table_remove t key = .ok t2 ∧ mem.is_table t2 (pre ++ post)
      ∧ t2.size = t.size - 1 := by
  obtain ⟨hes, hh⟩ := h
  have hsz : t.size = (pre ++ (key, v) :: post).length := hh.2.2.2.1
  have hl := mem_remove_loop_holds t _ key hh (pre ++ (key, v) :: post).length 0 none
    (by simp)
  rw [List.drop_zero, remove_fold_last key v post hpost pre 0 none] at hl
  obtain ⟨t2, e, h2, he2, -, hs2⟩ := dyn_array_remove_holds t _ (0 + pre.length) hh
    (by simp)
  have he : (pre ++ (key, v) :: post).eraseIdx (0 + pre.length) = pre ++ post := by
    rw [Nat.zero_add, List.eraseIdx_append_of_length_le (Nat.le_refl _)]
    simp
  rw [he] at h2
  refine ⟨t2, ?_, ⟨he2.trans hes, h2⟩, hs2⟩
  simp only [mem.ako_elem_table_remove, hsz, hl, Outcome.bind]
  exact e

/-! ### The setters (C32) -/

/-- The function `ako_elem_set_type` towards a scalar type, on an element whose tag and
union agree: the union is zeroed when the element was a container, and kept otherwise. -/
theorem set_type_scalar {E : Type} (e : mem.ako_elem E) (t : ako_type_t)
    (hwf : e.wf) (ht : IS_TABLE_OR_ARRAY t = false) :
    mem.ako_elem_set_type e t
      = .ok ⟨t, if IS_TABLE_OR_ARRAY e.type then .zero else e.u⟩ := by
  obtain ⟨ty, u⟩ := e
  unfold mem.ako_elem_set_type
  by_cases h : ty = t
  · subst h
    simp [ht]
  · simp only [h, if_false, ht, Bool.false_eq_true, not_false_eq_true, and_true, and_false]
    cases hc : IS_TABLE_OR_ARRAY ty
    · simp
    · simp only [if_true]
      cases u <;> simp [mem.ako_elem.wf, hc] at hwf
      simp [mem.destroy_a, Outcome.bind]

theorem set_int_spec {E : Type} (e : mem.ako_elem E) (v : ako_int) (hwf : e.wf) :
    mem.ako_elem_set_int e v = .ok ⟨.AT_INT, .i v⟩ := by
  simp [mem.ako_elem_set_int, set_type_scalar e .AT_INT hwf rfl, Outcome.bind]

theorem set_bool_spec {E : Type} (e : mem.ako_elem E) (b : Bool) (hwf : e.wf) :
    mem.ako_elem_set_bool e b = .ok ⟨.AT_BOOL, .i (if b then 1 else 0)⟩ := by
  simp [mem.ako_elem_set_bool, set_type_scalar e .AT_BOOL hwf rfl, Outcome.bind]

theorem set_shorttype_spec {E : Type} (e : mem.ako_elem E) (s : List Char) (hwf : e.wf) :
    mem.ako_elem_set_shorttype e s = .ok ⟨.AT_SHORTTYPE, .str s⟩ := by
  simp [mem.ako_elem_set_shorttype, set_type_scalar e .AT_SHORTTYPE hwf rfl, Outcome.bind]

theorem set_null_spec {E : Type} (e : mem.ako_elem E) (hwf : e.wf) :
    mem.ako_elem_set_null e
      = .ok ⟨.AT_NULL, if IS_TABLE_OR_ARRAY e.type then .zero else e.u⟩ := by
  simp [mem.ako_elem_set_null, set_type_scalar e .AT_NULL hwf rfl]

theorem set_string_spec {E : Type} (e : mem.ako_elem E) (s : List Char) (hwf : e.wf)
    (h : IS_TABLE_OR_ARRAY e.type = true ∨ mem.free_str e.u = .ok ()) :
    mem.ako_elem_set_string e s = .ok ⟨.AT_STRING, .str s⟩ := by
  rw [mem.ako_elem_set_string, set_type_scalar e .AT_STRING hwf rfl]
  cases hc : IS_TABLE_OR_ARRAY e.type
  · rcases h with h | h
    · rw [hc] at h; cases h
    · simp [Outcome.bind, h]
  · simp [Outcome.bind, mem.free_str]

theorem set_string_number {E : Type} (e : mem.ako_elem E) (s : List Char) (n : ako_int)
    (hu : e.u = .i n) (hn : n % 2 ^ 64 ≠ 0) (ht : IS_TABLE_OR_ARRAY e.type = false)
    (hs : e.type ≠ .AT_STRING) :
    mem.ako_elem_set_string e s = .abort .unionMisuse := by
  obtain ⟨ty, u⟩ := e
  simp only at hu ht hs
  subst hu
  have h2 : IS_TABLE_OR_ARRAY ako_type_t.AT_STRING = false := rfl
  simp only [mem.ako_elem_set_string, mem.ako_elem_set_type, hs, if_false, ht, h2,
    Bool.false_eq_true, false_and, and_false, Outcome.bind, mem.free_str, hn]

theorem wf_of_set {E : Type} (t : ako_type_t) (u : mem.union_t E)
    (ht : IS_TABLE_OR_ARRAY t = false) (hu : ∀ d, u ≠ .a d) :
    (⟨t, u⟩ : mem.ako_elem E).wf := by
  cases u <;> simp [mem.ako_elem.wf, ht]
  exact hu _ rfl

/-! ### Non-empty keys (C31) -/

theorem Outcome.wsat_bind {α β : Type} {P : α → Prop} {Q : β → Prop} {x : Outcome α}
    {f : α → Outcome β} (hx : x.wsat P) (hf : ∀ a, P a → (f a).wsat Q) :
    (x.bind f).wsat Q := by
  cases x with
  | ok a => exact hf a hx
  | abort e => trivial
  | hang => trivial
  | nofuel => trivial

theorem Outcome.wsat_mono {α : Type} {P Q : α → Prop} {x : Outcome α}
    (hx : x.wsat P) (h : ∀ a, P a → Q a) : x.wsat Q := by
  cases x with
  | ok a => exact h a hx
  | abort e => trivial
  | hang => trivial
  | nofuel => trivial

theorem keys_nonempty_entries_append (a b : List (List Char × ako_elem_t)) :
    keys_nonempty_entries (a ++ b) = (keys_nonempty_entries a && keys_nonempty_entries b) := by
  induction a with
  | nil => simp [keys_nonempty_entries]
  | cons kv rest ih =>
    obtain ⟨k, v⟩ := kv
    simp [keys_nonempty_entries, ih, Bool.and_assoc]

theorem keys_nonempty_items_append (a b : List ako_elem_t) :
    keys_nonempty_items (a ++ b) = (keys_nonempty_items a && keys_nonempty_items b) := by
  induction a with
  | nil => simp [keys_nonempty_items]
  | cons v rest ih => simp [keys_nonempty_items, ih, Bool.and_assoc]

theorem keys_nonempty_entries_get : ∀ (a : List (List Char × ako_elem_t)) (i : Nat)
    (kv : List Char × ako_elem_t),
    keys_nonempty_entries a = true → a[i]? = some kv →
    kv.1.isEmpty = false ∧ keys_nonempty kv.2 = true := by
  intro a
  induction a with
  | nil => intro i kv _ h; simp at h
  | cons x rest ih =>
    intro i kv hef h
    obtain ⟨k, v⟩ := x
    simp only [keys_nonempty_entries, Bool.and_eq_true, Bool.not_eq_true'] at hef
    cases i with
    | zero => simp at h; subst h; exact hef.1
    | succ j => simp at h; exact ih j kv hef.2 h

theorem elem_at_keys : ∀ (p : List Nat) (t x : ako_elem_t),
    keys_nonempty t = true → parser.elem_at t p = some x → keys_nonempty x = true := by
  intro p
  induction p with
  | nil => intro t x h1 h2; cases t <;> simp [parser.elem_at] at h2 <;> subst h2 <;> exact h1
  | cons i p ih =>
    intro t x h1 h2
    cases t <;> simp [parser.elem_at] at h2
    rename_i a
    cases hg : a[i]? with
    | none => simp [hg] at h2
    | some kv =>
      simp [hg] at h2
      exact ih kv.2 x
        (keys_nonempty_entries_get a i kv (by simpa [keys_nonempty] using h1) hg).2 h2

theorem read_wsat {α : Type} (m : Option α) :
    (parser.read m).wsat (fun a => m = some a) := by
  cases m <;> simp [parser.read, Outcome.wsat]

theorem empty_literals_cons (t : token_t) (ts : List token_t) :
    empty_literals (t :: ts) = (if is_empty_literal t = true then 1 else 0) + empty_literals ts := by
  unfold empty_literals
  rw [List.countP_cons]
  omega

theorem empty_strings_entries_append (a b : List (List Char × ako_elem_t)) :
    empty_strings_entries (a ++ b) = empty_strings_entries a + empty_strings_entries b := by
  induction a with
  | nil => simp [empty_strings_entries]
  | cons kv rest ih =>
    obtain ⟨k, v⟩ := kv
    show empty_strings v + empty_strings_entries (rest ++ b) = _
    rw [ih]
    simp only [empty_strings_entries]
    omega

theorem empty_strings_items_append (a b : List ako_elem_t) :
    empty_strings_items (a ++ b) = empty_strings_items a + empty_strings_items b := by
  induction a with
  | nil => simp [empty_strings_items]
  | cons v rest ih =>
    show empty_strings v + empty_strings_items (rest ++ b) = _
    rw [ih]
    simp only [empty_strings_items]
    omega

theorem empty_strings_entries_set : ∀ (a : List (List Char × ako_elem_t)) (i : Nat)
    (kv : List Char × ako_elem_t) (v : ako_elem_t) (d : Nat),
    a[i]? = some kv → empty_strings v = empty_strings kv.2 + d →
    empty_strings_entries (a.set i (kv.1, v)) = empty_strings_entries a + d := by
  intro a
  induction a with
  | nil => intro i kv v d h; simp at h
  | cons x rest ih =>
    intro i kv v d h hv
    obtain ⟨k, w⟩ := x
    cases i with
    | zero =>
      simp only [List.getElem?_cons_zero, Option.some.injEq] at h
      subst h
      simp only [List.set_cons_zero, empty_strings_entries, hv]
      omega
    | succ j =>
      simp only [List.getElem?_cons_succ] at h
      simp only [List.set_cons_succ, empty_strings_entries, ih j kv v d h hv]
      omega

theorem empty_strings_elem_set : ∀ (p : List Nat) (t old new : ako_elem_t) (d : Nat),
    parser.elem_at t p = some old → empty_strings new = empty_strings old + d →
    empty_strings (parser.elem_set t p new) = empty_strings t + d := by
  intro p
  induction p with
  | nil =>
    intro t old new d h hv
    cases t <;> simp [parser.elem_at] at h <;> subst h <;> simpa [parser.elem_set] using hv
  | cons i p ih =>
    intro t old new d h hv
    cases t <;> simp [parser.elem_at] at h
    rename_i a
    cases hg : a[i]? with
    | none => simp [hg] at h
    | some kv =>
      simp only [hg] at h
      simp only [parser.elem_set, hg, empty_strings]
      exact empty_strings_entries_set a i kv _ d hg (ih kv.2 old new d h hv)

theorem keys_nonempty_entries_set_iff : ∀ (a : List (List Char × ako_elem_t)) (i : Nat)
    (kv : List Char × ako_elem_t) (v : ako_elem_t) (Q : Prop),
    a[i]? = some kv → (keys_nonempty v = true ↔ keys_nonempty kv.2 = true ∧ Q) →
    (keys_nonempty_entries (a.set i (kv.1, v)) = true ↔ keys_nonempty_entries a = true ∧ Q) := by
  intro a
  induction a with
  | nil => intro i kv v Q h; simp at h
  | cons x rest ih =>
    intro i kv v Q h hv
    obtain ⟨k, w⟩ := x
    cases i with
    | zero =>
      simp only [List.getElem?_cons_zero, Option.some.injEq] at h
      subst h
      simp only [List.set_cons_zero, keys_nonempty_entries, Bool.and_eq_true, hv]
      tauto
    | succ j =>
      simp only [List.getElem?_cons_succ] at h
      simp only [List.set_cons_succ, keys_nonempty_entries, Bool.and_eq_true, ih j kv v Q h hv]
      tauto

theorem elem_set_keys_iff : ∀ (p : List Nat) (t old new : ako_elem_t) (Q : Prop),
    parser.elem_at t p = some old →
    (keys_nonempty new = true ↔ keys_nonempty old = true ∧ Q) →
    (keys_nonempty (parser.elem_set t p new) = true ↔ keys_nonempty t = true ∧ Q) := by
  intro p
  induction p with
  | nil =>
    intro t old new Q h hv
    cases t <;> simp [parser.elem_at] at h <;> subst h <;> simpa [parser.elem_set] using hv
  | cons i p ih =>
    intro t old new Q h hv
    cases t <;> simp [parser.elem_at] at h
    rename_i a
    cases hg : a[i]? with
    | none => simp [hg] at h
    | some kv =>
      simp only [hg] at h
      simp only [parser.elem_set, hg, keys_nonempty]
      exact keys_nonempty_entries_set_iff a i kv _ Q hg (ih kv.2 old new Q h hv)

/-- An entry added through `current_table`: the count grows by the count of the value, and
the keys are non-empty after it exactly when they were, the new key is, and those of the
value are. -/
theorem add_at_count (table : ako_elem_t) (cur : List Nat) (k : List Char) (v : ako_elem_t) :
    (parser.add_at table cur k v).wsat (fun t =>
      empty_strings t = empty_strings table + empty_strings v
      ∧ (keys_nonempty t = true ↔
          keys_nonempty table = true ∧ (k ≠ [] ∧ keys_nonempty v = true))) := by
  unfold parser.add_at
  cases hat : parser.elem_at table cur with
  | none => trivial
  | some ct =>
    cases ct <;> simp only [ako_elem_table_add, Outcome.bind, Outcome.wsat]
    rename_i a
    refine ⟨?_, ?_⟩
    · refine empty_strings_elem_set cur table _ _ _ hat ?_
      simp [empty_strings, empty_strings_entries_append, empty_strings_entries]
    · refine elem_set_keys_iff cur table _ _ _ hat ?_
      have hk2 : k.isEmpty = false ↔ k ≠ [] := by cases k <;> simp
      simp only [keys_nonempty, keys_nonempty_entries_append, keys_nonempty_entries,
        Bool.and_eq_true, Bool.not_eq_true', hk2]
      tauto

theorem empty_literals_cons_other (t : token_t) (ts : List token_t)
    (h : t.type ≠ AKO_TT_STRING) : empty_literals (t :: ts) = empty_literals ts := by
  rw [empty_literals_cons]
  simp [is_empty_literal, h]

theorem empty_literals_tail_other (s : parser.state_t) (ty : token_type_t)
    (h : parser.CHECK_TYPE (parser.peek s 0) ty = true) (hty : ty ≠ AKO_TT_STRING) :
    empty_literals s.tail = empty_literals s := by
  cases s with
  | nil => rfl
  | cons t ts =>
    simp only [parser.peek, List.getElem?_cons_zero, parser.CHECK_TYPE,
      decide_eq_true_eq] at h
    rw [List.tail_cons, empty_literals_cons_other t ts (by rw [h]; exact hty)]

theorem key_read_cases (t : token_t) (key : List Char)
    (hty : t.type = AKO_TT_IDENT ∨ t.type = AKO_TT_STRING) (hn : nonempty_ident t = true)
    (hid : t.value_string = some key) :
    (key ≠ [] ∧ is_empty_literal t = false) ∨ (key = [] ∧ is_empty_literal t = true) := by
  obtain ⟨ty, st, en, v⟩ := t
  cases v <;> simp [token_t.value_string] at hid
  subst hid
  rename_i s
  cases s with
  | nil =>
    right
    simp only at hty
    rcases hty with h | h
    · simp [nonempty_ident, h] at hn
    · simp [is_empty_literal, h]
  | cons c cs => exact Or.inl ⟨by simp, by simp [is_empty_literal]⟩

theorem key_loop_count : ∀ (n : Nat) (state : parser.state_t) (table : ako_elem_t)
    (cur : List Nat), state.length ≤ n → state.all nonempty_ident = true →
    (parser.key_loop state table cur).wsat (fun ks =>
      ks.state.all nonempty_ident = true
      ∧ empty_strings ks.table = empty_strings table
      ∧ empty_literals ks.state ≤ empty_literals state
      ∧ ((keys_nonempty ks.table = true ∧ ∀ key, ks.ct_id = some key → key ≠ [])
          ↔ (keys_nonempty table = true ∧ empty_literals ks.state = empty_literals state))) := by
  intro n
  induction n with
  | zero =>
    intro state table cur hl hs
    cases state with
    | nil => simp [parser.key_loop, Outcome.wsat]
    | cons t rest => simp at hl
  | succ n ih =>
    intro state table cur hl hs
    cases state with
    | nil => simp [parser.key_loop, Outcome.wsat]
    | cons t rest =>
      simp only [List.all_cons, Bool.and_eq_true] at hs
      unfold parser.key_loop
      split
      · rename_i hty
        refine Outcome.wsat_bind (read_wsat _) ?_
        intro key hid
        have hcase := key_read_cases t key hty hs.1 hid
        have hel := empty_literals_cons t rest
        cases rest with
        | nil =>
          simp only [Outcome.wsat]
          refine ⟨rfl, trivial, by rw [hel]; omega, ?_⟩
          rw [hel]
          rcases hcase with ⟨h1, h2⟩ | ⟨h1, h2⟩
          · simp [h1, h2]
          · simp [h1, h2, empty_literals]
        | cons d rest2 =>
          have hs2 := hs.2
          simp only [List.all_cons, Bool.and_eq_true] at hs2
          simp only
          split
          · rename_i hdot
            have hel2 := empty_literals_cons_other d rest2 (by rw [hdot]; decide)
            cases hat : parser.elem_at table cur with
            | none => trivial
            | some ct =>
              simp only
              cases ct <;> simp only [ako_elem_table_get, Outcome.bind, Outcome.wsat]
              rename_i a
              have hl2 : rest2.length ≤ n := by simp at hl; omega
              cases hfind : ako_table_find a key with
              | none =>
                simp only
                refine Outcome.wsat_bind (add_at_count table cur key (AT_TABLE [])) ?_
                intro table2 ht2
                refine Outcome.wsat_mono (ih rest2 table2 _ hl2 hs2.2) ?_
                intro ks ⟨k1, k2, k3, k4⟩
                have hes : empty_strings (AT_TABLE []) = 0 := by
                  simp [empty_strings, empty_strings_entries]
                have hks : keys_nonempty (AT_TABLE []) = true := rfl
                refine ⟨k1, by rw [k2, ht2.1, hes]; rfl, by rw [hel, hel2]; omega, ?_⟩
                rw [k4, ht2.2, hel, hel2]
                rcases hcase with ⟨h1, h2⟩ | ⟨h1, h2⟩
                · simp [h1, h2, hks]
                · simp [h1, h2]
                  intro _
                  omega
              | some i =>
                obtain ⟨w, hw⟩ := table_find_spec a key i hfind
                simp only [hw, Option.map_some']
                refine Outcome.wsat_mono (ih rest2 table _ hl2 hs2.2) ?_
                intro ks ⟨k1, k2, k3, k4⟩
                refine ⟨k1, k2, by rw [hel, hel2]; omega, ?_⟩
                rw [k4, hel, hel2]
                rcases hcase with ⟨h1, h2⟩ | ⟨h1, h2⟩
                · simp [h2]
                · have hkt : keys_nonempty table = false := by
                    cases hk : keys_nonempty table with
                    | false => rfl
                    | true =>
                      have hct := elem_at_keys cur table _ hk hat
                      have := (keys_nonempty_entries_get a i _
                        (by simpa [keys_nonempty] using hct) hw).1
                      simp [h1] at this
                  simp [hkt]
          · simp only [Outcome.wsat]
            refine ⟨?_, trivial, by rw [hel]; omega, ?_⟩
            · simp only [List.all_cons, Bool.and_eq_true]
              exact hs2
            · rw [hel]
              rcases hcase with ⟨h1, h2⟩ | ⟨h1, h2⟩
              · simp [h1, h2]
              · simp [h1, h2]
      · simp [Outcome.wsat, hs]

theorem parse_table_element_count
    (pv : parser.state_t → Outcome (ako_elem_t × parser.state_t))
    (state : parser.state_t) (table : ako_elem_t) (hs : state.all nonempty_ident = true)
    (hpv : ∀ s, s.all nonempty_ident = true → (pv s).wsat (val_inv s)) :
    (parser._parse_table_element pv state table).wsat (fun r =>
      r.2.2.all nonempty_ident = true
      ∧ (∀ err, r.1 = some err → ako_elem_is_error err = true)
      ∧ (r.1 = none →
          empty_strings r.2.1 + empty_literals r.2.2
            ≤ empty_strings table + empty_literals state
          ∧ (keys_nonempty r.2.1 = true ↔
              keys_nonempty table = true
              ∧ empty_strings r.2.1 + empty_literals r.2.2
                  = empty_strings table + empty_literals state))) := by
  unfold parser._parse_table_element
  cases table <;> try trivial
  rename_i a
  simp only
  cases state with
  | nil =>
    simp only [Outcome.wsat]
    exact ⟨rfl, fun err h => by cases h; rfl, fun h => by cases h⟩
  | cons peeked rest =>
    simp only
    split
    · trivial
    · rename_i st2 pk2 tl2 hst
      have hs2 : (pk2 :: tl2).all nonempty_ident = true := by
        rw [← hst]
        split
        · simp only [List.all_cons, Bool.and_eq_true] at hs
          exact hs.2
        · exact hs
      have hel : empty_literals (pk2 :: tl2) = empty_literals (peeked :: rest) := by
        rw [← hst]
        split
        · rename_i hvf
          refine (empty_literals_cons_other peeked rest ?_).symm
          intro hty
          simp [hty] at hvf
        · rfl
      split
      · simp only [Outcome.wsat, hst]
        exact ⟨hs2, fun err h => by cases h; rfl, fun h => by cases h⟩
      · simp only [hst]
        refine Outcome.wsat_bind (key_loop_count _ _ (AT_TABLE a) [] (le_refl _) hs2) ?_
        intro ks ⟨hk1, hk2, hk3, hk4⟩
        rw [hel] at hk3 hk4
        cases hid : ks.ct_id with
        | none =>
          simp only [Outcome.wsat]
          exact ⟨hk1, fun err h => by cases h; rfl, fun h => by cases h⟩
        | some ct_id =>
          have hk5 : (keys_nonempty ks.table = true ∧ ct_id ≠ []) ↔
              (keys_nonempty (AT_TABLE a) = true
                ∧ empty_literals ks.state = empty_literals (peeked :: rest)) := by
            rw [← hk4, hid]
            simp
          have hadd : ∀ (v : ako_elem_t) (rest2 : parser.state_t),
              rest2.all nonempty_ident = true →
              empty_strings v + empty_literals rest2 ≤ empty_literals ks.state →
              (keys_nonempty v = true ↔
                empty_strings v + empty_literals rest2 = empty_literals ks.state) →
              ((parser.add_at ks.table ks.current_table ct_id v).bind
                (fun table => Outcome.ok ((none : Option ako_elem_t), table, rest2))).wsat
                (fun r =>
                  r.2.2.all nonempty_ident = true
                  ∧ (∀ err, r.1 = some err → ako_elem_is_error err = true)
                  ∧ (r.1 = none →
                      empty_strings r.2.1 + empty_literals r.2.2
                        ≤ empty_strings (AT_TABLE a) + empty_literals (peeked :: rest)
                      ∧ (keys_nonempty r.2.1 = true ↔
                          keys_nonempty (AT_TABLE a) = true
                          ∧ empty_strings r.2.1 + empty_literals r.2.2
                              = empty_strings (AT_TABLE a)
                                + empty_literals (peeked :: rest)))) := by
            intro v rest2 hn hle hiff
            refine Outcome.wsat_bind (add_at_count _ _ _ _) ?_
            intro t2 ⟨ht2, ht3⟩
            refine ⟨hn, ?_, fun _ => ⟨?_, ?_⟩⟩
            · intro err h
              cases h
            · show empty_strings t2 + empty_literals rest2 ≤ _
              rw [ht2, hk2]
              omega
            · show keys_nonempty t2 = true ↔ _ ∧ empty_strings t2 + empty_literals rest2 = _
              rw [ht3, ht2, hk2, hiff, ← and_assoc, hk5]
              constructor
              · rintro ⟨⟨h1, h2⟩, h3⟩
                exact ⟨h1, by omega⟩
              · rintro ⟨h1, h2⟩
                exact ⟨⟨h1, by omega⟩, by omega⟩
          simp only
          split
          · rename_i vf hvf
            have hb : ∀ (v : ako_elem_t), empty_strings v = 0 → keys_nonempty v = true →
                (empty_strings v + empty_literals ks.state ≤ empty_literals ks.state)
                ∧ (keys_nonempty v = true ↔
                    empty_strings v + empty_literals ks.state = empty_literals ks.state) := by
              intro v h1 h2
              rw [h1, h2]
              simp
            split
            · have h0 := hb (AT_BOOL vf.value_int_as_bool) (by simp [empty_strings]) rfl
              exact hadd _ _ hk1 h0.1 h0.2
            · split
              · have h0 := hb AT_NULL (by simp [empty_strings]) rfl
                exact hadd _ _ hk1 h0.1 h0.2
              · simp only [Outcome.wsat]
                exact ⟨hk1, fun err h => by cases h; rfl, fun h => by cases h⟩
          · refine Outcome.wsat_bind (hpv ks.state hk1) ?_
            intro r hr
            split
            · rename_i herr
              simp only [Outcome.wsat]
              exact ⟨hr.1, fun err h => by cases h; exact herr, fun h => by cases h⟩
            · rename_i herr
              have hr2 := hr.2 (by simpa using herr)
              exact hadd _ _ hr.1 hr2.1 hr2.2

theorem table_loop_count (pv : parser.state_t → Outcome (ako_elem_t × parser.state_t))
    (hpv : ∀ s, s.all nonempty_ident = true → (pv s).wsat (val_inv s)) :
    ∀ (fuel : Nat) (state : parser.state_t) (table : ako_elem_t),
      state.all nonempty_ident = true →
      (parser.table_loop pv fuel state table).wsat (fun r =>
        r.2.all nonempty_ident = true
        ∧ (match r.1 with
          | .error e => ako_elem_is_error e = true
          | .ok t =>
            empty_strings t + empty_literals r.2 ≤ empty_strings table + empty_literals state
            ∧ (keys_nonempty t = true ↔
                keys_nonempty table = true
                ∧ empty_strings t + empty_literals r.2
                    = empty_strings table + empty_literals state))) := by
  intro fuel
  induction fuel with
  | zero => intro state table _; trivial
  | succ f ih =>
    intro state table hs
    unfold parser.table_loop
    cases state with
    | nil => simp [Outcome.wsat]
    | cons peeked rest =>
      simp only
      split
      · simp [Outcome.wsat, hs]
      · split
        · simp only [Outcome.wsat]
          exact ⟨hs, rfl⟩
        · split
          · simp only [Outcome.wsat]
            exact ⟨hs, rfl⟩
          · refine Outcome.wsat_bind (parse_table_element_count pv _ table hs hpv) ?_
            intro r hr
            cases h1 : r.1 with
            | some err =>
              simp only [Outcome.wsat]
              exact ⟨hr.1, hr.2.1 err h1⟩
            | none =>
              simp only
              have h2 := hr.2.2 h1
              refine Outcome.wsat_mono (ih r.2.2 r.2.1 hr.1) ?_
              intro q hq
              refine ⟨hq.1, ?_⟩
              have hq2 := hq.2
              cases hq1 : q.1 with
              | error e =>
                simp only [hq1] at hq2 ⊢
                exact hq2
              | ok t =>
                simp only [hq1] at hq2 ⊢
                refine ⟨by omega, ?_⟩
                rw [hq2.2, h2.2]
                constructor
                · rintro ⟨⟨h3, h4⟩, h5⟩
                  exact ⟨h3, by omega⟩
                · rintro ⟨h3, h4⟩
                  exact ⟨⟨h3, by omega⟩, by omega⟩

theorem all_tail_ident (l : List token_t) (h : l.all nonempty_ident = true) :
    l.tail.all nonempty_ident = true := by
  cases l with
  | nil => rfl
  | cons a l =>
    simp only [List.all_cons, Bool.and_eq_true] at h
    exact h.2

theorem parse_table_count (pv : parser.state_t → Outcome (ako_elem_t × parser.state_t))
    (hpv : ∀ s, s.all nonempty_ident = true → (pv s).wsat (val_inv s))
    (state : parser.state_t) (ignore : Bool) (hs : state.all nonempty_ident = true) :
    (parser._parse_table pv state ignore).wsat (val_inv state) := by
  unfold parser._parse_table
  split
  · simp only [Outcome.wsat]
    exact ⟨hs, fun h => by cases h⟩
  · rename_i hopen
    have hs2 : (if ignore = true then state else state.tail).all nonempty_ident = true := by
      split
      · exact hs
      · exact all_tail_ident _ hs
    have hel : empty_literals (if ignore = true then state else state.tail)
        = empty_literals state := by
      split
      · rfl
      · rename_i hig
        refine empty_literals_tail_other state AKO_TT_OPEN_BRACE ?_ (by decide)
        by_contra hc
        exact hopen ⟨by simpa using hig, hc⟩
    refine Outcome.wsat_bind (table_loop_count pv hpv _ _ (AT_TABLE []) hs2) ?_
    intro r hr
    rw [hel] at hr
    have hes : empty_strings (AT_TABLE []) = 0 := by
      simp [empty_strings, empty_strings_entries]
    have hks : keys_nonempty (AT_TABLE []) = true := rfl
    rw [hes, hks] at hr
    have hr2 := hr.2
    cases h1 : r.1 with
    | error e =>
      simp only [h1] at hr2 ⊢
      exact ⟨hr.1, fun h => by rw [hr2] at h; cases h⟩
    | ok t =>
      simp only [h1] at hr2 ⊢
      simp only [Nat.zero_add, true_and] at hr2
      split
      · split
        · rename_i hclose
          have hel2 := empty_literals_tail_other r.2 AKO_TT_CLOSE_BRACE hclose (by decide)
          refine ⟨all_tail_ident _ hr.1, fun _ => ?_⟩
          show empty_strings t + empty_literals r.2.tail ≤ _ ∧ (_ ↔
            empty_strings t + empty_literals r.2.tail = _)
          rw [hel2]
          exact hr2
        · simp only [Outcome.wsat]
          exact ⟨hr.1, fun h => by cases h⟩
      · exact ⟨hr.1, fun _ => hr2⟩

theorem array_loop_count (pv : parser.state_t → Outcome (ako_elem_t × parser.state_t))
    (hpv : ∀ s, s.all nonempty_ident = true → (pv s).wsat (val_inv s)) :
    ∀ (fuel : Nat) (state : parser.state_t) (array : List ako_elem_t),
      state.all nonempty_ident = true →
      (parser.array_loop pv fuel state array).wsat (fun r =>
        r.2.all nonempty_ident = true
        ∧ (match r.1 with
          | .error e => ako_elem_is_error e = true
          | .ok arr =>
            empty_strings_items arr + empty_literals r.2
              ≤ empty_strings_items array + empty_literals state
            ∧ (keys_nonempty_items arr = true ↔
                keys_nonempty_items array = true
                ∧ empty_strings_items arr + empty_literals r.2
                    = empty_strings_items array + empty_literals state))) := by
  intro fuel
  induction fuel with
  | zero => intro state array _; trivial
  | succ f ih =>
    intro state array hs
    unfold parser.array_loop
    cases state with
    | nil => simp [Outcome.wsat]
    | cons peeked rest =>
      simp only
      split
      · simp [Outcome.wsat, hs]
      · refine Outcome.wsat_bind (hpv _ hs) ?_
        intro r hr
        split
        · rename_i herr
          simp only [Outcome.wsat]
          exact ⟨hr.1, herr⟩
        · rename_i herr
          have hr2 := hr.2 (by simpa using herr)
          refine Outcome.wsat_mono (ih r.2 (array ++ [r.1]) hr.1) ?_
          intro q hq
          refine ⟨hq.1, ?_⟩
          have hq2 := hq.2
          have e1 : empty_strings_items (array ++ [r.1])
              = empty_strings_items array + empty_strings r.1 := by
            simp [empty_strings_items_append, empty_strings_items]
          have e2 : keys_nonempty_items (array ++ [r.1]) = true ↔
              keys_nonempty_items array = true ∧ keys_nonempty r.1 = true := by
            simp [keys_nonempty_items_append, keys_nonempty_items]
          cases hq1 : q.1 with
          | error e =>
            simp only [hq1] at hq2 ⊢
            exact hq2
          | ok arr =>
            simp only [hq1] at hq2 ⊢
            rw [e1] at hq2
            refine ⟨by omega, ?_⟩
            rw [hq2.2, e2, hr2.2]
            constructor
            · rintro ⟨⟨h3, h4⟩, h5⟩
              exact ⟨h3, by omega⟩
            · rintro ⟨h3, h4⟩
              exact ⟨⟨h3, by omega⟩, by omega⟩

theorem parse_array_count (pv : parser.state_t → Outcome (ako_elem_t × parser.state_t))
    (hpv : ∀ s, s.all nonempty_ident = true → (pv s).wsat (val_inv s))
    (state : parser.state_t) (hs : state.all nonempty_ident = true) :
    (parser._parse_array pv state).wsat (val_inv state) := by
  unfold parser._parse_array
  cases state with
  | nil =>
    simp only [Outcome.wsat]
    exact ⟨rfl, fun h => by cases h⟩
  | cons peeked rest =>
    simp only
    split
    · rename_i hopen
      have hel := empty_literals_cons_other peeked rest (by rw [hopen]; decide)
      refine Outcome.wsat_bind (array_loop_count pv hpv _ rest [] (all_tail_ident _ hs)) ?_
      intro r hr
      have hr2 := hr.2
      cases h1 : r.1 with
      | error e =>
        simp only [h1] at hr2 ⊢
        exact ⟨hr.1, fun h => by rw [hr2] at h; cases h⟩
      | ok arr =>
        simp only [h1] at hr2 ⊢
        have e0 : empty_strings_items [] = 0 := rfl
        have k0 : keys_nonempty_items [] = true := rfl
        rw [e0, k0, ← hel] at hr2
        simp only [Nat.zero_add, true_and] at hr2
        split
        · rename_i hclose
          have hel2 := empty_literals_tail_other r.2 AKO_TT_CLOSE_D_BRACE hclose (by decide)
          refine ⟨all_tail_ident _ hr.1, fun _ => ?_⟩
          show empty_strings (AT_ARRAY arr) + empty_literals r.2.tail ≤ _ ∧
            (keys_nonempty (AT_ARRAY arr) = true ↔
              empty_strings (AT_ARRAY arr) + empty_literals r.2.tail = _)
          rw [hel2]
          simpa [empty_strings, keys_nonempty] using hr2
        · simp only [Outcome.wsat]
          exact ⟨hr.1, fun h => by cases h⟩
    · simp only [Outcome.wsat]
      exact ⟨hs, fun h => by cases h⟩

theorem number_elem_count (t : token_t) :
    (parser.number_elem t).wsat (fun e =>
      empty_strings e = 0 ∧ keys_nonempty e = true ∧ ako_elem_is_error e = false) := by
  unfold parser.number_elem
  split
  · exact Outcome.wsat_bind (read_wsat _) (fun n _ => ⟨by simp [empty_strings], rfl, rfl⟩)
  · exact Outcome.wsat_bind (read_wsat _) (fun n _ => ⟨by simp [empty_strings], rfl, rfl⟩)

/-- A value with no empty string and no empty key, returned with tokens that hold as many
empty literals as the tokens it was read from. -/
theorem val_inv_leaf (s rest : parser.state_t) (e : ako_elem_t)
    (hn : rest.all nonempty_ident = true) (hel : empty_literals rest = empty_literals s)
    (hes : empty_strings e = 0) (hk : keys_nonempty e = true) : val_inv s (e, rest) := by
  refine ⟨hn, fun _ => ?_⟩
  show empty_strings e + empty_literals rest ≤ _ ∧
    (keys_nonempty e = true ↔ empty_strings e + empty_literals rest = _)
  rw [hes, hel, hk]
  simp

theorem val_inv_error (s rest : parser.state_t) (e : ako_elem_t)
    (hn : rest.all nonempty_ident = true) (he : ako_elem_is_error e = true) :
    val_inv s (e, rest) :=
  ⟨hn, fun h => by rw [he] at h; cases h⟩

theorem parse_vector_count (loc : location_t) : ∀ (n : Nat) (state : parser.state_t)
    (array : List ako_elem_t) (pk : token_t), state.length ≤ n →
    state.all nonempty_ident = true → empty_strings_items array = 0 →
    keys_nonempty_items array = true →
    (parser.parse_vector loc state array pk).wsat (val_inv state) := by
  intro n
  induction n with
  | zero =>
    intro state array pk hl hs ha hk
    cases state with
    | nil =>
      unfold parser.parse_vector
      exact Outcome.wsat_bind (number_elem_count pk)
        (fun e he => val_inv_leaf _ _ _ rfl rfl he.1 he.2.1)
    | cons t rest => simp at hl
  | succ n ih =>
    intro state array pk hl hs ha hk
    cases state with
    | nil =>
      unfold parser.parse_vector
      exact Outcome.wsat_bind (number_elem_count pk)
        (fun e he => val_inv_leaf _ _ _ rfl rfl he.1 he.2.1)
    | cons t rest =>
      have hs1 := all_tail_ident _ hs
      simp only [List.tail_cons] at hs1
      unfold parser.parse_vector
      split
      · rename_i hty
        have hel := empty_literals_cons_other t rest (by rcases hty with h | h <;> rw [h] <;> decide)
        refine Outcome.wsat_bind (number_elem_count t) ?_
        intro elem he
        have hae : empty_strings_items (array ++ [elem]) = 0 := by
          simp [empty_strings_items_append, ha, empty_strings_items, he.1]
        have hke : keys_nonempty_items (array ++ [elem]) = true := by
          simp [keys_nonempty_items_append, hk, keys_nonempty_items, he.2.1]
        have hleaf : val_inv (t :: rest) (AT_ARRAY (array ++ [elem]), rest) :=
          val_inv_leaf _ _ _ hs1 hel.symm (by simpa [empty_strings] using hae)
            (by simpa [keys_nonempty] using hke)
        cases rest with
        | nil =>
          simp only
          split
          · exact val_inv_error _ _ _ rfl rfl
          · exact hleaf
        | cons x rest2 =>
          have hs2 := all_tail_ident _ hs1
          simp only [List.tail_cons] at hs2
          simp only
          split
          · rename_i hx
            have hel2 := empty_literals_cons_other x rest2 (by rw [hx]; decide)
            refine Outcome.wsat_mono (ih rest2 _ x (by simp at hl; omega) hs2 hae hke) ?_
            intro r hr
            refine ⟨hr.1, fun h => ?_⟩
            have h2 := hr.2 h
            rw [hel, hel2]
            exact h2
          · split
            · exact val_inv_error _ _ _ hs1 rfl
            · exact hleaf
      · exact val_inv_error _ _ _ hs rfl

theorem parse_shorttype_count : ∀ (n : Nat) (state : parser.state_t) (str : List Char),
    state.length ≤ n → state.all nonempty_ident = true →
    (parser.parse_shorttype state str).wsat (fun r =>
      r.2.all nonempty_ident = true ∧ empty_literals r.2 = empty_literals state) := by
  intro n
  induction n with
  | zero =>
    intro state str hl hs
    cases state with
    | nil => simp [parser.parse_shorttype, Outcome.wsat]
    | cons t rest => simp at hl
  | succ n ih =>
    intro state str hl hs
    cases state with
    | nil => simp [parser.parse_shorttype, Outcome.wsat]
    | cons t rest =>
      have hs1 := all_tail_ident _ hs
      simp only [List.tail_cons] at hs1
      unfold parser.parse_shorttype
      split
      · rename_i hty
        have hel := empty_literals_cons_other t rest (by rw [hty]; decide)
        refine Outcome.wsat_bind (read_wsat _) ?_
        intro s _
        cases rest with
        | nil =>
          simp only [Outcome.wsat]
          exact ⟨rfl, hel.symm⟩
        | cons d rest2 =>
          have hs2 := all_tail_ident _ hs1
          simp only [List.tail_cons] at hs2
          simp only
          split
          · rename_i hd
            have hel2 := empty_literals_cons_other d rest2 (by rw [hd]; decide)
            refine Outcome.wsat_mono (ih rest2 _ (by simp at hl; omega) hs2) ?_
            intro r hr
            exact ⟨hr.1, by rw [hr.2, hel, hel2]⟩
          · simp only [Outcome.wsat]
            exact ⟨hs1, hel.symm⟩
      · simp only [Outcome.wsat]
        exact ⟨hs, trivial⟩

/-- The value production and the count of the empty literals: when no `Identifier` token is
empty and the call returns an element that is no `Error`, the empty strings in it and the
empty literals left unread are at most the empty literals it started from, and as many
exactly when every key in it is non-empty. -/
theorem parse_value_count : ∀ (depth : Nat) (state : parser.state_t),
    state.all nonempty_ident = true →
    (parser._parse_value depth state).wsat (val_inv state) := by
  intro depth
  induction depth with
  | zero => intro state _; trivial
  | succ d ih =>
    intro state hs
    unfold parser._parse_value
    cases state with
    | nil => trivial
    | cons peeked rest =>
      have hs1 := all_tail_ident _ hs
      simp only [List.tail_cons] at hs1
      have hel : peeked.type ≠ AKO_TT_STRING →
          empty_literals rest = empty_literals (peeked :: rest) :=
        fun h => (empty_literals_cons_other peeked rest h).symm
      simp only
      split
      · exact parse_array_count _ ih _ hs
      · exact parse_table_count _ ih _ false hs
      · rename_i hty
        exact val_inv_leaf _ _ _ hs1 (hel (by rw [hty]; decide)) (by simp [empty_strings]) rfl
      · rename_i hty
        exact val_inv_leaf _ _ _ hs1 (hel (by rw [hty]; decide)) (by simp [empty_strings]) rfl
      · rename_i hty
        split
        · exact parse_vector_count _ _ _ [] peeked (le_refl _) hs rfl rfl
        · exact Outcome.wsat_bind (number_elem_count peeked) (fun e he =>
            val_inv_leaf _ _ _ hs1 (hel (by rw [hty]; decide)) he.1 he.2.1)
      · rename_i hty
        split
        · exact parse_vector_count _ _ _ [] peeked (le_refl _) hs rfl rfl
        · exact Outcome.wsat_bind (number_elem_count peeked) (fun e he =>
            val_inv_leaf _ _ _ hs1 (hel (by rw [hty]; decide)) he.1 he.2.1)
      · rename_i hty
        refine Outcome.wsat_bind (read_wsat _) ?_
        intro s hv
        refine ⟨hs1, fun _ => ?_⟩
        show empty_strings (AT_STRING s) + empty_literals rest ≤ _ ∧
          (keys_nonempty (AT_STRING s) = true ↔ empty_strings (AT_STRING s)
            + empty_literals rest = _)
        have hk : keys_nonempty (AT_STRING s) = true := rfl
        have hlit : is_empty_literal peeked = s.isEmpty := by
          obtain ⟨ty, st, en, v⟩ := peeked
          cases v <;> simp [token_t.value_string] at hv
          subst hv
          simp only at hty
          have hd : ∀ l : List Char, decide (l = []) = l.isEmpty :=
            fun l => by cases l <;> simp
          simp [is_empty_literal, hty, hd]
        rw [empty_literals_cons, hlit, hk]
        simp [empty_strings]
      · split
        · exact val_inv_error _ _ _ hs rfl
        · rename_i hty _
          refine Outcome.wsat_bind (parse_shorttype_count _ rest [] (le_refl _) hs1) ?_
          intro r hr
          exact val_inv_leaf _ _ _ hr.1 (by rw [hr.2]; exact hel (by rw [hty]; decide))
            (by simp [empty_strings]) rfl
      · exact val_inv_error _ _ _ hs rfl

/-- The root production and what it leaves unread. -/
theorem parse_tokens_count (tokens rest : List token_t) (r : ako_elem_t)
    (hs : tokens.all nonempty_ident = true) (hr : ako_parse_tokens tokens = .ok r)
    (hu : unread_tokens tokens = .ok rest) (he : ako_elem_is_error r = false) :
    empty_strings r + empty_literals rest ≤ empty_literals tokens
    ∧ (keys_nonempty r = true ↔
        empty_strings r + empty_literals rest = empty_literals tokens) := by
  unfold ako_parse_tokens at hr
  unfold unread_tokens at hu
  cases tokens with
  | nil =>
    simp only [Outcome.ok.injEq] at hr
    subst hr
    cases he
  | cons peeked tl =>
    simp only at hr hu
    split at hr
    · rename_i h
      rw [if_pos h] at hu
      have hc := parse_array_count _ (parse_value_count (peeked :: tl).length) _ hs
      cases hp : parser._parse_array (parser._parse_value (peeked :: tl).length)
          (peeked :: tl) with
      | ok q =>
        rw [hp] at hr hu hc
        simp only [Outcome.bind, Outcome.ok.injEq] at hr hu
        subst hr
        subst hu
        exact hc.2 he
      | abort f => rw [hp] at hr; cases hr
      | hang => rw [hp] at hr; cases hr
      | nofuel => rw [hp] at hr; cases hr
    · rename_i h
      rw [if_neg h] at hu
      have hc := parse_table_count _ (parse_value_count (peeked :: tl).length) _
        (decide (peeked.type ≠ AKO_TT_OPEN_BRACE)) hs
      cases hp : parser._parse_table (parser._parse_value (peeked :: tl).length)
          (peeked :: tl) (decide (peeked.type ≠ AKO_TT_OPEN_BRACE)) with
      | ok q =>
        rw [hp] at hr hu hc
        simp only [Outcome.bind, Outcome.ok.injEq] at hr hu
        subst hr
        subst hu
        exact hc.2 he
      | abort f => rw [hp] at hr; cases hr
      | hang => rw [hp] at hr; cases hr
      | nofuel => rw [hp] at hr; cases hr

theorem unread_tokens_returns (tokens : List token_t) (r : ako_elem_t)
    (hr : ako_parse_tokens tokens = .ok r) : ∃ rest, unread_tokens tokens = .ok rest := by
  unfold ako_parse_tokens at hr
  unfold unread_tokens
  cases tokens with
  | nil => exact ⟨[], rfl⟩
  | cons peeked tl =>
    simp only at hr ⊢
    split at hr
    · rename_i h
      rw [if_pos h]
      cases hp : parser._parse_array (parser._parse_value (peeked :: tl).length)
          (peeked :: tl) with
      | ok q => exact ⟨q.2, rfl⟩
      | abort f => rw [hp] at hr; cases hr
      | hang => rw [hp] at hr; cases hr
      | nofuel => rw [hp] at hr; cases hr
    · rename_i h
      rw [if_neg h]
      cases hp : parser._parse_table (parser._parse_value (peeked :: tl).length)
          (peeked :: tl) (decide (peeked.type ≠ AKO_TT_OPEN_BRACE)) with
      | ok q => exact ⟨q.2, rfl⟩
      | abort f => rw [hp] at hr; cases hr
      | hang => rw [hp] at hr; cases hr
      | nofuel => rw [hp] at hr; cases hr

section IdentTokens

open tokenizer

theorem consume_tokens (s : state_t) : (consume s).2.tokens = s.tokens := by
  unfold consume
  split <;> rfl

theorem consume_n_tokens : ∀ (n : Nat) (s : state_t), (consume_n n s).2.tokens = s.tokens := by
  intro n
  induction n with
  | zero => intro s; rfl
  | succ n ih =>
    intro s
    simp only [consume_n]
    rw [ih, consume_tokens]

theorem consume_n_ne_nil (n : Nat) (s : state_t) :
    (consume_n (n + 1) s).1 ≠ [] := by
  simp [consume_n]

theorem add_token_ident (s : state_t) (ty : token_type_t) (v : token_value)
    (h : s.tokens.all nonempty_ident = true)
    (hv : ty ≠ AKO_TT_IDENT ∨ v ≠ .string []) :
    (add_token s ty v).tokens.all nonempty_ident = true := by
  simp only [add_token, List.all_append, h, Bool.true_and, List.all_cons, List.all_nil,
    Bool.and_true]
  rcases hv with hv | hv <;> simp [nonempty_ident, hv]

theorem parse_digit_ident (s : state_t) (h : s.tokens.all nonempty_ident = true) :
    (parse_digit s).wsat (fun r => r.2.tokens.all nonempty_ident = true) := by
  unfold parse_digit
  simp only
  split
  · exact h
  · split
    · split
      · simp only [Outcome.wsat]
        exact add_token_ident _ _ _ (by rw [consume_n_tokens]; exact h) (Or.inl (by decide))
      · trivial
    · split
      · simp only [Outcome.wsat]
        exact add_token_ident _ _ _ (by rw [consume_n_tokens]; exact h) (Or.inl (by decide))
      · trivial

theorem vector_loop_ident : ∀ (fuel : Nat) (s : state_t) (reg : token_value),
    s.tokens.all nonempty_ident = true →
    (vector_loop fuel s reg).wsat (fun r => r.1.tokens.all nonempty_ident = true) := by
  intro fuel
  induction fuel with
  | zero => intro s reg _; trivial
  | succ f ih =>
    intro s reg h
    unfold vector_loop
    split
    · exact h
    · split
      · have h2 : (add_token (consume s).2 AKO_TT_VECTORCROSS (.int 0)).tokens.all
            nonempty_ident = true :=
          add_token_ident _ _ _ (by rw [consume_tokens]; exact h) (Or.inl (by decide))
        have h3 := parse_digit_ident _ h2
        simp only
        split
        · rename_i st heq
          rw [heq] at h3
          exact ih st _ h3
        · trivial
        · trivial
        · trivial
        · trivial
      · exact h

theorem count_id_pos (c : Char) (rest : List Char) (h : is_valid_id c = true) :
    ∃ k, count_id (c :: rest) = k + 1 := by
  have : (isalnum c || decide (c = '_')) = true := by
    simp only [is_valid_id, Bool.or_eq_true, decide_eq_true_eq] at h
    rcases h with h | h
    · simp [isalnum, h]
    · simp [h]
  exact ⟨count_id rest, by simp only [count_id, this, if_true]⟩

theorem tokenize_loop_ident : ∀ (fuel : Nat) (s : state_t) (reg : token_value),
    s.tokens.all nonempty_ident = true →
    (tokenize_loop fuel s reg).wsat (fun ts => ts.all nonempty_ident = true) := by
  intro fuel
  induction fuel with
  | zero => intro s reg _; trivial
  | succ f ih =>
    intro s reg h
    unfold tokenize_loop
    split
    · exact h
    · rename_i c rest hsrc
      have hc : ∀ (ty : token_type_t) (v : token_value) (st : state_t),
          st.tokens = s.tokens → ty ≠ AKO_TT_IDENT →
          (add_token st ty v).tokens.all nonempty_ident = true :=
        fun ty v st hst hty => add_token_ident _ _ _ (by rw [hst]; exact h) (Or.inl hty)
      have hcs : (consume (start_meta s)).2.tokens = s.tokens := by
        rw [consume_tokens]; rfl
      have hcs2 : (consume (consume (start_meta s)).2).2.tokens = s.tokens := by
        rw [consume_tokens, hcs]
      by_cases h1 : c = ' ' ∨ c = '\n'
      · rw [if_pos h1]
        exact ih _ _ (by rw [consume_tokens]; exact h)
      rw [if_neg h1]
      by_cases h2 : c = '#'
      · rw [if_pos h2]
        exact ih _ _ (by
          show (consume s).2.tokens.all nonempty_ident = true
          rw [consume_tokens]
          exact h)
      rw [if_neg h2]
      by_cases h3 : c = '+'
      · rw [if_pos h3]
        exact ih _ _ (hc _ _ _ hcs (by decide))
      rw [if_neg h3]
      by_cases h4 : c = '-'
      · rw [if_pos h4]
        exact ih _ _ (hc _ _ _ hcs (by decide))
      rw [if_neg h4]
      by_cases h5 : c = ';'
      · rw [if_pos h5]
        exact ih _ _ (hc _ _ _ hcs (by decide))
      rw [if_neg h5]
      by_cases h6 : c = '.'
      · rw [if_pos h6]
        exact ih _ _ (hc _ _ _ hcs (by decide))
      rw [if_neg h6]
      by_cases h7 : c = '&'
      · rw [if_pos h7]
        exact ih _ _ (hc _ _ _ hcs (by decide))
      rw [if_neg h7]
      by_cases h8 : c = '['
      · rw [if_pos h8]
        by_cases h8b : rest.head? = some '['
        · rw [if_pos h8b]
          exact ih _ _ (hc _ _ _ hcs2 (by decide))
        · rw [if_neg h8b]
          exact ih _ _ (hc _ _ _ hcs (by decide))
      rw [if_neg h8]
      by_cases h9 : c = ']'
      · rw [if_pos h9]
        by_cases h9b : rest.head? = some ']'
        · rw [if_pos h9b]
          exact ih _ _ (hc _ _ _ hcs2 (by decide))
        · rw [if_neg h9b]
          exact ih _ _ (hc _ _ _ hcs (by decide))
      rw [if_neg h9]
      by_cases hid : is_valid_id c = true
      · rw [if_pos hid]
        obtain ⟨k, hk⟩ := count_id_pos c rest hid
        refine ih _ _ (add_token_ident _ _ _ ?_ (Or.inr ?_))
        · rw [consume_n_tokens]; exact h
        · have hs2 : (start_meta s).source = c :: rest := hsrc
          rw [hs2, hk]
          intro he
          injection he with he
          exact consume_n_ne_nil k _ he
      rw [if_neg hid]
      have hpd := parse_digit_ident (start_meta s) h
      cases hr : parse_digit (start_meta s) with
      | abort e => trivial
      | hang => trivial
      | nofuel => trivial
      | ok r =>
        rw [hr] at hpd
        obtain ⟨b, st⟩ := r
        cases b with
        | true =>
          have hv := vector_loop_ident (st.source.length + 1) st reg hpd
          dsimp only
          cases hv2 : vector_loop (st.source.length + 1) st reg with
          | abort e => trivial
          | hang => trivial
          | nofuel => trivial
          | ok r2 =>
            rw [hv2] at hv
            exact ih _ _ hv
        | false =>
          dsimp only
          by_cases hq : c = '"'
          · simp only [hq, if_true]
            cases hcnt : count_string (consume st).2.source with
            | abort e => trivial
            | hang => trivial
            | nofuel => trivial
            | ok n =>
              simp only
              split
              · refine ih _ _ (add_token_ident _ _ _ ?_ (Or.inl (by decide)))
                show (consume st).2.tokens.all nonempty_ident = true
                rw [consume_tokens]
                exact hpd
              · trivial
          · simp only [hq, if_false]
            trivial

theorem tokenize_ident (source : List Char) :
    (ako_tokenize source).wsat (fun ts => ts.all nonempty_ident = true) :=
  tokenize_loop_ident _ _ _ rfl

end IdentTokens

/-! ### The place of the lexer's message -/

section ErrPlace

open tokenizer

theorem add_token_stores (s : state_t) (ty : token_type_t) (v : token_value) :
    (add_token s ty v).tokens.any stores_err
      = (s.tokens.any stores_err || (decide (ty = AKO_TT_INT) || decide (ty = AKO_TT_FLOAT)
          || decide (ty = AKO_TT_STRING))) := by
  simp [add_token, List.any_append, stores_err]

theorem parse_digit_stores (s : state_t) :
    (parse_digit s).wsat (fun r =>
      if r.1 then r.2.tokens.any stores_err = true
      else r.2.tokens.any stores_err = s.tokens.any stores_err) := by
  unfold parse_digit
  simp only
  split
  · simp [Outcome.wsat]
  · split
    · split
      · simp [Outcome.wsat, add_token_stores]
      · trivial
    · split
      · simp [Outcome.wsat, add_token_stores]
      · trivial

theorem vector_loop_stores : ∀ (fuel : Nat) (s : state_t) (reg : token_value),
    s.tokens.any stores_err = true →
    (vector_loop fuel s reg).wsat (fun r => r.1.tokens.any stores_err = true) := by
  intro fuel
  induction fuel with
  | zero => intro s reg _; trivial
  | succ f ih =>
    intro s reg h
    unfold vector_loop
    split
    · exact h
    · split
      · have h3 := parse_digit_stores (add_token (consume s).2 AKO_TT_VECTORCROSS (.int 0))
        simp only
        split
        · rename_i st heq
          rw [heq] at h3
          simp only [Outcome.wsat, if_true] at h3
          exact ih st _ h3
        · trivial
        · trivial
        · trivial
        · trivial
      · exact h

theorem tokenize_loop_err_eq : ∀ (fuel : Nat) (s : state_t) (reg : token_value),
    tokenize_loop_err fuel s reg (s.tokens.any stores_err)
      = (tokenize_loop fuel s reg).bind (fun ts => .ok (ts, ts.any stores_err)) := by
  intro fuel
  induction fuel with
  | zero => intro s reg; rfl
  | succ f ih =>
    intro s reg
    unfold tokenize_loop_err tokenize_loop
    split
    · rfl
    · rename_i c rest hsrc
      have hstep : ∀ (st : state_t) (reg2 : token_value),
          st.tokens.any stores_err = s.tokens.any stores_err →
          tokenize_loop_err f st reg2 (s.tokens.any stores_err)
            = (tokenize_loop f st reg2).bind (fun ts => .ok (ts, ts.any stores_err)) := by
        intro st reg2 h
        rw [← h]
        exact ih st reg2
      have hcs : (consume (start_meta s)).2.tokens = s.tokens := by
        rw [consume_tokens]; rfl
      have hcs2 : (consume (consume (start_meta s)).2).2.tokens = s.tokens := by
        rw [consume_tokens, hcs]
      by_cases h1 : c = ' ' ∨ c = '\n'
      · rw [if_pos h1, if_pos h1]
        exact hstep _ _ (by rw [consume_tokens])
      rw [if_neg h1, if_neg h1]
      by_cases h2 : c = '#'
      · rw [if_pos h2, if_pos h2]
        exact hstep _ _ (by
          show (consume s).2.tokens.any stores_err = _
          rw [consume_tokens])
      rw [if_neg h2, if_neg h2]
      by_cases h3 : c = '+'
      · rw [if_pos h3, if_pos h3]
        exact hstep _ _ (by rw [add_token_stores, hcs]; simp)
      rw [if_neg h3, if_neg h3]
      by_cases h4 : c = '-'
      · rw [if_pos h4, if_pos h4]
        exact hstep _ _ (by rw [add_token_stores, hcs]; simp)
      rw [if_neg h4, if_neg h4]
      by_cases h5 : c = ';'
      · rw [if_pos h5, if_pos h5]
        exact hstep _ _ (by rw [add_token_stores, hcs]; simp)
      rw [if_neg h5, if_neg h5]
      by_cases h6 : c = '.'
      · rw [if_pos h6, if_pos h6]
        exact hstep _ _ (by rw [add_token_stores, hcs]; simp)
      rw [if_neg h6, if_neg h6]
      by_cases h7 : c = '&'
      · rw [if_pos h7, if_pos h7]
        exact hstep _ _ (by rw [add_token_stores, hcs]; simp)
      rw [if_neg h7, if_neg h7]
      by_cases h8 : c = '['
      · rw [if_pos h8, if_pos h8]
        by_cases h8b : rest.head? = some '['
        · rw [if_pos h8b, if_pos h8b]
          exact hstep _ _ (by rw [add_token_stores, hcs2]; simp)
        · rw [if_neg h8b, if_neg h8b]
          exact hstep _ _ (by rw [add_token_stores, hcs]; simp)
      rw [if_neg h8, if_neg h8]
      by_cases h9 : c = ']'
      · rw [if_pos h9, if_pos h9]
        by_cases h9b : rest.head? = some ']'
        · rw [if_pos h9b, if_pos h9b]
          exact hstep _ _ (by rw [add_token_stores, hcs2]; simp)
        · rw [if_neg h9b, if_neg h9b]
          exact hstep _ _ (by rw [add_token_stores, hcs]; simp)
      rw [if_neg h9, if_neg h9]
      by_cases hid : is_valid_id c = true
      · rw [if_pos hid, if_pos hid]
        exact hstep _ _ (by
          rw [add_token_stores, consume_n_tokens]
          simp [start_meta])
      rw [if_neg hid, if_neg hid]
      have hpd := parse_digit_stores (start_meta s)
      cases hr : parse_digit (start_meta s) with
      | abort e => rfl
      | hang => rfl
      | nofuel => rfl
      | ok r =>
        rw [hr] at hpd
        obtain ⟨b, st⟩ := r
        cases b with
        | true =>
          simp only [Outcome.wsat, if_true] at hpd
          have hv := vector_loop_stores (st.source.length + 1) st reg hpd
          dsimp only
          cases hv2 : vector_loop (st.source.length + 1) st reg with
          | abort e => rfl
          | hang => rfl
          | nofuel => rfl
          | ok r2 =>
            rw [hv2] at hv
            simp only [Outcome.wsat] at hv
            dsimp only
            rw [← hv]
            exact ih _ _
        | false =>
          dsimp only
          by_cases hq : c = '"'
          · simp only [hq, if_true]
            cases hcnt : count_string (consume st).2.source with
            | abort e => rfl
            | hang => rfl
            | nofuel => rfl
            | ok n =>
              dsimp only
              split
              · have e : (add_token
                    { (consume st).2 with
                      source := (read_string (consume st).2.source (consume st).2.current_loc).2.1,
                      current_loc :=
                        (read_string (consume st).2.source (consume st).2.current_loc).2.2 }
                    AKO_TT_STRING
                    (.string (read_string (consume st).2.source
                      (consume st).2.current_loc).1.1)).tokens.any stores_err = true := by
                  rw [add_token_stores]
                  simp
                rw [← e]
                exact ih _ _
              · rfl
          · simp only [hq, if_false]
            rfl

/-- The place `*err` of the lexer holds null when some token is a number or a string, and is
as the caller left it otherwise. -/
theorem tokenize_err_eq (source : List Char) :
    ako_tokenize_err source
      = (ako_tokenize source).bind (fun ts => .ok (ts, ts.any stores_err)) :=
  tokenize_loop_err_eq _ _ _

end ErrPlace

theorem parse_tokens_of_parse (source : List Char) (tokens : List token_t) (r : ako_elem_t)
    (ht : ako_tokenize source = .ok tokens) (hr : ako_parse source = .ok r) :
    ako_parse_tokens tokens = .ok r ∧ tokens.all nonempty_ident = true := by
  have hi := tokenize_ident source
  rw [ht] at hi
  refine ⟨?_, hi⟩
  unfold ako_parse at hr
  rw [ht] at hr
  simp only [Outcome.bind] at hr
  split at hr
  · cases hr
  · exact hr

section Positions

open tokenizer

theorem position_of_snoc (pre : List Char) (c : Char) (hc : c ≠ '\t') :
    position_of (pre ++ [c]) = advance (position_of pre) c := by
  unfold position_of advance
  by_cases hn : c = '\n'
  · subst hn
    simp only [List.count_append, List.reverse_append, List.reverse_cons, List.reverse_nil,
      List.nil_append, List.singleton_append, List.length_append, List.length_singleton,
      true_or, if_true]
    have e1 : List.count '\n' ['\n'] = 1 := by decide
    rw [e1]
    simp only [List.takeWhile_cons, ne_eq, not_true_eq_false, decide_False,
      Bool.false_eq_true, if_false, List.length_nil]
    congr 1
  · simp only [hn, hc, or_self, if_false, List.count_append, List.reverse_append,
      List.reverse_cons, List.reverse_nil, List.nil_append, List.singleton_append,
      List.length_append, List.length_singleton]
    have e1 : List.count '\n' [c] = 0 := by
      rw [List.count_eq_zero]
      simp only [List.mem_singleton]
      exact fun h => hn h.symm
    rw [e1]
    simp only [List.takeWhile_cons, ne_eq, hn, not_false_eq_true, decide_True, if_true,
      List.length_cons]
    congr 1

theorem foldl_advance_position : ∀ (pre : List Char), '\t' ∉ pre →
    pre.foldl advance ⟨1, 1, 0⟩ = position_of pre := by
  intro pre
  induction pre using List.reverseRecOn with
  | nil => intro _; rfl
  | append_singleton pre c ih =>
    intro h
    have h1 : '\t' ∉ pre := fun hm => h (List.mem_append_left _ hm)
    have h2 : c ≠ '\t' := fun hm => h (by simp [hm])
    rw [List.foldl_append, List.foldl_cons, List.foldl_nil, ih h1, position_of_snoc pre c h2]

theorem skip_comment_blank : ∀ (s : List Char) (loc : location_t),
    blank_or_comment true s = true →
    blank_or_comment false (skip_comment s loc).1 = true
      ∧ (skip_comment s loc).1.length ≤ s.length := by
  intro s
  induction s with
  | nil => intro loc _; exact ⟨rfl, Nat.le_refl _⟩
  | cons c rest ih =>
    intro loc h
    by_cases hn : c = '\n'
    · subst hn
      simp only [blank_or_comment, if_true] at h
      simp only [skip_comment, true_or, if_true]
      exact ⟨h, by simp⟩
    · by_cases ht : c = '\t' ∨ c = Char.ofNat 0
      · simp [blank_or_comment, hn, ht] at h
      · simp only [blank_or_comment, hn, ht, if_false] at h
        have ht1 : c ≠ '\t' := fun e => ht (Or.inl e)
        have ht2 : c ≠ Char.ofNat 0 := fun e => ht (Or.inr e)
        simp only [skip_comment, hn, ht1, or_self, ht2, if_false]
        obtain ⟨h1, h2⟩ := ih (advance loc c) h
        exact ⟨h1, by simp; omega⟩

theorem tokenize_loop_blank : ∀ (n : Nat) (s : List Char), s.length ≤ n →
    blank_or_comment false s = true →
    ∀ (fuel : Nat) (toks : List token_t) (m loc : location_t) (reg : token_value),
      s.length < fuel → tokenize_loop fuel ⟨toks, s, m, loc⟩ reg = .ok toks := by
  intro n
  induction n with
  | zero =>
    intro s hl _ fuel toks m loc reg hf
    cases s with
    | cons c rest => simp at hl
    | nil =>
      cases fuel with
      | zero => omega
      | succ f => simp [tokenize_loop]
  | succ n ih =>
    intro s hl hb fuel toks m loc reg hf
    cases fuel with
    | zero => omega
    | succ f =>
      cases s with
      | nil => simp [tokenize_loop]
      | cons c rest =>
        have hl2 : rest.length ≤ n := by simp at hl; omega
        have hf2 : rest.length < f := by simp at hf; omega
        by_cases h1 : c = ' ' ∨ c = '\n'
        · simp only [blank_or_comment, h1, if_true] at hb
          rw [tokenize_loop]
          simp only [h1, if_true, consume]
          exact ih rest hl2 hb f toks m _ reg hf2
        · by_cases h2 : c = '#'
          · subst h2
            simp only [blank_or_comment, h1, if_false, if_true] at hb
            obtain ⟨h3, h4⟩ := skip_comment_blank rest (advance loc '#') hb
            rw [tokenize_loop]
            simp only [h1, if_false, if_true, consume]
            exact ih _ (by omega) h3 f toks m _ reg (by omega)
          · simp [blank_or_comment, h1, h2] at hb

theorem tokenize_blank (s : List Char) (h : blank_or_comment false s = true) :
    ako_tokenize s = .ok [] :=
  tokenize_loop_blank s.length s (Nat.le_refl _) h _ _ _ _ _ (Nat.lt_succ_self _)

theorem parse_blank (s : List Char) (h : blank_or_comment false s = true) :
    ako_parse s = .abort .nullDeref := by
  simp [ako_parse, tokenize_blank s h, Outcome.bind]

end Positions

/-! ### Tokens after the root, and a dot at the end of a short type (C36, C37) -/

theorem parse_tokens_braced_rest (nest : Bool) (a : List (List Char × ako_elem_t))
    (hp : plain_entries nest a = true) (o : token_t) (ho : o.type = AKO_TT_OPEN_BRACE)
    (ts : List token_t) (hts : ts.map strip = atoks_entries a) (c : token_t)
    (hc : c.type = AKO_TT_CLOSE_BRACE) (rest : List token_t) :
    ako_parse_tokens (o :: ts ++ c :: rest) = .ok (AT_TABLE a) := by
  have hlen : nest_size_entries a ≤ (o :: ts ++ c :: rest).length := by
    have := nest_size_entries_le a
    rw [← hts] at this
    simp at this ⊢
    omega
  have hloop := table_loop_plain nest (nest_size_entries a) a (le_refl _) hp ts (c :: rest)
    (o :: ts ++ c :: rest).length ((ts ++ c :: rest).length + 1) [] hts (Or.inr (Or.inr hc))
    (Or.inr ⟨c, rest, rfl, hc⟩) hlen (Nat.lt_succ_self _)
  simp only [List.nil_append] at hloop
  simp [ako_parse_tokens, ho, parser._parse_table, parser.CHECK_TYPE, parser.peek,
    Outcome.bind]
  simp at hloop
  simp [hloop, hc]

theorem parse_shorttype_trailing_dot (dot : token_t) (hdot : dot.type = AKO_TT_DOT)
    (rest : List token_t) (hrest : parser.CHECK_TYPE rest.head? AKO_TT_IDENT = false) :
    ∀ (more : List (token_t × token_t)) (first : token_t) (str : List Char),
      is_ident_token first = true →
      (∀ p ∈ more, p.1.type = AKO_TT_DOT ∧ is_ident_token p.2 = true) →
      parser.parse_shorttype (joined first more ++ dot :: rest) str
        = .ok (str ++ dotted_text first more ++ ['.'], rest) := by
  have hend : ∀ s : List Char, parser.parse_shorttype rest s = .ok (s, rest) := by
    intro s
    cases rest with
    | nil => rfl
    | cons t tl =>
      have : t.type ≠ AKO_TT_IDENT := by
        simpa [parser.CHECK_TYPE] using hrest
      simp [parser.parse_shorttype, this]
  intro more
  induction more with
  | nil =>
    intro first str hf _
    obtain ⟨ty, st, en, v⟩ := first
    cases ty <;> cases v <;> simp [is_ident_token] at hf
    simp [joined, parser.parse_shorttype, parser.read, token_t.value_string, Outcome.bind,
      dotted_text, token_text, hdot, hend]
  | cons p more ih =>
    intro first str hf hm
    have hp := hm p (List.mem_cons_self _ _)
    have hm2 : ∀ q ∈ more, q.1.type = AKO_TT_DOT ∧ is_ident_token q.2 = true :=
      fun q hq => hm q (List.mem_cons_of_mem _ hq)
    obtain ⟨ty, st, en, v⟩ := first
    cases ty <;> cases v <;> simp [is_ident_token] at hf
    simp only [joined, List.cons_append, parser.parse_shorttype, if_true, parser.read,
      token_t.value_string, Outcome.bind, hp.1, List.append_eq]
    rw [ih p.2 _ hp.2 hm2]
    simp [dotted_text, token_text]

theorem parse_value_shorttype_dot (depth : Nat) (amp first : token_t)
    (more : List (token_t × token_t)) (dot : token_t) (rest : List token_t)
    (hamp : amp.type = AKO_TT_AND)
    (hfirst : is_ident_token first = true)
    (hmore : ∀ p ∈ more, p.1.type = AKO_TT_DOT ∧ is_ident_token p.2 = true)
    (hdot : dot.type = AKO_TT_DOT)
    (hrest : parser.CHECK_TYPE rest.head? AKO_TT_IDENT = false) :
    parser._parse_value (depth + 1) (amp :: joined first more ++ dot :: rest)
      = .ok (AT_SHORTTYPE (dotted_text first more ++ ['.']), rest) := by
  have key := parse_shorttype_trailing_dot dot hdot rest hrest more first [] hfirst hmore
  have hty : first.type = AKO_TT_IDENT := by
    obtain ⟨ty, st, en, v⟩ := first
    cases ty <;> cases v <;> simp [is_ident_token] at hfirst
    rfl
  have hj : ∃ tl, joined first more ++ dot :: rest = first :: tl := by
    cases more with
    | nil => exact ⟨_, rfl⟩
    | cons p more => exact ⟨_, rfl⟩
  obtain ⟨tl, hj⟩ := hj
  simp only [parser._parse_value, List.cons_append, hamp]
  rw [hj] at key ⊢
  simp [parser.CHECK_TYPE, parser.peek, hty, key, Outcome.bind]

section PathLexing

open tokenizer

theorem count_id_run : ∀ (k tail : List Char),
    k.all (fun d => isalnum d || d = '_') = true →
    (∀ b, tail.head? = some b → (isalnum b || decide (b = '_')) = false) →
    count_id (k ++ tail) = k.length := by
  intro k
  induction k with
  | nil =>
    intro tail _ ht
    cases tail with
    | nil => rfl
    | cons b tl =>
      have := ht b rfl
      simp only [List.nil_append, count_id, this, Bool.false_eq_true, if_false, List.length_nil]
  | cons c k ih =>
    intro tail hk ht
    simp only [List.all_cons, Bool.and_eq_true] at hk
    simp only [List.cons_append, count_id, hk.1, if_true, List.length_cons, List.append_eq]
    rw [ih tail hk.2 ht]

theorem lex_ident_run (k tail : List Char) (hk : is_identifier k = true)
    (ht : ∀ b, tail.head? = some b → (isalnum b || decide (b = '_')) = false) :
    LexTo (k ++ tail) tail [(AKO_TT_IDENT, .string k)] := by
  intro toks m loc reg fuel hf
  cases k with
  | nil => simp [is_identifier] at hk
  | cons c k2 =>
    simp only [is_identifier, Bool.and_eq_true] at hk
    obtain ⟨hv, hall⟩ := hk
    have hall2 : (c :: k2).all (fun d => isalnum d || d = '_') = true := by
      simp only [List.all_cons, hall, Bool.and_true]
      simp only [is_valid_id, Bool.or_eq_true, decide_eq_true_eq] at hv
      rcases hv with hv | hv
      · simp [isalnum, hv]
      · simp [hv]
    obtain ⟨n1, n2, n3, n4, n5, n6, n7, n8, n9, n10⟩ := valid_id_ne hv
    cases fuel with
    | zero => omega
    | succ f =>
      refine ⟨[⟨AKO_TT_IDENT, loc, (c :: k2).foldl advance loc, .string (c :: k2)⟩], loc,
        (c :: k2).foldl advance loc, .string (c :: k2), f, by simp at hf ⊢; omega, rfl, ?_⟩
      have hcnt := count_id_run (c :: k2) tail hall2 ht
      have hcons := consume_n_eq toks loc (c :: k2) tail loc
      simp only [List.cons_append] at hcnt hcons
      simp only [List.cons_append, tokenize_loop, n1, n2, n3, n4, n5, n6, n7, n8, n9, n10,
        or_self, if_false, start_meta, hv, if_true, hcnt, hcons, add_token]

theorem lex_dot (rest : List Char) : LexTo ('.' :: rest) rest [(AKO_TT_DOT, .int 0)] := by
  intro toks m loc reg fuel hf
  cases fuel with
  | zero => omega
  | succ f =>
    refine ⟨[⟨AKO_TT_DOT, loc, advance loc '.', .int 0⟩], loc, advance loc '.', .int 0, f,
      by simp at hf; omega, rfl, ?_⟩
    simp [tokenize_loop, consume, start_meta, add_token]

/-- The tokens of a path `k.i.j` with an identifier `k` and two runs of digits: the two
indices and the dot between them are one `Float` token. -/
theorem lex_path_two_indices (k : List Char) (c : Char) (i j : List Char) (f : ako_float)
    (hk : is_identifier k = true) (hc : isdigit c = true)
    (hi : i.all isdigit = true) (hj : j.all isdigit = true)
    (hf : strtod (c :: i ++ '.' :: j) = some f) :
    ∃ t1 t2 t3, ako_tokenize (k ++ '.' :: (c :: i ++ '.' :: j)) = .ok [t1, t2, t3]
      ∧ strip t1 = (AKO_TT_IDENT, .string k) ∧ strip t2 = (AKO_TT_DOT, .int 0)
      ∧ strip t3 = (AKO_TT_FLOAT, .float f) := by
  have h1 := lex_ident_run k ('.' :: (c :: i ++ '.' :: j)) hk (by
    intro b hb
    simp only [List.head?_cons, Option.some.injEq] at hb
    subst hb
    decide)
  have h2 := lex_dot (c :: i ++ '.' :: j)
  have hrun : ∀ d ∈ i ++ '.' :: j, isdigit d = true ∨ d = '.' := by
    intro d hd
    rcases List.mem_append.1 hd with h | h
    · exact Or.inl (List.all_eq_true.1 hi d h)
    · rcases List.mem_cons.1 h with h | h
      · exact Or.inr h
      · exact Or.inl (List.all_eq_true.1 hj d h)
  have h3 := (lex_number c (i ++ '.' :: j) [] hc hrun (by intro b hb; cases hb)).1 f
    (by simp) (by simpa using hf)
  simp only [List.append_nil] at h3
  have h := LexTo.trans (LexTo.trans h1 h2) (by simpa using h3)
  obtain ⟨toks, e, hm⟩ := lex_done h
  simp only [List.singleton_append, List.cons_append, List.nil_append] at hm
  cases toks with
  | nil => simp at hm
  | cons t1 l1 =>
    cases l1 with
    | nil => simp at hm
    | cons t2 l2 =>
      cases l2 with
      | nil => simp at hm
      | cons t3 l3 =>
        cases l3 with
        | cons t4 l4 => simp at hm
        | nil =>
          simp only [List.map_cons, List.map_nil, List.cons.injEq, and_true] at hm
          exact ⟨t1, t2, t3, e, hm.1, hm.2.1, hm.2.2⟩

theorem elem_get_two_indices (a : List (List Char × ako_elem_t)) (k : List Char) (f : ako_float)
    (t1 t2 t3 : token_t) (h1 : strip t1 = (AKO_TT_IDENT, .string k))
    (h2 : strip t2 = (AKO_TT_DOT, .int 0)) (h3 : strip t3 = (AKO_TT_FLOAT, .float f)) :
    elem_get_loop [t1, t2, t3] (AT_TABLE a) = .ok none := by
  obtain ⟨ty1, s1, e1, v1⟩ := t1
  obtain ⟨ty2, s2, e2, v2⟩ := t2
  obtain ⟨ty3, s3, e3, v3⟩ := t3
  simp only [strip, Prod.mk.injEq] at h1 h2 h3
  obtain ⟨rfl, rfl⟩ := h1
  obtain ⟨rfl, rfl⟩ := h2
  obtain ⟨rfl, rfl⟩ := h3
  have hstep : elem_get_step (AT_TABLE a) ⟨AKO_TT_IDENT, s1, e1, .string k⟩
      = .ok (.ok ((a.find? (fun e => decide (e.1 = k))).map (·.2))) := by
    simp only [elem_get_step, parser.read, token_t.value_string, Outcome.bind,
      table_get_eq_find?]
    simp
  have hlast : ∀ e : ako_elem_t,
      elem_get_loop [⟨AKO_TT_FLOAT, s3, e3, .float f⟩] e = .ok none := by
    intro e
    rw [elem_get_loop]
    simp
  rw [elem_get_loop]
  simp only [hstep, Outcome.bind]
  cases (a.find? (fun e => decide (e.1 = k))).map (·.2) with
  | none => simp
  | some e => simp [hlast]

theorem elem_get_path_two_indices (a : List (List Char × ako_elem_t)) (k : List Char)
    (c : Char) (i j : List Char) (f : ako_float)
    (hk : is_identifier k = true) (hc : isdigit c = true)
    (hi : i.all isdigit = true) (hj : j.all isdigit = true)
    (hf : strtod (c :: i ++ '.' :: j) = some f) :
    ako_elem_get (AT_TABLE a) (k ++ '.' :: (c :: i ++ '.' :: j)) = .ok none := by
  obtain ⟨t1, t2, t3, e, h1, h2, h3⟩ := lex_path_two_indices k c i j f hk hc hi hj hf
  have hs : [t1, t2, t3].any stores_err = true := by
    have h3t : t3.type = AKO_TT_FLOAT := congrArg Prod.fst h3
    simp [stores_err, h3t]
  rw [ako_elem_get, tokenize_err_eq, e]
  simp only [Outcome.bind, hs, if_true]
  exact elem_get_two_indices a k f t1 t2 t3 h1 h2 h3

end PathLexing

/-! ### Path queries (C10, C11) -/

/-- C10. In the root parsed from `k [[ [ a 1 ] ]]` the path `k.0.a` has every step: the
key `k` holds an array, its item 0 is a table, and that table holds `a`. `ako_elem_get`
returns not-found: the lexer reads `0.` as one `Float` token, which the resolver does not
accept. A trailing index resolves.

The paths of the scenario, `a.b.c` and `a.b.d`, hold no number and no string literal, and
so does every path of identifiers: for these the lexer never stores to the local `elem`,
and `ako_elem_get` reads it before the walk, a variable that was never written. With a
segment written as a string literal the lexer has stored null to it, and the walk gives the
node reached (`a.b."c"`) or not-found (`a.b."d"`). -/
theorem C10_index_before_segment_not_found :
    ako_parse "k [[ [ a 1 ] ]]".toList
      = .ok (AT_TABLE [("k".toList, AT_ARRAY [AT_TABLE [("a".toList, AT_INT 1)]])])
    ∧ ako_elem_get (AT_TABLE [("k".toList, AT_ARRAY [AT_TABLE [("a".toList, AT_INT 1)]])])
        "k.0.a".toList = .ok none
    ∧ ako_elem_get (AT_TABLE [("k".toList, AT_ARRAY [AT_TABLE [("a".toList, AT_INT 1)]])])
        "k.0".toList = .ok (some (AT_TABLE [("a".toList, AT_INT 1)]))
    ∧ ako_parse "a.b.c 7".toList
      = .ok (AT_TABLE [("a".toList, AT_TABLE [("b".toList, AT_TABLE [("c".toList, AT_INT 7)])])])
    ∧ ako_elem_get
        (AT_TABLE [("a".toList, AT_TABLE [("b".toList, AT_TABLE [("c".toList, AT_INT 7)])])])
        "a.b.c".toList = .abort .uninitialised
    ∧ ako_elem_get
        (AT_TABLE [("a".toList, AT_TABLE [("b".toList, AT_TABLE [("c".toList, AT_INT 7)])])])
        "a.b.d".toList = .abort .uninitialised
    ∧ ako_elem_get
        (AT_TABLE [("a".toList, AT_TABLE [("b".toList, AT_TABLE [("c".toList, AT_INT 7)])])])
        "a.b.\"c\"".toList = .ok (some (AT_INT 7))
    ∧ ako_elem_get
        (AT_TABLE [("a".toList, AT_TABLE [("b".toList, AT_TABLE [("c".toList, AT_INT 7)])])])
        "a.b.\"d\"".toList = .ok none
    ∧ (∀ (root : ako_elem_t) (path : List Char) (tokens : List token_t),
      ako_tokenize path = .ok tokens → tokens.any stores_err = false →
      ako_elem_get root path = .abort .uninitialised)
    ∧ (∀ (root : ako_elem_t) (path : List Char) (tokens : List token_t),
      ako_tokenize path = .ok tokens → tokens.any stores_err = true →
      ako_elem_get root path = elem_get_loop tokens root) := by
  refine ⟨by decide!, by decide!, by decide!, by decide!, by decide!, by decide!, by decide!,
    by decide!, ?_, ?_⟩
  · intro root path tokens ht hs
    rw [ako_elem_get, tokenize_err_eq, ht]
    simp [Outcome.bind, hs]
  · intro root path tokens ht hs
    rw [ako_elem_get, tokenize_err_eq, ht]
    simp [Outcome.bind, hs]

/-- C10, at the path `a.b` of two identifiers. -/
theorem C10_index_before_segment_not_found_witness :
    ako_elem_get (AT_TABLE [("a".toList, AT_TABLE [("b".toList, AT_INT 1)])]) "a.b".toList
      = .abort .uninitialised :=
  C10_index_before_segment_not_found.2.2.2.2.2.2.2.2.1 _ "a.b".toList
    [⟨AKO_TT_IDENT, ⟨1, 1, 0⟩, ⟨1, 2, 1⟩, .string "a".toList⟩,
      ⟨AKO_TT_DOT, ⟨1, 2, 1⟩, ⟨1, 3, 2⟩, .int 0⟩,
      ⟨AKO_TT_IDENT, ⟨1, 3, 2⟩, ⟨1, 4, 3⟩, .string "b".toList⟩] (by decide!) (by decide)

/-- C11. Where the claim has `ako_elem_get` return not-found, the code stops on a failed
`assert`: for an integer segment that is not below the length of the array (`k.5` on an
array of two, `2` on a root array of two) and for a segment applied to a scalar (`a."b"` and
`a.b.0` where `a` is an `Int`). And for a path that holds no number and no string literal
it stops before the walk, at the read of the local `elem` that was never written: so for
`a.b` where `a` is an `Int`, for `k.a` where `k` is an array, for the path `a b` without a
dot, and for `a.+`. When the path holds a number or a string literal, it does return
not-found for a key segment on an array, an integer segment on a table, a missing dot, and
a token that is no segment; an index below the length resolves. -/
theorem C11_path_query_fails_assertions :
    ako_parse "k 1x2".toList = .ok (AT_TABLE [("k".toList, AT_ARRAY [AT_INT 1, AT_INT 2])])
    ∧ ako_elem_get (AT_TABLE [("k".toList, AT_ARRAY [AT_INT 1, AT_INT 2])]) "k.5".toList
        = .abort .assertion
    ∧ ako_elem_get (AT_ARRAY [AT_INT 5, AT_INT 6]) "2".toList = .abort .assertion
    ∧ ako_elem_get (AT_TABLE [("a".toList, AT_INT 1)]) "a.\"b\"".toList = .abort .assertion
    ∧ ako_elem_get (AT_TABLE [("a".toList, AT_INT 1)]) "a.b.0".toList = .abort .assertion
    ∧ ako_elem_get (AT_TABLE [("a".toList, AT_INT 1)]) "a.b".toList = .abort .uninitialised
    ∧ ako_elem_get (AT_TABLE [("k".toList, AT_ARRAY [AT_INT 1, AT_INT 2])]) "k.a".toList
        = .abort .uninitialised
    ∧ ako_elem_get (AT_TABLE [("a".toList, AT_TABLE [("b".toList, AT_INT 1)])]) "a b".toList
        = .abort .uninitialised
    ∧ ako_elem_get (AT_TABLE [("a".toList, AT_TABLE [("b".toList, AT_INT 1)])]) "a.+".toList
        = .abort .uninitialised
    ∧ ako_elem_get (AT_TABLE [("k".toList, AT_ARRAY [AT_INT 1, AT_INT 2])]) "k.1".toList
        = .ok (some (AT_INT 2))
    ∧ ako_elem_get (AT_TABLE [("k".toList, AT_ARRAY [AT_INT 1, AT_INT 2])]) "k.\"a\"".toList
        = .ok none
    ∧ ako_elem_get (AT_TABLE [("a".toList, AT_TABLE [("b".toList, AT_INT 1)])]) "a.0".toList
        = .ok none
    ∧ ako_elem_get (AT_TABLE [("a".toList, AT_TABLE [("b".toList, AT_INT 1)])])
        "a \"b\"".toList = .ok none
    ∧ ako_elem_get (AT_TABLE [("a".toList, AT_TABLE [("b".toList, AT_INT 1)])])
        "\"a\".+".toList = .ok none := by
  decide!

/-! ### Keys of the parsed tables (C31) -/

/-- C31, counterexample. The source `"" 1` has an empty string literal where a key is
expected. It parses to a table, not an `Error`, whose only entry has the empty key; so does
`a."" 1` one level down. -/
theorem C31_empty_string_key :
    ako_parse "\"\" 1".toList = .ok (AT_TABLE [([], AT_INT 1)])
    ∧ ako_elem_is_error (AT_TABLE [([], AT_INT 1)]) = false
    ∧ keys_nonempty (AT_TABLE [([], AT_INT 1)]) = false
    ∧ ako_parse "a.\"\" 1".toList
        = .ok (AT_TABLE [("a".toList, AT_TABLE [([], AT_INT 1)])]) := by
  decide!

/-- C31, amended. Every key of a parsed table is non-empty unless a key is written as the
empty string literal. The sources left out are told by a count: when `ako_parse` returns an
element `R` that is no `Error`, every empty string literal among the tokens is read as a
key, or read as a value and then the payload of a `String` of `R`, or left unread. So when
the tokens hold no more empty literals than `R` holds empty `String` values and the unread
tokens hold empty literals, every key of every table in `R` is non-empty. The condition
leaves out no source for which the claim holds: when every key is non-empty the two counts
are equal; and the count of `R` and of the unread tokens is never the larger one.
`unread_tokens` returns whenever the parse does, and the lexer never makes an `Identifier`
token with an empty text. Then the sources `a ""` (an empty literal as a value), `"" 1`
(as a key), `a 1 ] ""` (left unread) and `"".x 1 "".y ""` (both). -/
theorem C31_keys_nonempty_unless_written_empty :
    (∀ (source : List Char) (tokens rest : List token_t) (R : ako_elem_t),
      ako_tokenize source = .ok tokens → ako_parse source = .ok R →
      unread_tokens tokens = .ok rest → ako_elem_is_error R = false →
      empty_literals tokens ≤ empty_strings R + empty_literals rest →
      keys_nonempty R = true)
    ∧ (∀ (source : List Char) (tokens rest : List token_t) (R : ako_elem_t),
      ako_tokenize source = .ok tokens → ako_parse source = .ok R →
      unread_tokens tokens = .ok rest → ako_elem_is_error R = false →
      keys_nonempty R = true →
      empty_literals tokens = empty_strings R + empty_literals rest)
    ∧ (∀ (source : List Char) (tokens rest : List token_t) (R : ako_elem_t),
      ako_tokenize source = .ok tokens → ako_parse source = .ok R →
      unread_tokens tokens = .ok rest → ako_elem_is_error R = false →
      empty_strings R + empty_literals rest ≤ empty_literals tokens)
    ∧ (∀ (source : List Char) (tokens : List token_t) (R : ako_elem_t),
      ako_tokenize source = .ok tokens → ako_parse source = .ok R →
      ∃ rest, unread_tokens tokens = .ok rest)
    ∧ (∀ (source : List Char) (tokens : List token_t),
      ako_tokenize source = .ok tokens → tokens.all nonempty_ident = true)
    ∧ ako_parse "a \"\"".toList = .ok (AT_TABLE [("a".toList, AT_STRING [])])
    ∧ (ako_tokenize "a \"\"".toList).bind unread_tokens = .ok []
    ∧ (ako_tokenize "a \"\"".toList).bind (fun ts => .ok (empty_literals ts)) = .ok 1
    ∧ empty_strings (AT_TABLE [("a".toList, AT_STRING [])]) = 1
    ∧ (ako_tokenize "\"\" 1".toList).bind unread_tokens = .ok []
    ∧ (ako_tokenize "\"\" 1".toList).bind (fun ts => .ok (empty_literals ts)) = .ok 1
    ∧ empty_strings (AT_TABLE [([], AT_INT 1)]) = 0
    ∧ ako_parse "a 1 ] \"\"".toList = .ok (AT_TABLE [("a".toList, AT_INT 1)])
    ∧ (ako_tokenize "a 1 ] \"\"".toList).bind unread_tokens
        = .ok [⟨AKO_TT_CLOSE_BRACE, ⟨1, 5, 4⟩, ⟨1, 6, 5⟩, .int 0⟩,
            ⟨AKO_TT_STRING, ⟨1, 7, 6⟩, ⟨1, 9, 8⟩, .string []⟩]
    ∧ (ako_tokenize "a 1 ] \"\"".toList).bind (fun ts => .ok (empty_literals ts)) = .ok 1
    ∧ ako_parse "\"\".x 1 \"\".y \"\"".toList
        = .ok (AT_TABLE [([], AT_TABLE [("x".toList, AT_INT 1), ("y".toList, AT_STRING [])])])
    ∧ (ako_tokenize "\"\".x 1 \"\".y \"\"".toList).bind
        (fun ts => .ok (empty_literals ts)) = .ok 3
    ∧ empty_strings
        (AT_TABLE [([], AT_TABLE [("x".toList, AT_INT 1), ("y".toList, AT_STRING [])])]) = 1 := by
  refine ⟨?_, ?_, ?_, ?_, ?_, by decide!, by decide!, by decide!, by decide!, by decide!,
    by decide!, by decide!, by decide!, by decide!, by decide!, by decide!, by decide!,
    by decide!⟩
  · intro source tokens rest R ht hr hu he hc
    have hp := parse_tokens_of_parse source tokens R ht hr
    have h := parse_tokens_count tokens rest R hp.2 hp.1 hu he
    exact h.2.2 (by omega)
  · intro source tokens rest R ht hr hu he hk
    have hp := parse_tokens_of_parse source tokens R ht hr
    have h := parse_tokens_count tokens rest R hp.2 hp.1 hu he
    exact (h.2.1 hk).symm
  · intro source tokens rest R ht hr hu he
    have hp := parse_tokens_of_parse source tokens R ht hr
    exact (parse_tokens_count tokens rest R hp.2 hp.1 hu he).1
  · intro source tokens R ht hr
    exact unread_tokens_returns tokens R (parse_tokens_of_parse source tokens R ht hr).1
  · intro source tokens ht
    have h := tokenize_ident source
    rw [ht] at h
    exact h

/-- C31 amended, at the source `a ""`: its one empty literal is the value of the key `a`. -/
theorem C31_keys_nonempty_unless_written_empty_witness :
    ako_tokenize "a \"\"".toList
      = .ok [⟨AKO_TT_IDENT, ⟨1, 1, 0⟩, ⟨1, 2, 1⟩, .string ['a']⟩,
          ⟨AKO_TT_STRING, ⟨1, 3, 2⟩, ⟨1, 5, 4⟩, .string []⟩]
    ∧ ako_parse "a \"\"".toList = .ok (AT_TABLE [("a".toList, AT_STRING [])])
    ∧ keys_nonempty (AT_TABLE [("a".toList, AT_STRING [])]) = true :=
  ⟨by decide!, by decide!,
    C31_keys_nonempty_unless_written_empty.1 "a \"\"".toList
      [⟨AKO_TT_IDENT, ⟨1, 1, 0⟩, ⟨1, 2, 1⟩, .string ['a']⟩,
        ⟨AKO_TT_STRING, ⟨1, 3, 2⟩, ⟨1, 5, 4⟩, .string []⟩]
      [] (AT_TABLE [("a".toList, AT_STRING [])])
      (by decide!) (by decide!) (by decide!) (by decide) (by decide!)⟩

/-! ### Setters and removal (C32, C33, C35) -/

/-- C32. On an element whose tag and union agree, `ako_elem_set_int`, `ako_elem_set_bool`,
`ako_elem_set_shorttype` and `ako_elem_set_null` return, the type is the one of the setter,
the getter returns the value set, and the element has no children. `ako_elem_set_string`
does the same when the element was a container, or when its union read as an address is
null or a heap text. On an `Int` element with a value that is not zero it does not: the
union is read as an address and freed, although it holds the number; so after
`ako_elem_create_int(5)` the call `ako_elem_set_string(e, "x")` stops in a fault. -/
theorem C32_set_string_frees_a_number :
    (∀ (E : Type) (e : mem.ako_elem E) (v : ako_int), e.wf →
      ∃ e2, mem.ako_elem_set_int e v = .ok e2 ∧ mem.ako_elem_get_type e2 = .AT_INT
        ∧ mem.ako_elem_get_int e2 = .ok v ∧ mem.children e2 = none)
    ∧ (∀ (E : Type) (e : mem.ako_elem E) (b : Bool), e.wf →
      ∃ e2, mem.ako_elem_set_bool e b = .ok e2 ∧ mem.ako_elem_get_type e2 = .AT_BOOL
        ∧ mem.ako_elem_get_bool e2 = .ok b ∧ mem.children e2 = none)
    ∧ (∀ (E : Type) (e : mem.ako_elem E) (s : List Char), e.wf →
      ∃ e2, mem.ako_elem_set_shorttype e s = .ok e2
        ∧ mem.ako_elem_get_type e2 = .AT_SHORTTYPE
        ∧ mem.ako_elem_get_shorttype e2 = .ok s ∧ mem.children e2 = none)
    ∧ (∀ (E : Type) (e : mem.ako_elem E), e.wf →
      ∃ e2, mem.ako_elem_set_null e = .ok e2 ∧ mem.ako_elem_get_type e2 = .AT_NULL
        ∧ mem.children e2 = none)
    ∧ (∀ (E : Type) (e : mem.ako_elem E) (s : List Char), e.wf →
      (IS_TABLE_OR_ARRAY e.type = true ∨ mem.free_str e.u = .ok ()) →
      ∃ e2, mem.ako_elem_set_string e s = .ok e2 ∧ mem.ako_elem_get_type e2 = .AT_STRING
        ∧ mem.ako_elem_get_string e2 = .ok s ∧ mem.children e2 = none)
    ∧ (∀ (E : Type) (s : List Char) (n : ako_int), n % 2 ^ 64 ≠ 0 →
      mem.ako_elem_set_string (⟨.AT_INT, .i n⟩ : mem.ako_elem E) s = .abort .unionMisuse)
    ∧ (mem.ako_elem_create_int Unit 5).bind (fun e => mem.ako_elem_get_int e) = .ok 5
    ∧ (mem.ako_elem_create_int Unit 5).bind
        (fun e => (mem.ako_elem_set_string e "x".toList).bind
          (fun e2 => mem.ako_elem_get_string e2)) = .abort .unionMisuse
    ∧ (mem.ako_elem_create_bool Unit true).bind
        (fun e => (mem.ako_elem_set_string e "x".toList).bind
          (fun e2 => mem.ako_elem_get_string e2)) = .abort .unionMisuse := by
  refine ⟨?_, ?_, ?_, ?_, ?_, ?_, by decide!, by decide!, by decide!⟩
  · intro E e v hwf
    exact ⟨_, set_int_spec e v hwf, rfl, rfl, rfl⟩
  · intro E e b hwf
    refine ⟨_, set_bool_spec e b hwf, rfl, ?_, rfl⟩
    cases b <;> rfl
  · intro E e s hwf
    exact ⟨_, set_shorttype_spec e s hwf, rfl, rfl, rfl⟩
  · intro E e hwf
    refine ⟨_, set_null_spec e hwf, rfl, ?_⟩
    obtain ⟨ty, u⟩ := e
    cases hc : IS_TABLE_OR_ARRAY ty
    · cases u <;> simp [mem.ako_elem.wf, hc] at hwf <;> simp [mem.children, hc]
    · simp [mem.children, hc]
  · intro E e s hwf h
    exact ⟨_, set_string_spec e s hwf h, rfl, rfl, rfl⟩
  · intro E s n hn
    exact set_string_number _ s n rfl hn rfl (fun h => by cases h)

/-- C32, at a table with an empty list that becomes the `Int` 7. -/
theorem C32_set_string_frees_a_number_witness :
    ∃ e2, mem.ako_elem_set_int
        (⟨.AT_TABLE, .a ⟨[], 16, 0, 0⟩⟩ : mem.ako_elem Unit) 7 = .ok e2
      ∧ mem.ako_elem_get_type e2 = .AT_INT
      ∧ mem.ako_elem_get_int e2 = .ok 7 ∧ mem.children e2 = none :=
  C32_set_string_frees_a_number.1 Unit ⟨.AT_TABLE, .a ⟨[], 16, 0, 0⟩⟩ 7 rfl

/-- C33. For an array in memory that holds the items `xs` and an index `i` below their
number, `ako_elem_array_remove` returns; the array then holds the items without the one at
`i`, its length is one less, `ako_elem_array_get` at an index below `i` returns the item it
returned before, and at an index `j` from `i` on it returns the item that was at `j + 1`. -/
theorem C33_array_remove_shifts_tail :
    (∀ (V : Type) (array : mem.array_t V) (xs : List V) (i : Nat),
      mem.is_array array xs → i < xs.length →
      ∃ a2, mem.ako_elem_array_remove array i = .ok a2
        ∧ mem.is_array a2 (xs.eraseIdx i)
        ∧ mem.ako_elem_array_get_length array = xs.length
        ∧ mem.ako_elem_array_get_length a2 = xs.length - 1
        ∧ (∀ (j : Nat) (x : V), j < i → xs[j]? = some x →
            mem.ako_elem_array_get array j = .ok x
            ∧ mem.ako_elem_array_get a2 j = .ok x)
        ∧ (∀ (j : Nat) (x : V), i ≤ j → xs[j + 1]? = some x →
            mem.ako_elem_array_get array (j + 1) = .ok x
            ∧ mem.ako_elem_array_get a2 j = .ok x))
    ∧ (mem.ako_elem_array_remove
        (⟨[some 10, some 20, some 30, none, none, none, none, none, none, none], 16, 10, 3⟩ :
          mem.array_t Nat) 0).bind
        (fun a2 => (mem.ako_elem_array_get a2 0).bind (fun x0 =>
          (mem.ako_elem_array_get a2 1).bind (fun x1 =>
            .ok (mem.ako_elem_array_get_length a2, x0, x1)))) = .ok (2, 20, 30) := by
  refine ⟨?_, by decide!⟩
  intro V array xs i h hi
  obtain ⟨a2, e, h2, hs⟩ := mem_array_remove_holds array xs i h hi
  have hsz : array.size = xs.length := h.2.2.2.2.1
  have hlen2 : (xs.eraseIdx i).length = xs.length - 1 := by
    rw [List.length_eraseIdx]; simp [hi]
  refine ⟨a2, e, h2, hsz, by simp [mem.ako_elem_array_get_length, hs, hsz], ?_, ?_⟩
  · intro j x hj hx
    have hjl : j < xs.length := by omega
    have hx1 : xs[j] = x := by
      rw [List.getElem?_eq_getElem hjl] at hx
      exact Option.some.inj hx
    have hx2 : (xs.eraseIdx i)[j]? = some x := by
      rw [List.getElem?_eraseIdx, if_pos hj]
      exact hx
    have hj2 : j < (xs.eraseIdx i).length := by omega
    have hx3 : (xs.eraseIdx i)[j] = x := by
      rw [List.getElem?_eq_getElem hj2] at hx2
      exact Option.some.inj hx2
    rw [mem_array_get_holds array xs h.2 j hjl, mem_array_get_holds a2 _ h2.2 j hj2, hx1, hx3]
    exact ⟨rfl, rfl⟩
  · intro j x hij hx
    have hjl : j + 1 < xs.length := by
      by_contra hc
      rw [List.getElem?_eq_none (Nat.le_of_not_lt hc)] at hx
      cases hx
    have hx1 : xs[j + 1] = x := by
      rw [List.getElem?_eq_getElem hjl] at hx
      exact Option.some.inj hx
    have hx2 : (xs.eraseIdx i)[j]? = some x := by
      rw [List.getElem?_eraseIdx, if_neg (Nat.not_lt.mpr hij)]
      exact hx
    have hj2 : j < (xs.eraseIdx i).length := by omega
    have hx3 : (xs.eraseIdx i)[j] = x := by
      rw [List.getElem?_eq_getElem hj2] at hx2
      exact Option.some.inj hx2
    rw [mem_array_get_holds array xs h.2 (j + 1) hjl, mem_array_get_holds a2 _ h2.2 j hj2,
      hx1, hx3]
    exact ⟨rfl, rfl⟩

/-- C33, at the array of 10, 20, 30 and the index 1. -/
theorem C33_array_remove_shifts_tail_witness :
    ∃ a2, mem.ako_elem_array_remove
        (⟨[some 10, some 20, some 30, none, none, none, none, none, none, none], 16, 10, 3⟩ :
          mem.array_t Nat) 1 = .ok a2
      ∧ mem.ako_elem_array_get_length a2 = 2 := by
  obtain ⟨a2, e, -, -, hl, -⟩ := C33_array_remove_shifts_tail.1 Nat
    (⟨[some 10, some 20, some 30, none, none, none, none, none, none, none], 16, 10, 3⟩ :
      mem.array_t Nat) [10, 20, 30] 1
    ⟨rfl, by decide, by decide, rfl, rfl, by decide, by
      intro i x hx
      cases i with
      | zero => simp at hx; simp [hx]
      | succ i =>
        cases i with
        | zero => simp at hx; simp [hx]
        | succ i =>
          cases i with
          | zero => simp at hx; simp [hx]
          | succ i => simp at hx⟩ (by decide)
  exact ⟨a2, e, hl⟩

/-- C35, counterexample. The table made by adding the key `k` twice, with the values 1 and
2: after `ako_elem_table_remove` with `k` one entry is left, `ako_elem_table_contains`
still returns true, and `ako_elem_table_get` returns the value 1. -/
theorem C35_duplicate_key_survives_removal :
    (mem.table_of [("k".toList, 1), ("k".toList, 2)]).bind (fun t =>
      (mem.ako_elem_table_remove t "k".toList).bind (fun t2 =>
        (mem.ako_elem_table_contains t2 "k".toList).bind (fun c =>
          (mem.ako_elem_table_get t2 "k".toList).bind (fun g =>
            .ok (c, g, mem.ako_elem_table_get_length t2)))))
      = .ok (true, some 1, 1) := by
  decide!

/-- C35, amended. `ako_elem_table_remove` takes one entry with the key out of a table in
memory. When no entry has the key the table is returned as it was. When the entries are
`pre`, an entry with the key and `post` without the key, the table then holds `pre` and
`post`, one entry less; `ako_elem_table_contains` and `ako_elem_table_get` on it are the
lookup of the key in `pre`: false and not-found when `pre` has no entry with the key, that
is when the table held exactly one. -/
theorem C35_remove_takes_one_entry :
    (∀ (V : Type) (t : mem.table_t V) (xs : List (List Char × V)) (k : List Char),
      mem.is_table t xs → (∀ e ∈ xs, e.1 ≠ k) → mem.ako_elem_table_remove t k = .ok t)
    ∧ (∀ (V : Type) (t : mem.table_t V) (pre post : List (List Char × V)) (k : List Char)
        (v : V),
      mem.is_table t (pre ++ (k, v) :: post) → (∀ e ∈ post, e.1 ≠ k) →
      ∃ t2, mem.ako_elem_table_remove t k = .ok t2
        ∧ mem.is_table t2 (pre ++ post)
        ∧ mem.ako_elem_table_get_length t2 + 1 = mem.ako_elem_table_get_length t
        ∧ mem.ako_elem_table_contains t2 k
            = .ok ((pre.find? (fun e => decide (e.1 = k))).isSome)
        ∧ mem.ako_elem_table_get t2 k
            = .ok ((pre.find? (fun e => decide (e.1 = k))).map (·.2))
        ∧ ((∀ e ∈ pre, e.1 ≠ k) →
            mem.ako_elem_table_contains t2 k = .ok false
            ∧ mem.ako_elem_table_get t2 k = .ok none))
    ∧ (mem.table_of [("a".toList, 1), ("k".toList, 2), ("b".toList, 3)]).bind (fun t =>
        (mem.ako_elem_table_remove t "k".toList).bind (fun t2 =>
          (mem.ako_elem_table_contains t2 "k".toList).bind (fun c =>
            (mem.ako_elem_table_get t2 "k".toList).bind (fun g =>
              (mem.ako_elem_table_get_key_at t2 1).bind (fun k1 =>
                .ok (c, g, mem.ako_elem_table_get_length t2, k1))))))
        = .ok (false, none, 2, "b".toList) := by
  refine ⟨?_, ?_, by decide!⟩
  · intro V t xs k h habs
    exact mem_table_remove_absent t xs k h.2 habs
  · intro V t pre post k v h hpost
    obtain ⟨t2, e, h2, hs⟩ := mem_table_remove_last t pre post k v h hpost
    have hsz : t.size = (pre ++ (k, v) :: post).length := h.2.2.2.2.1
    have hfind : (pre ++ post).find? (fun e => decide (e.1 = k))
        = pre.find? (fun e => decide (e.1 = k)) := by
      rw [List.find?_append]
      have : post.find? (fun e => decide (e.1 = k)) = none := by
        rw [List.find?_eq_none]
        intro e he
        simpa using hpost e he
      rw [this]
      simp
    have hc := mem_contains_holds t2 (pre ++ post) k h2.2
    have hg := mem_table_get_holds t2 (pre ++ post) k h2.2
    rw [hfind] at hc hg
    refine ⟨t2, e, h2, ?_, hc, hg, ?_⟩
    · simp only [mem.ako_elem_table_get_length, hs, hsz]
      simp
      omega
    · intro hpre
      have : pre.find? (fun e => decide (e.1 = k)) = none := by
        rw [List.find?_eq_none]
        intro e he
        simpa using hpre e he
      rw [hc, hg, this]
      exact ⟨rfl, rfl⟩

/-- C35 amended, at the table with the one entry `a` = 1 and the key `b`. -/
theorem C35_remove_takes_one_entry_witness :
    mem.ako_elem_table_remove
        (⟨[some ("a".toList, 1), none, none, none, none, none, none, none, none, none],
          16, 10, 1⟩ : mem.table_t Nat) "b".toList
      = .ok (⟨[some ("a".toList, 1), none, none, none, none, none, none, none, none, none],
          16, 10, 1⟩ : mem.table_t Nat) :=
  C35_remove_takes_one_entry.1 Nat
    (⟨[some ("a".toList, 1), none, none, none, none, none, none, none, none, none],
      16, 10, 1⟩ : mem.table_t Nat) [("a".toList, 1)] "b".toList
    ⟨rfl, by decide, by decide, rfl, rfl, by decide, by
      intro i x hx
      cases i with
      | zero => simp at hx; simp [hx]
      | succ i => simp at hx⟩
    (by decide)

/-! ### Token locations (C34) -/

/-- C34. The start of a token is not always the position of its first byte. In `a 1x2` the
`VectorCross` and the number after it are given the start of the first number, (1, 3, 2),
and not the positions (1, 4, 3) and (1, 5, 4) of their bytes. A tab starts a new line: in
`# c<TAB>b` the token `b` starts at (2, 1, 4) and not at (1, 5, 4). On bytes without a tab
the location that `consume` keeps is the claim's position, and the tokens of
`a<NL> bc "s" [[ ]]` start at the positions of their first bytes. -/
theorem C34_token_start_locations :
    (∀ pre : List Char, '\t' ∉ pre →
      pre.foldl tokenizer.advance ⟨1, 1, 0⟩ = position_of pre)
    ∧ token_starts "a 1x2".toList = .ok [⟨1, 1, 0⟩, ⟨1, 3, 2⟩, ⟨1, 3, 2⟩, ⟨1, 3, 2⟩]
    ∧ position_of "a 1".toList = ⟨1, 4, 3⟩ ∧ position_of "a 1x".toList = ⟨1, 5, 4⟩
    ∧ token_starts "# c\tb".toList = .ok [⟨2, 1, 4⟩]
    ∧ position_of "# c\t".toList = ⟨1, 5, 4⟩
    ∧ token_starts "a\n bc \"s\" [[ ]]".toList
        = .ok [position_of [], position_of "a\n ".toList, position_of "a\n bc ".toList,
            position_of "a\n bc \"s\" ".toList, position_of "a\n bc \"s\" [[ ".toList] := by
  exact ⟨foldl_advance_position, by decide!, by decide!, by decide!, by decide!, by decide!,
    by decide!⟩

/-- C34, at the bytes `a<NL> b`. -/
theorem C34_token_start_locations_witness :
    "a\n b".toList.foldl tokenizer.advance ⟨1, 1, 0⟩ = position_of "a\n b".toList :=
  C34_token_start_locations.1 "a\n b".toList (by decide)

/-! ### Tokens after the root, short types, empty sources (C36 to C38) -/

/-- C36. Tokens after the root are dropped without an `Error`. The sources `[a 1] b 2`,
`[[1 2]] x` and `a 1 ] b 2` parse to the table with `a` = 1, the array of 1 and 2, and the
table with `a` = 1: the tokens after the closing bracket of the root, or after the stray
`]`, are never read. For a root table in brackets with plain entries this holds whatever
tokens follow the closing bracket. -/
theorem C36_tokens_after_the_root_are_dropped :
    ako_parse "[a 1] b 2".toList = .ok (AT_TABLE [("a".toList, AT_INT 1)])
    ∧ ako_parse "[[1 2]] x".toList = .ok (AT_ARRAY [AT_INT 1, AT_INT 2])
    ∧ ako_parse "a 1 ] b 2".toList = .ok (AT_TABLE [("a".toList, AT_INT 1)])
    ∧ (∀ (nest : Bool) (a : List (List Char × ako_elem_t)) (o c : token_t)
        (ts rest : List token_t),
      plain_entries nest a = true → o.type = AKO_TT_OPEN_BRACE →
      ts.map strip = atoks_entries a → c.type = AKO_TT_CLOSE_BRACE →
      ako_parse_tokens (o :: ts ++ c :: rest) = .ok (AT_TABLE a)) := by
  refine ⟨by decide!, by decide!, by decide!, ?_⟩
  intro nest a o c ts rest hp ho hts hc
  exact parse_tokens_braced_rest nest a hp o ho ts hts c hc rest

/-- C36, at the tokens of `[a 1] b`. -/
theorem C36_tokens_after_the_root_are_dropped_witness :
    ako_parse_tokens
      (⟨AKO_TT_OPEN_BRACE, ⟨1, 1, 0⟩, ⟨1, 2, 1⟩, .int 0⟩
        :: [⟨AKO_TT_IDENT, ⟨1, 2, 1⟩, ⟨1, 3, 2⟩, .string ['a']⟩,
          ⟨AKO_TT_INT, ⟨1, 4, 3⟩, ⟨1, 5, 4⟩, .int 1⟩]
        ++ ⟨AKO_TT_CLOSE_BRACE, ⟨1, 5, 4⟩, ⟨1, 6, 5⟩, .int 0⟩
          :: [⟨AKO_TT_IDENT, ⟨1, 7, 6⟩, ⟨1, 8, 7⟩, .string ['b']⟩])
      = .ok (AT_TABLE [(['a'], AT_INT 1)]) :=
  C36_tokens_after_the_root_are_dropped.2.2.2 true [(['a'], AT_INT 1)] _ _ _ _
    (by decide!) rfl (by decide!) rfl

/-- C37. A short type can end in a dot. An `And` token, identifiers joined by `Dot` tokens,
one more `Dot` and then a token that is no identifier (or the end of the tokens) give a
`ShortType` whose text is the identifiers joined by `.` with a `.` at the end. So `k &a.`
parses to the table with `k` = `ShortType` `a.`, which is no sequence of identifiers
separated by dots; `k &a.b` gives `a.b`, which is one. A key that ends in a dot, as in
`a. 1`, is an `Error`. -/
theorem C37_short_type_keeps_trailing_dot :
    (∀ (depth : Nat) (amp first : token_t) (more : List (token_t × token_t)) (dot : token_t)
        (rest : List token_t),
      amp.type = AKO_TT_AND → is_ident_token first = true →
      (∀ p ∈ more, p.1.type = AKO_TT_DOT ∧ is_ident_token p.2 = true) →
      dot.type = AKO_TT_DOT → parser.CHECK_TYPE rest.head? AKO_TT_IDENT = false →
      parser._parse_value (depth + 1) (amp :: joined first more ++ dot :: rest)
        = .ok (AT_SHORTTYPE (dotted_text first more ++ ['.']), rest))
    ∧ ako_parse "k &a.".toList = .ok (AT_TABLE [("k".toList, AT_SHORTTYPE "a.".toList)])
    ∧ dotted_identifiers "a.".toList = false
    ∧ ako_parse "k &a. ;n".toList
        = .ok (AT_TABLE [("k".toList, AT_SHORTTYPE "a.".toList), ("n".toList, AT_NULL)])
    ∧ ako_parse "[[ &a. ]]".toList = .ok (AT_ARRAY [AT_SHORTTYPE "a.".toList])
    ∧ ako_parse "k &a.b".toList = .ok (AT_TABLE [("k".toList, AT_SHORTTYPE "a.b".toList)])
    ∧ dotted_identifiers "a.b".toList = true
    ∧ ako_parse "a. 1".toList = .ok (AT_ERROR "Failed to get table id.".toList) := by
  exact ⟨parse_value_shorttype_dot, by decide!, by decide!, by decide!, by decide!,
    by decide!, by decide!, by decide!⟩

/-- C37, at the tokens of `&a.` followed by a semicolon. -/
theorem C37_short_type_keeps_trailing_dot_witness :
    parser._parse_value 1
        (⟨AKO_TT_AND, ⟨1, 3, 2⟩, ⟨1, 4, 3⟩, .int 0⟩
          :: joined ⟨AKO_TT_IDENT, ⟨1, 4, 3⟩, ⟨1, 5, 4⟩, .string ['a']⟩ []
          ++ ⟨AKO_TT_DOT, ⟨1, 5, 4⟩, ⟨1, 6, 5⟩, .int 0⟩
            :: [⟨AKO_TT_SEMICOLON, ⟨1, 7, 6⟩, ⟨1, 8, 7⟩, .int 0⟩])
      = .ok (AT_SHORTTYPE
          (dotted_text ⟨AKO_TT_IDENT, ⟨1, 4, 3⟩, ⟨1, 5, 4⟩, .string ['a']⟩ [] ++ ['.']),
          [⟨AKO_TT_SEMICOLON, ⟨1, 7, 6⟩, ⟨1, 8, 7⟩, .int 0⟩]) :=
  C37_short_type_keeps_trailing_dot.1 0 _ _ [] _ _ rfl (by decide) (by decide) rfl
    (by decide)

/-- C38. A source of blanks, newlines and comments only has no token, and `ako_parse` does
not return an `Error` for it: it stops in a read through a null pointer, because the
message it passes to `ako_elem_create_error` is null. This holds for the empty source too.
`ako_parse_tokens` on no tokens does return the `Error` `No tokens to parse`, but
`ako_parse` never calls it then. -/
theorem C38_source_without_tokens_crashes :
    (∀ s : List Char, blank_or_comment false s = true →
      ako_tokenize s = .ok [] ∧ ako_parse s = .abort .nullDeref)
    ∧ ako_parse [] = .abort .nullDeref
    ∧ ako_parse "  \n ".toList = .abort .nullDeref
    ∧ ako_parse " # c\n\n# d".toList = .abort .nullDeref
    ∧ ako_parse_tokens [] = .ok (AT_ERROR "No tokens to parse".toList) := by
  refine ⟨?_, by decide!, by decide!, by decide!, by decide!⟩
  intro s h
  exact ⟨tokenize_blank s h, parse_blank s h⟩

/-- C38, at a source with a comment between blanks. -/
theorem C38_source_without_tokens_crashes_witness :
    ako_tokenize " # c\n ".toList = .ok [] ∧ ako_parse " # c\n ".toList = .abort .nullDeref :=
  C38_source_without_tokens_crashes.1 " # c\n ".toList (by decide)

/-! ### Two indices in a path, and the size of the string buffer (C39, C40) -/

/-- C39. A path `k.i.j` with an identifier and two runs of digits never resolves. The
lexer takes `i.j` as one number: the tokens are the identifier, a `Dot` and a `Float`, and
`ako_elem_get` gives up at the `Float` token, whatever the table holds. For the root of
`k [[ [[ 1 2 ]] ]]` the path `k.0.1` returns not-found, while `k.0` returns the inner
array. -/
theorem C39_second_index_is_lexed_as_float :
    (∀ (a : List (List Char × ako_elem_t)) (k : List Char) (c : Char) (i j : List Char)
        (f : ako_float),
      is_identifier k = true → isdigit c = true → i.all isdigit = true →
      j.all isdigit = true → strtod (c :: i ++ '.' :: j) = some f →
      ako_elem_get (AT_TABLE a) (k ++ '.' :: (c :: i ++ '.' :: j)) = .ok none)
    ∧ ako_parse "k [[ [[ 1 2 ]] ]]".toList
        = .ok (AT_TABLE [("k".toList, AT_ARRAY [AT_ARRAY [AT_INT 1, AT_INT 2]])])
    ∧ ako_elem_get (AT_TABLE [("k".toList, AT_ARRAY [AT_ARRAY [AT_INT 1, AT_INT 2]])])
        "k.0.1".toList = .ok none
    ∧ ako_elem_get (AT_TABLE [("k".toList, AT_ARRAY [AT_ARRAY [AT_INT 1, AT_INT 2]])])
        "k.0".toList = .ok (some (AT_ARRAY [AT_INT 1, AT_INT 2]))
    ∧ token_kinds "k.0.1".toList
        = .ok [(AKO_TT_IDENT, .string "k".toList), (AKO_TT_DOT, .int 0),
            (AKO_TT_FLOAT, .float ⟨4591870180066957722⟩)] := by
  refine ⟨?_, by decide!, by decide!, by decide!, by decide!⟩
  intro a k c i j f hk hc hi hj hf
  exact elem_get_path_two_indices a k c i j f hk hc hi hj hf

/-- C39, at the path `k.0.1` in a table that holds an array of an array under `k`. -/
theorem C39_second_index_is_lexed_as_float_witness :
    ako_elem_get (AT_TABLE [("k".toList, AT_ARRAY [AT_ARRAY [AT_INT 1, AT_INT 2]])])
      ("k".toList ++ '.' :: ('0' :: [] ++ '.' :: ['1'])) = .ok none :=
  C39_second_index_is_lexed_as_float.1 _ "k".toList '0' [] ['1'] ⟨4591870180066957722⟩
    (by decide) (by decide) (by decide) (by decide) (by decide!)

/-- C40. The count can be smaller than the number of bytes written. For the literal
`"\a\"bcdefgh"` the function `count_string` returns 3: after a backslash it skips three
bytes, so it takes the escaped quote for the end; the decoding loop writes 9 bytes into the
buffer of 4, and the embedding reports the write past the end. For a literal without
backslash, newline and tab the count is the number of bytes written. -/
theorem C40_escaped_quote_ends_the_count :
    tokenizer.count_string "\\a\\\"bcdefgh\"".toList = .ok 3
    ∧ (tokenizer.read_string "\\a\\\"bcdefgh\"".toList ⟨1, 4, 3⟩).1
        = ("a\"bcdefgh".toList, 9)
    ∧ ako_tokenize "k \"\\a\\\"bcdefgh\"".toList = .abort .heapOverflow
    ∧ (∀ (s rest : List Char) (loc : location_t), s.all plain_char = true →
      tokenizer.count_string (s ++ '"' :: rest) = .ok s.length
      ∧ (tokenizer.read_string (s ++ '"' :: rest) loc).1 = (s, s.length))
    ∧ tokenizer.count_string "a\\nb\"".toList = .ok 4
    ∧ (tokenizer.read_string "a\\nb\"".toList ⟨1, 4, 3⟩).1 = ("a\nb".toList, 3) := by
  refine ⟨by decide!, by decide!, by decide!, ?_, by decide!, by decide!⟩
  intro s rest loc hs
  refine ⟨count_string_plain s rest hs, ?_⟩
  rw [read_string_plain s rest loc hs]

/-- C40, at the literal `"abc"`. -/
theorem C40_escaped_quote_ends_the_count_witness :
    tokenizer.count_string ("abc".toList ++ '"' :: []) = .ok "abc".toList.length
    ∧ (tokenizer.read_string ("abc".toList ++ '"' :: []) ⟨1, 2, 1⟩).1
        = ("abc".toList, "abc".toList.length) :=
  C40_escaped_quote_ends_the_count.2.2.2.1 "abc".toList [] ⟨1, 2, 1⟩ (by decide)

end Ako
